import Mathlib

/-!
# Minimum cuts on a flow graph: push-relabel and the search-tree solver

A shallow embedding of `src/graph.cpp` (class `FlowGraph`) and of the selection
rule interface of `src/selectionrule.hpp`, followed by the properties proved
about it.

Conventions of the embedding.

* `std::vector` is a `List`.  Reading `v[i]` is `List.getD` with a default and
  writing `v[i] = x` is `List.set`; indexing outside a vector is undefined in
  the source, so every theorem states the index bounds it relies on
  (`changeCapacityInBounds` for the table lookups of `changeCapacity`).
* `int` values that can be negative (capacities, flows, excess, histogram
  entries) are `Int` and the arithmetic on them is exact.  Signed overflow is
  undefined in the source: `fitsInt` says that a value is one the 32-bit `int`
  holds, and the results on the amounts moved or summed (C1, C3, C4, C6, C7,
  C11, C12) state that the values the source computes fit (`pushFits`,
  `dischargeFits`, `changeCapacityFits`, `ValuesFit`, `runValuesFit`).  Vertex
  ids, positions in adjacency lists and heights are `Nat`: heights start at
  zero and are only ever assigned `N`, `2 * N` or one more than another
  height.
* An `Edge&` or `Edge*` is the pair (vertex, position) of the entry in the
  adjacency lists; a null `Edge*` is `none`.
* A `for` loop over `0 .. n-1` is `forLoop`; a `while` loop takes fuel and
  reports `Fault.outOfFuel` when the fuel is used up.
* `exit`, a failed `assert` and the dereference of a null pointer end the run
  with a `Fault`.
-/

/-! ## Data model -/

/-- An adjacency entry: `struct Edge` with its five fields. The field `index`
is the position of the paired entry in the adjacency list of `to_`. -/
structure Edge where
  from_ : Nat
  to_ : Nat
  cap : Int
  flow : Int
  index : Nat
deriving DecidableEq

instance : Inhabited Edge := ⟨⟨0, 0, 0, 0, 0⟩⟩

/-- The ways a run can end other than by returning. -/
inductive Fault where
  | exit (code : Nat)
  | nullDeref
  | assertFailed
  | outOfFuel
deriving DecidableEq

/-- The body `body i` run for `i = 0, 1, .., n - 1` in this order. -/
def forLoop {S : Type} (body : Nat → S → S) : Nat → S → S
  | 0, s => s
  | n + 1, s => body n (forLoop body n s)

/-- The entry `G[u][i]`. -/
def getE (G : List (List Edge)) (u i : Nat) : Edge :=
  (G.getD u []).getD i default

/-- The assignment `G[u][i] = e`. -/
def setE (G : List (List Edge)) (u i : Nat) (e : Edge) : List (List Edge) :=
  G.set u ((G.getD u []).set i e)

/-- The call `G[u].push_back(e)`. -/
def pushE (G : List (List Edge)) (u : Nat) (e : Edge) : List (List Edge) :=
  G.set u (G.getD u [] ++ [e])

/-- The value `G[u].size()`. -/
def deg (G : List (List Edge)) (u : Nat) : Nat :=
  (G.getD u []).length

/-! ## Selection rule (`selectionrule.hpp`) -/

/-- The state of a `SelectionRule` object: the members `N` and `active` of the
base class and the state `impl` of the derived class. -/
structure SelectionRule (σ : Type) where
  N : Nat
  active : List Bool
  impl : σ

/-- The base-class method `activate`. -/
def SelectionRule.activate {σ : Type} (r : SelectionRule σ) (u : Nat) : SelectionRule σ :=
  { r with active := r.active.set u true }

/-- The base-class method `deactivate`. -/
def SelectionRule.deactivate {σ : Type} (r : SelectionRule σ) (u : Nat) : SelectionRule σ :=
  { r with active := r.active.set u false }

/-- The base-class method `isActive`. -/
def SelectionRule.isActive {σ : Type} (r : SelectionRule σ) (u : Nat) : Bool :=
  r.active.getD u false

/-- The four pure virtual methods of `SelectionRule`. Their implementations
are not part of the sources at hand, so the solver takes them as a parameter. -/
structure RuleOps (σ : Type) where
  next : SelectionRule σ → Nat × SelectionRule σ
  add : SelectionRule σ → Nat → Nat → Int → SelectionRule σ
  empty : SelectionRule σ → Bool
  gap : SelectionRule σ → Nat → SelectionRule σ

/-- Modelled from the spec: the first-in-first-out rule, whose implementation
(`FIFORule::next`, `add`, `empty`, `gap`) is missing from the sources. The
derived state is the queue `q`. `add` enqueues a vertex that has positive
excess and is not yet in the active set and marks it active; `next` dequeues
in insertion order and takes the vertex out of the active set; `empty` tells
whether the queue is empty; `gap` has no bucketed state to invalidate. -/
def fifoRule : RuleOps (List Nat) where
  next := fun r => (r.impl.headD 0, ({ r with impl := r.impl.tail }).deactivate (r.impl.headD 0))
  add := fun r u _ excess =>
    if r.isActive u then r
    else if excess ≤ 0 then r
    else { r.activate u with impl := r.impl ++ [u] }
  empty := fun r => r.impl.isEmpty
  gap := fun r _ => r

/-! ## The graph object -/

/-- The members of `FlowGraph`. A `parent` link is the (vertex, position) of
an adjacency entry, `none` for a null pointer. -/
structure FlowGraph (σ : Type) where
  N : Nat
  source : Nat
  sink : Nat
  G : List (List Edge)
  s_index : List Nat
  t_index : List Nat
  excess : List Int
  height : List Nat
  count : List Int
  cut : List Bool
  rule : SelectionRule σ
  color : List Nat
  active : List Bool
  parent : List (Option (Nat × Nat))
  orphans : List Nat
  bkq : List Nat

/-- A graph object with `n` vertices and no edges, everything zeroed. The
constructor is not part of the sources at hand; vectors indexed by a vertex
have `n` entries and the height histogram has `n + 1`. -/
def FlowGraph.new (n source sink : Nat) : FlowGraph (List Nat) where
  N := n
  source := source
  sink := sink
  G := List.replicate n []
  s_index := List.replicate n 0
  t_index := List.replicate n 0
  excess := List.replicate n 0
  height := List.replicate n 0
  count := List.replicate (n + 1) 0
  cut := List.replicate n false
  rule := ⟨n, List.replicate n false, []⟩
  color := List.replicate n 0
  active := List.replicate n false
  parent := List.replicate n none
  orphans := []
  bkq := []

/-! ## Construction and maintenance -/

/-- `FlowGraph::addEdge`. -/
def FlowGraph.addEdge {σ : Type} (s : FlowGraph σ) (from_ to_ : Nat) (cap : Int) : FlowGraph σ :=
  let G1 := pushE s.G from_ ⟨from_, to_, cap, 0, deg s.G to_⟩
  let G2 := if from_ = to_ then
      setE G1 from_ (deg G1 from_ - 1)
        { getE G1 from_ (deg G1 from_ - 1) with index := (getE G1 from_ (deg G1 from_ - 1)).index + 1 }
    else G1
  let index := deg G2 from_ - 1
  let G3 := pushE G2 to_ ⟨to_, from_, 0, 0, index⟩
  let sIdx := if from_ = s.source then s.s_index.set to_ index else s.s_index
  let tIdx := if to_ = s.sink then s.t_index.set from_ index else s.t_index
  { s with G := G3, s_index := sIdx, t_index := tIdx }

/-- `FlowGraph::addDoubleEdge`. -/
def FlowGraph.addDoubleEdge {σ : Type} (s : FlowGraph σ) (from_ to_ : Nat) (cap : Int) : FlowGraph σ :=
  let G1 := pushE s.G from_ ⟨from_, to_, cap, 0, deg s.G to_⟩
  let G2 := pushE G1 to_ ⟨to_, from_, cap, 0, deg G1 from_ - 1⟩
  { s with G := G2 }

/-- The body of `FlowGraph::changeCapacity` after the table lookup has given
the position `index` of the entry in `G[from]`. The arithmetic is exact;
`changeCapacityFits` states that the values it computes fit `int`. -/
def FlowGraph.changeCapacityAt {σ : Type} (ops : RuleOps σ) (s : FlowGraph σ)
    (from_ to_ : Nat) (cap : Int) (index : Nat) : FlowGraph σ :=
  let diff := (getE s.G from_ index).flow - cap
  let G1 := setE s.G from_ index { getE s.G from_ index with cap := cap }
  if 0 < diff then
    let excess1 := s.excess.set from_ (s.excess.getD from_ 0 + diff)
    let excess2 := excess1.set to_ (excess1.getD to_ 0 - diff)
    let G2 := setE G1 from_ index { getE G1 from_ index with flow := cap }
    let ri := (getE G2 from_ index).index
    let G3 := setE G2 to_ ri { getE G2 to_ ri with flow := -cap }
    { s with
      G := G3, excess := excess2,
      rule := ops.add s.rule from_ (s.height.getD from_ 0) (excess2.getD from_ 0) }
  else
    { s with G := G1 }

/-- `FlowGraph::changeCapacity`. The branch that calls `exit(1)` ends the run
with `Fault.exit 1`. The tables are read with a default outside their bounds;
`changeCapacityInBounds` states that every index the call uses is in range. -/
def FlowGraph.changeCapacity {σ : Type} (ops : RuleOps σ) (s : FlowGraph σ) (from_ to_ : Nat)
    (cap : Int) : Except Fault (FlowGraph σ) :=
  if from_ = s.source then
    Except.ok (s.changeCapacityAt ops from_ to_ cap (s.s_index.getD to_ 0))
  else if to_ = s.sink then
    Except.ok (s.changeCapacityAt ops from_ to_ cap (s.t_index.getD from_ 0))
  else
    Except.error (Fault.exit 1)

/-- The inner loop of `FlowGraph::resetFlow` for the vertex `i`. -/
def resetFlowRow (i : Nat) (G : List (List Edge)) : List (List Edge) :=
  forLoop (fun j G => setE G i j { getE G i j with flow := 0 }) (deg G i) G

/-- `FlowGraph::resetFlow`. -/
def FlowGraph.resetFlow {σ : Type} (s : FlowGraph σ) : FlowGraph σ :=
  { s with
    G := forLoop resetFlowRow s.G.length s.G
    excess := List.replicate s.excess.length 0 }

/-- `FlowGraph::resetHeights`. -/
def FlowGraph.resetHeights {σ : Type} (s : FlowGraph σ) : FlowGraph σ :=
  { s with
    height := List.replicate s.height.length 0
    count := List.replicate s.count.length 0 }

/-! ## Push-relabel -/

/-- `FlowGraph::push(Edge &e)` for the entry `e = G[u][i]`. The arithmetic is
exact; `pushFits` states that the values it computes fit `int`. -/
def FlowGraph.push {σ : Type} (ops : RuleOps σ) (s : FlowGraph σ) (u i : Nat) : FlowGraph σ :=
  let e := getE s.G u i
  let flow := min (e.cap - e.flow) (s.excess.getD e.from_ 0)
  let excess1 := s.excess.set e.from_ (s.excess.getD e.from_ 0 - flow)
  let excess2 := excess1.set e.to_ (excess1.getD e.to_ 0 + flow)
  let G1 := setE s.G u i { e with flow := e.flow + flow }
  let G2 := setE G1 e.to_ e.index
    { getE G1 e.to_ e.index with flow := (getE G1 e.to_ e.index).flow - flow }
  { s with
    excess := excess2, G := G2,
    rule := ops.add s.rule e.to_ (s.height.getD e.to_ 0) (excess2.getD e.to_ 0) }

/-- `FlowGraph::push(Edge &e, int f)` for the entry `e = G[u][i]`. -/
def FlowGraph.pushAmount {σ : Type} (s : FlowGraph σ) (u i : Nat) (f : Int) : FlowGraph σ :=
  let e := getE s.G u i
  let G1 := setE s.G u i { e with flow := e.flow + f }
  let G2 := setE G1 e.to_ e.index
    { getE G1 e.to_ e.index with flow := (getE G1 e.to_ e.index).flow - f }
  { s with G := G2 }

/-- The scan of `FlowGraph::relabel` over the entries of `u`: the vector
`height` after the loop, started from `height[u] = 2 * N`. -/
def relabelScan (G : List (List Edge)) (u : Nat) (height : List Nat) : List Nat :=
  forLoop
    (fun i h =>
      if (getE G u i).cap > (getE G u i).flow then
        h.set u (min (h.getD u 0) (h.getD (getE G u i).to_ 0 + 1))
      else h)
    (deg G u) height

/-- `FlowGraph::relabel`. -/
def FlowGraph.relabel {σ : Type} (ops : RuleOps σ) (s : FlowGraph σ) (u : Nat) : FlowGraph σ :=
  let h0 := s.height.getD u 0
  let count1 := s.count.set h0 (s.count.getD h0 0 - 1)
  let height2 := relabelScan s.G u (s.height.set u (2 * s.N))
  if s.N ≤ height2.getD u 0 then
    { s with count := count1, height := height2.set u s.N }
  else
    let h1 := height2.getD u 0
    { s with
      count := count1.set h1 (count1.getD h1 0 + 1), height := height2,
      rule := ops.add s.rule u h1 (s.excess.getD u 0) }

/-- One iteration of the loop of `FlowGraph::gap` for the vertex `i`. -/
def gapStep {σ : Type} (h : Nat) (i : Nat) (s : FlowGraph σ) : FlowGraph σ :=
  if s.height.getD i 0 < h then s
  else if s.N ≤ s.height.getD i 0 then s
  else
    { s with
      rule := s.rule.deactivate i,
      count := s.count.set (s.height.getD i 0) (s.count.getD (s.height.getD i 0) 0 - 1),
      height := s.height.set i s.N }

/-- `FlowGraph::gap`. -/
def FlowGraph.gap {σ : Type} (ops : RuleOps σ) (s : FlowGraph σ) (h : Nat) : FlowGraph σ :=
  let s1 := forLoop (gapStep h) s.G.length s
  { s1 with rule := ops.gap s1.rule h }

/-- One iteration of the loop of `FlowGraph::discharge`. The loop condition
`excess[u] > 0` is tested before each iteration; once it fails no later
iteration runs, which here is an iteration that leaves the state alone. -/
def dischargeStep {σ : Type} (ops : RuleOps σ) (u : Nat) (i : Nat) (s : FlowGraph σ) :
    FlowGraph σ :=
  if 0 < s.excess.getD u 0 then
    if (getE s.G u i).cap > (getE s.G u i).flow
        ∧ s.height.getD u 0 = s.height.getD (getE s.G u i).to_ 0 + 1 then
      s.push ops u i
    else s
  else s

/-- `FlowGraph::discharge`. -/
def FlowGraph.discharge {σ : Type} (ops : RuleOps σ) (s : FlowGraph σ) (u : Nat) : FlowGraph σ :=
  let s1 := forLoop (dischargeStep ops u) (deg s.G u) s
  if 0 < s1.excess.getD u 0 then
    if s1.count.getD (s1.height.getD u 0) 0 = 1 then s1.gap ops (s1.height.getD u 0)
    else s1.relabel ops u
  else s1

/-- One round of the first loop of `FlowGraph::minCutPushRelabel`:
`excess[source] = G[source][i].cap; push(G[source][i]);`. -/
def initStep {σ : Type} (ops : RuleOps σ) (source : Nat) (i : Nat) (t : FlowGraph σ) :
    FlowGraph σ :=
  FlowGraph.push ops { t with excess := t.excess.set source (getE t.G source i).cap } source i

/-- The first part of `FlowGraph::minCutPushRelabel`: the source is lifted to
height `N`, source and sink are marked active in the rule, every entry of the
source is saturated and `excess[source]` is zeroed. -/
def FlowGraph.initPushRelabel {σ : Type} (ops : RuleOps σ) (s : FlowGraph σ)
    (source sink : Nat) : FlowGraph σ :=
  let s1 := { s with height := s.height.set source s.N }
  let s2 := { s1 with rule := (s1.rule.activate source).activate sink }
  let s3 := forLoop (initStep ops source) (deg s2.G source) s2
  { s3 with excess := s3.excess.set source 0 }

/-- The `while (!rule.empty())` loop of `FlowGraph::minCutPushRelabel`, with
fuel; `none` when the fuel is used up before the rule is empty. -/
def dischargeLoop {σ : Type} (ops : RuleOps σ) : Nat → FlowGraph σ → Option (FlowGraph σ)
  | 0, _ => none
  | fuel + 1, s =>
    if ops.empty s.rule then some s
    else dischargeLoop ops fuel (FlowGraph.discharge ops { s with rule := (ops.next s.rule).2 } (ops.next s.rule).1)

/-- The last loop of `FlowGraph::minCutPushRelabel`: the cut read off the
heights. -/
def FlowGraph.cutFromHeights {σ : Type} (s : FlowGraph σ) : FlowGraph σ :=
  { s with
    cut := forLoop (fun i c => c.set i (decide (s.N ≤ s.height.getD i 0))) s.cut.length s.cut }

/-- `FlowGraph::minCutPushRelabel`. -/
def FlowGraph.minCutPushRelabel {σ : Type} (ops : RuleOps σ) (fuel : Nat) (s : FlowGraph σ)
    (source sink : Nat) : Except Fault (FlowGraph σ) :=
  match dischargeLoop ops fuel (s.initPushRelabel ops source sink) with
  | none => Except.error Fault.outOfFuel
  | some t => Except.ok t.cutFromHeights

/-! ## Diagnostics -/

/-- `FlowGraph::checkExcess`. -/
def FlowGraph.checkExcess {σ : Type} (s : FlowGraph σ) : Bool :=
  (List.range s.excess.length).all (fun i => decide (0 ≤ s.excess.getD i 0))

/-- `FlowGraph::checkCapacity`. -/
def FlowGraph.checkCapacity {σ : Type} (s : FlowGraph σ) : Bool :=
  (List.range s.G.length).all (fun i =>
    (List.range (deg s.G i)).all (fun j => decide ((getE s.G i j).flow ≤ (getE s.G i j).cap)))

/-- `FlowGraph::checkLabels`. -/
def FlowGraph.checkLabels {σ : Type} (s : FlowGraph σ) : Bool :=
  (List.range s.G.length).all (fun i =>
    (List.range (deg s.G i)).all (fun j =>
      if (getE s.G i j).flow < (getE s.G i j).cap then
        decide (s.height.getD i 0 ≤ s.height.getD (getE s.G i j).to_ 0 + 1)
      else true))

/-- `FlowGraph::checkCount`. -/
def FlowGraph.checkCount {σ : Type} (s : FlowGraph σ) : Bool :=
  (List.range s.count.length).all (fun i =>
    decide (((forLoop (fun j c => if s.height.getD j 0 = i then c + 1 else c)
      s.height.length 0 : Nat) : Int) = s.count.getD i 0))

/-- `FlowGraph::outFlow`. The sum is exact; `ValuesFit` states that its
partial sums fit `int`. -/
def FlowGraph.outFlow {σ : Type} (s : FlowGraph σ) (source : Nat) : Int :=
  forLoop (fun i c => c + (getE s.G source i).flow) (deg s.G source) 0

/-- `FlowGraph::inFlow`. The sum is exact; `ValuesFit` states that its
partial sums fit `int`. -/
def FlowGraph.inFlow {σ : Type} (s : FlowGraph σ) (sink : Nat) : Int :=
  forLoop (fun i c => c + (getE s.G sink i).flow) (deg s.G sink) 0

/-! ## The search-tree solver -/

/-- A loop `for i = 0 .. n-1` whose body can end the run with a fault. -/
def forLoopM {S : Type} (body : Nat → S → Except Fault S) : Nat → S → Except Fault S
  | 0, s => Except.ok s
  | n + 1, s =>
    match forLoopM body n s with
    | Except.error f => Except.error f
    | Except.ok t => body n t

/-- `FlowGraph::initBK`. Its first loop has an empty body. -/
def FlowGraph.initBK {σ : Type} (s : FlowGraph σ) (source sink : Nat) : FlowGraph σ :=
  { s with
    active := (s.active.set source true).set sink true,
    color := (s.color.set source 1).set sink 2,
    bkq := (s.bkq ++ [source]) ++ [sink] }

/-- `FlowGraph::treeCap`, both overloads: the entry is `G[p][i]`, given by its
position or by reference. -/
def FlowGraph.treeCap {σ : Type} (s : FlowGraph σ) (p i col : Nat) : Int :=
  if col = 1 then (getE s.G p i).cap - (getE s.G p i).flow
  else if col = 2 then
    (getE s.G (getE s.G p i).to_ (getE s.G p i).index).cap
      - (getE s.G (getE s.G p i).to_ (getE s.G p i).index).flow
  else 0

/-- The loop `while (cur != source)` of `FlowGraph::grow`: each round appends
`parent[u]` to the path and moves `cur` to `parent[cur]->from`. -/
def walkToSource {σ : Type} (s : FlowGraph σ) (u : Nat) :
    Nat → Nat → List (Option (Nat × Nat)) → Except Fault (List (Option (Nat × Nat)))
  | 0, _, _ => Except.error Fault.outOfFuel
  | fuel + 1, cur, path =>
    if cur = s.source then Except.ok path
    else
      match s.parent.getD cur none with
      | none => Except.error Fault.nullDeref
      | some (v, j) =>
        walkToSource s u fuel (getE s.G v j).from_ (path ++ [s.parent.getD u none])

/-- The loop `while (cur != sink)` of `FlowGraph::grow`: each round appends
`parent[v]` to the path and moves `cur` to `parent[cur]->to`. -/
def walkToSink {σ : Type} (s : FlowGraph σ) (v : Nat) :
    Nat → Nat → List (Option (Nat × Nat)) → Except Fault (List (Option (Nat × Nat)))
  | 0, _, _ => Except.error Fault.outOfFuel
  | fuel + 1, cur, path =>
    if cur = s.sink then Except.ok path
    else
      match s.parent.getD cur none with
      | none => Except.error Fault.nullDeref
      | some (w, j) =>
        walkToSink s v fuel (getE s.G w j).to_ (path ++ [s.parent.getD v none])

/-- The path assembled by `FlowGraph::grow` when the entry `G[p][i]` meets the
other tree. -/
def collisionPath {σ : Type} (fuel : Nat) (s : FlowGraph σ) (p i : Nat) :
    Except Fault (List (Option (Nat × Nat))) :=
  let q := (getE s.G p i).to_
  let u := if s.color.getD p 0 = 1 then p else q
  let v := if s.color.getD p 0 = 1 then q else p
  let first := if s.color.getD p 0 = 1 then (p, i) else (q, (getE s.G p i).index)
  match walkToSource s u fuel u [some first] with
  | Except.error f => Except.error f
  | Except.ok path => walkToSink s v fuel v path.reverse

/-- The `for` loop of `FlowGraph::grow` over the entries of `p`, from position
`i` with `k` entries to go. The path returned is empty when the loop runs to
its end. -/
def growScan {σ : Type} (fuel p : Nat) :
    Nat → Nat → FlowGraph σ → Except Fault (FlowGraph σ × List (Option (Nat × Nat)))
  | 0, _, s => Except.ok (s, [])
  | k + 1, i, s =>
    if 0 < s.treeCap p i (s.color.getD p 0) then
      if s.color.getD (getE s.G p i).to_ 0 = 0 then
        growScan fuel p k (i + 1)
          { s with
            color := s.color.set (getE s.G p i).to_ (s.color.getD p 0),
            active := s.active.set (getE s.G p i).to_ true,
            bkq := s.bkq ++ [(getE s.G p i).to_] }
      else if s.color.getD (getE s.G p i).to_ 0 ≠ s.color.getD p 0 then
        match collisionPath fuel s p i with
        | Except.error f => Except.error f
        | Except.ok path => Except.ok (s, path)
      else growScan fuel p k (i + 1) s
    else growScan fuel p k (i + 1) s

/-- The `while (!bkq.empty())` loop of `FlowGraph::grow`; `n` is the fuel given
to the inner `while` loops. -/
def growLoop {σ : Type} (n : Nat) :
    Nat → FlowGraph σ → Except Fault (FlowGraph σ × List (Option (Nat × Nat)))
  | 0, _ => Except.error Fault.outOfFuel
  | fuel + 1, s =>
    match s.bkq with
    | [] => Except.ok (s, [])
    | p :: rest =>
      if s.active.getD p false = false then growLoop n fuel { s with bkq := rest }
      else
        match growScan n p (deg s.G p) 0 s with
        | Except.error f => Except.error f
        | Except.ok (t, []) =>
          growLoop n fuel { t with bkq := t.bkq.tail, active := t.active.set p false }
        | Except.ok (t, e :: path) => Except.ok (t, e :: path)

/-- `FlowGraph::grow`, called with an empty path; returns the path found. -/
def FlowGraph.grow {σ : Type} (fuel : Nat) (s : FlowGraph σ) :
    Except Fault (FlowGraph σ × List (Option (Nat × Nat))) :=
  growLoop fuel fuel s

/-- The first loop of `FlowGraph::augment`: the value of `m`. -/
def augmentBottleneck {σ : Type} (s : FlowGraph σ) (path : List (Option (Nat × Nat))) :
    Except Fault Int :=
  forLoopM
    (fun i m =>
      match path.getD i none with
      | none => Except.error Fault.nullDeref
      | some (v, j) => Except.ok (max m ((getE s.G v j).cap - (getE s.G v j).flow)))
    path.length 1000000000

/-- One iteration of the second loop of `FlowGraph::augment`. -/
def augmentStep {σ : Type} (path : List (Option (Nat × Nat))) (m : Int) (i : Nat)
    (s : FlowGraph σ) : Except Fault (FlowGraph σ) :=
  match path.getD i none with
  | none => Except.error Fault.nullDeref
  | some (a, j) =>
    let u := (getE s.G a j).from_
    let v := (getE s.G a j).to_
    let s1 :=
      if (getE s.G a j).cap - (getE s.G a j).flow = m then
        let t1 :=
          if s.color.getD u 0 = 1 ∧ s.color.getD v 0 = 1 then
            { s with parent := s.parent.set v none, orphans := s.orphans ++ [v] }
          else s
        if t1.color.getD u 0 = 2 ∧ t1.color.getD v 0 = 2 then
          { t1 with parent := t1.parent.set u none, orphans := t1.orphans ++ [u] }
        else t1
      else s
    Except.ok (s1.pushAmount a j m)

/-- `FlowGraph::augment`. -/
def FlowGraph.augment {σ : Type} (s : FlowGraph σ) (path : List (Option (Nat × Nat))) :
    Except Fault (FlowGraph σ) :=
  if path.length < 1 then Except.error Fault.assertFailed
  else
    match augmentBottleneck s path with
    | Except.error f => Except.error f
    | Except.ok m => forLoopM (augmentStep path m) path.length s

/-- `FlowGraph::treeOrigin`, the loop started at `cur`. -/
def FlowGraph.treeOrigin {σ : Type} (s : FlowGraph σ) : Nat → Nat → Except Fault Nat
  | 0, _ => Except.error Fault.outOfFuel
  | fuel + 1, cur =>
    match s.parent.getD cur none with
    | none => Except.ok cur
    | some (v, j) =>
      if s.color.getD cur 0 = 1 then s.treeOrigin fuel (getE s.G v j).from_
      else if s.color.getD cur 0 = 2 then s.treeOrigin fuel (getE s.G v j).to_
      else Except.error Fault.assertFailed

/-- One iteration of the first loop of `FlowGraph::adopt` for the orphan `u`;
the flag is the local `found`. -/
def adoptSearchStep {σ : Type} (fuel u i : Nat) (st : FlowGraph σ × Bool) :
    Except Fault (FlowGraph σ × Bool) :=
  let s := st.1
  let v := (getE s.G u i).to_
  if s.color.getD u 0 ≠ s.color.getD v 0 then Except.ok st
  else if s.treeCap v (getE s.G u i).index (s.color.getD u 0) ≤ 0 then Except.ok st
  else
    match s.treeOrigin fuel v with
    | Except.error f => Except.error f
    | Except.ok origin =>
      if origin ≠ s.source ∧ origin ≠ s.sink then Except.ok st
      else if origin = s.source then
        Except.ok ({ s with parent := s.parent.set u (some (v, (getE s.G u i).index)) }, true)
      else if origin = s.sink then
        Except.ok ({ s with parent := s.parent.set u (some (u, i)) }, true)
      else Except.error Fault.assertFailed

/-- One iteration of the second loop of `FlowGraph::adopt` for the orphan `u`. -/
def adoptReleaseStep {σ : Type} (u i : Nat) (s : FlowGraph σ) : Except Fault (FlowGraph σ) :=
  let v := (getE s.G u i).to_
  if s.color.getD u 0 ≠ s.color.getD v 0 then Except.ok s
  else
    let s1 :=
      if 0 < s.treeCap v (getE s.G u i).index (s.color.getD v 0) then
        { s with active := s.active.set v true, bkq := s.bkq ++ [v] }
      else s
    match s1.parent.getD v none with
    | none => Except.error Fault.nullDeref
    | some (a, j) =>
      if (getE s1.G a j).to_ = u ∨ (getE s1.G a j).from_ = u then
        Except.ok { s1 with orphans := s1.orphans ++ [v], parent := s1.parent.set v none }
      else Except.ok s1

/-- The `while` loop of `FlowGraph::adopt`; `n` is the fuel given to
`treeOrigin`. The worklist `orphans` is a stack whose top is the last
element. -/
def adoptLoop {σ : Type} (n : Nat) : Nat → FlowGraph σ → Except Fault (FlowGraph σ)
  | 0, _ => Except.error Fault.outOfFuel
  | fuel + 1, s =>
    match s.orphans.getLast? with
    | none => Except.ok s
    | some u =>
      let s0 := { s with orphans := s.orphans.dropLast }
      match forLoopM (adoptSearchStep n u) (deg s0.G u) (s0, false) with
      | Except.error f => Except.error f
      | Except.ok (s1, true) => adoptLoop n fuel s1
      | Except.ok (s1, false) =>
        match forLoopM (adoptReleaseStep u) (deg s1.G u) s1 with
        | Except.error f => Except.error f
        | Except.ok s2 =>
          adoptLoop n fuel
            { s2 with color := s2.color.set u 0, active := s2.active.set u false }

/-- `FlowGraph::adopt`. -/
def FlowGraph.adopt {σ : Type} (fuel : Nat) (s : FlowGraph σ) : Except Fault (FlowGraph σ) :=
  adoptLoop fuel fuel s

/-- The `while (true)` loop of `FlowGraph::minCutBK`; `n` is the fuel given to
the loops of `grow` and `adopt`. -/
def bkLoop {σ : Type} (n : Nat) : Nat → FlowGraph σ → Except Fault (FlowGraph σ)
  | 0, _ => Except.error Fault.outOfFuel
  | fuel + 1, s =>
    match s.grow n with
    | Except.error f => Except.error f
    | Except.ok (s1, []) => Except.ok s1
    | Except.ok (s1, e :: path) =>
      match s1.augment (e :: path) with
      | Except.error f => Except.error f
      | Except.ok s2 =>
        match s2.adopt n with
        | Except.error f => Except.error f
        | Except.ok s3 => bkLoop n fuel s3

/-- The last loop of `FlowGraph::minCutBK`: the cut read off the colors. -/
def FlowGraph.cutFromColors {σ : Type} (s : FlowGraph σ) : FlowGraph σ :=
  { s with
    cut := forLoop (fun i c => c.set i (decide (s.color.getD i 0 = 1))) s.cut.length s.cut }

/-- `FlowGraph::minCutBK`. -/
def FlowGraph.minCutBK {σ : Type} (fuel : Nat) (s : FlowGraph σ) (source sink : Nat) :
    Except Fault (FlowGraph σ) :=
  match bkLoop fuel fuel (s.initBK source sink) with
  | Except.error f => Except.error f
  | Except.ok t => Except.ok t.cutFromColors

/-! ## Invariants and example graphs -/

/-- Edge pairing: every entry `G[u][i]` points at an entry of `G[to]` that
points back at it, `G[G[u][i].to][G[u][i].index].to == u` and
`G[G[u][i].to][G[u][i].index].index == i`, both indices being in range. -/
def Pairing (G : List (List Edge)) : Prop :=
  ∀ u, u < G.length → ∀ i, i < deg G u →
    (getE G u i).to_ < G.length ∧ (getE G u i).index < deg G (getE G u i).to_ ∧
    (getE G (getE G u i).to_ (getE G u i).index).to_ = u ∧
    (getE G (getE G u i).to_ (getE G u i).index).index = i

instance (G : List (List Edge)) : Decidable (Pairing G) := by
  unfold Pairing
  infer_instance

/-- Flow antisymmetry: the paired entry carries the negated flow. -/
def FlowAntisym (G : List (List Edge)) : Prop :=
  ∀ u, u < G.length → ∀ i, i < deg G u →
    (getE G (getE G u i).to_ (getE G u i).index).flow = -(getE G u i).flow

instance (G : List (List Edge)) : Decidable (FlowAntisym G) := by
  unfold FlowAntisym
  infer_instance

/-- The position that `changeCapacity(from, to, ..)` looks up in its tables
when it does not exit. -/
def FlowGraph.tableIndex {σ : Type} (s : FlowGraph σ) (from_ to_ : Nat) : Nat :=
  if from_ = s.source then s.s_index.getD to_ 0 else s.t_index.getD from_ 0

/-- The graph of the spec's scenario: vertices 0 (source), 1, 2 (sink) and the
edges 0->1 of capacity 5, 1->2 of capacity 3, 0->2 of capacity 2. -/
def specGraph : FlowGraph (List Nat) :=
  (((FlowGraph.new 3 0 2).addEdge 0 1 5).addEdge 1 2 3).addEdge 0 2 2

/-- The state of the spec's scenario after the push-relabel solve with the
first-in-first-out rule. -/
def specSolved : FlowGraph (List Nat) :=
  match specGraph.minCutPushRelabel fifoRule 10 0 2 with
  | Except.ok t => t
  | Except.error _ => specGraph

/-! ## Graphs built by `addEdge`, flow values and cut capacity -/

/-- The graph object obtained from a fresh one by one `addEdge(from, to, cap)`
call per element of `edges`, in order. -/
def buildGraph (n source sink : Nat) (edges : List (Nat × Nat × Int)) : FlowGraph (List Nat) :=
  edges.foldl (fun s e => s.addEdge e.1 e.2.1 e.2.2) (FlowGraph.new n source sink)

/-- The sum of the capacities of the edges `(from, to, cap)` of `edges` that go
from a vertex with `cut[from] = true` to a vertex with `cut[to] = false`. -/
def crossingCapacity (edges : List (Nat × Nat × Int)) (cut : List Bool) : Int :=
  (edges.map (fun e =>
    if cut.getD e.1 false = true ∧ cut.getD e.2.1 false = false then e.2.2 else 0)).sum

/-- The total flow entering `v`: the sum of the flow of all adjacency entries
whose head is `v`. A forward entry into `v` adds its flow, the reverse entry
of an edge leaving `v` subtracts the flow of that edge. -/
def FlowGraph.flowInto {σ : Type} (s : FlowGraph σ) (v : Nat) : Int :=
  ∑ u ∈ Finset.range s.G.length, ∑ i ∈ Finset.range (deg s.G u),
    if (getE s.G u i).to_ = v then (getE s.G u i).flow else 0

/-- The sum of the flow of the entries of `G[v]`, the value that `outFlow(v)`
and `inFlow(v)` compute. -/
def outSum (G : List (List Edge)) (v : Nat) : Int :=
  ∑ i ∈ Finset.range (deg G v), (getE G v i).flow

/-- The sum of the excess of the vertices other than source and sink. -/
def FlowGraph.strandedExcess {σ : Type} (s : FlowGraph σ) (source sink : Nat) : Int :=
  ∑ v ∈ Finset.range s.G.length, if v = source ∨ v = sink then 0 else s.excess.getD v 0

/-! ## Invariants of the push-relabel run -/

/-- The adjacency lists are those of a graph on `N` vertices: edge pairing
holds and every entry of `G[u]` has `from == u`. -/
structure GraphOK (N : Nat) (G : List (List Edge)) : Prop where
  len : G.length = N
  pairing : Pairing G
  from_ok : ∀ u i, i < deg G u → (getE G u i).from_ = u

/-- The capacity bound `flow <= cap` on every entry (`checkCapacity`). -/
def CapacityOK (G : List (List Edge)) : Prop :=
  ∀ u i, i < deg G u → (getE G u i).flow ≤ (getE G u i).cap

/-- Every vertex other than the source holds as excess its net inflow. -/
def Conserved (G : List (List Edge)) (source : Nat) (excess : List Int) : Prop :=
  ∀ v, v < G.length → v ≠ source → excess.getD v 0 + outSum G v = 0

/-- No vertex has negative excess (`checkExcess`). -/
def ExcessNonneg (excess : List Int) : Prop :=
  ∀ v, 0 ≤ excess.getD v 0

/-- Label validity (`checkLabels`): a residual entry descends by at most one. -/
def LabelsValid (G : List (List Edge)) (height : List Nat) : Prop :=
  ∀ u i, i < deg G u → (getE G u i).flow < (getE G u i).cap →
    height.getD u 0 ≤ height.getD (getE G u i).to_ 0 + 1

/-- The heights and their histogram during the push-relabel run: heights are
at most `N`, the source is at `N` and the sink at 0; `count[h]` is the number
of vertices at height `h` for `1 <= h < N` while `count[0]` never rises above
zero; and below `N` the occupied heights have no gap. -/
structure HeightsOK (N source sink : Nat) (height : List Nat) (count : List Int) : Prop where
  lenH : height.length = N
  lenC : N < count.length
  le_N : ∀ v, height.getD v 0 ≤ N
  src : height.getD source 0 = N
  snk : height.getD sink 0 = 0
  cnt : ∀ h, 1 ≤ h → h < N → count.getD h 0 = (height.count h : Int)
  cnt0 : count.getD 0 0 ≤ 0
  nogap : ∀ v, v < N → height.getD v 0 < N → ∀ j, j < height.getD v 0 →
    ∃ w, w < N ∧ height.getD w 0 = j

/-- The invariant of the push-relabel run on the graph, flows, excess and
labels. -/
structure PRInv {σ : Type} (s : FlowGraph σ) (source sink : Nat) : Prop where
  graph : GraphOK s.N s.G
  lenE : s.excess.length = s.N
  src_lt : source < s.N
  snk_lt : sink < s.N
  ne : source ≠ sink
  antisym : FlowAntisym s.G
  capacity : CapacityOK s.G
  conserved : Conserved s.G source s.excess
  nonneg : ExcessNonneg s.excess
  labels : LabelsValid s.G s.height
  heights : HeightsOK s.N source sink s.height s.count

/-- The invariant of the first-in-first-out rule during the run: source and
sink are marked active and never queued, queued vertices are in range, and a
vertex marked active is in the queue. -/
structure FifoOK (N source sink : Nat) (r : SelectionRule (List Nat)) : Prop where
  lenA : r.active.length = N
  actS : r.isActive source = true
  actT : r.isActive sink = true
  notS : source ∉ r.impl
  notT : sink ∉ r.impl
  lt : ∀ v, v ∈ r.impl → v < N
  act : ∀ v, r.isActive v = true → v ≠ source → v ≠ sink → v ∈ r.impl

/-- Every vertex below height `N` with positive excess, other than source,
sink and the vertex `skip` being discharged, is in the queue. -/
def Pending (N source sink : Nat) (r : SelectionRule (List Nat)) (excess : List Int)
    (height : List Nat) (skip : Option Nat) : Prop :=
  ∀ v, v < N → v ≠ source → v ≠ sink → some v ≠ skip → 0 < excess.getD v 0 →
    height.getD v 0 < N → v ∈ r.impl

/-- The state a graph object is in before a solve: zero flow everywhere,
non-negative capacities, zero excess, heights and histogram, and a fresh
rule. -/
structure FreshState (s : FlowGraph (List Nat)) : Prop where
  graph : GraphOK s.N s.G
  flow0 : ∀ u i, (getE s.G u i).flow = 0
  cap0 : ∀ u i, 0 ≤ (getE s.G u i).cap
  excess0 : s.excess = List.replicate s.N 0
  height0 : s.height = List.replicate s.N 0
  count0 : s.count = List.replicate (s.N + 1) 0
  ruleA : s.rule.active = List.replicate s.N false
  ruleQ : s.rule.impl = []

/-! ## Paths of positive capacity -/

/-- An adjacency entry of positive capacity leads from `u` to `w`. -/
def PosStep (G : List (List Edge)) (u w : Nat) : Prop :=
  ∃ i, i < deg G u ∧ (getE G u i).to_ = w ∧ 0 < (getE G u i).cap

/-- There is a directed path of positive-capacity entries from `u` to `w`. -/
def PosReach (G : List (List Edge)) : Nat → Nat → Prop :=
  Relation.ReflTransGen (PosStep G)

/-- An edge of positive capacity in the list `edges` leads from `u` to `w`. -/
def EdgeStep (edges : List (Nat × Nat × Int)) (u w : Nat) : Prop :=
  ∃ e ∈ edges, e.1 = u ∧ e.2.1 = w ∧ 0 < e.2.2

/-- There is a directed path of positive-capacity edges of `edges` from `u` to
`w`. -/
def EdgeReach (edges : List (Nat × Nat × Int)) : Nat → Nat → Prop :=
  Relation.ReflTransGen (EdgeStep edges)

/-! ## Termination measure of the push-relabel loop -/

/-- The sum of the heights of all vertices. -/
def FlowGraph.heightTotal {σ : Type} (s : FlowGraph σ) : Nat :=
  ∑ v ∈ Finset.range s.N, s.height.getD v 0

/-- The excess weighted by height, summed over all vertices: a push of `f`
units along an entry that descends by one lowers it by `f`. -/
def FlowGraph.potential {σ : Type} (s : FlowGraph σ) : Int :=
  ∑ v ∈ Finset.range s.N, s.excess.getD v 0 * (s.height.getD v 0 : Int)

/-! ## Invariant of the search-tree solver on a graph without a path -/

/-- The invariant of `grow` before any augmentation: no entry carries flow,
the colors are 0 (free), 1 (source tree) or 2 (sink tree), a vertex of the
source tree is reached from the source and a vertex of the sink tree reaches
the sink along entries of positive capacity, and source and sink keep their
colors. -/
structure BKInv (N : Nat) (G : List (List Edge)) (color : List Nat) (source sink : Nat) :
    Prop where
  graph : GraphOK N G
  flow0 : ∀ u i, (getE G u i).flow = 0
  lenC : color.length = N
  col_le : ∀ v, color.getD v 0 ≤ 2
  col1 : ∀ v, color.getD v 0 = 1 → PosReach G source v
  col2 : ∀ v, color.getD v 0 = 2 → PosReach G v sink
  src : color.getD source 0 = 1
  snk : color.getD sink 0 = 2

/-- A graph in which the source 0 does not reach the sink 3: the only edge is
0->1 of capacity 1, and vertex 2 has no edge at all. -/
def strandedGraph : FlowGraph (List Nat) :=
  buildGraph 4 0 3 [(0, 1, 1)]

/-- The state in which `minCutPushRelabel(0, 3)` with the first-in-first-out
rule leaves `strandedGraph`. -/
def strandedPushRelabel : FlowGraph (List Nat) :=
  match strandedGraph.minCutPushRelabel fifoRule 10 0 3 with
  | Except.ok t => t
  | Except.error _ => strandedGraph

/-- The state in which `minCutBK(0, 3)` leaves `strandedGraph`. -/
def strandedBK : FlowGraph (List Nat) :=
  match strandedGraph.minCutBK 20 0 3 with
  | Except.ok t => t
  | Except.error _ => strandedGraph

/-- A two-vertex graph object without edges whose histogram counts its
vertices: both are at height 0 and `count[0] == 2`, so `checkCount()` holds. -/
def countedState : FlowGraph (List Nat) :=
  { FlowGraph.new 2 0 1 with count := [2, 0, 0] }

/-- A graph with the single edge 0->1 of capacity 2, source 0 and sink 1. -/
def singleEdgeGraph : FlowGraph (List Nat) :=
  (FlowGraph.new 2 0 1).addEdge 0 1 2

/-- The chain 0->1->2 with both capacities 1, source 0 and sink 2. -/
def chainGraph : FlowGraph (List Nat) :=
  ((FlowGraph.new 3 0 2).addEdge 0 1 1).addEdge 1 2 1

/-- A state of the search-tree solver with one orphan: the edge 0->1 of
capacity 1 is saturated, vertices 0 (source) and 1 are in the source tree,
vertex 2 (sink) is in the sink tree, every `parent` is null and vertex 1 is on
the orphan list. -/
def orphanState : FlowGraph (List Nat) :=
  { ((FlowGraph.new 3 0 2).addEdge 0 1 1).pushAmount 0 0 1 with
    color := [1, 1, 2], orphans := [1] }

/-! ## Well-formed adjacency lists -/

/-- Every adjacency entry names, with `to` and `index`, an entry of the head's
list that leads back: the part of edge pairing that does not ask the named
entry to name this one in turn. -/
def HalfPairing (G : List (List Edge)) : Prop :=
  ∀ u, u < G.length → ∀ i, i < deg G u →
    (getE G u i).to_ < G.length ∧ (getE G u i).index < deg G (getE G u i).to_ ∧
    (getE G (getE G u i).to_ (getE G u i).index).to_ = u

/-- The adjacency lists are those of `N` vertices, every entry of `G[u]` has
`from == u`, and every entry names an entry that leads back. -/
structure HalfOK (N : Nat) (G : List (List Edge)) : Prop where
  len : G.length = N
  half : HalfPairing G
  from_ok : ∀ u i, i < deg G u → (getE G u i).from_ = u

/-- Every entry of `G[u]` has `from == u`. -/
def FromOK (G : List (List Edge)) : Prop :=
  ∀ u, u < G.length → ∀ i, i < deg G u → (getE G u i).from_ = u

instance (G : List (List Edge)) : Decidable (FromOK G) := by
  unfold FromOK
  infer_instance

/-- The spec's scenario after the first part of `minCutPushRelabel(0, 2)` and a
first `discharge(1)`, which lifts vertex 1 to height 1: the next `discharge(1)`
pushes along the edge 1->2. -/
def dischargeExample : FlowGraph (List Nat) :=
  (specGraph.initPushRelabel fifoRule 0 2).discharge fifoRule 1

/-- The height `relabel(u)` leaves at `u`: `N`, lowered to one more than the
height of each head `w != u` of a residual entry of `u`. -/
def relabelTarget (N : Nat) (G : List (List Edge)) (height : List Nat) (u : Nat) : Nat :=
  forLoop
    (fun i acc =>
      if (getE G u i).flow < (getE G u i).cap ∧ (getE G u i).to_ ≠ u then
        min acc (height.getD (getE G u i).to_ 0 + 1)
      else acc)
    (deg G u) N

/-- The height the specification gives for `relabel(u)`:
`min(N, 1 + min{height[w] : u has an entry to w with cap > flow})`, which is
`N` when `u` has no such entry. An entry from `u` to itself counts here. -/
def claimedRelabelTarget (N : Nat) (G : List (List Edge)) (height : List Nat) (u : Nat) : Nat :=
  forLoop
    (fun i acc =>
      if (getE G u i).flow < (getE G u i).cap then
        min acc (height.getD (getE G u i).to_ 0 + 1)
      else acc)
    (deg G u) N

/-- The graph with the edges 0->1 of capacity 5 and 1->1 of capacity 1, source
0 and sink 2, after the first part of `minCutPushRelabel(0, 2)`: vertex 1
holds excess 5 at height 0 and has a residual entry to itself. -/
def selfLoopState : FlowGraph (List Nat) :=
  (((FlowGraph.new 3 0 2).addEdge 0 1 5).addEdge 1 1 1).initPushRelabel fifoRule 0 2

/-! ## Sequences of flow operations -/

/-- The two operations that move flow and excess together: `push(G[u][i])` and
`changeCapacity(from, to, cap)`. -/
inductive FlowOp where
  | push (u i : Nat)
  | changeCapacity (from_ to_ : Nat) (cap : Int)
deriving DecidableEq

/-- One operation applied to a state. -/
def FlowGraph.applyOp {σ : Type} (ops : RuleOps σ) (s : FlowGraph σ) :
    FlowOp → Except Fault (FlowGraph σ)
  | FlowOp.push u i => Except.ok (s.push ops u i)
  | FlowOp.changeCapacity from_ to_ cap => s.changeCapacity ops from_ to_ cap

/-- A sequence of operations applied in order. -/
def FlowGraph.applyOps {σ : Type} (ops : RuleOps σ) :
    List FlowOp → FlowGraph σ → Except Fault (FlowGraph σ)
  | [], s => Except.ok s
  | op :: rest, s =>
    match s.applyOp ops op with
    | Except.error f => Except.error f
    | Except.ok t => FlowGraph.applyOps ops rest t

/-- The operation names an entry that exists: `push` an entry of `G[u]`,
`changeCapacity` an edge `from -> to` whose position is recorded in the lookup
table, with a non-negative new capacity. -/
def FlowOp.valid {σ : Type} (s : FlowGraph σ) : FlowOp → Prop
  | FlowOp.push u i => i < deg s.G u
  | FlowOp.changeCapacity from_ to_ cap =>
    s.tableIndex from_ to_ < deg s.G from_
    ∧ (getE s.G from_ (s.tableIndex from_ to_)).to_ = to_ ∧ 0 ≤ cap

/-- The spec's scenario during the solve (`dischargeExample`) after
`push(G[1][1])`, which moves 3 units along the edge 1->2, and
`changeCapacity(0, 2, 0)`, which takes back the 2 units on the edge 0->2. -/
def opsExample : FlowGraph (List Nat) :=
  match dischargeExample.applyOps fifoRule [FlowOp.push 1 1, FlowOp.changeCapacity 0 2 0] with
  | Except.ok t => t
  | Except.error _ => dischargeExample

/-! ## Graphs built by `addEdge` and `addDoubleEdge`, and runs under any rule -/

/-- A graph object with `n` vertices and no edges, everything zeroed, holding
the selection rule `r`. -/
def FlowGraph.newWith {σ : Type} (n source sink : Nat) (r : SelectionRule σ) : FlowGraph σ where
  N := n
  source := source
  sink := sink
  G := List.replicate n []
  s_index := List.replicate n 0
  t_index := List.replicate n 0
  excess := List.replicate n 0
  height := List.replicate n 0
  count := List.replicate (n + 1) 0
  cut := List.replicate n false
  rule := r
  color := List.replicate n 0
  active := List.replicate n false
  parent := List.replicate n none
  orphans := []
  bkq := []

/-- A call that adds to the graph: `addEdge(from, to, cap)` or
`addDoubleEdge(from, to, cap)`. -/
inductive BuildOp where
  | edge (from_ to_ : Nat) (cap : Int)
  | doubleEdge (from_ to_ : Nat) (cap : Int)
deriving DecidableEq

/-- The tail vertex named by the call. -/
def BuildOp.tail : BuildOp → Nat
  | BuildOp.edge from_ _ _ => from_
  | BuildOp.doubleEdge from_ _ _ => from_

/-- The head vertex named by the call. -/
def BuildOp.head : BuildOp → Nat
  | BuildOp.edge _ to_ _ => to_
  | BuildOp.doubleEdge _ to_ _ => to_

/-- The capacity named by the call. -/
def BuildOp.capacity : BuildOp → Int
  | BuildOp.edge _ _ cap => cap
  | BuildOp.doubleEdge _ _ cap => cap

/-- The call applied to a graph object. -/
def BuildOp.apply {σ : Type} (s : FlowGraph σ) : BuildOp → FlowGraph σ
  | BuildOp.edge from_ to_ cap => s.addEdge from_ to_ cap
  | BuildOp.doubleEdge from_ to_ cap => s.addDoubleEdge from_ to_ cap

/-- The graph object obtained from a fresh one by the calls of `l`, in order. -/
def buildGraphOps {σ : Type} (n source sink : Nat) (r : SelectionRule σ) (l : List BuildOp) :
    FlowGraph σ :=
  l.foldl (fun s op => op.apply s) (FlowGraph.newWith n source sink r)

/-- Whether, during the first `fuel` rounds of the loop of
`minCutPushRelabel` started in `s`, every value the rule hands out is a vertex
other than source and sink. -/
def dispatchOK {σ : Type} (ops : RuleOps σ) (source sink : Nat) : Nat → FlowGraph σ → Bool
  | 0, _ => true
  | fuel + 1, s =>
    if ops.empty s.rule then true
    else
      decide ((ops.next s.rule).1 < s.N) && decide ((ops.next s.rule).1 ≠ source)
        && decide ((ops.next s.rule).1 ≠ sink)
        && dispatchOK ops source sink fuel
            (FlowGraph.discharge ops { s with rule := (ops.next s.rule).2 } (ops.next s.rule).1)

/-- The states in which the loop of `minCutPushRelabel` tests its condition
during its first `fuel` rounds, the starting state first. -/
def dischargeStates {σ : Type} (ops : RuleOps σ) : Nat → FlowGraph σ → List (FlowGraph σ)
  | 0, s => [s]
  | fuel + 1, s =>
    if ops.empty s.rule then [s]
    else
      s :: dischargeStates ops fuel
        (FlowGraph.discharge ops { s with rule := (ops.next s.rule).2 } (ops.next s.rule).1)

/-- The invariant of the push-relabel run that does not rely on full edge
pairing: well-formed adjacency lists, the capacity bound, label validity and
the invariant of heights and histogram. -/
structure PRLight {σ : Type} (s : FlowGraph σ) (source sink : Nat) : Prop where
  graph : HalfOK s.N s.G
  lenE : s.excess.length = s.N
  src_lt : source < s.N
  snk_lt : sink < s.N
  ne : source ≠ sink
  capacity : CapacityOK s.G
  labels : LabelsValid s.G s.height
  heights : HeightsOK s.N source sink s.height s.count

/-- The state a graph object built by `addEdge` and `addDoubleEdge` is in
before a solve: well-formed adjacency lists, zero flow, non-negative
capacities, zero excess, heights and histogram. -/
structure FreshLight {σ : Type} (s : FlowGraph σ) : Prop where
  graph : HalfOK s.N s.G
  flow0 : ∀ u i, (getE s.G u i).flow = 0
  cap0 : ∀ u i, 0 ≤ (getE s.G u i).cap
  excess0 : s.excess = List.replicate s.N 0
  height0 : s.height = List.replicate s.N 0
  count0 : s.count = List.replicate (s.N + 1) 0
  cutlen : s.cut.length = s.N

/-- A graph on four vertices, source 0 and sink 3, built with both calls:
`addEdge` 0->1 of capacity 5, `addDoubleEdge` 1-2 of capacity 3,
`addDoubleEdge` 1-1 of capacity 4 and 0-0 of capacity 2, `addEdge` 2->3 of
capacity 2 and 1->3 of capacity 1. -/
def doubleEdgeGraph : FlowGraph (List Nat) :=
  buildGraphOps 4 0 3 ⟨4, List.replicate 4 false, []⟩
    [BuildOp.edge 0 1 5, BuildOp.doubleEdge 1 2 3, BuildOp.doubleEdge 1 1 4,
      BuildOp.doubleEdge 0 0 2, BuildOp.edge 2 3 2, BuildOp.edge 1 3 1]

/-- The state in which `minCutPushRelabel(0, 3)` with the first-in-first-out
rule leaves `doubleEdgeGraph`. -/
def doubleEdgeSolved : FlowGraph (List Nat) :=
  match doubleEdgeGraph.minCutPushRelabel fifoRule 10 0 3 with
  | Except.ok t => t
  | Except.error _ => doubleEdgeGraph

/-! ## The range of `int` and the bounds of the vectors -/

/-- The value is one that the type `int` holds: 32 bits, two's complement. -/
def fitsInt (x : Int) : Prop :=
  -2147483648 ≤ x ∧ x ≤ 2147483647

instance (x : Int) : Decidable (fitsInt x) := by
  unfold fitsInt
  infer_instance

/-- Every index that `changeCapacity(from, to, ..)` uses when it does not exit
lies inside its vector: `from` and `to` in `G`, `excess` and `height`, the
table entry `s_index[to]` or `t_index[from]`, the position it holds in
`G[from]`, and the position of the paired entry in `G[to]`. -/
def FlowGraph.changeCapacityInBounds {σ : Type} (s : FlowGraph σ) (from_ to_ : Nat) : Prop :=
  from_ < s.G.length ∧ to_ < s.G.length
  ∧ (from_ = s.source → to_ < s.s_index.length)
  ∧ (from_ ≠ s.source → from_ < s.t_index.length)
  ∧ s.tableIndex from_ to_ < deg s.G from_
  ∧ (getE s.G from_ (s.tableIndex from_ to_)).index < deg s.G to_
  ∧ from_ < s.excess.length ∧ to_ < s.excess.length ∧ from_ < s.height.length

instance {σ : Type} (s : FlowGraph σ) (from_ to_ : Nat) :
    Decidable (s.changeCapacityInBounds from_ to_) := by
  unfold FlowGraph.changeCapacityInBounds
  infer_instance

/-- Every value that `changeCapacity(from, to, cap)` computes fits `int`: the
new capacity, the difference `diff = flow - cap`, and, when `diff > 0`, the
two updated excess values and the negated capacity. -/
def FlowGraph.changeCapacityFits {σ : Type} (s : FlowGraph σ) (from_ to_ : Nat) (cap : Int) :
    Prop :=
  fitsInt cap
  ∧ fitsInt ((getE s.G from_ (s.tableIndex from_ to_)).flow - cap)
  ∧ (0 < (getE s.G from_ (s.tableIndex from_ to_)).flow - cap →
      fitsInt (s.excess.getD from_ 0 + ((getE s.G from_ (s.tableIndex from_ to_)).flow - cap))
      ∧ fitsInt
          ((s.excess.set from_
              (s.excess.getD from_ 0
                + ((getE s.G from_ (s.tableIndex from_ to_)).flow - cap))).getD to_ 0
            - ((getE s.G from_ (s.tableIndex from_ to_)).flow - cap))
      ∧ fitsInt (-cap))

instance {σ : Type} (s : FlowGraph σ) (from_ to_ : Nat) (cap : Int) :
    Decidable (s.changeCapacityFits from_ to_ cap) := by
  unfold FlowGraph.changeCapacityFits
  infer_instance

/-- A graph whose capacities fit `int` one by one but not together: the edges
0->2, 0->1, 1->2 and 2->3 all have capacity 1500000000, source 0, sink 3. -/
def wideGraph : FlowGraph (List Nat) :=
  buildGraph 4 0 3
    [(0, 2, 1500000000), (0, 1, 1500000000), (1, 2, 1500000000), (2, 3, 1500000000)]

/-- The state in which `minCutPushRelabel(0, 3)` with the first-in-first-out
rule leaves `wideGraph`, computed on the integers. -/
def wideSolved : FlowGraph (List Nat) :=
  match wideGraph.minCutPushRelabel fifoRule 10 0 3 with
  | Except.ok t => t
  | Except.error _ => wideGraph

/-- The local `flow` of `push(G[u][i])`: `min(e.cap - e.flow, excess[e.from])`. -/
def FlowGraph.pushFlow {σ : Type} (s : FlowGraph σ) (u i : Nat) : Int :=
  min ((getE s.G u i).cap - (getE s.G u i).flow) (s.excess.getD (getE s.G u i).from_ 0)

/-- Every value that `push(G[u][i])` computes fits `int`: the residual
capacity `e.cap - e.flow`, the two updated excess values and the two updated
flows, each read as the source reads it, after the assignments before it. -/
def FlowGraph.pushFits {σ : Type} (s : FlowGraph σ) (u i : Nat) : Prop :=
  fitsInt ((getE s.G u i).cap - (getE s.G u i).flow)
  ∧ fitsInt (s.excess.getD (getE s.G u i).from_ 0 - s.pushFlow u i)
  ∧ fitsInt
      ((s.excess.set (getE s.G u i).from_
          (s.excess.getD (getE s.G u i).from_ 0 - s.pushFlow u i)).getD (getE s.G u i).to_ 0
        + s.pushFlow u i)
  ∧ fitsInt ((getE s.G u i).flow + s.pushFlow u i)
  ∧ fitsInt
      ((getE (setE s.G u i { getE s.G u i with flow := (getE s.G u i).flow + s.pushFlow u i })
          (getE s.G u i).to_ (getE s.G u i).index).flow
        - s.pushFlow u i)

instance {σ : Type} (s : FlowGraph σ) (u i : Nat) : Decidable (s.pushFits u i) := by
  unfold FlowGraph.pushFits
  infer_instance

/-- The values that the pushes of `discharge(u)` can reach fit `int`: for
every entry of `G[u]` its capacity, its flow, its residual capacity
`cap - flow`, the flow of its paired entry and that flow less the residual
capacity; and the sum of all excess values. -/
def FlowGraph.dischargeFits {σ : Type} (s : FlowGraph σ) (u : Nat) : Prop :=
  (∀ i, i < deg s.G u →
    fitsInt (getE s.G u i).cap ∧ fitsInt (getE s.G u i).flow
    ∧ fitsInt ((getE s.G u i).cap - (getE s.G u i).flow)
    ∧ fitsInt (getE s.G (getE s.G u i).to_ (getE s.G u i).index).flow
    ∧ fitsInt ((getE s.G (getE s.G u i).to_ (getE s.G u i).index).flow
        - ((getE s.G u i).cap - (getE s.G u i).flow)))
  ∧ fitsInt (∑ v ∈ Finset.range s.N, s.excess.getD v 0)

instance {σ : Type} (s : FlowGraph σ) (u : Nat) : Decidable (s.dischargeFits u) := by
  unfold FlowGraph.dischargeFits
  infer_instance

/-- The operation stays inside the vectors and inside `int`: every value a
`push` computes fits `int`; every index a `changeCapacity` uses is in range
and every value it computes fits `int`. -/
def FlowOp.fits {σ : Type} (s : FlowGraph σ) : FlowOp → Prop
  | FlowOp.push u i => s.pushFits u i
  | FlowOp.changeCapacity from_ to_ cap =>
    s.changeCapacityInBounds from_ to_ ∧ s.changeCapacityFits from_ to_ cap

/-- Every operation of the sequence stays inside the vectors and inside `int`
in the state in which it is applied. -/
def FlowGraph.opsFit {σ : Type} (ops : RuleOps σ) : List FlowOp → FlowGraph σ → Prop
  | [], _ => True
  | op :: rest, s =>
    op.fits s
    ∧ match s.applyOp ops op with
      | Except.ok t => FlowGraph.opsFit ops rest t
      | Except.error _ => True

/-- The sum of the capacities of the edges of `edges`. -/
def capacityTotal (edges : List (Nat × Nat × Int)) : Int :=
  (edges.map (fun e => e.2.2)).sum

/-- The sum of the capacities of all adjacency entries. -/
def entryCapTotal (G : List (List Edge)) : Int :=
  ∑ u ∈ Finset.range G.length, ∑ i ∈ Finset.range (deg G u), (getE G u i).cap

/-- Every `int` that the graph object holds for the push-relabel solver, or
that the solver and the flow queries compute from it, fits `int`: the capacity
and the flow of every adjacency entry, its residual capacity `cap - flow`,
every excess value, and every partial sum of the loop of `outFlow(v)` and
`inFlow(v)`. -/
structure ValuesFit (G : List (List Edge)) (excess : List Int) : Prop where
  cap : ∀ u i, i < deg G u → fitsInt (getE G u i).cap
  flow : ∀ u i, i < deg G u → fitsInt (getE G u i).flow
  residual : ∀ u i, i < deg G u → fitsInt ((getE G u i).cap - (getE G u i).flow)
  excess : ∀ v, fitsInt (excess.getD v 0)
  sums : ∀ v k, k ≤ deg G v →
    fitsInt (forLoop (fun i c => c + (getE G v i).flow) k 0)

/-- Every state through which `minCutPushRelabel(source, sink)` with the
first-in-first-out rule takes the graph object `s` during the first `fuel`
rounds of its main loop holds only values that fit `int` (`ValuesFit`): the
states after each round of the first loop, which saturates the entries of the
source; the states in which the main loop tests its condition; and, for each
of these in which the rule is not empty, the states after each round of the
loop of the `discharge` that follows. The values a `push` computes are the
residual capacity of an entry in one of these states, an amount between zero
and that residual capacity, and flow and excess values that the next of these
states holds or, for the excess of the source in the first loop, that lie
between zero and the capacity of the entry being saturated. -/
def FlowGraph.runValuesFit (s : FlowGraph (List Nat)) (source sink fuel : Nat) : Prop :=
  (∀ k, k ≤ deg s.G source →
    ValuesFit
      (forLoop (initStep fifoRule source) k
        { s with
          height := s.height.set source s.N,
          rule := (s.rule.activate source).activate sink }).G
      (forLoop (initStep fifoRule source) k
        { s with
          height := s.height.set source s.N,
          rule := (s.rule.activate source).activate sink }).excess)
  ∧ ∀ x ∈ dischargeStates fifoRule fuel (s.initPushRelabel fifoRule source sink),
      ValuesFit x.G x.excess
      ∧ (¬ fifoRule.empty x.rule = true →
          ∀ k, k ≤ deg x.G (fifoRule.next x.rule).1 →
            ValuesFit
              (forLoop (dischargeStep fifoRule (fifoRule.next x.rule).1) k
                { x with rule := (fifoRule.next x.rule).2 }).G
              (forLoop (dischargeStep fifoRule (fifoRule.next x.rule).1) k
                { x with rule := (fifoRule.next x.rule).2 }).excess)

/-- A graph whose two edges leave the source with capacity 2147483647 each:
0->1 and 0->2, source 0, sink 2. Every capacity fits `int`, their sum does
not. -/
def wideSourceGraph : FlowGraph (List Nat) :=
  buildGraph 3 0 2 [(0, 1, 2147483647), (0, 2, 2147483647)]

/-- The state in which `minCutPushRelabel(0, 2)` with the first-in-first-out
rule leaves `wideSourceGraph`, computed on the integers. -/
def wideSourceSolved : FlowGraph (List Nat) :=
  match wideSourceGraph.minCutPushRelabel fifoRule 10 0 2 with
  | Except.ok t => t
  | Except.error _ => wideSourceGraph

/-- A graph with two parallel edges 0->1 of capacity 2147483647 each, source 0
and sink 2. Every capacity fits `int`, their sum does not. -/
def wideInflowGraph : FlowGraph (List Nat) :=
  buildGraph 3 0 2 [(0, 1, 2147483647), (0, 1, 2147483647)]

/-- The state in which `minCutPushRelabel(0, 2)` with the first-in-first-out
rule leaves `wideInflowGraph`, computed on the integers. -/
def wideInflowSolved : FlowGraph (List Nat) :=
  match wideInflowGraph.minCutPushRelabel fifoRule 10 0 2 with
  | Except.ok t => t
  | Except.error _ => wideInflowGraph

/-- A graph on four vertices in which the source 0 does not reach the sink 3
and has two edges of capacity 2147483647 each, 0->1 and 0->2. -/
def wideStrandedGraph : FlowGraph (List Nat) :=
  buildGraph 4 0 3 [(0, 1, 2147483647), (0, 2, 2147483647)]

/-- The state in which `minCutPushRelabel(0, 3)` with the first-in-first-out
rule leaves `wideStrandedGraph`, computed on the integers. -/
def wideStrandedSolved : FlowGraph (List Nat) :=
  match wideStrandedGraph.minCutPushRelabel fifoRule 10 0 3 with
  | Except.ok t => t
  | Except.error _ => wideStrandedGraph

/-- The search has dealt with the vertex `v`: every entry of `v` along which
its tree could grow (positive tree capacity) leads to a vertex that is in a
tree. -/
def BKDone {σ : Type} (s : FlowGraph σ) (v : Nat) : Prop :=
  ∀ i, i < deg s.G v → 0 < s.treeCap v i (s.color.getD v 0) →
    s.color.getD (getE s.G v i).to_ 0 ≠ 0

/-- Every vertex in a tree is either still to be scanned, that is, active and
in the queue, or dealt with. -/
def BKPending {σ : Type} (s : FlowGraph σ) : Prop :=
  ∀ v, s.color.getD v 0 ≠ 0 → (s.active.getD v false = true ∧ v ∈ s.bkq) ∨ BKDone s v

/-! # Properties -/

theorem getD_set_eq_ite {α : Type} (l : List α) (i j : Nat) (x d : α) :
    (l.set i x).getD j d = if i = j ∧ i < l.length then x else l.getD j d := by
  simp only [List.getD_eq_getElem?_getD, List.getElem?_set]
  by_cases h : i = j
  · subst h
    by_cases h2 : i < l.length
    · simp [h2]
    · simp [h2, List.getElem?_eq_none (not_lt.mp h2)]
  · simp [h]

theorem length_setE (G : List (List Edge)) (u i : Nat) (e : Edge) :
    (setE G u i e).length = G.length := by
  simp [setE]

theorem deg_setE (G : List (List Edge)) (u i : Nat) (e : Edge) (v : Nat) :
    deg (setE G u i e) v = deg G v := by
  unfold deg setE
  rw [getD_set_eq_ite]
  split_ifs with h
  · rw [List.length_set, h.1]
  · rfl

theorem deg_eq_zero (G : List (List Edge)) (u : Nat) (h : G.length ≤ u) : deg G u = 0 := by
  unfold deg
  rw [List.getD_eq_getElem?_getD, List.getElem?_eq_none h]
  rfl

theorem lt_length_of_lt_deg {G : List (List Edge)} {u i : Nat} (h : i < deg G u) :
    u < G.length := by
  by_contra hc
  rw [deg_eq_zero G u (not_lt.mp hc)] at h
  exact Nat.not_lt_zero _ h

theorem getE_setE (G : List (List Edge)) (u i : Nat) (e : Edge) (v j : Nat) :
    getE (setE G u i e) v j = if v = u ∧ j = i ∧ i < deg G u then e else getE G v j := by
  unfold getE setE
  rw [getD_set_eq_ite]
  by_cases hv : u = v
  · subst hv
    by_cases hu : u < G.length
    · rw [if_pos ⟨rfl, hu⟩, getD_set_eq_ite]
      by_cases hj : i = j
      · subst hj
        simp [deg]
      · have hj2 : ¬ j = i := fun h => hj h.symm
        simp [hj, hj2]
    · have hd : deg G u = 0 := deg_eq_zero G u (not_lt.mp hu)
      simp [hu, hd]
  · have hv2 : ¬ v = u := fun h => hv h.symm
    simp [hv, hv2]

theorem length_pushE (G : List (List Edge)) (u : Nat) (e : Edge) :
    (pushE G u e).length = G.length := by
  simp [pushE]

theorem deg_pushE (G : List (List Edge)) (u : Nat) (e : Edge) (v : Nat) :
    deg (pushE G u e) v = if v = u ∧ u < G.length then deg G u + 1 else deg G v := by
  unfold deg pushE
  rw [getD_set_eq_ite]
  by_cases hv : u = v
  · subst hv
    by_cases hu : u < G.length
    · simp [hu]
    · simp [hu]
  · have hv2 : ¬ v = u := fun h => hv h.symm
    simp [hv, hv2]

theorem getE_pushE (G : List (List Edge)) (u : Nat) (e : Edge) (v j : Nat) :
    getE (pushE G u e) v j
      = if v = u ∧ u < G.length ∧ j = deg G u then e else getE G v j := by
  unfold getE pushE deg
  rw [getD_set_eq_ite]
  by_cases hv : u = v
  · subst hv
    by_cases hu : u < G.length
    · rw [if_pos ⟨rfl, hu⟩]
      simp only [List.getD_eq_getElem?_getD, List.getElem?_append]
      by_cases hj : j < (G[u]?.getD []).length
      · have : ¬ j = (G[u]?.getD []).length := Nat.ne_of_lt hj
        simp [hj, this]
      · by_cases hj2 : j = (G[u]?.getD []).length
        · subst hj2
          simp [hu]
        · have : (G[u]?.getD []).length < j := by omega
          have h3 : (G[u]?.getD [])[j]? = none := List.getElem?_eq_none (by omega)
          have h4 : ([e] : List Edge)[j - (G[u]?.getD []).length]? = none :=
            List.getElem?_eq_none (by simp; omega)
          simp [hj, hj2, h3, h4]
    · simp [hu]
  · have hv2 : ¬ v = u := fun h => hv h.symm
    simp [hv, hv2]

theorem length_addEdge {σ : Type} (s : FlowGraph σ) (from_ to_ : Nat) (cap : Int) :
    (s.addEdge from_ to_ cap).G.length = s.G.length := by
  unfold FlowGraph.addEdge
  by_cases h : from_ = to_ <;> simp [h, length_pushE, length_setE]

theorem deg_addEdge {σ : Type} (s : FlowGraph σ) (from_ to_ : Nat) (cap : Int)
    (hf : from_ < s.G.length) (ht : to_ < s.G.length) (v : Nat) :
    deg (s.addEdge from_ to_ cap).G v
      = deg s.G v + (if v = from_ then 1 else 0) + (if v = to_ then 1 else 0) := by
  unfold FlowGraph.addEdge
  by_cases h : from_ = to_
  · subst h
    simp only [if_true, deg_pushE, deg_setE, length_pushE, length_setE, hf, and_true]
    by_cases hv : v = from_ <;> simp [hv]
  · have h2 : ¬ to_ = from_ := fun e => h e.symm
    simp only [if_neg h, deg_pushE, length_pushE, hf, ht, and_true]
    by_cases hv : v = from_ <;> by_cases hv2 : v = to_ <;> simp [hv, hv2, h, h2]

theorem getE_addEdge {σ : Type} (s : FlowGraph σ) (from_ to_ : Nat) (cap : Int)
    (hf : from_ < s.G.length) (ht : to_ < s.G.length) (v j : Nat) :
    getE (s.addEdge from_ to_ cap).G v j
      = if v = from_ ∧ j = deg s.G from_ then
          ⟨from_, to_, cap, 0, deg s.G to_ + (if from_ = to_ then 1 else 0)⟩
        else if v = to_ ∧ j = deg s.G to_ + (if from_ = to_ then 1 else 0) then
          ⟨to_, from_, 0, 0, deg s.G from_⟩
        else getE s.G v j := by
  unfold FlowGraph.addEdge
  by_cases h : from_ = to_
  · subst h
    simp only [if_true, deg_pushE, deg_setE, length_pushE, length_setE, hf, and_true,
      getE_pushE, getE_setE, true_and, Nat.add_sub_cancel]
    by_cases hv : v = from_
    · subst hv
      by_cases hj : j = deg s.G v
      · subst hj
        simp
      · by_cases hj2 : j = deg s.G v + 1
        · subst hj2
          simp
        · simp [hj, hj2]
    · simp [hv]
  · simp only [if_neg h, deg_pushE, length_pushE, hf, ht, and_true, getE_pushE, true_and,
      if_true, Nat.add_sub_cancel, Nat.add_zero]
    have h2 : ¬ to_ = from_ := fun e => h e.symm
    by_cases hv : v = from_
    · subst hv
      by_cases hj : j = deg s.G v
      · subst hj
        simp [h]
      · simp [hj, h]
    · by_cases hv2 : v = to_
      · subst hv2
        by_cases hj : j = deg s.G v
        · subst hj
          simp [h2]
        · simp [hj, h2]
      · simp [hv, hv2]

theorem addEdge_pairing_core {σ : Type} (s : FlowGraph σ) (from_ to_ : Nat) (cap : Int)
    (hf : from_ < s.G.length) (ht : to_ < s.G.length) (hp : Pairing s.G) :
    Pairing (s.addEdge from_ to_ cap).G := by
  intro u hu i hi
  rw [length_addEdge] at hu
  rw [deg_addEdge s from_ to_ cap hf ht] at hi
  simp only [getE_addEdge s from_ to_ cap hf ht, deg_addEdge s from_ to_ cap hf ht,
    length_addEdge]
  by_cases hft : from_ = to_
  · subst hft
    simp only [if_true] at hi ⊢
    by_cases h1 : u = from_ ∧ i = deg s.G from_
    · obtain ⟨rfl, rfl⟩ := h1
      simp [hu]
    · rw [if_neg h1]
      by_cases h2 : u = from_ ∧ i = deg s.G from_ + 1
      · obtain ⟨rfl, rfl⟩ := h2
        simp [hu]
        omega
      · rw [if_neg h2]
        have hi2 : i < deg s.G u := by
          by_cases ha : u = from_
          · subst ha
            simp only [true_and, if_true] at hi h1 h2
            omega
          · simp only [ha, if_false] at hi
            omega
        obtain ⟨p1, p2, p3, p4⟩ := hp u hu i hi2
        have n1 : ¬ ((getE s.G u i).to_ = from_ ∧ (getE s.G u i).index = deg s.G from_) := by
          rintro ⟨e1, e2⟩
          rw [e1] at p2
          omega
        have n2 : ¬ ((getE s.G u i).to_ = from_
            ∧ (getE s.G u i).index = deg s.G from_ + 1) := by
          rintro ⟨e1, e2⟩
          rw [e1] at p2
          omega
        rw [if_neg n1, if_neg n2]
        exact ⟨p1, by omega, p3, p4⟩
  · have hft2 : ¬ to_ = from_ := fun e => hft e.symm
    simp only [if_neg hft, Nat.add_zero] at hi ⊢
    by_cases h1 : u = from_ ∧ i = deg s.G from_
    · obtain ⟨rfl, rfl⟩ := h1
      simp [hft, hft2, ht]
    · rw [if_neg h1]
      by_cases h2 : u = to_ ∧ i = deg s.G to_
      · obtain ⟨rfl, rfl⟩ := h2
        simp [hft, hft2, hf]
      · rw [if_neg h2]
        have hi2 : i < deg s.G u := by
          by_cases ha : u = from_
          · subst ha
            simp only [true_and, if_true, hft, if_false] at hi h1 h2
            omega
          · by_cases hb : u = to_
            · subst hb
              simp only [true_and, if_true, ha, if_false] at hi h1 h2
              omega
            · simp only [ha, hb, if_false] at hi
              omega
        obtain ⟨p1, p2, p3, p4⟩ := hp u hu i hi2
        have n1 : ¬ ((getE s.G u i).to_ = from_ ∧ (getE s.G u i).index = deg s.G from_) := by
          rintro ⟨e1, e2⟩
          rw [e1] at p2
          omega
        have n2 : ¬ ((getE s.G u i).to_ = to_ ∧ (getE s.G u i).index = deg s.G to_) := by
          rintro ⟨e1, e2⟩
          rw [e1] at p2
          omega
        rw [if_neg n1, if_neg n2]
        exact ⟨p1, by omega, p3, p4⟩

/-- The adjacency lists after `e.flow += a; G[e.to][e.index].flow -= a` for the
entry `e = G[u][i]`. -/
theorem pushAmount_G {σ : Type} (s : FlowGraph σ) (u i : Nat) (a : Int) :
    (s.pushAmount u i a).G
      = setE (setE s.G u i { getE s.G u i with flow := (getE s.G u i).flow + a })
          (getE s.G u i).to_ (getE s.G u i).index
          { getE (setE s.G u i { getE s.G u i with flow := (getE s.G u i).flow + a })
              (getE s.G u i).to_ (getE s.G u i).index with
            flow := (getE (setE s.G u i { getE s.G u i with flow := (getE s.G u i).flow + a })
              (getE s.G u i).to_ (getE s.G u i).index).flow - a } := rfl

theorem push_G {σ : Type} (ops : RuleOps σ) (s : FlowGraph σ) (u i : Nat) :
    (s.push ops u i).G
      = (s.pushAmount u i
          (min ((getE s.G u i).cap - (getE s.G u i).flow)
            (s.excess.getD (getE s.G u i).from_ 0))).G := rfl

theorem getE_pushAmount {σ : Type} (s : FlowGraph σ) (u i : Nat) (a : Int)
    (hi : i < deg s.G u) (hr : (getE s.G u i).index < deg s.G (getE s.G u i).to_) (v j : Nat) :
    getE (s.pushAmount u i a).G v j
      = { getE s.G v j with
          flow := (getE s.G v j).flow + (if v = u ∧ j = i then a else 0)
            - (if v = (getE s.G u i).to_ ∧ j = (getE s.G u i).index then a else 0) } := by
  rw [pushAmount_G]
  simp only [getE_setE, deg_setE, hi, hr, and_true]
  by_cases h1 : v = (getE s.G u i).to_ ∧ j = (getE s.G u i).index
  · rw [if_pos h1, if_pos h1]
    obtain ⟨rfl, rfl⟩ := h1
    by_cases h2 : (getE s.G u i).to_ = u ∧ (getE s.G u i).index = i
    · rw [if_pos h2, if_pos h2]
      have h3 := h2.1
      have h4 := h2.2
      simp only [h3, h4]
    · rw [if_neg h2, if_neg h2]
      simp
  · rw [if_neg h1, if_neg h1]
    by_cases h2 : v = u ∧ j = i
    · rw [if_pos h2, if_pos h2]
      obtain ⟨rfl, rfl⟩ := h2
      simp
    · rw [if_neg h2, if_neg h2]
      simp

theorem length_pushAmount {σ : Type} (s : FlowGraph σ) (u i : Nat) (a : Int) :
    (s.pushAmount u i a).G.length = s.G.length := by
  rw [pushAmount_G, length_setE, length_setE]

theorem deg_pushAmount {σ : Type} (s : FlowGraph σ) (u i : Nat) (a : Int) (v : Nat) :
    deg (s.pushAmount u i a).G v = deg s.G v := by
  rw [pushAmount_G, deg_setE, deg_setE]

/-- The pair of the pair of an entry is the entry itself. -/
theorem pairing_symm {G : List (List Edge)} (hp : Pairing G) {u i v j : Nat}
    (hi : i < deg G u) (hj : j < deg G v) :
    ((getE G v j).to_ = u ∧ (getE G v j).index = i)
      ↔ (v = (getE G u i).to_ ∧ j = (getE G u i).index) := by
  constructor
  · rintro ⟨e1, e2⟩
    obtain ⟨_, _, p3, p4⟩ := hp v (lt_length_of_lt_deg hj) j hj
    rw [e1, e2] at p3 p4
    exact ⟨p3.symm, p4.symm⟩
  · rintro ⟨e1, e2⟩
    obtain ⟨_, _, p3, p4⟩ := hp u (lt_length_of_lt_deg hi) i hi
    rw [← e1, ← e2] at p3 p4
    exact ⟨p3, p4⟩

/-- Two entries with the same pair are the same entry. -/
theorem pairing_inj {G : List (List Edge)} (hp : Pairing G) {u i v j : Nat}
    (hi : i < deg G u) (hj : j < deg G v) :
    ((getE G v j).to_ = (getE G u i).to_ ∧ (getE G v j).index = (getE G u i).index)
      ↔ (v = u ∧ j = i) := by
  constructor
  · rintro ⟨e1, e2⟩
    obtain ⟨_, _, p3, p4⟩ := hp v (lt_length_of_lt_deg hj) j hj
    obtain ⟨_, _, q3, q4⟩ := hp u (lt_length_of_lt_deg hi) i hi
    rw [e1, e2] at p3 p4
    exact ⟨p3.symm.trans q3, p4.symm.trans q4⟩
  · rintro ⟨rfl, rfl⟩
    exact ⟨rfl, rfl⟩

/-- Pairing only depends on the fields `to` and `index` and on the sizes. -/
theorem pairing_transfer {G G2 : List (List Edge)} (hp : Pairing G)
    (hl : G2.length = G.length) (hd : ∀ v, deg G2 v = deg G v)
    (ht : ∀ v j, (getE G2 v j).to_ = (getE G v j).to_)
    (hx : ∀ v j, (getE G2 v j).index = (getE G v j).index) : Pairing G2 := by
  intro u hu i hi
  rw [hl] at hu
  rw [hd] at hi
  obtain ⟨p1, p2, p3, p4⟩ := hp u hu i hi
  simp only [ht, hx, hl, hd]
  exact ⟨p1, p2, p3, p4⟩

theorem pushAmount_pairing {σ : Type} (s : FlowGraph σ) (u i : Nat) (a : Int)
    (hi : i < deg s.G u) (hp : Pairing s.G) : Pairing (s.pushAmount u i a).G := by
  have hr := (hp u (lt_length_of_lt_deg hi) i hi).2.1
  apply pairing_transfer hp (length_pushAmount s u i a) (deg_pushAmount s u i a)
  · intro v j
    rw [getE_pushAmount s u i a hi hr]
  · intro v j
    rw [getE_pushAmount s u i a hi hr]

theorem pushAmount_antisym {σ : Type} (s : FlowGraph σ) (u i : Nat) (a : Int)
    (hi : i < deg s.G u) (hp : Pairing s.G) (ha : FlowAntisym s.G) :
    FlowAntisym (s.pushAmount u i a).G := by
  have hr := (hp u (lt_length_of_lt_deg hi) i hi).2.1
  intro v hv j hj
  rw [length_pushAmount] at hv
  rw [deg_pushAmount] at hj
  obtain ⟨p1, p2, p3, p4⟩ := hp v hv j hj
  simp only [getE_pushAmount s u i a hi hr]
  rw [ha v hv j hj]
  have e1 := pairing_symm hp hi hj
  have e2 := pairing_inj hp hi hj
  have e3 : ((getE s.G v j).to_ = (getE s.G u i).to_ ∧ (getE s.G v j).index = (getE s.G u i).index)
      ↔ (v = u ∧ j = i) := e2
  by_cases c1 : v = u ∧ j = i
  · have c1b := e3.mpr c1
    by_cases c2 : v = (getE s.G u i).to_ ∧ j = (getE s.G u i).index
    · have c2b := e1.mpr c2
      rw [if_pos c1, if_pos c2, if_pos c1b, if_pos c2b]
      ring
    · have c2b : ¬ ((getE s.G v j).to_ = u ∧ (getE s.G v j).index = i) := fun h => c2 (e1.mp h)
      rw [if_pos c1, if_neg c2, if_pos c1b, if_neg c2b]
      ring
  · have c1b : ¬ ((getE s.G v j).to_ = (getE s.G u i).to_
        ∧ (getE s.G v j).index = (getE s.G u i).index) := fun h => c1 (e3.mp h)
    by_cases c2 : v = (getE s.G u i).to_ ∧ j = (getE s.G u i).index
    · have c2b := e1.mpr c2
      rw [if_neg c1, if_pos c2, if_neg c1b, if_pos c2b]
      ring
    · have c2b : ¬ ((getE s.G v j).to_ = u ∧ (getE s.G v j).index = i) := fun h => c2 (e1.mp h)
      rw [if_neg c1, if_neg c2, if_neg c1b, if_neg c2b]
      ring

theorem changeCapacity_eq_ok {σ : Type} (ops : RuleOps σ) (s : FlowGraph σ) (from_ to_ : Nat)
    (cap : Int) (hadj : from_ = s.source ∨ to_ = s.sink) :
    s.changeCapacity ops from_ to_ cap
      = Except.ok (s.changeCapacityAt ops from_ to_ cap (s.tableIndex from_ to_)) := by
  unfold FlowGraph.changeCapacity FlowGraph.tableIndex
  by_cases h1 : from_ = s.source
  · simp [h1]
  · have h2 : to_ = s.sink := hadj.resolve_left h1
    simp [h1, h2]

theorem length_changeCapacityAt {σ : Type} (ops : RuleOps σ) (s : FlowGraph σ)
    (from_ to_ : Nat) (cap : Int) (idx : Nat) :
    (s.changeCapacityAt ops from_ to_ cap idx).G.length = s.G.length := by
  unfold FlowGraph.changeCapacityAt
  by_cases h : 0 < (getE s.G from_ idx).flow - cap <;> simp [h, length_setE]

theorem deg_changeCapacityAt {σ : Type} (ops : RuleOps σ) (s : FlowGraph σ)
    (from_ to_ : Nat) (cap : Int) (idx : Nat) (v : Nat) :
    deg (s.changeCapacityAt ops from_ to_ cap idx).G v = deg s.G v := by
  unfold FlowGraph.changeCapacityAt
  by_cases h : 0 < (getE s.G from_ idx).flow - cap <;> simp [h, deg_setE]

theorem height_changeCapacityAt {σ : Type} (ops : RuleOps σ) (s : FlowGraph σ)
    (from_ to_ : Nat) (cap : Int) (idx : Nat) :
    (s.changeCapacityAt ops from_ to_ cap idx).height = s.height := by
  unfold FlowGraph.changeCapacityAt
  by_cases h : 0 < (getE s.G from_ idx).flow - cap <;> simp [h]

/-- The entries after `changeCapacity` when the flow fits the new capacity. -/
theorem getE_changeCapacityAt_le {σ : Type} (ops : RuleOps σ) (s : FlowGraph σ)
    (from_ to_ : Nat) (cap : Int) (idx : Nat) (hi : idx < deg s.G from_)
    (hle : (getE s.G from_ idx).flow ≤ cap) (v j : Nat) :
    getE (s.changeCapacityAt ops from_ to_ cap idx).G v j
      = if v = from_ ∧ j = idx then { getE s.G from_ idx with cap := cap }
        else getE s.G v j := by
  unfold FlowGraph.changeCapacityAt
  have h : ¬ 0 < (getE s.G from_ idx).flow - cap := by omega
  simp only [h, if_false, getE_setE, hi, and_true]

/-- The entries after `changeCapacity` when the flow exceeds the new capacity
and the entry is not its own pair. -/
theorem getE_changeCapacityAt_gt {σ : Type} (ops : RuleOps σ) (s : FlowGraph σ)
    (from_ to_ : Nat) (cap : Int) (idx : Nat) (hi : idx < deg s.G from_)
    (hr : (getE s.G from_ idx).index < deg s.G to_)
    (hne : ¬ (to_ = from_ ∧ (getE s.G from_ idx).index = idx))
    (hgt : cap < (getE s.G from_ idx).flow) (v j : Nat) :
    getE (s.changeCapacityAt ops from_ to_ cap idx).G v j
      = if v = from_ ∧ j = idx then { getE s.G from_ idx with cap := cap, flow := cap }
        else if v = to_ ∧ j = (getE s.G from_ idx).index then
          { getE s.G v j with flow := -cap }
        else getE s.G v j := by
  unfold FlowGraph.changeCapacityAt
  have h : 0 < (getE s.G from_ idx).flow - cap := by omega
  simp only [h, if_true, getE_setE, deg_setE, hi, hr, and_true, and_self]
  by_cases h1 : v = from_ ∧ j = idx
  · obtain ⟨rfl, rfl⟩ := h1
    have h2 : ¬ (v = to_ ∧ j = (getE s.G v j).index) := fun ⟨a, b⟩ => hne ⟨a.symm, b.symm⟩
    simp [h2]
  · rw [if_neg h1]
    by_cases h2 : v = to_ ∧ j = (getE s.G from_ idx).index
    · obtain ⟨rfl, rfl⟩ := h2
      simp [hne]
    · simp [h1, h2]

/-- The excess after `changeCapacity`. -/
theorem excess_changeCapacityAt {σ : Type} (ops : RuleOps σ) (s : FlowGraph σ)
    (from_ to_ : Nat) (cap : Int) (idx : Nat) :
    (s.changeCapacityAt ops from_ to_ cap idx).excess
      = if 0 < (getE s.G from_ idx).flow - cap then
          (s.excess.set from_ (s.excess.getD from_ 0 + ((getE s.G from_ idx).flow - cap))).set to_
            ((s.excess.set from_
              (s.excess.getD from_ 0 + ((getE s.G from_ idx).flow - cap))).getD to_ 0
              - ((getE s.G from_ idx).flow - cap))
        else s.excess := by
  unfold FlowGraph.changeCapacityAt
  by_cases h : 0 < (getE s.G from_ idx).flow - cap <;> simp [h]

theorem getE_setE_to (G : List (List Edge)) (u i : Nat) (e : Edge)
    (h : e.to_ = (getE G u i).to_) (v j : Nat) :
    (getE (setE G u i e) v j).to_ = (getE G v j).to_ := by
  rw [getE_setE]
  by_cases c : v = u ∧ j = i ∧ i < deg G u
  · rw [if_pos c, h, c.1, c.2.1]
  · rw [if_neg c]

theorem getE_setE_index (G : List (List Edge)) (u i : Nat) (e : Edge)
    (h : e.index = (getE G u i).index) (v j : Nat) :
    (getE (setE G u i e) v j).index = (getE G v j).index := by
  rw [getE_setE]
  by_cases c : v = u ∧ j = i ∧ i < deg G u
  · rw [if_pos c, h, c.1, c.2.1]
  · rw [if_neg c]

theorem getE_setE_from (G : List (List Edge)) (u i : Nat) (e : Edge)
    (h : e.from_ = (getE G u i).from_) (v j : Nat) :
    (getE (setE G u i e) v j).from_ = (getE G v j).from_ := by
  rw [getE_setE]
  by_cases c : v = u ∧ j = i ∧ i < deg G u
  · rw [if_pos c, h, c.1, c.2.1]
  · rw [if_neg c]

theorem getE_setE_cap (G : List (List Edge)) (u i : Nat) (e : Edge)
    (h : e.cap = (getE G u i).cap) (v j : Nat) :
    (getE (setE G u i e) v j).cap = (getE G v j).cap := by
  rw [getE_setE]
  by_cases c : v = u ∧ j = i ∧ i < deg G u
  · rw [if_pos c, h, c.1, c.2.1]
  · rw [if_neg c]

theorem changeCapacityAt_to {σ : Type} (ops : RuleOps σ) (s : FlowGraph σ)
    (from_ to_ : Nat) (cap : Int) (idx : Nat) (v j : Nat) :
    (getE (s.changeCapacityAt ops from_ to_ cap idx).G v j).to_ = (getE s.G v j).to_ := by
  unfold FlowGraph.changeCapacityAt
  by_cases h : 0 < (getE s.G from_ idx).flow - cap
  · simp only [h, if_true]
    refine (getE_setE_to _ _ _ _ ?_ v j).trans
      ((getE_setE_to _ _ _ _ ?_ v j).trans (getE_setE_to _ _ _ _ ?_ v j)) <;> rfl
  · simp only [h, if_false]
    refine getE_setE_to _ _ _ _ ?_ v j
    rfl

theorem changeCapacityAt_index {σ : Type} (ops : RuleOps σ) (s : FlowGraph σ)
    (from_ to_ : Nat) (cap : Int) (idx : Nat) (v j : Nat) :
    (getE (s.changeCapacityAt ops from_ to_ cap idx).G v j).index = (getE s.G v j).index := by
  unfold FlowGraph.changeCapacityAt
  by_cases h : 0 < (getE s.G from_ idx).flow - cap
  · simp only [h, if_true]
    refine (getE_setE_index _ _ _ _ ?_ v j).trans
      ((getE_setE_index _ _ _ _ ?_ v j).trans (getE_setE_index _ _ _ _ ?_ v j)) <;> rfl
  · simp only [h, if_false]
    refine getE_setE_index _ _ _ _ ?_ v j
    rfl

theorem changeCapacityAt_from {σ : Type} (ops : RuleOps σ) (s : FlowGraph σ)
    (from_ to_ : Nat) (cap : Int) (idx : Nat) (v j : Nat) :
    (getE (s.changeCapacityAt ops from_ to_ cap idx).G v j).from_ = (getE s.G v j).from_ := by
  unfold FlowGraph.changeCapacityAt
  by_cases h : 0 < (getE s.G from_ idx).flow - cap
  · simp only [h, if_true]
    refine (getE_setE_from _ _ _ _ ?_ v j).trans
      ((getE_setE_from _ _ _ _ ?_ v j).trans (getE_setE_from _ _ _ _ ?_ v j)) <;> rfl
  · simp only [h, if_false]
    refine getE_setE_from _ _ _ _ ?_ v j
    rfl

theorem changeCapacityAt_pairing {σ : Type} (ops : RuleOps σ) (s : FlowGraph σ)
    (from_ to_ : Nat) (cap : Int) (idx : Nat) (hp : Pairing s.G) :
    Pairing (s.changeCapacityAt ops from_ to_ cap idx).G :=
  pairing_transfer hp (length_changeCapacityAt ops s from_ to_ cap idx)
    (deg_changeCapacityAt ops s from_ to_ cap idx)
    (changeCapacityAt_to ops s from_ to_ cap idx)
    (changeCapacityAt_index ops s from_ to_ cap idx)

theorem flow_changeCapacityAt_le {σ : Type} (ops : RuleOps σ) (s : FlowGraph σ)
    (from_ to_ : Nat) (cap : Int) (idx : Nat) (hi : idx < deg s.G from_)
    (hle : (getE s.G from_ idx).flow ≤ cap) (v j : Nat) :
    (getE (s.changeCapacityAt ops from_ to_ cap idx).G v j).flow = (getE s.G v j).flow := by
  rw [getE_changeCapacityAt_le ops s from_ to_ cap idx hi hle]
  by_cases c : v = from_ ∧ j = idx
  · obtain ⟨rfl, rfl⟩ := c
    simp
  · rw [if_neg c]

theorem flow_changeCapacityAt_gt {σ : Type} (ops : RuleOps σ) (s : FlowGraph σ)
    (from_ to_ : Nat) (cap : Int) (idx : Nat) (hi : idx < deg s.G from_)
    (hr : (getE s.G from_ idx).index < deg s.G to_)
    (hne : ¬ (to_ = from_ ∧ (getE s.G from_ idx).index = idx))
    (hgt : cap < (getE s.G from_ idx).flow) (v j : Nat) :
    (getE (s.changeCapacityAt ops from_ to_ cap idx).G v j).flow
      = if v = from_ ∧ j = idx then cap
        else if v = to_ ∧ j = (getE s.G from_ idx).index then -cap
        else (getE s.G v j).flow := by
  rw [getE_changeCapacityAt_gt ops s from_ to_ cap idx hi hr hne hgt]
  by_cases c : v = from_ ∧ j = idx
  · rw [if_pos c, if_pos c]
  · rw [if_neg c, if_neg c]
    by_cases c2 : v = to_ ∧ j = (getE s.G from_ idx).index
    · rw [if_pos c2, if_pos c2]
    · rw [if_neg c2, if_neg c2]

theorem changeCapacityAt_antisym {σ : Type} (ops : RuleOps σ) (s : FlowGraph σ)
    (from_ to_ : Nat) (cap : Int) (idx : Nat) (hi : idx < deg s.G from_)
    (hto : (getE s.G from_ idx).to_ = to_)
    (hc : 0 ≤ cap ∨ ¬ (to_ = from_ ∧ (getE s.G from_ idx).index = idx))
    (hp : Pairing s.G) (ha : FlowAntisym s.G) :
    FlowAntisym (s.changeCapacityAt ops from_ to_ cap idx).G := by
  have hfl := lt_length_of_lt_deg hi
  have hr : (getE s.G from_ idx).index < deg s.G to_ := by
    have := (hp from_ hfl idx hi).2.1
    rwa [hto] at this
  intro v hv j hj
  rw [length_changeCapacityAt] at hv
  rw [deg_changeCapacityAt] at hj
  have hav := ha v hv j hj
  rw [changeCapacityAt_to, changeCapacityAt_index]
  by_cases hle : (getE s.G from_ idx).flow ≤ cap
  · rw [flow_changeCapacityAt_le ops s from_ to_ cap idx hi hle,
      flow_changeCapacityAt_le ops s from_ to_ cap idx hi hle]
    exact hav
  · have hgt : cap < (getE s.G from_ idx).flow := not_le.mp hle
    have hne : ¬ (to_ = from_ ∧ (getE s.G from_ idx).index = idx) := by
      rcases hc with hc | hc
      · rintro ⟨e1, e2⟩
        have h0 := ha from_ hfl idx hi
        rw [hto, e1, e2] at h0
        omega
      · exact hc
    have e1 := pairing_symm hp hi hj
    have e2 := pairing_inj hp hi hj
    rw [hto] at e1 e2
    rw [flow_changeCapacityAt_gt ops s from_ to_ cap idx hi hr hne hgt,
      flow_changeCapacityAt_gt ops s from_ to_ cap idx hi hr hne hgt]
    by_cases c1 : v = from_ ∧ j = idx
    · have c1b := e2.mpr c1
      have c2b : ¬ ((getE s.G v j).to_ = from_ ∧ (getE s.G v j).index = idx) := by
        obtain ⟨rfl, rfl⟩ := c1
        rw [hto]
        exact hne
      rw [if_pos c1, if_neg c2b, if_pos c1b]
    · have c1b : ¬ ((getE s.G v j).to_ = to_
          ∧ (getE s.G v j).index = (getE s.G from_ idx).index) := fun h => c1 (e2.mp h)
      by_cases c2 : v = to_ ∧ j = (getE s.G from_ idx).index
      · have c2b := e1.mpr c2
        rw [if_neg c1, if_pos c2, if_pos c2b]
        ring
      · have c2b : ¬ ((getE s.G v j).to_ = from_ ∧ (getE s.G v j).index = idx) :=
          fun h => c2 (e1.mp h)
        rw [if_neg c1, if_neg c2, if_neg c2b, if_neg c1b]
        exact hav

theorem getE_eq_default (G : List (List Edge)) (v j : Nat) (h : deg G v ≤ j) :
    getE G v j = default := by
  unfold getE
  unfold deg at h
  rw [List.getD_eq_getElem?_getD (G.getD v []) j, List.getElem?_eq_none h]
  rfl

theorem resetFlow_inner (i : Nat) (G : List (List Edge)) (n : Nat) :
    (forLoop (fun j G => setE G i j { getE G i j with flow := 0 }) n G).length = G.length
    ∧ (∀ v, deg (forLoop (fun j G => setE G i j { getE G i j with flow := 0 }) n G) v = deg G v)
    ∧ (∀ v j, getE (forLoop (fun j G => setE G i j { getE G i j with flow := 0 }) n G) v j
        = if v = i ∧ j < n then { getE G v j with flow := 0 } else getE G v j) := by
  induction n with
  | zero =>
    refine ⟨rfl, fun _ => rfl, fun v j => ?_⟩
    simp [forLoop]
  | succ n ih =>
    obtain ⟨h1, h2, h3⟩ := ih
    simp only [forLoop]
    refine ⟨by rw [length_setE, h1], fun v => by rw [deg_setE, h2], fun v j => ?_⟩
    rw [getE_setE, h2, h3, h3]
    by_cases c : v = i
    · subst c
      by_cases c2 : j = n
      · subst c2
        by_cases c3 : j < deg G v
        · simp [c3]
        · have hd := getE_eq_default G v j (not_lt.mp c3)
          simp [c3, hd]
          rfl
      · by_cases c3 : j < n
        · have c4 : j < n + 1 := by omega
          simp [c2, c3, c4]
        · have c4 : ¬ j < n + 1 := by omega
          simp [c2, c3, c4]
    · simp [c]

theorem resetFlowRow_spec (i : Nat) (G : List (List Edge)) :
    (resetFlowRow i G).length = G.length
    ∧ (∀ v, deg (resetFlowRow i G) v = deg G v)
    ∧ (∀ v j, getE (resetFlowRow i G) v j
        = if v = i then { getE G v j with flow := 0 } else getE G v j) := by
  obtain ⟨h1, h2, h3⟩ := resetFlow_inner i G (deg G i)
  refine ⟨h1, h2, fun v j => ?_⟩
  unfold resetFlowRow
  rw [h3]
  by_cases c : v = i
  · subst c
    by_cases c2 : j < deg G v
    · simp [c2]
    · have hd := getE_eq_default G v j (not_lt.mp c2)
      simp [c2, hd]
      rfl
  · simp [c]

theorem resetFlow_outer (G : List (List Edge)) (m : Nat) :
    (forLoop resetFlowRow m G).length = G.length
    ∧ (∀ v, deg (forLoop resetFlowRow m G) v = deg G v)
    ∧ (∀ v j, getE (forLoop resetFlowRow m G) v j
        = if v < m then { getE G v j with flow := 0 } else getE G v j) := by
  induction m with
  | zero =>
    refine ⟨rfl, fun _ => rfl, fun v j => ?_⟩
    simp [forLoop]
  | succ m ih =>
    obtain ⟨h1, h2, h3⟩ := ih
    obtain ⟨k1, k2, k3⟩ := resetFlowRow_spec m (forLoop resetFlowRow m G)
    simp only [forLoop]
    refine ⟨by rw [k1, h1], fun v => by rw [k2, h2], fun v j => ?_⟩
    rw [k3, h3]
    by_cases c : v = m
    · subst c
      simp
    · by_cases c3 : v < m
      · have c4 : v < m + 1 := by omega
        simp [c, c3, c4]
      · have c4 : ¬ v < m + 1 := by omega
        simp [c, c3, c4]

theorem getE_resetFlow {σ : Type} (s : FlowGraph σ) (v j : Nat) :
    getE s.resetFlow.G v j = { getE s.G v j with flow := 0 } := by
  obtain ⟨_, _, h3⟩ := resetFlow_outer s.G s.G.length
  show getE (forLoop resetFlowRow s.G.length s.G) v j = _
  rw [h3]
  by_cases c : v < s.G.length
  · simp [c]
  · have hd := getE_eq_default s.G v j (by rw [deg_eq_zero s.G v (not_lt.mp c)]; exact Nat.zero_le _)
    simp [c, hd]
    rfl

theorem length_resetFlow {σ : Type} (s : FlowGraph σ) : s.resetFlow.G.length = s.G.length :=
  (resetFlow_outer s.G s.G.length).1

theorem deg_resetFlow {σ : Type} (s : FlowGraph σ) (v : Nat) :
    deg s.resetFlow.G v = deg s.G v :=
  (resetFlow_outer s.G s.G.length).2.1 v

theorem push_pairing {σ : Type} (ops : RuleOps σ) (s : FlowGraph σ) (u i : Nat)
    (hi : i < deg s.G u) (hp : Pairing s.G) : Pairing (s.push ops u i).G := by
  rw [push_G]
  exact pushAmount_pairing s u i _ hi hp

theorem push_antisym {σ : Type} (ops : RuleOps σ) (s : FlowGraph σ) (u i : Nat)
    (hi : i < deg s.G u) (hp : Pairing s.G) (ha : FlowAntisym s.G) :
    FlowAntisym (s.push ops u i).G := by
  rw [push_G]
  exact pushAmount_antisym s u i _ hi hp ha

theorem resetFlow_pairing {σ : Type} (s : FlowGraph σ) (hp : Pairing s.G) :
    Pairing s.resetFlow.G := by
  apply pairing_transfer hp (length_resetFlow s) (deg_resetFlow s)
  · intro v j
    rw [getE_resetFlow]
  · intro v j
    rw [getE_resetFlow]

theorem resetFlow_antisym {σ : Type} (s : FlowGraph σ) : FlowAntisym s.resetFlow.G := by
  intro v _ j _
  rw [getE_resetFlow, getE_resetFlow]
  simp

/-- C10: flow antisymmetry is kept by every operation that writes a flow. In a
state where edge pairing holds and every paired entry carries the negated
flow, the same holds (and pairing still holds) after `push(e)` and after
`push(e, f)` for any entry `e = G[u][i]` and any `f`, after `changeCapacity`
to a non-negative capacity on an entry recorded for a source- or sink-adjacent
edge, and after `resetFlow()`. -/
theorem flow_antisymmetry_preserved {σ : Type} (ops : RuleOps σ) (s : FlowGraph σ)
    (hp : Pairing s.G) (ha : FlowAntisym s.G) :
    (∀ u i, i < deg s.G u →
        Pairing (s.push ops u i).G ∧ FlowAntisym (s.push ops u i).G)
    ∧ (∀ u i f, i < deg s.G u →
        Pairing (s.pushAmount u i f).G ∧ FlowAntisym (s.pushAmount u i f).G)
    ∧ (∀ from_ to_ cap t, s.tableIndex from_ to_ < deg s.G from_ →
        (getE s.G from_ (s.tableIndex from_ to_)).to_ = to_ → 0 ≤ cap →
        s.changeCapacity ops from_ to_ cap = Except.ok t →
        Pairing t.G ∧ FlowAntisym t.G)
    ∧ (Pairing s.resetFlow.G ∧ FlowAntisym s.resetFlow.G) := by
  refine ⟨fun u i hi => ⟨push_pairing ops s u i hi hp, push_antisym ops s u i hi hp ha⟩,
    fun u i f hi => ⟨pushAmount_pairing s u i f hi hp, pushAmount_antisym s u i f hi hp ha⟩,
    ?_, resetFlow_pairing s hp, resetFlow_antisym s⟩
  intro from_ to_ cap t hi hto hc hok
  have hadj : from_ = s.source ∨ to_ = s.sink := by
    by_contra hcon
    push_neg at hcon
    unfold FlowGraph.changeCapacity at hok
    simp [hcon.1, hcon.2] at hok
  rw [changeCapacity_eq_ok ops s from_ to_ cap hadj] at hok
  have ht : t = s.changeCapacityAt ops from_ to_ cap (s.tableIndex from_ to_) := by
    injection hok with h
    exact h.symm
  subst ht
  exact ⟨changeCapacityAt_pairing ops s from_ to_ cap _ hp,
    changeCapacityAt_antisym ops s from_ to_ cap _ hi hto (Or.inl hc) hp ha⟩

/-- C8: `addEdge` keeps edge pairing, also when `from == to`. If pairing holds
before `addEdge(from, to, cap)` with both vertices in range, it holds after;
the forward entry is appended to `G[from]` with capacity `cap` and flow 0, the
reverse entry to `G[to]` with capacity 0 and flow 0, each holding the position
of the other in `index`; adjacency lists grow by exactly these entries and
every earlier entry is unchanged. -/
theorem addEdge_preserves_pairing {σ : Type} (s : FlowGraph σ) (from_ to_ : Nat) (cap : Int)
    (hf : from_ < s.G.length) (ht : to_ < s.G.length) (hp : Pairing s.G) :
    Pairing (s.addEdge from_ to_ cap).G
    ∧ getE (s.addEdge from_ to_ cap).G from_ (deg s.G from_)
        = ⟨from_, to_, cap, 0, deg s.G to_ + (if from_ = to_ then 1 else 0)⟩
    ∧ getE (s.addEdge from_ to_ cap).G to_ (deg s.G to_ + (if from_ = to_ then 1 else 0))
        = ⟨to_, from_, 0, 0, deg s.G from_⟩
    ∧ (s.addEdge from_ to_ cap).G.length = s.G.length
    ∧ (∀ v, deg (s.addEdge from_ to_ cap).G v
        = deg s.G v + (if v = from_ then 1 else 0) + (if v = to_ then 1 else 0))
    ∧ (∀ v j, j < deg s.G v → getE (s.addEdge from_ to_ cap).G v j = getE s.G v j) := by
  refine ⟨addEdge_pairing_core s from_ to_ cap hf ht hp, ?_, ?_, length_addEdge s from_ to_ cap,
    deg_addEdge s from_ to_ cap hf ht, ?_⟩
  · rw [getE_addEdge s from_ to_ cap hf ht]
    simp
  · rw [getE_addEdge s from_ to_ cap hf ht]
    by_cases h : from_ = to_
    · subst h
      simp
    · have h2 : ¬ to_ = from_ := fun e => h e.symm
      simp [h, h2]
  · intro v j hj
    rw [getE_addEdge s from_ to_ cap hf ht]
    have n1 : ¬ (v = from_ ∧ j = deg s.G from_) := by
      rintro ⟨rfl, e⟩
      omega
    have n2 : ¬ (v = to_ ∧ j = deg s.G to_ + (if from_ = to_ then 1 else 0)) := by
      rintro ⟨rfl, e⟩
      omega
    rw [if_neg n1, if_neg n2]

/-- Witness for C8: a self-loop added to the spec's graph. -/
theorem addEdge_preserves_pairing_witness :
    Pairing (specGraph.addEdge 1 1 4).G
    ∧ getE (specGraph.addEdge 1 1 4).G 1 (deg specGraph.G 1)
        = ⟨1, 1, 4, 0, deg specGraph.G 1 + (if 1 = 1 then 1 else 0)⟩
    ∧ getE (specGraph.addEdge 1 1 4).G 1 (deg specGraph.G 1 + (if 1 = 1 then 1 else 0))
        = ⟨1, 1, 0, 0, deg specGraph.G 1⟩
    ∧ (specGraph.addEdge 1 1 4).G.length = specGraph.G.length
    ∧ (∀ v, deg (specGraph.addEdge 1 1 4).G v
        = deg specGraph.G v + (if v = 1 then 1 else 0) + (if v = 1 then 1 else 0))
    ∧ (∀ v j, j < deg specGraph.G v → getE (specGraph.addEdge 1 1 4).G v j = getE specGraph.G v j) :=
  addEdge_preserves_pairing specGraph 1 1 4 (by decide) (by decide) (by decide)

/-- C9: `addDoubleEdge(v, v, cap)` breaks edge pairing. On the empty graph with
three vertices, where pairing holds, `addDoubleEdge(1, 1, 7)` appends two
entries of capacity 7 and flow 0 to `G[1]` whose `index` fields are both 0: the
first entry names itself instead of position 1, and pairing no longer holds. -/
theorem addDoubleEdge_self_loop_breaks_pairing :
    Pairing (FlowGraph.new 3 0 2).G
    ∧ ((FlowGraph.new 3 0 2).addDoubleEdge 1 1 7).G = [[], [⟨1, 1, 7, 0, 0⟩, ⟨1, 1, 7, 0, 0⟩], []]
    ∧ ¬ Pairing ((FlowGraph.new 3 0 2).addDoubleEdge 1 1 7).G := by
  decide

/-- Counterexample for C5: on the spec's graph `changeCapacity(1, 1, 3)`, with
`1 != source` and `1 != sink`, ends the process with `exit(1)`. -/
theorem changeCapacity_exits_process :
    (1 ≠ specGraph.source ∧ 1 ≠ specGraph.sink)
    ∧ specGraph.changeCapacity fifoRule 1 1 3 = Except.error (Fault.exit 1) :=
  ⟨by decide, rfl⟩

/-- Witness for C10 on the solved graph of the spec's scenario. -/
theorem flow_antisymmetry_preserved_witness :
    (Pairing specSolved.G ∧ FlowAntisym specSolved.G)
    ∧ (Pairing (specSolved.push fifoRule 1 0).G ∧ FlowAntisym (specSolved.push fifoRule 1 0).G)
    ∧ (Pairing (specSolved.pushAmount 0 1 (-7)).G
        ∧ FlowAntisym (specSolved.pushAmount 0 1 (-7)).G)
    ∧ (Pairing (specSolved.changeCapacityAt fifoRule 0 2 0 (specSolved.tableIndex 0 2)).G
        ∧ FlowAntisym (specSolved.changeCapacityAt fifoRule 0 2 0 (specSolved.tableIndex 0 2)).G)
    ∧ (Pairing specSolved.resetFlow.G ∧ FlowAntisym specSolved.resetFlow.G) :=
  ⟨by decide,
    (flow_antisymmetry_preserved fifoRule specSolved (by decide) (by decide)).1 1 0 (by decide),
    (flow_antisymmetry_preserved fifoRule specSolved (by decide) (by decide)).2.1 0 1 (-7)
      (by decide),
    (flow_antisymmetry_preserved fifoRule specSolved (by decide) (by decide)).2.2.1 0 2 0 _
      (by decide) (by decide) (by decide) rfl,
    (flow_antisymmetry_preserved fifoRule specSolved (by decide) (by decide)).2.2.2⟩

theorem cap_changeCapacityAt {σ : Type} (ops : RuleOps σ) (s : FlowGraph σ)
    (from_ to_ : Nat) (cap : Int) (idx : Nat) (hi : idx < deg s.G from_) (v j : Nat) :
    (getE (s.changeCapacityAt ops from_ to_ cap idx).G v j).cap
      = if v = from_ ∧ j = idx then cap else (getE s.G v j).cap := by
  unfold FlowGraph.changeCapacityAt
  by_cases h : 0 < (getE s.G from_ idx).flow - cap
  · simp only [h, if_true]
    refine (getE_setE_cap _ _ _ _ ?_ v j).trans ((getE_setE_cap _ _ _ _ ?_ v j).trans ?_)
    · rfl
    · rfl
    · rw [getE_setE]
      by_cases c : v = from_ ∧ j = idx
      · simp [c, hi]
      · have c2 : ¬ (v = from_ ∧ j = idx ∧ idx < deg s.G from_) := fun h => c ⟨h.1, h.2.1⟩
        rw [if_neg c, if_neg c2]
  · simp only [h, if_false]
    rw [getE_setE]
    by_cases c : v = from_ ∧ j = idx
    · simp [c, hi]
    · have c2 : ¬ (v = from_ ∧ j = idx ∧ idx < deg s.G from_) := fun h => c ⟨h.1, h.2.1⟩
      rw [if_neg c, if_neg c2]

theorem checkExcess_iff {σ : Type} (s : FlowGraph σ) :
    s.checkExcess = true ↔ ∀ i, i < s.excess.length → 0 ≤ s.excess.getD i 0 := by
  simp [FlowGraph.checkExcess, List.all_eq_true, List.mem_range]

theorem sum_ite_and_eq (n i : Nat) (hi : i < n) (P : Prop) [Decidable P] (a : Int) :
    (∑ j ∈ Finset.range n, if P ∧ j = i then a else 0) = if P then a else 0 := by
  by_cases hP : P
  · simp only [hP, true_and, if_true]
    rw [Finset.sum_ite_eq' (Finset.range n) i (fun _ => a)]
    simp [hi]
  · simp [hP]

theorem outSum_pushAmount {σ : Type} (s : FlowGraph σ) (u i : Nat) (a : Int)
    (hi : i < deg s.G u) (hr : (getE s.G u i).index < deg s.G (getE s.G u i).to_) (v : Nat) :
    outSum (s.pushAmount u i a).G v
      = outSum s.G v + (if v = u then a else 0) - (if v = (getE s.G u i).to_ then a else 0) := by
  unfold outSum
  rw [deg_pushAmount]
  simp only [getE_pushAmount s u i a hi hr]
  rw [Finset.sum_sub_distrib, Finset.sum_add_distrib]
  by_cases c1 : v = u
  · subst c1
    rw [sum_ite_and_eq (deg s.G v) i hi (v = v) a]
    by_cases c2 : v = (getE s.G v i).to_
    · rw [sum_ite_and_eq (deg s.G v) (getE s.G v i).index (by rw [← c2] at hr; exact hr)
        (v = (getE s.G v i).to_) a]
    · simp [c2]
  · by_cases c2 : v = (getE s.G u i).to_
    · rw [sum_ite_and_eq (deg s.G v) (getE s.G u i).index (by rw [← c2] at hr; exact hr)
        (v = (getE s.G u i).to_) a]
      simp [c1]
    · simp [c1, c2]

theorem pushAmount_graphOK {σ : Type} (s : FlowGraph σ) (u i : Nat) (a : Int) (N : Nat)
    (hi : i < deg s.G u) (hg : GraphOK N s.G) : GraphOK N (s.pushAmount u i a).G := by
  have hr := (hg.pairing u (lt_length_of_lt_deg hi) i hi).2.1
  refine ⟨by rw [length_pushAmount]; exact hg.len, pushAmount_pairing s u i a hi hg.pairing, ?_⟩
  intro v j hj
  rw [deg_pushAmount] at hj
  rw [getE_pushAmount s u i a hi hr]
  exact hg.from_ok v j hj

theorem pushAmount_capacity {σ : Type} (s : FlowGraph σ) (u i : Nat) (a : Int)
    (hi : i < deg s.G u) (hp : Pairing s.G) (hc : CapacityOK s.G)
    (h0 : 0 ≤ a) (h1 : a ≤ (getE s.G u i).cap - (getE s.G u i).flow) :
    CapacityOK (s.pushAmount u i a).G := by
  have hr := (hp u (lt_length_of_lt_deg hi) i hi).2.1
  intro v j hj
  rw [deg_pushAmount] at hj
  rw [getE_pushAmount s u i a hi hr]
  have := hc v j hj
  simp only
  by_cases c1 : v = u ∧ j = i
  · obtain ⟨rfl, rfl⟩ := c1
    simp only [and_self, if_true]
    split_ifs <;> omega
  · rw [if_neg c1]
    split_ifs <;> omega

theorem pushAmount_labels {σ : Type} (s : FlowGraph σ) (u i : Nat) (a : Int)
    (hi : i < deg s.G u) (hp : Pairing s.G) (hl : LabelsValid s.G s.height)
    (h0 : 0 ≤ a)
    (hh : s.height.getD (getE s.G u i).to_ 0 ≤ s.height.getD u 0 + 1) :
    LabelsValid (s.pushAmount u i a).G s.height := by
  have hpu := hp u (lt_length_of_lt_deg hi) i hi
  have hr := hpu.2.1
  intro v j hj
  rw [deg_pushAmount] at hj
  rw [getE_pushAmount s u i a hi hr]
  simp only
  intro hres
  by_cases c2 : v = (getE s.G u i).to_ ∧ j = (getE s.G u i).index
  · obtain ⟨rfl, rfl⟩ := c2
    rw [hpu.2.2.1]
    exact hh
  · rw [if_neg c2] at hres
    apply hl v j hj
    split_ifs at hres <;> omega

/-- The excess after a push. -/
theorem push_excess {σ : Type} (ops : RuleOps σ) (s : FlowGraph σ) (u i : Nat) :
    (s.push ops u i).excess
      = (s.excess.set (getE s.G u i).from_
          (s.excess.getD (getE s.G u i).from_ 0
            - min ((getE s.G u i).cap - (getE s.G u i).flow)
                (s.excess.getD (getE s.G u i).from_ 0))).set (getE s.G u i).to_
          ((s.excess.set (getE s.G u i).from_
              (s.excess.getD (getE s.G u i).from_ 0
                - min ((getE s.G u i).cap - (getE s.G u i).flow)
                    (s.excess.getD (getE s.G u i).from_ 0))).getD (getE s.G u i).to_ 0
            + min ((getE s.G u i).cap - (getE s.G u i).flow)
                (s.excess.getD (getE s.G u i).from_ 0)) := rfl

theorem excess_two_sets (excess : List Int) (u w : Nat) (a : Int)
    (hu : u < excess.length) (hw : w < excess.length) (v : Nat) :
    ((excess.set u (excess.getD u 0 - a)).set w
        ((excess.set u (excess.getD u 0 - a)).getD w 0 + a)).getD v 0
      = excess.getD v 0 - (if v = u then a else 0) + (if v = w then a else 0) := by
  simp only [getD_set_eq_ite, List.length_set, hu, hw, and_true]
  by_cases c1 : w = v
  · subst c1
    by_cases c2 : u = w
    · subst c2
      simp
    · have c3 : ¬ w = u := fun e => c2 e.symm
      simp [c2, c3]
  · have c1b : ¬ v = w := fun e => c1 e.symm
    by_cases c2 : u = v
    · subst c2
      simp [c1, c1b]
    · have c2b : ¬ v = u := fun e => c2 e.symm
      simp [c1, c1b, c2, c2b]

theorem getD_push_excess {σ : Type} (ops : RuleOps σ) (s : FlowGraph σ) (u i : Nat)
    (hu : (getE s.G u i).from_ < s.excess.length) (hw : (getE s.G u i).to_ < s.excess.length)
    (v : Nat) :
    (s.push ops u i).excess.getD v 0
      = s.excess.getD v 0
        - (if v = (getE s.G u i).from_ then
            min ((getE s.G u i).cap - (getE s.G u i).flow)
              (s.excess.getD (getE s.G u i).from_ 0) else 0)
        + (if v = (getE s.G u i).to_ then
            min ((getE s.G u i).cap - (getE s.G u i).flow)
              (s.excess.getD (getE s.G u i).from_ 0) else 0) := by
  rw [push_excess]
  exact excess_two_sets s.excess _ _ _ hu hw v

theorem length_push_excess {σ : Type} (ops : RuleOps σ) (s : FlowGraph σ) (u i : Nat) :
    (s.push ops u i).excess.length = s.excess.length := by
  rw [push_excess]
  simp

/-- A push keeps the conservation of flow at every vertex. -/
theorem push_conserved {σ : Type} (ops : RuleOps σ) (s : FlowGraph σ) (u i source : Nat)
    (hi : i < deg s.G u) (hg : GraphOK s.N s.G) (hE : s.excess.length = s.N)
    (hc : Conserved s.G source s.excess) :
    Conserved (s.push ops u i).G source (s.push ops u i).excess := by
  have hpu := hg.pairing u (lt_length_of_lt_deg hi) i hi
  have hfrom := hg.from_ok u i hi
  have hul : u < s.excess.length := by
    rw [hE, ← hg.len]
    exact lt_length_of_lt_deg hi
  have hwl : (getE s.G u i).to_ < s.excess.length := by
    rw [hE, ← hg.len]
    exact hpu.1
  intro v hv hvs
  rw [push_G, length_pushAmount] at hv
  rw [getD_push_excess ops s u i (by rw [hfrom]; exact hul) hwl, push_G,
    outSum_pushAmount s u i _ hi hpu.2.1, hfrom]
  have := hc v hv hvs
  linarith

theorem push_nonneg {σ : Type} (ops : RuleOps σ) (s : FlowGraph σ) (u i : Nat)
    (hi : i < deg s.G u) (hg : GraphOK s.N s.G) (hE : s.excess.length = s.N)
    (hn : ExcessNonneg s.excess) (hc : CapacityOK s.G) (hx : 0 ≤ s.excess.getD u 0) :
    ExcessNonneg (s.push ops u i).excess := by
  have hpu := hg.pairing u (lt_length_of_lt_deg hi) i hi
  have hfrom := hg.from_ok u i hi
  have hul : u < s.excess.length := by
    rw [hE, ← hg.len]
    exact lt_length_of_lt_deg hi
  have hwl : (getE s.G u i).to_ < s.excess.length := by
    rw [hE, ← hg.len]
    exact hpu.1
  intro v
  rw [getD_push_excess ops s u i (by rw [hfrom]; exact hul) hwl, hfrom]
  have h1 := hn v
  have h2 := hc u i hi
  have h3 : 0 ≤ min ((getE s.G u i).cap - (getE s.G u i).flow) (s.excess.getD u 0) :=
    le_min (by omega) hx
  have h4 : min ((getE s.G u i).cap - (getE s.G u i).flow) (s.excess.getD u 0)
      ≤ s.excess.getD u 0 := min_le_right _ _
  by_cases c1 : v = u
  · subst c1
    split_ifs <;> omega
  · rw [if_neg c1]
    split_ifs <;> omega

theorem getD_eq_getElem_of_lt {α : Type} (l : List α) (i : Nat) (d : α) (h : i < l.length) :
    l.getD i d = l[i] := by
  rw [List.getD_eq_getElem?_getD, List.getElem?_eq_getElem h]
  rfl

/-- The number of entries equal to `a` after one entry is overwritten. -/
theorem count_set_getD (l : List Nat) (i x a : Nat) (h : i < l.length) :
    ((l.set i x).count a : Int)
      = (l.count a : Int) - (if l.getD i 0 = a then 1 else 0) + (if x = a then 1 else 0) := by
  have e := List.count_set x a l i h
  rw [getD_eq_getElem_of_lt l i 0 h]
  have h1 : (if (l[i] == a) = true then 1 else 0) ≤ l.count a := by
    by_cases c : l[i] = a
    · simp only [c, beq_self_eq_true, if_true]
      exact List.count_pos_iff.mpr (c ▸ List.getElem_mem h)
    · simp [c]
  simp only [beq_iff_eq] at e h1
  rw [e]
  by_cases c1 : l[i] = a
  · by_cases c2 : x = a
    · simp only [c1, c2, if_true] at h1 ⊢
      omega
    · simp only [c1, c2, if_true, if_false] at h1 ⊢
      omega
  · by_cases c2 : x = a
    · simp only [c1, c2, if_true, if_false] at h1 ⊢
      omega
    · simp only [c1, c2, if_false] at h1 ⊢
      omega

theorem exists_index_of_count_pos (l : List Nat) (a : Nat) (h : 0 < l.count a) :
    ∃ w, w < l.length ∧ l.getD w 0 = a := by
  have hm : a ∈ l := List.count_pos_iff.mp h
  obtain ⟨w, hw, e⟩ := List.getElem_of_mem hm
  exact ⟨w, hw, by rw [getD_eq_getElem_of_lt l w 0 hw]; exact e⟩

/-- With two entries equal to `a` there is one at a position other than `u`. -/
theorem exists_other_of_count_ge_two (l : List Nat) (a u : Nat) (h : 2 ≤ l.count a) :
    ∃ w, w < l.length ∧ w ≠ u ∧ l.getD w 0 = a := by
  by_cases hu : u < l.length
  · have hc := count_set_getD l u (a + 1) a hu
    have hpos : 0 < (l.set u (a + 1)).count a := by
      have : ¬ (a + 1 = a) := by omega
      simp only [this, if_false] at hc
      split_ifs at hc <;> omega
    obtain ⟨w, hw, e⟩ := exists_index_of_count_pos _ a hpos
    rw [List.length_set] at hw
    rw [getD_set_eq_ite] at e
    by_cases c : u = w
    · simp [c, hw] at e
    · rw [if_neg (fun h => c h.1)] at e
      exact ⟨w, hw, fun h => c h.symm, e⟩
  · obtain ⟨w, hw, e⟩ := exists_index_of_count_pos l a (by omega)
    exact ⟨w, hw, by omega, e⟩

/-- With a single entry equal to `a`, two positions holding `a` coincide. -/
theorem eq_of_count_eq_one (l : List Nat) (a v w : Nat) (h : l.count a = 1)
    (hv : v < l.length) (hw : w < l.length) (ev : l.getD v 0 = a) (ew : l.getD w 0 = a) :
    v = w := by
  by_contra hne
  have hc := count_set_getD l v (a + 1) a hv
  have h0 : (l.set v (a + 1)).count a = 0 := by
    have : ¬ (a + 1 = a) := by omega
    simp only [this, if_false, ev, if_true, h] at hc
    omega
  have hm : a ∈ l.set v (a + 1) := by
    have hw2 : w < (l.set v (a + 1)).length := by rw [List.length_set]; exact hw
    have e2 : (l.set v (a + 1)).getD w 0 = a := by
      rw [getD_set_eq_ite, if_neg (fun h => hne h.1)]
      exact ew
    rw [getD_eq_getElem_of_lt _ w 0 hw2] at e2
    have hmem := List.getElem_mem hw2
    rwa [e2] at hmem
  exact absurd (List.count_pos_iff.mpr hm) (by omega)

/-- The scan of `relabel` only writes `height[u]`; the value it leaves there is
at most `2 * N`, at most one more than the height of every residual neighbour
other than `u`, and equal to one of these bounds. -/
theorem relabelScan_spec (G : List (List Edge)) (u N : Nat) (height : List Nat)
    (hu : u < height.length) (k : Nat) :
    ∃ m, forLoop
        (fun i h =>
          if (getE G u i).cap > (getE G u i).flow then
            h.set u (min (h.getD u 0) (h.getD (getE G u i).to_ 0 + 1))
          else h) k (height.set u (2 * N)) = height.set u m
      ∧ m ≤ 2 * N
      ∧ (∀ i, i < k → (getE G u i).flow < (getE G u i).cap → (getE G u i).to_ ≠ u →
          m ≤ height.getD (getE G u i).to_ 0 + 1)
      ∧ (m = 2 * N ∨ ∃ i, i < k ∧ (getE G u i).flow < (getE G u i).cap ∧ (getE G u i).to_ ≠ u
          ∧ m = height.getD (getE G u i).to_ 0 + 1) := by
  induction k with
  | zero => exact ⟨2 * N, rfl, le_refl _, fun i hi => absurd hi (Nat.not_lt_zero i), Or.inl rfl⟩
  | succ k ih =>
    obtain ⟨m, hm, h1, h2, h3⟩ := ih
    simp only [forLoop]
    rw [hm]
    by_cases hres : (getE G u k).cap > (getE G u k).flow
    · rw [if_pos hres]
      by_cases hto : (getE G u k).to_ = u
      · refine ⟨m, ?_, h1, ?_, ?_⟩
        · rw [hto]
          simp [getD_set_eq_ite, hu]
        · intro i hi r t
          rcases Nat.lt_succ_iff_lt_or_eq.mp hi with hlt | heq
          · exact h2 i hlt r t
          · subst heq
            exact absurd hto t
        · rcases h3 with h3 | ⟨i, hi, r, t, e⟩
          · exact Or.inl h3
          · exact Or.inr ⟨i, Nat.lt_succ_of_lt hi, r, t, e⟩
      · have hto2 : ¬ u = (getE G u k).to_ := fun e => hto e.symm
        refine ⟨min m (height.getD (getE G u k).to_ 0 + 1), ?_, ?_, ?_, ?_⟩
        · simp [getD_set_eq_ite, hu, hto2]
        · exact le_trans (min_le_left _ _) h1
        · intro i hi r t
          rcases Nat.lt_succ_iff_lt_or_eq.mp hi with hlt | heq
          · exact le_trans (min_le_left _ _) (h2 i hlt r t)
          · subst heq
            exact min_le_right _ _
        · by_cases c : m ≤ height.getD (getE G u k).to_ 0 + 1
          · rw [min_eq_left c]
            rcases h3 with h3 | ⟨i, hi, r, t, e⟩
            · exact Or.inl h3
            · exact Or.inr ⟨i, Nat.lt_succ_of_lt hi, r, t, e⟩
          · rw [min_eq_right (le_of_lt (not_le.mp c))]
            exact Or.inr ⟨k, Nat.lt_succ_self k, hres, hto, rfl⟩
    · rw [if_neg hres]
      refine ⟨m, rfl, h1, ?_, ?_⟩
      · intro i hi r t
        rcases Nat.lt_succ_iff_lt_or_eq.mp hi with hlt | heq
        · exact h2 i hlt r t
        · subst heq
          exact absurd r hres
      · rcases h3 with h3 | ⟨i, hi, r, t, e⟩
        · exact Or.inl h3
        · exact Or.inr ⟨i, Nat.lt_succ_of_lt hi, r, t, e⟩

theorem relabel_G {σ : Type} (ops : RuleOps σ) (s : FlowGraph σ) (u : Nat) :
    (s.relabel ops u).G = s.G := by
  unfold FlowGraph.relabel
  dsimp only
  split_ifs <;> rfl

theorem relabel_excess {σ : Type} (ops : RuleOps σ) (s : FlowGraph σ) (u : Nat) :
    (s.relabel ops u).excess = s.excess := by
  unfold FlowGraph.relabel
  dsimp only
  split_ifs <;> rfl

theorem relabel_N {σ : Type} (ops : RuleOps σ) (s : FlowGraph σ) (u : Nat) :
    (s.relabel ops u).N = s.N := by
  unfold FlowGraph.relabel
  dsimp only
  split_ifs <;> rfl

/-- What `relabel(u)` does to the heights and the histogram: `height[u]`
becomes a value `m` between 1 and `N` that is at most one more than the height
of every residual neighbour other than `u` and, when below `N`, equal to one
more than the height of one of them; `count` loses one at the old height and
gains one at `m` when `m < N`. -/
theorem relabel_spec {σ : Type} (ops : RuleOps σ) (s : FlowGraph σ) (u : Nat)
    (hu : u < s.height.length) (hN : 1 ≤ s.N) :
    ∃ m, (s.relabel ops u).height = s.height.set u m
      ∧ m ≤ s.N ∧ 1 ≤ m
      ∧ (∀ i, i < deg s.G u → (getE s.G u i).flow < (getE s.G u i).cap →
          (getE s.G u i).to_ ≠ u → m ≤ s.height.getD (getE s.G u i).to_ 0 + 1)
      ∧ (m = s.N ∨ (m < s.N ∧ ∃ i, i < deg s.G u ∧ (getE s.G u i).flow < (getE s.G u i).cap
          ∧ (getE s.G u i).to_ ≠ u ∧ m = s.height.getD (getE s.G u i).to_ 0 + 1))
      ∧ (s.relabel ops u).count
          = (if m < s.N then
              (s.count.set (s.height.getD u 0) (s.count.getD (s.height.getD u 0) 0 - 1)).set m
                ((s.count.set (s.height.getD u 0)
                  (s.count.getD (s.height.getD u 0) 0 - 1)).getD m 0 + 1)
            else s.count.set (s.height.getD u 0) (s.count.getD (s.height.getD u 0) 0 - 1))
      ∧ (s.relabel ops u).rule
          = if m < s.N then ops.add s.rule u m (s.excess.getD u 0) else s.rule := by
  obtain ⟨m, hm, h1, h2, h3⟩ := relabelScan_spec s.G u s.N s.height hu (deg s.G u)
  have hscan : relabelScan s.G u (s.height.set u (2 * s.N)) = s.height.set u m := hm
  have hval : (s.height.set u m).getD u 0 = m := by
    rw [getD_set_eq_ite]
    simp [hu]
  unfold FlowGraph.relabel
  simp only [hscan, hval]
  by_cases c : s.N ≤ m
  · rw [if_pos c]
    refine ⟨s.N, ?_, le_refl _, hN, ?_, Or.inl rfl, ?_, ?_⟩
    · simp
    · intro i hi r t
      exact le_trans c (h2 i hi r t)
    · simp
    · simp
  · rw [if_neg c]
    have c2 : m < s.N := not_le.mp c
    refine ⟨m, rfl, le_of_lt c2, ?_, h2, ?_, ?_, ?_⟩
    · rcases h3 with h3 | ⟨i, _, _, _, e⟩
      · omega
      · omega
    · rcases h3 with h3 | ⟨i, hi, r, t, e⟩
      · omega
      · exact Or.inr ⟨c2, i, hi, r, t, e⟩
    · simp [c2]
    · simp [c2]

/-- `relabel(u)` keeps label validity. -/
theorem relabel_labels {σ : Type} (ops : RuleOps σ) (s : FlowGraph σ) (u : Nat)
    (hu : u < s.height.length) (hN : 1 ≤ s.N) (hle : s.height.getD u 0 ≤ s.N)
    (hl : LabelsValid s.G s.height) :
    LabelsValid (s.relabel ops u).G (s.relabel ops u).height := by
  obtain ⟨m, hh, _, _, h2, h3, -⟩ := relabel_spec ops s u hu hN
  rw [relabel_G, hh]
  have hge : s.height.getD u 0 ≤ m := by
    rcases h3 with h3 | ⟨_, i, hi, r, t, e⟩
    · rw [h3]
      exact hle
    · have := hl u i hi r
      omega
  intro v j hj hres
  simp only [getD_set_eq_ite, hu, and_true]
  have hv := hl v j hj hres
  by_cases c1 : u = v
  · subst c1
    rw [if_pos rfl]
    by_cases c2 : u = (getE s.G u j).to_
    · rw [if_pos c2]
      omega
    · rw [if_neg c2]
      exact h2 j hj hres (fun e => c2 e.symm)
  · rw [if_neg c1]
    by_cases c2 : u = (getE s.G v j).to_
    · rw [if_pos c2]
      rw [← c2] at hv
      omega
    · rw [if_neg c2]
      exact hv

/-- `relabel(u)` keeps the invariant of heights and histogram when `u` is
neither source nor sink and is not alone at its height; of the adjacency lists
only the range of the heads is used. -/
theorem relabel_heights_core {σ : Type} (ops : RuleOps σ) (s : FlowGraph σ)
    (u source sink : Nat)
    (hto : ∀ v i, i < deg s.G v → (getE s.G v i).to_ < s.N)
    (hu : u < s.N) (hus : u ≠ source) (hut : u ≠ sink)
    (hsink : sink < s.N)
    (hH : HeightsOK s.N source sink s.height s.count)
    (hc1 : s.count.getD (s.height.getD u 0) 0 ≠ 1) :
    HeightsOK (s.relabel ops u).N source sink (s.relabel ops u).height
      (s.relabel ops u).count := by
  have hul : u < s.height.length := by rw [hH.lenH]; exact hu
  have hN : 1 ≤ s.N := by omega
  obtain ⟨m, hh, hmN, hm1, h2, h3, hcnt, -⟩ := relabel_spec ops s u hul hN
  rw [relabel_N, hh, hcnt]
  have h0len : s.height.getD u 0 < s.count.length := lt_of_le_of_lt (hH.le_N u) hH.lenC
  have hmlen : m < s.count.length := lt_of_le_of_lt hmN hH.lenC
  -- another vertex at the old height of `u`, when that height is below `N`
  have hother : s.height.getD u 0 < s.N →
      ∃ w, w < s.N ∧ w ≠ u ∧ s.height.getD w 0 = s.height.getD u 0 := by
    intro hlt
    by_cases hz : s.height.getD u 0 = 0
    · exact ⟨sink, hsink, fun e => hut e.symm, by rw [hz]; exact hH.snk⟩
    · have hc := hH.cnt (s.height.getD u 0) (by omega) hlt
      have hpos : 0 < s.height.count (s.height.getD u 0) := by
        apply List.count_pos_iff.mpr
        rw [getD_eq_getElem_of_lt s.height u 0 hul]
        exact List.getElem_mem hul
      have h2c : 2 ≤ s.height.count (s.height.getD u 0) := by
        by_contra hcon
        have : s.height.count (s.height.getD u 0) = 1 := by omega
        rw [this] at hc
        exact hc1 (by simpa using hc)
      obtain ⟨w, hw, hne, e⟩ := exists_other_of_count_ge_two s.height _ u h2c
      exact ⟨w, by rw [← hH.lenH]; exact hw, hne, e⟩
  -- every level occupied before is occupied after
  have hlevel : ∀ j, j < s.N → (∃ w, w < s.N ∧ s.height.getD w 0 = j) →
      ∃ w, w < s.N ∧ (s.height.set u m).getD w 0 = j := by
    rintro j hj ⟨w, hw, e⟩
    by_cases c : w = u
    · subst c
      obtain ⟨w2, hw2, hne, e2⟩ := hother (by rw [e]; exact hj)
      refine ⟨w2, hw2, ?_⟩
      rw [getD_set_eq_ite, if_neg (fun h => hne h.1.symm), e2, e]
    · refine ⟨w, hw, ?_⟩
      rw [getD_set_eq_ite, if_neg (fun h => c h.1.symm), e]
  refine ⟨by rw [List.length_set]; exact hH.lenH, ?_, ?_, ?_, ?_, ?_, ?_, ?_⟩
  · split_ifs <;> simp only [List.length_set] <;> exact hH.lenC
  · intro v
    rw [getD_set_eq_ite]
    split_ifs
    · exact hmN
    · exact hH.le_N v
  · rw [getD_set_eq_ite, if_neg (fun h => hus h.1), hH.src]
  · rw [getD_set_eq_ite, if_neg (fun h => hut h.1), hH.snk]
  · intro h h1 hlt
    rw [count_set_getD s.height u m h hul, ← hH.cnt h h1 hlt]
    by_cases cm : m < s.N
    · rw [if_pos cm]
      simp only [getD_set_eq_ite, List.length_set, h0len, hmlen, and_true]
      by_cases a1 : m = h
      · subst a1
        by_cases a2 : s.height.getD u 0 = m
        · simp only [a2, if_true]
        · simp only [a2, if_true, if_false]
          ring
      · by_cases a2 : s.height.getD u 0 = h
        · simp only [a1, a2, if_true, if_false]
          ring
        · simp only [a1, a2, if_false]
          ring
    · rw [if_neg cm]
      simp only [getD_set_eq_ite, h0len, and_true]
      have a1 : ¬ m = h := by omega
      by_cases a2 : s.height.getD u 0 = h
      · simp only [a1, a2, if_true, if_false]
        ring
      · simp only [a1, a2, if_false]
        ring
  · have := hH.cnt0
    by_cases cm : m < s.N
    · rw [if_pos cm]
      simp only [getD_set_eq_ite, List.length_set, h0len, hmlen, and_true]
      have a1 : ¬ m = 0 := by omega
      rw [if_neg a1]
      by_cases a2 : s.height.getD u 0 = 0
      · rw [if_pos a2, a2]
        omega
      · rw [if_neg a2]
        exact this
    · rw [if_neg cm]
      simp only [getD_set_eq_ite, h0len, and_true]
      by_cases a2 : s.height.getD u 0 = 0
      · rw [if_pos a2, a2]
        omega
      · rw [if_neg a2]
        exact this
  · intro v hv hvlt j hj
    apply hlevel j (by omega)
    by_cases c : v = u
    · subst c
      rw [getD_set_eq_ite] at hvlt hj
      simp only [hul, and_self, if_true] at hvlt hj
      rcases h3 with h3 | ⟨_, i, hi, r, t, e⟩
      · omega
      · have htl : (getE s.G v i).to_ < s.N := hto v i hi
        by_cases cj : j = s.height.getD (getE s.G v i).to_ 0
        · exact ⟨_, htl, cj.symm⟩
        · exact hH.nogap _ htl (by omega) j (by omega)
    · rw [getD_set_eq_ite, if_neg (fun h => c h.1.symm)] at hvlt hj
      exact hH.nogap v hv hvlt j hj

/-- `relabel(u)` keeps the invariant of heights and histogram when `u` is
neither source nor sink and is not alone at its height. -/
theorem relabel_heights {σ : Type} (ops : RuleOps σ) (s : FlowGraph σ) (u source sink : Nat)
    (hg : GraphOK s.N s.G) (hu : u < s.N) (hus : u ≠ source) (hut : u ≠ sink)
    (hsink : sink < s.N)
    (hH : HeightsOK s.N source sink s.height s.count)
    (hc1 : s.count.getD (s.height.getD u 0) 0 ≠ 1) :
    HeightsOK (s.relabel ops u).N source sink (s.relabel ops u).height
      (s.relabel ops u).count :=
  relabel_heights_core ops s u source sink
    (fun v i hi => by
      have := (hg.pairing v (lt_length_of_lt_deg hi) i hi).1
      rwa [hg.len] at this)
    hu hus hut hsink hH hc1

theorem gapStep_def {σ : Type} (h i : Nat) (s : FlowGraph σ) :
    gapStep h i s
      = if s.height.getD i 0 < h then s
        else if s.N ≤ s.height.getD i 0 then s
        else
          { s with
            rule := s.rule.deactivate i,
            count := s.count.set (s.height.getD i 0) (s.count.getD (s.height.getD i 0) 0 - 1),
            height := s.height.set i s.N } := rfl

/-- The loop of `gap(h)` after `k` vertices: vertices `v < k` with
`h <= height[v] < N` are at height `N`, nothing else has moved, and the
histogram still counts the vertices at the heights `1 .. N-1`. -/
theorem gapLoop_spec {σ : Type} (s : FlowGraph σ) (h : Nat) (h1 : 1 ≤ h)
    (hlenC : s.N < s.count.length)
    (hcnt : ∀ l, 1 ≤ l → l < s.N → s.count.getD l 0 = (s.height.count l : Int))
    (hcnt0 : s.count.getD 0 0 ≤ 0) (k : Nat) (hk : k ≤ s.height.length) :
    (forLoop (gapStep h) k s).N = s.N
    ∧ (forLoop (gapStep h) k s).G = s.G
    ∧ (forLoop (gapStep h) k s).excess = s.excess
    ∧ (forLoop (gapStep h) k s).height.length = s.height.length
    ∧ (forLoop (gapStep h) k s).count.length = s.count.length
    ∧ (∀ v, (forLoop (gapStep h) k s).height.getD v 0
        = if v < k ∧ h ≤ s.height.getD v 0 ∧ s.height.getD v 0 < s.N then s.N
          else s.height.getD v 0)
    ∧ (∀ l, 1 ≤ l → l < s.N →
        (forLoop (gapStep h) k s).count.getD l 0
          = ((forLoop (gapStep h) k s).height.count l : Int))
    ∧ (forLoop (gapStep h) k s).count.getD 0 0 ≤ 0
    ∧ (forLoop (gapStep h) k s).rule.impl = s.rule.impl
    ∧ (forLoop (gapStep h) k s).rule.active.length = s.rule.active.length
    ∧ (∀ w, (forLoop (gapStep h) k s).rule.isActive w = true → s.rule.isActive w = true)
    ∧ (∀ w, ¬ (h ≤ s.height.getD w 0 ∧ s.height.getD w 0 < s.N) →
        (forLoop (gapStep h) k s).rule.isActive w = s.rule.isActive w) := by
  induction k with
  | zero =>
    refine ⟨rfl, rfl, rfl, rfl, rfl, fun v => ?_, hcnt, hcnt0, rfl, rfl, fun _ h => h,
      fun _ _ => rfl⟩
    simp [forLoop]
  | succ k ih =>
    obtain ⟨e1, e2, e3, e4, e5, e6, e7, e8, r1, r2, r3, r4⟩ := ih (by omega)
    simp only [forLoop]
    have hkk : (forLoop (gapStep h) k s).height.getD k 0 = s.height.getD k 0 := by
      rw [e6, if_neg (fun hc => absurd hc.1 (lt_irrefl _))]
    rw [gapStep_def, hkk, e1]
    by_cases c1 : s.height.getD k 0 < h
    · rw [if_pos c1]
      refine ⟨e1, e2, e3, e4, e5, fun v => ?_, e7, e8, r1, r2, r3, r4⟩
      rw [e6]
      by_cases cv : v = k
      · subst cv
        have : ¬ h ≤ s.height.getD v 0 := by omega
        rw [if_neg (fun hc => absurd hc.1 (lt_irrefl _)), if_neg (fun hc => this hc.2.1)]
      · have : v < k + 1 ↔ v < k := by omega
        simp only [this]
    · rw [if_neg c1]
      by_cases c2 : s.N ≤ s.height.getD k 0
      · rw [if_pos c2]
        refine ⟨e1, e2, e3, e4, e5, fun v => ?_, e7, e8, r1, r2, r3, r4⟩
        rw [e6]
        by_cases cv : v = k
        · subst cv
          have : ¬ s.height.getD v 0 < s.N := by omega
          rw [if_neg (fun hc => absurd hc.1 (lt_irrefl _)), if_neg (fun hc => this hc.2.2)]
        · have : v < k + 1 ↔ v < k := by omega
          simp only [this]
      · rw [if_neg c2]
        have hklen : k < (forLoop (gapStep h) k s).height.length := by rw [e4]; omega
        have hclen : s.height.getD k 0 < (forLoop (gapStep h) k s).count.length := by
          rw [e5]; omega
        refine ⟨rfl, e2, e3, by simp only [List.length_set]; exact e4,
          by simp only [List.length_set]; exact e5, fun v => ?_, fun l l1 l2 => ?_, ?_,
          r1, ?_, ?_, ?_⟩
        · simp only [getD_set_eq_ite, hklen, and_true]
          by_cases cv : k = v
          · subst cv
            have c3 : h ≤ s.height.getD k 0 := by omega
            have c4 : s.height.getD k 0 < s.N := by omega
            rw [if_pos rfl, if_pos ⟨Nat.lt_succ_self k, c3, c4⟩]
          · rw [if_neg cv, e6]
            have : v < k + 1 ↔ v < k := by omega
            simp only [this]
        · simp only
          rw [count_set_getD _ k s.N l hklen, hkk, ← e7 l l1 l2]
          simp only [getD_set_eq_ite, hclen, and_true]
          have : ¬ s.N = l := by omega
          simp only [this, if_false]
          by_cases cl : s.height.getD k 0 = l
          · rw [if_pos cl, if_pos cl, cl]
            ring
          · rw [if_neg cl, if_neg cl]
            ring
        · simp only [getD_set_eq_ite, hclen, and_true]
          have : ¬ s.height.getD k 0 = 0 := by omega
          rw [if_neg this]
          exact e8
        · show ((forLoop (gapStep h) k s).rule.active.set k false).length = _
          rw [List.length_set]
          exact r2
        · intro w hw
          apply r3 w
          have hw2 : ((forLoop (gapStep h) k s).rule.active.set k false).getD w false = true := hw
          rw [getD_set_eq_ite] at hw2
          by_cases c : k = w ∧ k < (forLoop (gapStep h) k s).rule.active.length
          · rw [if_pos c] at hw2
            exact absurd hw2 (by decide)
          · rw [if_neg c] at hw2
            exact hw2
        · intro w hw
          show ((forLoop (gapStep h) k s).rule.active.set k false).getD w false = _
          rw [getD_set_eq_ite]
          have c : ¬ (k = w ∧ k < (forLoop (gapStep h) k s).rule.active.length) := by
            rintro ⟨rfl, _⟩
            exact hw ⟨by omega, by omega⟩
          rw [if_neg c]
          exact r4 w hw

theorem gap_N {σ : Type} (ops : RuleOps σ) (s : FlowGraph σ) (h : Nat) : (s.gap ops h).N = s.N := by
  show (forLoop (gapStep h) s.G.length s).N = s.N
  induction s.G.length with
  | zero => rfl
  | succ k ih =>
    simp only [forLoop]
    rw [gapStep_def]
    split_ifs <;> exact ih

theorem gap_G {σ : Type} (ops : RuleOps σ) (s : FlowGraph σ) (h : Nat) : (s.gap ops h).G = s.G := by
  show (forLoop (gapStep h) s.G.length s).G = s.G
  induction s.G.length with
  | zero => rfl
  | succ k ih =>
    simp only [forLoop]
    rw [gapStep_def]
    split_ifs <;> exact ih

theorem gap_excess {σ : Type} (ops : RuleOps σ) (s : FlowGraph σ) (h : Nat) :
    (s.gap ops h).excess = s.excess := by
  show (forLoop (gapStep h) s.G.length s).excess = s.excess
  induction s.G.length with
  | zero => rfl
  | succ k ih =>
    simp only [forLoop]
    rw [gapStep_def]
    split_ifs <;> exact ih

/-- The heights after `gap(h)`. -/
theorem gap_height {σ : Type} (ops : RuleOps σ) (s : FlowGraph σ) (h source sink : Nat)
    (h1 : 1 ≤ h) (hlen : s.G.length = s.N)
    (hH : HeightsOK s.N source sink s.height s.count) (v : Nat) :
    (s.gap ops h).height.getD v 0
      = if h ≤ s.height.getD v 0 ∧ s.height.getD v 0 < s.N then s.N else s.height.getD v 0 := by
  obtain ⟨_, _, _, _, _, e6, -⟩ :=
    gapLoop_spec s h h1 hH.lenC hH.cnt hH.cnt0 s.G.length (by rw [hlen, hH.lenH])
  show (forLoop (gapStep h) s.G.length s).height.getD v 0 = _
  rw [e6]
  by_cases c : v < s.G.length
  · simp only [c, true_and]
  · have : s.height.getD v 0 = 0 := by
      rw [List.getD_eq_getElem?_getD, List.getElem?_eq_none (by rw [hH.lenH, ← hlen]; omega)]
      rfl
    have c2 : ¬ h ≤ s.height.getD v 0 := by omega
    rw [if_neg (fun hc => c hc.1), if_neg (fun hc => c2 hc.1)]

/-- `gap(h)` with `h >= 1` keeps the invariant of heights and histogram. -/
theorem gap_heights {σ : Type} (ops : RuleOps σ) (s : FlowGraph σ) (h source sink : Nat)
    (h1 : 1 ≤ h) (hlen : s.G.length = s.N)
    (hH : HeightsOK s.N source sink s.height s.count) :
    HeightsOK (s.gap ops h).N source sink (s.gap ops h).height (s.gap ops h).count := by
  have hgh := gap_height ops s h source sink h1 hlen hH
  obtain ⟨e1, _, _, e4, e5, _, e7, e8, -⟩ :=
    gapLoop_spec s h h1 hH.lenC hH.cnt hH.cnt0 s.G.length (by rw [hlen, hH.lenH])
  rw [gap_N]
  refine ⟨by rw [← hH.lenH]; exact e4, lt_of_lt_of_eq hH.lenC e5.symm, ?_, ?_, ?_, e7, e8, ?_⟩
  · intro v
    rw [hgh]
    split_ifs
    · exact le_refl _
    · exact hH.le_N v
  · rw [hgh, hH.src]
    split_ifs <;> rfl
  · rw [hgh, hH.snk]
    have : ¬ h ≤ 0 := by omega
    rw [if_neg (fun hc => this hc.1)]
  · intro v hv hvlt j hj
    rw [hgh] at hvlt hj
    by_cases c : h ≤ s.height.getD v 0 ∧ s.height.getD v 0 < s.N
    · rw [if_pos c] at hvlt
      omega
    · rw [if_neg c] at hvlt hj
      obtain ⟨w, hw, e⟩ := hH.nogap v hv hvlt j hj
      refine ⟨w, hw, ?_⟩
      rw [hgh, e]
      have : ¬ (h ≤ j ∧ j < s.N) := by
        intro hc
        apply c
        exact ⟨by omega, hvlt⟩
      rw [if_neg this]

/-- `gap(h)` keeps label validity when no residual entry leads from a vertex
that is lifted to one that stays below `h`. -/
theorem gap_labels {σ : Type} (ops : RuleOps σ) (s : FlowGraph σ) (h source sink : Nat)
    (h1 : 1 ≤ h) (hlen : s.G.length = s.N)
    (hH : HeightsOK s.N source sink s.height s.count)
    (hl : LabelsValid s.G s.height)
    (hno : ∀ v i, i < deg s.G v → (getE s.G v i).flow < (getE s.G v i).cap →
      h ≤ s.height.getD v 0 → s.height.getD v 0 < s.N →
      h ≤ s.height.getD (getE s.G v i).to_ 0) :
    LabelsValid (s.gap ops h).G (s.gap ops h).height := by
  have hgh := gap_height ops s h source sink h1 hlen hH
  rw [gap_G]
  intro v i hi hres
  rw [hgh, hgh]
  have hv := hl v i hi hres
  have hle := hH.le_N (getE s.G v i).to_
  by_cases c : h ≤ s.height.getD v 0 ∧ s.height.getD v 0 < s.N
  · have := hno v i hi hres c.1 c.2
    rw [if_pos c]
    by_cases c2 : h ≤ s.height.getD (getE s.G v i).to_ 0
        ∧ s.height.getD (getE s.G v i).to_ 0 < s.N
    · rw [if_pos c2]
      omega
    · rw [if_neg c2]
      have : s.N ≤ s.height.getD (getE s.G v i).to_ 0 := by
        by_contra hc
        exact c2 ⟨this, by omega⟩
      omega
  · rw [if_neg c]
    split_ifs <;> omega

/-- Induction over a `for` loop. -/
theorem forLoop_induction {S : Type} (body : Nat → S → S) (P : Nat → S → Prop) (n : Nat) (s : S)
    (h0 : P 0 s) (hstep : ∀ k, k < n → ∀ t, P k t → P (k + 1) (body k t)) :
    P n (forLoop body n s) := by
  induction n with
  | zero => exact h0
  | succ n ih =>
    simp only [forLoop]
    exact hstep n (Nat.lt_succ_self n) _
      (ih (fun k hk t hP => hstep k (Nat.lt_succ_of_lt hk) t hP))

/-- A push along a residual entry that descends by one keeps the invariant. -/
theorem push_PRInv {σ : Type} (ops : RuleOps σ) (s : FlowGraph σ) (u i source sink : Nat)
    (hi : i < deg s.G u) (hinv : PRInv s source sink)
    (hh : s.height.getD (getE s.G u i).to_ 0 ≤ s.height.getD u 0 + 1) :
    PRInv (s.push ops u i) source sink := by
  have hfrom := hinv.graph.from_ok u i hi
  have hcap := hinv.capacity u i hi
  have hx := hinv.nonneg u
  have ha0 : 0 ≤ min ((getE s.G u i).cap - (getE s.G u i).flow)
      (s.excess.getD (getE s.G u i).from_ 0) := by
    rw [hfrom]
    exact le_min (by omega) hx
  refine ⟨?_, ?_, hinv.src_lt, hinv.snk_lt, hinv.ne, ?_, ?_, ?_, ?_, ?_, hinv.heights⟩
  · rw [push_G]
    exact pushAmount_graphOK s u i _ s.N hi hinv.graph
  · rw [length_push_excess]
    exact hinv.lenE
  · exact push_antisym ops s u i hi hinv.graph.pairing hinv.antisym
  · rw [push_G]
    exact pushAmount_capacity s u i _ hi hinv.graph.pairing hinv.capacity ha0 (min_le_left _ _)
  · exact push_conserved ops s u i source hi hinv.graph hinv.lenE hinv.conserved
  · exact push_nonneg ops s u i hi hinv.graph hinv.lenE hinv.nonneg hinv.capacity hx
  · rw [push_G]
    exact pushAmount_labels s u i _ hi hinv.graph.pairing hinv.labels ha0 hh

theorem dischargeStep_def {σ : Type} (ops : RuleOps σ) (u i : Nat) (s : FlowGraph σ) :
    dischargeStep ops u i s
      = if 0 < s.excess.getD u 0 then
          if (getE s.G u i).cap > (getE s.G u i).flow
              ∧ s.height.getD u 0 = s.height.getD (getE s.G u i).to_ 0 + 1 then
            s.push ops u i
          else s
        else s := rfl

/-- The flow of an entry of `u` after a push along the entry `G[u][i]` to
another vertex. -/
theorem flow_push_same_vertex {σ : Type} (ops : RuleOps σ) (s : FlowGraph σ) (u i j : Nat)
    (hi : i < deg s.G u) (hp : Pairing s.G) (hto : (getE s.G u i).to_ ≠ u) :
    (getE (s.push ops u i).G u j).flow
      = (getE s.G u j).flow
        + (if j = i then min ((getE s.G u i).cap - (getE s.G u i).flow)
            (s.excess.getD (getE s.G u i).from_ 0) else 0) := by
  have hr := (hp u (lt_length_of_lt_deg hi) i hi).2.1
  rw [push_G, getE_pushAmount s u i _ hi hr]
  have c : ¬ (u = (getE s.G u i).to_ ∧ j = (getE s.G u i).index) := fun h => hto h.1.symm
  simp only [true_and, if_neg c, sub_zero]

/-- The state after the loop of `discharge(u)`: the invariant holds, heights
and histogram are untouched, and if `u` still has excess then none of its
entries is residual and descends by one. -/
theorem dischargeLoop_spec {σ : Type} (ops : RuleOps σ) (s : FlowGraph σ) (u source sink : Nat)
    (hinv : PRInv s source sink) (k : Nat) (hk : k ≤ deg s.G u) :
    PRInv (forLoop (dischargeStep ops u) k s) source sink
    ∧ (forLoop (dischargeStep ops u) k s).height = s.height
    ∧ (forLoop (dischargeStep ops u) k s).count = s.count
    ∧ (forLoop (dischargeStep ops u) k s).N = s.N
    ∧ (∀ v, deg (forLoop (dischargeStep ops u) k s).G v = deg s.G v)
    ∧ (0 < (forLoop (dischargeStep ops u) k s).excess.getD u 0 →
        ∀ i, i < k →
          ¬ ((getE (forLoop (dischargeStep ops u) k s).G u i).flow
                < (getE (forLoop (dischargeStep ops u) k s).G u i).cap
              ∧ s.height.getD u 0
                = s.height.getD (getE (forLoop (dischargeStep ops u) k s).G u i).to_ 0 + 1)) := by
  induction k with
  | zero =>
    exact ⟨hinv, rfl, rfl, rfl, fun _ => rfl, fun _ i hi => absurd hi (Nat.not_lt_zero i)⟩
  | succ k ih =>
    obtain ⟨p1, p2, p3, p4, p5, p6⟩ := ih (by omega)
    simp only [forLoop]
    rw [dischargeStep_def]
    by_cases hx : 0 < (forLoop (dischargeStep ops u) k s).excess.getD u 0
    · rw [if_pos hx]
      by_cases hadm : (getE (forLoop (dischargeStep ops u) k s).G u k).cap
            > (getE (forLoop (dischargeStep ops u) k s).G u k).flow
          ∧ (forLoop (dischargeStep ops u) k s).height.getD u 0
            = (forLoop (dischargeStep ops u) k s).height.getD
                (getE (forLoop (dischargeStep ops u) k s).G u k).to_ 0 + 1
      · rw [if_pos hadm]
        have hkd : k < deg (forLoop (dischargeStep ops u) k s).G u := by rw [p5]; omega
        have hto : (getE (forLoop (dischargeStep ops u) k s).G u k).to_ ≠ u := by
          intro e
          have := hadm.2
          rw [e] at this
          omega
        have hfrom := p1.graph.from_ok u k hkd
        refine ⟨push_PRInv ops _ u k source sink hkd p1 (by omega), p2, p3, p4, ?_, ?_⟩
        · intro v
          rw [push_G, deg_pushAmount, p5]
        · intro hx2 i hi
          rw [push_G, getE_pushAmount _ u k _ hkd
            (p1.graph.pairing u (lt_length_of_lt_deg hkd) k hkd).2.1]
          simp only
          have c : ¬ (u = (getE (forLoop (dischargeStep ops u) k s).G u k).to_
              ∧ i = (getE (forLoop (dischargeStep ops u) k s).G u k).index) :=
            fun h => hto h.1.symm
          rw [if_neg c]
          rcases Nat.lt_succ_iff_lt_or_eq.mp hi with hlt | heq
          · have c2 : ¬ (True ∧ i = k) := fun h => by omega
            rw [if_neg c2, add_zero, sub_zero]
            exact p6 hx i hlt
          · subst heq
            rw [if_pos ⟨trivial, rfl⟩, sub_zero]
            -- the push was saturating, since excess is left
            have hexc := getD_push_excess ops (forLoop (dischargeStep ops u) i s) u i
              (by rw [hfrom, p1.lenE, ← p1.graph.len]; exact lt_length_of_lt_deg hkd)
              (by rw [p1.lenE, ← p1.graph.len]
                  exact (p1.graph.pairing u (lt_length_of_lt_deg hkd) i hkd).1) u
            rw [hfrom] at hexc ⊢
            rw [if_pos rfl, if_neg (fun e => hto e.symm)] at hexc
            rw [hexc] at hx2
            intro hc
            have := hc.1
            rcases min_cases ((getE (forLoop (dischargeStep ops u) i s).G u i).cap
                - (getE (forLoop (dischargeStep ops u) i s).G u i).flow)
              ((forLoop (dischargeStep ops u) i s).excess.getD u 0) with ⟨e, _⟩ | ⟨e, _⟩
            · rw [e] at this
              omega
            · rw [e] at hx2
              omega
      · rw [if_neg hadm]
        refine ⟨p1, p2, p3, p4, p5, ?_⟩
        intro _ i hi
        rcases Nat.lt_succ_iff_lt_or_eq.mp hi with hlt | heq
        · exact p6 hx i hlt
        · subst heq
          rw [p2] at hadm
          exact fun hc => hadm ⟨hc.1, hc.2⟩
    · rw [if_neg hx]
      exact ⟨p1, p2, p3, p4, p5, fun h => absurd h hx⟩

theorem discharge_def {σ : Type} (ops : RuleOps σ) (s : FlowGraph σ) (u : Nat) :
    s.discharge ops u
      = if 0 < (forLoop (dischargeStep ops u) (deg s.G u) s).excess.getD u 0 then
          if (forLoop (dischargeStep ops u) (deg s.G u) s).count.getD
              ((forLoop (dischargeStep ops u) (deg s.G u) s).height.getD u 0) 0 = 1 then
            (forLoop (dischargeStep ops u) (deg s.G u) s).gap ops
              ((forLoop (dischargeStep ops u) (deg s.G u) s).height.getD u 0)
          else (forLoop (dischargeStep ops u) (deg s.G u) s).relabel ops u
        else forLoop (dischargeStep ops u) (deg s.G u) s := rfl

/-- The invariant holds after `gap(height[u])` when `u` is alone at its height
and none of its residual entries descends by one. -/
theorem gap_PRInv {σ : Type} (ops : RuleOps σ) (s : FlowGraph σ) (u source sink : Nat)
    (hu : u < s.N) (hinv : PRInv s source sink)
    (hc1 : s.count.getD (s.height.getD u 0) 0 = 1)
    (hpost : ∀ i, i < deg s.G u →
      ¬ ((getE s.G u i).flow < (getE s.G u i).cap
        ∧ s.height.getD u 0 = s.height.getD (getE s.G u i).to_ 0 + 1)) :
    PRInv (s.gap ops (s.height.getD u 0)) source sink := by
  have hH := hinv.heights
  have h1 : 1 ≤ s.height.getD u 0 := by
    by_contra hc
    have hz : s.height.getD u 0 = 0 := by omega
    rw [hz] at hc1
    have := hH.cnt0
    omega
  have hul : u < s.height.length := by rw [hH.lenH]; exact hu
  refine ⟨?_, ?_, ?_, ?_, hinv.ne, ?_, ?_, ?_, ?_, ?_, ?_⟩
  · rw [gap_N, gap_G]; exact hinv.graph
  · rw [gap_N, gap_excess]; exact hinv.lenE
  · rw [gap_N]; exact hinv.src_lt
  · rw [gap_N]; exact hinv.snk_lt
  · rw [gap_G]; exact hinv.antisym
  · rw [gap_G]; exact hinv.capacity
  · rw [gap_G, gap_excess]; exact hinv.conserved
  · rw [gap_excess]; exact hinv.nonneg
  · apply gap_labels ops s _ source sink h1 hinv.graph.len hH hinv.labels
    intro v i hi hres hge hlt
    by_contra hcon
    have hval := hinv.labels v i hi hres
    have hvh : s.height.getD v 0 = s.height.getD u 0 := by omega
    have hcount : s.height.count (s.height.getD u 0) = 1 := by
      have := hH.cnt (s.height.getD u 0) h1 (by omega)
      rw [hc1] at this
      exact_mod_cast this.symm
    have hvl : v < s.height.length := by
      rw [hH.lenH, ← hinv.graph.len]
      exact lt_length_of_lt_deg hi
    have hvu : v = u := eq_of_count_eq_one s.height _ v u hcount hvl hul hvh rfl
    subst hvu
    exact hpost i hi ⟨hres, by omega⟩
  · exact gap_heights ops s _ source sink h1 hinv.graph.len hH

/-- The invariant holds after `relabel(u)` when `u` is neither source nor sink
and is not alone at its height. -/
theorem relabel_PRInv {σ : Type} (ops : RuleOps σ) (s : FlowGraph σ) (u source sink : Nat)
    (hu : u < s.N) (hus : u ≠ source) (hut : u ≠ sink) (hinv : PRInv s source sink)
    (hc1 : s.count.getD (s.height.getD u 0) 0 ≠ 1) :
    PRInv (s.relabel ops u) source sink := by
  have hH := hinv.heights
  have hul : u < s.height.length := by rw [hH.lenH]; exact hu
  refine ⟨?_, ?_, ?_, ?_, hinv.ne, ?_, ?_, ?_, ?_, ?_, ?_⟩
  · rw [relabel_N, relabel_G]; exact hinv.graph
  · rw [relabel_N, relabel_excess]; exact hinv.lenE
  · rw [relabel_N]; exact hinv.src_lt
  · rw [relabel_N]; exact hinv.snk_lt
  · rw [relabel_G]; exact hinv.antisym
  · rw [relabel_G]; exact hinv.capacity
  · rw [relabel_G, relabel_excess]; exact hinv.conserved
  · rw [relabel_excess]; exact hinv.nonneg
  · exact relabel_labels ops s u hul (by omega) (hH.le_N u) hinv.labels
  · exact relabel_heights ops s u source sink hinv.graph hu hus hut hinv.snk_lt hH hc1

/-- `discharge(u)` keeps the invariant of the push-relabel run for every vertex
`u` other than source and sink. -/
theorem discharge_PRInv {σ : Type} (ops : RuleOps σ) (s : FlowGraph σ) (u source sink : Nat)
    (hu : u < s.N) (hus : u ≠ source) (hut : u ≠ sink) (hinv : PRInv s source sink) :
    PRInv (s.discharge ops u) source sink := by
  obtain ⟨p1, p2, p3, p4, p5, p6⟩ :=
    dischargeLoop_spec ops s u source sink hinv (deg s.G u) (le_refl _)
  rw [discharge_def]
  by_cases hx : 0 < (forLoop (dischargeStep ops u) (deg s.G u) s).excess.getD u 0
  · rw [if_pos hx]
    by_cases hc : (forLoop (dischargeStep ops u) (deg s.G u) s).count.getD
        ((forLoop (dischargeStep ops u) (deg s.G u) s).height.getD u 0) 0 = 1
    · rw [if_pos hc]
      apply gap_PRInv ops _ u source sink (by rw [p4]; exact hu) p1 hc
      intro i hi
      rw [p5] at hi
      rw [p2]
      exact p6 hx i hi
    · rw [if_neg hc]
      exact relabel_PRInv ops _ u source sink (by rw [p4]; exact hu) hus hut p1 hc
  · rw [if_neg hx]
    exact p1

theorem discharge_N {σ : Type} (ops : RuleOps σ) (s : FlowGraph σ) (u source sink : Nat)
    (hinv : PRInv s source sink) : (s.discharge ops u).N = s.N := by
  obtain ⟨_, _, _, p4, _, _⟩ :=
    dischargeLoop_spec ops s u source sink hinv (deg s.G u) (le_refl _)
  rw [discharge_def]
  split_ifs
  · rw [gap_N, p4]
  · rw [relabel_N, p4]
  · exact p4

theorem getD_replicate_zero (n v : Nat) : (List.replicate n (0 : Int)).getD v 0 = 0 := by
  rw [List.getD_eq_getElem?_getD]
  by_cases h : v < n
  · rw [List.getElem?_eq_getElem (by simpa using h)]
    simp
  · rw [List.getElem?_eq_none (by simpa using h)]
    rfl

theorem getD_replicate_zero_nat (n v : Nat) : (List.replicate n (0 : Nat)).getD v 0 = 0 := by
  rw [List.getD_eq_getElem?_getD]
  by_cases h : v < n
  · rw [List.getElem?_eq_getElem (by simpa using h)]
    simp
  · rw [List.getElem?_eq_none (by simpa using h)]
    rfl

theorem initPushRelabel_def {σ : Type} (ops : RuleOps σ) (s : FlowGraph σ) (source sink : Nat) :
    s.initPushRelabel ops source sink
      = { forLoop (initStep ops source) (deg s.G source)
            { s with
              height := s.height.set source s.N,
              rule := (s.rule.activate source).activate sink } with
          excess := (forLoop (initStep ops source) (deg s.G source)
            { s with
              height := s.height.set source s.N,
              rule := (s.rule.activate source).activate sink }).excess.set source 0 } := rfl

/-- The saturating loop of `minCutPushRelabel` after `k` entries of the
source. -/
theorem initLoop_spec {σ : Type} (ops : RuleOps σ) (s : FlowGraph σ) (source : Nat)
    (hg : GraphOK s.N s.G) (hsrc : source < s.N)
    (hflow0 : ∀ u i, (getE s.G u i).flow = 0) (hcap0 : ∀ u i, 0 ≤ (getE s.G u i).cap)
    (hE : s.excess.length = s.N) (hex0 : ∀ v, s.excess.getD v 0 = 0)
    (k : Nat) (hk : k ≤ deg s.G source) :
    (forLoop (initStep ops source) k s).N = s.N
    ∧ (forLoop (initStep ops source) k s).height = s.height
    ∧ (forLoop (initStep ops source) k s).count = s.count
    ∧ GraphOK s.N (forLoop (initStep ops source) k s).G
    ∧ (∀ v, deg (forLoop (initStep ops source) k s).G v = deg s.G v)
    ∧ (∀ v j, (getE (forLoop (initStep ops source) k s).G v j).cap = (getE s.G v j).cap
        ∧ (getE (forLoop (initStep ops source) k s).G v j).to_ = (getE s.G v j).to_)
    ∧ FlowAntisym (forLoop (initStep ops source) k s).G
    ∧ CapacityOK (forLoop (initStep ops source) k s).G
    ∧ (forLoop (initStep ops source) k s).excess.length = s.N
    ∧ Conserved (forLoop (initStep ops source) k s).G source
        (forLoop (initStep ops source) k s).excess
    ∧ (∀ v, v ≠ source → 0 ≤ (forLoop (initStep ops source) k s).excess.getD v 0)
    ∧ (∀ i, i < deg s.G source → (getE s.G source i).to_ ≠ source →
        (getE (forLoop (initStep ops source) k s).G source i).flow
          = if i < k then (getE s.G source i).cap else 0) := by
  induction k with
  | zero =>
    refine ⟨rfl, rfl, rfl, hg, fun _ => rfl, fun _ _ => ⟨rfl, rfl⟩, ?_, ?_, hE, ?_, ?_, ?_⟩
    · intro u _ i _
      simp only [forLoop, hflow0]
      rfl
    · intro u i _
      simp only [forLoop, hflow0]
      exact hcap0 u i
    · intro v _ _
      simp only [forLoop, outSum, hflow0, hex0]
      simp
    · intro v _
      simp only [forLoop, hex0]
      exact le_refl _
    · intro i _ _
      simp only [forLoop, hflow0]
      simp
  | succ k ih =>
    obtain ⟨e1, e2, e3, e4, e5, e6, e7, e8, e9, e10, e11, e12⟩ := ih (by omega)
    simp only [forLoop]
    generalize hT : forLoop (initStep ops source) k s = t at *
    obtain ⟨t0, hG0, hN0, hh0, hc0, hE0, hstep⟩ : ∃ t0 : FlowGraph σ, t0.G = t.G ∧ t0.N = t.N
        ∧ t0.height = t.height ∧ t0.count = t.count
        ∧ t0.excess = t.excess.set source (getE t.G source k).cap
        ∧ initStep ops source k t = t0.push ops source k :=
      ⟨{ t with excess := t.excess.set source (getE t.G source k).cap },
        rfl, rfl, rfl, rfl, rfl, rfl⟩
    rw [hstep]
    rw [← hG0] at e4 e5 e6 e7 e8 e10 e12
    have hkd : k < deg t0.G source := by rw [e5]; omega
    have hsl : source < t.excess.length := by rw [e9]; exact hsrc
    have hpk := e4.pairing source (lt_length_of_lt_deg hkd) k hkd
    have hfrom : (getE t0.G source k).from_ = source := e4.from_ok source k hkd
    have hcapk : 0 ≤ (getE t0.G source k).cap := by rw [(e6 source k).1]; exact hcap0 _ _
    have hck := e8 source k hkd
    have hE0len : t0.excess.length = s.N := by
      rw [hE0, List.length_set]
      exact e9
    have hx0 : t0.excess.getD source 0 = (getE t0.G source k).cap := by
      rw [hE0, getD_set_eq_ite, hG0]
      simp [hsl]
    have hxv : ∀ v, v ≠ source → t0.excess.getD v 0 = t.excess.getD v 0 := by
      intro v hv
      rw [hE0, getD_set_eq_ite, if_neg (fun h => hv h.1.symm)]
    have ha0 : 0 ≤ min ((getE t0.G source k).cap - (getE t0.G source k).flow)
        (t0.excess.getD (getE t0.G source k).from_ 0) := by
      rw [hfrom, hx0]
      exact le_min (by omega) hcapk
    refine ⟨by rw [← e1, ← hN0]; rfl, by rw [← e2, ← hh0]; rfl, by rw [← e3, ← hc0]; rfl,
      ?_, ?_, ?_, ?_, ?_, ?_, ?_, ?_, ?_⟩
    · rw [push_G]
      exact pushAmount_graphOK _ source k _ s.N hkd e4
    · intro v
      rw [push_G, deg_pushAmount]
      exact e5 v
    · intro v j
      rw [push_G, getE_pushAmount _ source k _ hkd hpk.2.1]
      exact e6 v j
    · exact push_antisym ops _ source k hkd e4.pairing e7
    · rw [push_G]
      exact pushAmount_capacity _ source k _ hkd e4.pairing e8 ha0 (min_le_left _ _)
    · rw [length_push_excess]
      exact hE0len
    · apply push_conserved ops _ source k source hkd (by rw [hN0, e1]; exact e4)
        (by rw [hN0, e1]; exact hE0len)
      intro v hv hvs
      rw [hxv v hvs]
      exact e10 v hv hvs
    · intro v hvs
      rw [getD_push_excess ops _ source k
        (by rw [hfrom, hE0len]; exact hsrc)
        (by rw [hE0len, ← e4.len]; exact hpk.1)]
      rw [hfrom, if_neg hvs, hxv v hvs]
      have h1 := e11 v hvs
      rw [hfrom] at ha0
      split_ifs <;> omega
    · intro i hi hto
      have hi2 : i < deg t0.G source := by rw [e5]; exact hi
      have hto2 : (getE t0.G source i).to_ ≠ source := by rw [(e6 source i).2]; exact hto
      rw [push_G, getE_pushAmount _ source k _ hkd hpk.2.1]
      simp only
      have c : ¬ (source = (getE t0.G source k).to_ ∧ i = (getE t0.G source k).index) := by
        rintro ⟨c1, c2⟩
        apply hto2
        have := hpk.2.2.1
        rw [← c1, ← c2] at this
        exact this
      rw [if_neg c, sub_zero, e12 i hi hto]
      by_cases cik : i = k
      · subst cik
        rw [if_neg (lt_irrefl i), if_pos (⟨trivial, rfl⟩ : True ∧ i = i),
          if_pos (Nat.lt_succ_self i), zero_add, hfrom, hx0]
        have hz := e12 i hi hto
        rw [if_neg (lt_irrefl i)] at hz
        rw [hz, sub_zero, min_self]
        exact (e6 source i).1
      · have cik2 : ¬ (True ∧ i = k) := fun h => cik h.2
        have : i < k + 1 ↔ i < k := by omega
        simp only [this, if_neg cik2, add_zero]

/-- The first part of `minCutPushRelabel` establishes the invariant of the run
from a fresh state. -/
theorem init_PRInv {σ : Type} (ops : RuleOps σ) (s : FlowGraph σ) (source sink : Nat)
    (hg : GraphOK s.N s.G)
    (hflow0 : ∀ u i, (getE s.G u i).flow = 0) (hcap0 : ∀ u i, 0 ≤ (getE s.G u i).cap)
    (hex : s.excess = List.replicate s.N 0) (hht : s.height = List.replicate s.N 0)
    (hct : s.count = List.replicate (s.N + 1) 0)
    (hsrc : source < s.N) (hsnk : sink < s.N) (hne : source ≠ sink) :
    PRInv (s.initPushRelabel ops source sink) source sink
    ∧ (s.initPushRelabel ops source sink).N = s.N
    ∧ (∀ v, deg (s.initPushRelabel ops source sink).G v = deg s.G v)
    ∧ (∀ v j, (getE (s.initPushRelabel ops source sink).G v j).cap = (getE s.G v j).cap
        ∧ (getE (s.initPushRelabel ops source sink).G v j).to_ = (getE s.G v j).to_) := by
  rw [initPushRelabel_def]
  obtain ⟨s2, hG2, hN2, hE2, hh2, hc2, hs2⟩ : ∃ s2 : FlowGraph σ, s2.G = s.G ∧ s2.N = s.N
      ∧ s2.excess = s.excess ∧ s2.height = s.height.set source s.N ∧ s2.count = s.count
      ∧ s2 = { s with
          height := s.height.set source s.N,
          rule := (s.rule.activate source).activate sink } :=
    ⟨{ s with
        height := s.height.set source s.N,
        rule := (s.rule.activate source).activate sink }, rfl, rfl, rfl, rfl, rfl, rfl⟩
  rw [← hs2]
  have hlenE : s.excess.length = s.N := by rw [hex]; simp
  obtain ⟨e1, e2, e3, e4, e5, e6, e7, e8, e9, e10, e11, e12⟩ :=
    initLoop_spec ops s2 source (by rw [hN2, hG2]; exact hg) (by rw [hN2]; exact hsrc)
      (by rw [hG2]; exact hflow0) (by rw [hG2]; exact hcap0)
      (by rw [hN2, hE2]; exact hlenE)
      (by intro v; rw [hE2, hex]; exact getD_replicate_zero _ _)
      (deg s.G source) (by rw [hG2])
  rw [hG2] at e5 e6 e12
  generalize forLoop (initStep ops source) (deg s.G source) s2 = t at *
  rw [hN2] at e1 e4 e9
  have hsl : source < t.excess.length := by rw [e9]; exact hsrc
  have hhv : ∀ v, t.height.getD v 0 = if v = source then s.N else 0 := by
    intro v
    rw [e2, hh2, hht, getD_set_eq_ite, getD_replicate_zero_nat]
    by_cases c : source = v
    · subst c
      simp [hsrc]
    · rw [if_neg (fun h => c h.1), if_neg (fun h => c h.symm)]
  refine ⟨⟨?_, ?_, ?_, ?_, hne, e7, e8, ?_, ?_, ?_, ?_⟩, e1, e5, e6⟩
  · show GraphOK t.N t.G
    rw [e1]; exact e4
  · show (t.excess.set source 0).length = t.N
    rw [List.length_set, e9, e1]
  · show source < t.N
    rw [e1]; exact hsrc
  · show sink < t.N
    rw [e1]; exact hsnk
  · intro v hv hvs
    show (t.excess.set source 0).getD v 0 + outSum t.G v = 0
    rw [getD_set_eq_ite, if_neg (fun h => hvs h.1.symm)]
    exact e10 v hv hvs
  · intro v
    show 0 ≤ (t.excess.set source 0).getD v 0
    rw [getD_set_eq_ite]
    by_cases c : source = v
    · rw [if_pos ⟨c, hsl⟩]
    · rw [if_neg (fun h => c h.1)]
      exact e11 v (fun h => c h.symm)
  · intro v i hi0 hres0
    have hi : i < deg t.G v := hi0
    have hres : (getE t.G v i).flow < (getE t.G v i).cap := hres0
    clear hi0 hres0
    show t.height.getD v 0 ≤ t.height.getD (getE t.G v i).to_ 0 + 1
    rw [hhv, hhv]
    by_cases c : v = source
    · subst c
      rw [if_pos rfl]
      by_cases c2 : (getE t.G v i).to_ = v
      · rw [if_pos c2]
        omega
      · exfalso
        have hto : (getE s.G v i).to_ ≠ v := by rw [← (e6 v i).2]; exact c2
        have := e12 i (by rw [← e5]; exact hi) hto
        rw [if_pos (by rw [← e5]; exact hi), ← (e6 v i).1] at this
        omega
    · rw [if_neg c]
      omega
  · show HeightsOK t.N source sink t.height t.count
    rw [e1]
    have hlenH : t.height.length = s.N := by rw [e2, hh2, hht]; simp
    refine ⟨hlenH, by rw [e3, hc2, hct]; simp, ?_, ?_, ?_, ?_, ?_, ?_⟩
    · intro v
      rw [hhv]
      split_ifs <;> omega
    · rw [hhv, if_pos rfl]
    · rw [hhv, if_neg (fun h => hne h.symm)]
    · intro l l1 l2
      rw [e3, hc2, hct, getD_replicate_zero, e2, hh2, hht,
        count_set_getD _ source s.N l (by simp; exact hsrc), getD_replicate_zero_nat,
        List.count_replicate]
      have a1 : ¬ (0 = l) := by omega
      have a2 : ¬ (s.N = l) := by omega
      simp [a1, a2]
    · rw [e3, hc2, hct, getD_replicate_zero]
    · intro v _ hvlt j hj
      rw [hhv] at hvlt hj
      split_ifs at hvlt hj <;> omega

theorem fifo_add_def (r : SelectionRule (List Nat)) (u h : Nat) (x : Int) :
    fifoRule.add r u h x
      = if r.isActive u then r
        else if x ≤ 0 then r
        else { r.activate u with impl := r.impl ++ [u] } := rfl

theorem fifo_add_mem (r : SelectionRule (List Nat)) (u h : Nat) (x : Int) (w : Nat)
    (hw : w ∈ r.impl) : w ∈ (fifoRule.add r u h x).impl := by
  rw [fifo_add_def]
  split_ifs
  · exact hw
  · exact hw
  · exact List.mem_append_left _ hw

theorem fifo_add_ok (N source sink : Nat) (r : SelectionRule (List Nat)) (u h : Nat) (x : Int)
    (hr : FifoOK N source sink r) (hu : u < N) :
    FifoOK N source sink (fifoRule.add r u h x) := by
  rw [fifo_add_def]
  by_cases c1 : r.isActive u = true
  · rw [if_pos c1]
    exact hr
  · rw [if_neg c1]
    by_cases c2 : x ≤ 0
    · rw [if_pos c2]
      exact hr
    · rw [if_neg c2]
      have hus : u ≠ source := fun e => c1 (e ▸ hr.actS)
      have hut : u ≠ sink := fun e => c1 (e ▸ hr.actT)
      have hact : ∀ w, ({ r.activate u with impl := r.impl ++ [u] } :
          SelectionRule (List Nat)).isActive w
            = if u = w ∧ u < r.active.length then true else r.isActive w := by
        intro w
        show (r.active.set u true).getD w false = _
        rw [getD_set_eq_ite]
        rfl
      refine ⟨?_, ?_, ?_, ?_, ?_, ?_, ?_⟩
      · show (r.active.set u true).length = N
        rw [List.length_set]
        exact hr.lenA
      · rw [hact]
        split_ifs
        · rfl
        · exact hr.actS
      · rw [hact]
        split_ifs
        · rfl
        · exact hr.actT
      · show source ∉ r.impl ++ [u]
        simp only [List.mem_append, List.mem_singleton, not_or]
        exact ⟨hr.notS, fun e => hus e.symm⟩
      · show sink ∉ r.impl ++ [u]
        simp only [List.mem_append, List.mem_singleton, not_or]
        exact ⟨hr.notT, fun e => hut e.symm⟩
      · intro v hv
        have hv2 : v ∈ r.impl ++ [u] := hv
        simp only [List.mem_append, List.mem_singleton] at hv2
        rcases hv2 with hv2 | hv2
        · exact hr.lt v hv2
        · rw [hv2]
          exact hu
      · intro v hv hvs hvt
        show v ∈ r.impl ++ [u]
        rw [hact] at hv
        by_cases c : u = v ∧ u < r.active.length
        · simp [c.1]
        · rw [if_neg c] at hv
          exact List.mem_append_left _ (hr.act v hv hvs hvt)

theorem fifo_add_mem_self (N source sink : Nat) (r : SelectionRule (List Nat)) (u h : Nat)
    (x : Int) (hr : FifoOK N source sink r) (hx : 0 < x) (hus : u ≠ source) (hut : u ≠ sink) :
    u ∈ (fifoRule.add r u h x).impl := by
  rw [fifo_add_def]
  by_cases c1 : r.isActive u = true
  · rw [if_pos c1]
    exact hr.act u c1 hus hut
  · rw [if_neg c1, if_neg (not_le.mpr hx)]
    show u ∈ r.impl ++ [u]
    simp

theorem push_rule (s : FlowGraph (List Nat)) (u i : Nat) :
    (s.push fifoRule u i).rule
      = fifoRule.add s.rule (getE s.G u i).to_ (s.height.getD (getE s.G u i).to_ 0)
          ((s.push fifoRule u i).excess.getD (getE s.G u i).to_ 0) := rfl

/-- A push keeps the invariant of the first-in-first-out rule, and every
vertex that must be in the queue is in it. -/
theorem push_fifo (s : FlowGraph (List Nat)) (u i source sink : Nat) (skip : Option Nat)
    (hi : i < deg s.G u) (hg : GraphOK s.N s.G) (hE : s.excess.length = s.N)
    (hc : CapacityOK s.G) (hx : 0 ≤ s.excess.getD u 0)
    (hF : FifoOK s.N source sink s.rule)
    (hP : Pending s.N source sink s.rule s.excess s.height skip) :
    FifoOK s.N source sink (s.push fifoRule u i).rule
    ∧ Pending s.N source sink (s.push fifoRule u i).rule (s.push fifoRule u i).excess
        s.height skip := by
  have hpu := hg.pairing u (lt_length_of_lt_deg hi) i hi
  have hfrom := hg.from_ok u i hi
  have htoN : (getE s.G u i).to_ < s.N := by rw [← hg.len]; exact hpu.1
  have hul : u < s.excess.length := by
    rw [hE, ← hg.len]; exact lt_length_of_lt_deg hi
  have ha0 : 0 ≤ min ((getE s.G u i).cap - (getE s.G u i).flow) (s.excess.getD u 0) :=
    le_min (by have := hc u i hi; omega) hx
  rw [push_rule]
  refine ⟨fifo_add_ok _ _ _ _ _ _ _ hF htoN, ?_⟩
  intro w hw hws hwt hsk hpos hlt
  by_cases c : w = (getE s.G u i).to_
  · subst c
    exact fifo_add_mem_self _ _ _ _ _ _ _ hF hpos hws hwt
  · apply fifo_add_mem
    apply hP w hw hws hwt hsk _ hlt
    rw [getD_push_excess fifoRule s u i (by rw [hfrom]; exact hul) (by rw [hE]; exact htoN),
      hfrom, if_neg c] at hpos
    split_ifs at hpos <;> omega

/-- The rule after the first part of `minCutPushRelabel`. -/
theorem init_fifo (s : FlowGraph (List Nat)) (source sink : Nat)
    (hF : FreshState s) (hsrc : source < s.N) (hsnk : sink < s.N) :
    FifoOK s.N source sink (s.initPushRelabel fifoRule source sink).rule
    ∧ Pending s.N source sink (s.initPushRelabel fifoRule source sink).rule
        (s.initPushRelabel fifoRule source sink).excess
        (s.initPushRelabel fifoRule source sink).height none := by
  rw [initPushRelabel_def]
  obtain ⟨s2, hG2, hN2, hE2, hh2, hc2, hr2, hs2⟩ : ∃ s2 : FlowGraph (List Nat), s2.G = s.G
      ∧ s2.N = s.N ∧ s2.excess = s.excess ∧ s2.height = s.height.set source s.N
      ∧ s2.count = s.count ∧ s2.rule = (s.rule.activate source).activate sink
      ∧ s2 = { s with
          height := s.height.set source s.N,
          rule := (s.rule.activate source).activate sink } :=
    ⟨{ s with
        height := s.height.set source s.N,
        rule := (s.rule.activate source).activate sink }, rfl, rfl, rfl, rfl, rfl, rfl, rfl⟩
  rw [← hs2]
  have hlenE : s.excess.length = s.N := by rw [hF.excess0]; simp
  have hspec := fun k hk => initLoop_spec fifoRule s2 source (by rw [hN2, hG2]; exact hF.graph)
      (by rw [hN2]; exact hsrc) (by rw [hG2]; exact hF.flow0) (by rw [hG2]; exact hF.cap0)
      (by rw [hN2, hE2]; exact hlenE)
      (by intro v; rw [hE2, hF.excess0]; exact getD_replicate_zero _ _) k hk
  -- the rule before the loop
  have hF2 : FifoOK s.N source sink s2.rule := by
    have hact : ∀ w, s2.rule.isActive w
        = if sink = w then true else if source = w then true else false := by
      intro w
      rw [hr2]
      show ((s.rule.active.set source true).set sink true).getD w false = _
      rw [getD_set_eq_ite, getD_set_eq_ite, hF.ruleA]
      simp only [List.length_set, List.length_replicate, hsrc, hsnk, and_true]
      by_cases c1 : sink = w
      · simp [c1]
      · by_cases c2 : source = w
        · simp [c1, c2]
        · simp only [c1, c2, if_false]
          rw [List.getD_eq_getElem?_getD]
          by_cases c3 : w < s.N
          · rw [List.getElem?_eq_getElem (by simpa using c3)]
            simp
          · rw [List.getElem?_eq_none (by simpa using c3)]
            rfl
    have himpl : s2.rule.impl = [] := by rw [hr2]; exact hF.ruleQ
    refine ⟨?_, ?_, ?_, ?_, ?_, ?_, ?_⟩
    · rw [hr2]
      show ((s.rule.active.set source true).set sink true).length = s.N
      rw [List.length_set, List.length_set, hF.ruleA]
      simp
    · rw [hact]
      simp
    · rw [hact]
      simp
    · rw [himpl]
      simp
    · rw [himpl]
      simp
    · intro v hv
      rw [himpl] at hv
      simp at hv
    · intro v hv hvs hvt
      rw [hact] at hv
      rw [if_neg (fun e => hvt e.symm), if_neg (fun e => hvs e.symm)] at hv
      exact absurd hv (by decide)
  have hloop : ∀ k, k ≤ deg s.G source →
      FifoOK s.N source sink (forLoop (initStep fifoRule source) k s2).rule
      ∧ Pending s.N source sink (forLoop (initStep fifoRule source) k s2).rule
          (forLoop (initStep fifoRule source) k s2).excess s2.height none := by
    intro k
    induction k with
    | zero =>
      intro _
      refine ⟨hF2, ?_⟩
      intro w _ _ _ _ hpos _
      simp only [forLoop] at hpos
      rw [hE2, hF.excess0, getD_replicate_zero] at hpos
      omega
    | succ k ih =>
      intro hk
      obtain ⟨f1, f2⟩ := ih (by omega)
      obtain ⟨e1, e2, e3, e4, e5, e6, e7, e8, e9, e10, e11, e12⟩ := hspec k (by rw [hG2]; omega)
      simp only [forLoop]
      generalize forLoop (initStep fifoRule source) k s2 = t at *
      rw [hN2] at e1 e4 e9
      obtain ⟨t0, hG0, hN0, hh0, hr0, hE0, hstep⟩ : ∃ t0 : FlowGraph (List Nat), t0.G = t.G
          ∧ t0.N = t.N ∧ t0.height = t.height ∧ t0.rule = t.rule
          ∧ t0.excess = t.excess.set source (getE t.G source k).cap
          ∧ initStep fifoRule source k t = t0.push fifoRule source k :=
        ⟨{ t with excess := t.excess.set source (getE t.G source k).cap },
          rfl, rfl, rfl, rfl, rfl, rfl⟩
      rw [hstep]
      have hkd : k < deg t0.G source := by rw [hG0, e5, hG2]; omega
      have hsl : source < t.excess.length := by rw [e9]; exact hsrc
      have hx0 : t0.excess.getD source 0 = (getE t.G source k).cap := by
        rw [hE0, getD_set_eq_ite]
        simp [hsl]
      have hcapk : 0 ≤ (getE t.G source k).cap := by
        rw [(e6 source k).1, hG2]; exact hF.cap0 _ _
      have := push_fifo t0 source k source sink none hkd (by rw [hN0, e1, hG0]; exact e4)
        (by rw [hN0, e1, hE0, List.length_set]; exact e9) (by rw [hG0]; exact e8)
        (by rw [hx0]; exact hcapk) (by rw [hN0, e1, hr0]; exact f1)
        (by
          rw [hN0, e1, hr0, hh0, e2]
          intro w hw hws hwt hsk hpos hlt
          apply f2 w hw hws hwt hsk _ hlt
          rw [hE0, getD_set_eq_ite, if_neg (fun h => hws h.1.symm)] at hpos
          exact hpos)
      rw [hN0, e1, hh0, e2] at this
      exact this
  obtain ⟨f1, f2⟩ := hloop (deg s.G source) (le_refl _)
  obtain ⟨e1, e2, -⟩ := hspec (deg s.G source) (by rw [hG2])
  refine ⟨f1, ?_⟩
  intro w hw hws hwt hsk hpos hlt
  apply f2 w hw hws hwt hsk
  · have hpos2 : 0 < ((forLoop (initStep fifoRule source) (deg s.G source) s2).excess.set
        source 0).getD w 0 := hpos
    rw [getD_set_eq_ite, if_neg (fun h => hws h.1.symm)] at hpos2
    exact hpos2
  · have hlt2 : (forLoop (initStep fifoRule source) (deg s.G source) s2).height.getD w 0 < s.N :=
      hlt
    rw [e2] at hlt2
    exact hlt2

theorem gap_rule (s : FlowGraph (List Nat)) (h : Nat) :
    (s.gap fifoRule h).rule = (forLoop (gapStep h) s.G.length s).rule := rfl

/-- The rule and the queue obligations during the loop of `discharge(u)`. -/
theorem dischargeLoop_fifo (s : FlowGraph (List Nat)) (u source sink : Nat)
    (hinv : PRInv s source sink)
    (hF : FifoOK s.N source sink s.rule)
    (hP : Pending s.N source sink s.rule s.excess s.height (some u))
    (k : Nat) (hk : k ≤ deg s.G u) :
    FifoOK s.N source sink (forLoop (dischargeStep fifoRule u) k s).rule
    ∧ Pending s.N source sink (forLoop (dischargeStep fifoRule u) k s).rule
        (forLoop (dischargeStep fifoRule u) k s).excess s.height (some u) := by
  induction k with
  | zero => exact ⟨hF, hP⟩
  | succ k ih =>
    obtain ⟨f1, f2⟩ := ih (by omega)
    obtain ⟨p1, p2, p3, p4, p5, p6⟩ :=
      dischargeLoop_spec fifoRule s u source sink hinv k (by omega)
    simp only [forLoop]
    rw [dischargeStep_def]
    generalize forLoop (dischargeStep fifoRule u) k s = t at *
    split_ifs with c1 c2
    · have := push_fifo t u k source sink (some u) (by rw [p5]; omega) p1.graph p1.lenE
        p1.capacity (p1.nonneg u) (by rw [p4]; exact f1) (by rw [p4, p2]; exact f2)
      rw [p4, p2] at this
      exact this
    · exact ⟨f1, f2⟩
    · exact ⟨f1, f2⟩

/-- `discharge(u)` keeps the invariant of the first-in-first-out rule and
leaves every vertex that must be in the queue in it. -/
theorem discharge_fifo (s : FlowGraph (List Nat)) (u source sink : Nat)
    (hu : u < s.N) (hus : u ≠ source) (hut : u ≠ sink)
    (hinv : PRInv s source sink)
    (hF : FifoOK s.N source sink s.rule)
    (hP : Pending s.N source sink s.rule s.excess s.height (some u)) :
    FifoOK s.N source sink (s.discharge fifoRule u).rule
    ∧ Pending s.N source sink (s.discharge fifoRule u).rule (s.discharge fifoRule u).excess
        (s.discharge fifoRule u).height none := by
  obtain ⟨f1, f2⟩ := dischargeLoop_fifo s u source sink hinv hF hP (deg s.G u) (le_refl _)
  obtain ⟨p1, p2, p3, p4, p5, p6⟩ :=
    dischargeLoop_spec fifoRule s u source sink hinv (deg s.G u) (le_refl _)
  rw [discharge_def]
  generalize forLoop (dischargeStep fifoRule u) (deg s.G u) s = t at *
  have hH := p1.heights
  have hul : u < t.height.length := by rw [hH.lenH, p4]; exact hu
  by_cases hx : 0 < t.excess.getD u 0
  · rw [if_pos hx]
    by_cases hc : t.count.getD (t.height.getD u 0) 0 = 1
    · rw [if_pos hc]
      have h1 : 1 ≤ t.height.getD u 0 := by
        by_contra hcon
        have hz : t.height.getD u 0 = 0 := by omega
        rw [hz] at hc
        have := hH.cnt0
        omega
      have hgh := gap_height fifoRule t (t.height.getD u 0) source sink h1 p1.graph.len hH
      obtain ⟨_, _, _, _, _, _, _, _, r1, r2, r3, r4⟩ :=
        gapLoop_spec t (t.height.getD u 0) h1 hH.lenC hH.cnt hH.cnt0 t.G.length
          (by rw [p1.graph.len, hH.lenH])
      rw [gap_rule, gap_excess]
      refine ⟨⟨?_, ?_, ?_, ?_, ?_, ?_, ?_⟩, ?_⟩
      · rw [r2]; exact f1.lenA
      · rw [r4 source (by rw [hH.src]; omega)]; exact f1.actS
      · rw [r4 sink (by rw [hH.snk]; omega)]; exact f1.actT
      · rw [r1]; exact f1.notS
      · rw [r1]; exact f1.notT
      · rw [r1]; exact f1.lt
      · intro v hv hvs hvt
        rw [r1]
        exact f1.act v (r3 v hv) hvs hvt
      · intro w hw hws hwt _ hpos hlt
        rw [hgh] at hlt
        rw [r1]
        by_cases c : t.height.getD u 0 ≤ t.height.getD w 0 ∧ t.height.getD w 0 < t.N
        · rw [if_pos c, p4] at hlt
          omega
        · rw [if_neg c] at hlt
          have hwu : w ≠ u := by
            rintro rfl
            exact c ⟨le_refl _, by rw [p4]; exact hlt⟩
          apply f2 w hw hws hwt (by simpa using hwu) hpos
          rw [← p2]
          exact hlt
    · rw [if_neg hc]
      obtain ⟨m, hh, hmN, hm1, h2, h3, hcnt, hrule⟩ :=
        relabel_spec fifoRule t u hul (by rw [p4]; omega)
      rw [hrule, relabel_excess, hh]
      rw [p4] at hmN hrule
      refine ⟨?_, ?_⟩
      · rw [p4]
        split_ifs
        · exact fifo_add_ok _ _ _ _ _ _ _ f1 hu
        · exact f1
      · intro w hw hws hwt _ hpos hlt
        rw [getD_set_eq_ite] at hlt
        by_cases c : u = w
        · subst c
          rw [if_pos ⟨rfl, hul⟩] at hlt
          rw [p4, if_pos hlt]
          exact fifo_add_mem_self _ _ _ _ _ _ _ f1 hpos hws hwt
        · rw [if_neg (fun h => c h.1)] at hlt
          have hmem : w ∈ t.rule.impl :=
            f2 w hw hws hwt (by simpa using fun e => c e.symm) hpos (by rw [← p2]; exact hlt)
          rw [p4]
          split_ifs
          · exact fifo_add_mem _ _ _ _ _ hmem
          · exact hmem
  · rw [if_neg hx]
    refine ⟨f1, ?_⟩
    intro w hw hws hwt _ hpos hlt
    by_cases c : w = u
    · subst c
      exact absurd hpos hx
    · exact f2 w hw hws hwt (by simpa using c) hpos (by rw [← p2]; exact hlt)

/-- The fields `to`, `cap` and the sizes are never written by a push. -/
theorem pushAmount_shape {σ : Type} (s : FlowGraph σ) (u i : Nat) (a : Int) (v j : Nat) :
    (getE (s.pushAmount u i a).G v j).cap = (getE s.G v j).cap
    ∧ (getE (s.pushAmount u i a).G v j).to_ = (getE s.G v j).to_ := by
  rw [pushAmount_G]
  constructor
  · refine (getE_setE_cap _ _ _ _ ?_ v j).trans (getE_setE_cap _ _ _ _ ?_ v j) <;> rfl
  · refine (getE_setE_to _ _ _ _ ?_ v j).trans (getE_setE_to _ _ _ _ ?_ v j) <;> rfl

/-- `discharge(u)` writes no capacity, no `to` field and no size. -/
theorem discharge_shape {σ : Type} (ops : RuleOps σ) (s : FlowGraph σ) (u : Nat) :
    (∀ v, deg (s.discharge ops u).G v = deg s.G v)
    ∧ (∀ v j, (getE (s.discharge ops u).G v j).cap = (getE s.G v j).cap
        ∧ (getE (s.discharge ops u).G v j).to_ = (getE s.G v j).to_) := by
  have hloop : (∀ v, deg (forLoop (dischargeStep ops u) (deg s.G u) s).G v = deg s.G v)
      ∧ (∀ v j, (getE (forLoop (dischargeStep ops u) (deg s.G u) s).G v j).cap
            = (getE s.G v j).cap
          ∧ (getE (forLoop (dischargeStep ops u) (deg s.G u) s).G v j).to_
            = (getE s.G v j).to_) := by
    apply forLoop_induction (dischargeStep ops u)
      (fun _ t => (∀ v, deg t.G v = deg s.G v)
        ∧ (∀ v j, (getE t.G v j).cap = (getE s.G v j).cap
          ∧ (getE t.G v j).to_ = (getE s.G v j).to_))
    · exact ⟨fun _ => rfl, fun _ _ => ⟨rfl, rfl⟩⟩
    · intro k _ t ⟨h1, h2⟩
      rw [dischargeStep_def]
      split_ifs
      · refine ⟨fun v => ?_, fun v j => ?_⟩
        · rw [push_G, deg_pushAmount]
          exact h1 v
        · rw [push_G]
          exact ⟨(pushAmount_shape t u k _ v j).1.trans (h2 v j).1,
            (pushAmount_shape t u k _ v j).2.trans (h2 v j).2⟩
      · exact ⟨h1, h2⟩
      · exact ⟨h1, h2⟩
  rw [discharge_def]
  split_ifs
  · rw [gap_G]
    exact hloop
  · rw [relabel_G]
    exact hloop
  · exact hloop

/-- A sum over all adjacency entries in which paired entries cancel is zero:
the weight `c` is symmetric in the two endpoints and the flow is
antisymmetric. -/
theorem sum_entries_antisym (G : List (List Edge)) (hp : Pairing G) (ha : FlowAntisym G)
    (c : Nat → Nat → Int) (hc : ∀ a b, c a b = c b a) :
    (∑ v ∈ Finset.range G.length, ∑ i ∈ Finset.range (deg G v),
      c v (getE G v i).to_ * (getE G v i).flow) = 0 := by
  rw [Finset.sum_sigma' (Finset.range G.length) (fun v => Finset.range (deg G v))
    (fun v i => c v (getE G v i).to_ * (getE G v i).flow)]
  apply Finset.sum_involution
    (fun (x : (_ : Nat) × Nat) _ => ⟨(getE G x.1 x.2).to_, (getE G x.1 x.2).index⟩)
  · rintro ⟨v, i⟩ hx
    simp only [Finset.mem_sigma, Finset.mem_range] at hx
    obtain ⟨p1, p2, p3, p4⟩ := hp v hx.1 i hx.2
    simp only
    rw [p3, ha v hx.1 i hx.2, hc (getE G v i).to_ v]
    ring
  · rintro ⟨v, i⟩ hx hne heq
    simp only [Finset.mem_sigma, Finset.mem_range] at hx
    simp only [Sigma.mk.inj_iff, heq_eq_eq] at heq
    apply hne
    have h0 := ha v hx.1 i hx.2
    rw [heq.1, heq.2] at h0
    have : (getE G v i).flow = 0 := by omega
    simp only [this, mul_zero]
  · rintro ⟨v, i⟩ hx
    simp only [Finset.mem_sigma, Finset.mem_range] at hx ⊢
    obtain ⟨p1, p2, p3, p4⟩ := hp v hx.1 i hx.2
    exact ⟨p1, p2⟩
  · rintro ⟨v, i⟩ hx
    simp only [Finset.mem_sigma, Finset.mem_range] at hx
    obtain ⟨p1, p2, p3, p4⟩ := hp v hx.1 i hx.2
    simp only [p3, p4]

/-- The total flow entering `v` is the negated sum of the flow of the entries
of `G[v]`. -/
theorem flowInto_eq_neg_outSum {σ : Type} (s : FlowGraph σ) (hp : Pairing s.G)
    (ha : FlowAntisym s.G) (v : Nat) (hv : v < s.G.length) :
    s.flowInto v = - outSum s.G v := by
  have h := sum_entries_antisym s.G hp ha
    (fun a b => (if a = v then 1 else 0) + (if b = v then 1 else 0)) (fun a b => add_comm _ _)
  simp only [add_mul, Finset.sum_add_distrib] at h
  have h1 : (∑ u ∈ Finset.range s.G.length, ∑ i ∈ Finset.range (deg s.G u),
      (if u = v then (1 : Int) else 0) * (getE s.G u i).flow) = outSum s.G v := by
    have : ∀ u, (∑ i ∈ Finset.range (deg s.G u),
        (if u = v then (1 : Int) else 0) * (getE s.G u i).flow)
          = if u = v then outSum s.G v else 0 := by
      intro u
      by_cases c : u = v
      · subst c
        simp [outSum]
      · simp [c]
    simp only [this]
    rw [Finset.sum_ite_eq' (Finset.range s.G.length) v (fun _ => outSum s.G v)]
    simp [hv]
  have h2 : (∑ u ∈ Finset.range s.G.length, ∑ i ∈ Finset.range (deg s.G u),
      (if (getE s.G u i).to_ = v then (1 : Int) else 0) * (getE s.G u i).flow)
        = s.flowInto v := by
    unfold FlowGraph.flowInto
    apply Finset.sum_congr rfl
    intro u _
    apply Finset.sum_congr rfl
    intro i _
    split_ifs <;> simp
  rw [h1, h2] at h
  omega

/-- The sum of the flow of the entries of all vertices is zero. -/
theorem sum_outSum_eq_zero (G : List (List Edge)) (hp : Pairing G) (ha : FlowAntisym G) :
    (∑ v ∈ Finset.range G.length, outSum G v) = 0 := by
  have h := sum_entries_antisym G hp ha (fun _ _ => 1) (fun _ _ => rfl)
  simp only [one_mul] at h
  exact h

/-- Below height `N` the heights stay below `N - 1`: the occupied heights have
no gap and the source is not among them. -/
theorem height_lt_pred (N source sink : Nat) (height : List Nat) (count : List Int)
    (hH : HeightsOK N source sink height count) (hs : source < N) (v : Nat) (hv : v < N)
    (hlt : height.getD v 0 < N) : height.getD v 0 + 1 < N := by
  by_contra hcon
  have hv1 : height.getD v 0 = N - 1 := by omega
  -- every level below `N` is occupied by a vertex other than the source
  have hocc : ∀ j, j < N → ∃ w, w < N ∧ w ≠ source ∧ height.getD w 0 = j := by
    intro j hj
    by_cases c : j = N - 1
    · refine ⟨v, hv, ?_, by omega⟩
      rintro rfl
      have := hH.src
      omega
    · obtain ⟨w, hw, e⟩ := hH.nogap v hv hlt j (by omega)
      refine ⟨w, hw, ?_, e⟩
      rintro rfl
      have := hH.src
      omega
  choose f hf using hocc
  have hinj : Set.InjOn (fun j => if h : j < N then f j h else 0) (Finset.range N : Set Nat) := by
    intro a ha b hb hab
    simp only [Finset.coe_range, Set.mem_Iio] at ha hb
    simp only [ha, hb, dif_pos] at hab
    have h1 := (hf a ha).2.2
    have h2 := (hf b hb).2.2
    rw [hab] at h1
    omega
  have hmaps : ∀ j ∈ Finset.range N,
      (fun j => if h : j < N then f j h else 0) j ∈ (Finset.range N).erase source := by
    intro j hj
    simp only [Finset.mem_range] at hj
    simp only [hj, dif_pos, Finset.mem_erase, Finset.mem_range]
    exact ⟨(hf j hj).2.1, (hf j hj).1⟩
  have hcard := Finset.card_le_card_of_injOn _ hmaps hinj
  rw [Finset.card_erase_of_mem (by simpa using hs), Finset.card_range] at hcard
  omega

/-- The invariant only reads `N`, the graph, the excess, the heights and the
histogram. -/
theorem PRInv_congr {σ : Type} (s t : FlowGraph σ) (source sink : Nat)
    (hN : t.N = s.N) (hG : t.G = s.G) (hE : t.excess = s.excess) (hh : t.height = s.height)
    (hc : t.count = s.count) (h : PRInv s source sink) : PRInv t source sink := by
  refine ⟨?_, ?_, ?_, ?_, h.ne, ?_, ?_, ?_, ?_, ?_, ?_⟩
  · rw [hN, hG]; exact h.graph
  · rw [hN, hE]; exact h.lenE
  · rw [hN]; exact h.src_lt
  · rw [hN]; exact h.snk_lt
  · rw [hG]; exact h.antisym
  · rw [hG]; exact h.capacity
  · rw [hG, hE]; exact h.conserved
  · rw [hE]; exact h.nonneg
  · rw [hG, hh]; exact h.labels
  · rw [hN, hh, hc]; exact h.heights

theorem gap_cut {σ : Type} (ops : RuleOps σ) (s : FlowGraph σ) (h : Nat) :
    (s.gap ops h).cut = s.cut := by
  show (forLoop (gapStep h) s.G.length s).cut = s.cut
  induction s.G.length with
  | zero => rfl
  | succ k ih =>
    simp only [forLoop]
    rw [gapStep_def]
    split_ifs <;> exact ih

theorem relabel_cut {σ : Type} (ops : RuleOps σ) (s : FlowGraph σ) (u : Nat) :
    (s.relabel ops u).cut = s.cut := by
  unfold FlowGraph.relabel
  dsimp only
  split_ifs <;> rfl

theorem discharge_cut {σ : Type} (ops : RuleOps σ) (s : FlowGraph σ) (u : Nat) :
    (s.discharge ops u).cut = s.cut := by
  have hloop : (forLoop (dischargeStep ops u) (deg s.G u) s).cut = s.cut := by
    apply forLoop_induction (dischargeStep ops u) (fun _ t => t.cut = s.cut)
    · rfl
    · intro k _ t h
      rw [dischargeStep_def]
      split_ifs
      · exact h
      · exact h
      · exact h
  rw [discharge_def]
  split_ifs
  · rw [gap_cut]; exact hloop
  · rw [relabel_cut]; exact hloop
  · exact hloop

theorem initPushRelabel_cut {σ : Type} (ops : RuleOps σ) (s : FlowGraph σ) (source sink : Nat) :
    (s.initPushRelabel ops source sink).cut = s.cut := by
  rw [initPushRelabel_def]
  show (forLoop (initStep ops source) (deg s.G source) _).cut = s.cut
  apply forLoop_induction (initStep ops source) (fun _ t => t.cut = s.cut)
  · rfl
  · intro k _ t h
    exact h

theorem dischargeLoop_succ {σ : Type} (ops : RuleOps σ) (fuel : Nat) (s : FlowGraph σ) :
    dischargeLoop ops (fuel + 1) s
      = if ops.empty s.rule then some s
        else dischargeLoop ops fuel
          (FlowGraph.discharge ops { s with rule := (ops.next s.rule).2 } (ops.next s.rule).1) :=
  rfl

/-- One round of the loop of `minCutPushRelabel` with the first-in-first-out
rule: the vertex taken from the queue is in range and is neither source nor
sink, and the invariants hold again after its discharge. -/
theorem dischargeLoop_step (source sink : Nat) (s : FlowGraph (List Nat))
    (he : ¬ fifoRule.empty s.rule = true)
    (hinv : PRInv s source sink) (hF : FifoOK s.N source sink s.rule)
    (hP : Pending s.N source sink s.rule s.excess s.height none) :
    (fifoRule.next s.rule).1 < s.N
    ∧ (fifoRule.next s.rule).1 ≠ source
    ∧ (fifoRule.next s.rule).1 ≠ sink
    ∧ PRInv ({ s with rule := (fifoRule.next s.rule).2 } : FlowGraph (List Nat)) source sink
    ∧ PRInv (FlowGraph.discharge fifoRule { s with rule := (fifoRule.next s.rule).2 }
        (fifoRule.next s.rule).1) source sink
    ∧ (FlowGraph.discharge fifoRule { s with rule := (fifoRule.next s.rule).2 }
        (fifoRule.next s.rule).1).N = s.N
    ∧ FifoOK s.N source sink (FlowGraph.discharge fifoRule
        { s with rule := (fifoRule.next s.rule).2 } (fifoRule.next s.rule).1).rule
    ∧ Pending s.N source sink
        (FlowGraph.discharge fifoRule { s with rule := (fifoRule.next s.rule).2 }
          (fifoRule.next s.rule).1).rule
        (FlowGraph.discharge fifoRule { s with rule := (fifoRule.next s.rule).2 }
          (fifoRule.next s.rule).1).excess
        (FlowGraph.discharge fifoRule { s with rule := (fifoRule.next s.rule).2 }
          (fifoRule.next s.rule).1).height none := by
  obtain ⟨u, rest, hq⟩ : ∃ u rest, s.rule.impl = u :: rest := by
    cases hq : s.rule.impl with
    | nil =>
      exfalso
      apply he
      show s.rule.impl.isEmpty = true
      rw [hq]
      rfl
    | cons u rest => exact ⟨u, rest, rfl⟩
  have hnext1 : (fifoRule.next s.rule).1 = u := by
    show s.rule.impl.headD 0 = u
    rw [hq]
    rfl
  have hnext2 : (fifoRule.next s.rule).2
      = { N := s.rule.N, active := s.rule.active.set u false, impl := rest } := by
    show ({ s.rule with impl := s.rule.impl.tail }).deactivate (s.rule.impl.headD 0) = _
    rw [hq]
    rfl
  rw [hnext1, hnext2]
  have huq : u ∈ s.rule.impl := by rw [hq]; simp
  have hu : u < s.N := hF.lt u huq
  have hus : u ≠ source := fun e => hF.notS (e ▸ huq)
  have hut : u ≠ sink := fun e => hF.notT (e ▸ huq)
  obtain ⟨s1, hN1, hG1, hE1, hh1, hc1, hr1, hs1⟩ : ∃ s1 : FlowGraph (List Nat),
      s1.N = s.N ∧ s1.G = s.G ∧ s1.excess = s.excess ∧ s1.height = s.height
      ∧ s1.count = s.count
      ∧ s1.rule = { N := s.rule.N, active := s.rule.active.set u false, impl := rest }
      ∧ s1 = { s with
          rule := { N := s.rule.N, active := s.rule.active.set u false, impl := rest } } :=
    ⟨{ s with rule := { N := s.rule.N, active := s.rule.active.set u false, impl := rest } },
      rfl, rfl, rfl, rfl, rfl, rfl, rfl⟩
  rw [← hs1]
  have hinv1 : PRInv s1 source sink := PRInv_congr s s1 source sink hN1 hG1 hE1 hh1 hc1 hinv
  have hact1 : ∀ w, s1.rule.isActive w
      = if u = w ∧ u < s.rule.active.length then false else s.rule.isActive w := by
    intro w
    rw [hr1]
    show (s.rule.active.set u false).getD w false = _
    rw [getD_set_eq_ite]
    rfl
  have hmem1 : ∀ w, w ∈ s.rule.impl → w ≠ u → w ∈ s1.rule.impl := by
    intro w hw hne
    rw [hr1]
    rw [hq] at hw
    simp only [List.mem_cons] at hw
    rcases hw with hw | hw
    · exact absurd hw hne
    · exact hw
  have hsub1 : ∀ w, w ∈ s1.rule.impl → w ∈ s.rule.impl := by
    intro w hw
    rw [hr1] at hw
    rw [hq]
    exact List.mem_cons_of_mem _ hw
  have hF1 : FifoOK s1.N source sink s1.rule := by
    rw [hN1]
    refine ⟨?_, ?_, ?_, ?_, ?_, ?_, ?_⟩
    · rw [hr1]
      show (s.rule.active.set u false).length = s.N
      rw [List.length_set]
      exact hF.lenA
    · rw [hact1, if_neg (fun h => hus h.1)]
      exact hF.actS
    · rw [hact1, if_neg (fun h => hut h.1)]
      exact hF.actT
    · exact fun h => hF.notS (hsub1 _ h)
    · exact fun h => hF.notT (hsub1 _ h)
    · exact fun v hv => hF.lt v (hsub1 v hv)
    · intro v hv hvs hvt
      rw [hact1] at hv
      by_cases c : u = v ∧ u < s.rule.active.length
      · rw [if_pos c] at hv
        exact absurd hv (by decide)
      · rw [if_neg c] at hv
        apply hmem1 v (hF.act v hv hvs hvt)
        rintro rfl
        apply c
        refine ⟨rfl, ?_⟩
        rw [hF.lenA]
        exact hu
  have hP1 : Pending s1.N source sink s1.rule s1.excess s1.height (some u) := by
    rw [hN1, hE1, hh1]
    intro w hw hws hwt hsk hpos hlt
    apply hmem1 w (hP w hw hws hwt (by simp) hpos hlt)
    rintro rfl
    exact hsk rfl
  obtain ⟨g1, g2⟩ := discharge_fifo s1 u source sink (by rw [hN1]; exact hu) hus hut hinv1
    hF1 hP1
  have hinv2 := discharge_PRInv fifoRule s1 u source sink (by rw [hN1]; exact hu) hus hut hinv1
  have hN2 := discharge_N fifoRule s1 u source sink hinv1
  rw [hN1] at g1 g2 hN2
  exact ⟨hu, hus, hut, hinv1, hinv2, hN2, g1, g2⟩

/-- When the loop of `minCutPushRelabel` ends, the invariant holds, the queue
is empty, and no vertex is left that should be in it; a property `X` of the
state that every discharge keeps and that does not read the rule holds as
well. -/
theorem dischargeLoop_fifo_inv (source sink : Nat) (X : FlowGraph (List Nat) → Prop)
    (hXr : ∀ (s : FlowGraph (List Nat)) (r : SelectionRule (List Nat)),
      X s → X { s with rule := r })
    (hXd : ∀ (s : FlowGraph (List Nat)) (u : Nat), u < s.N → u ≠ source → u ≠ sink →
      PRInv s source sink → X s → X (s.discharge fifoRule u))
    (fuel : Nat) :
    ∀ s t : FlowGraph (List Nat), dischargeLoop fifoRule fuel s = some t →
      PRInv s source sink → FifoOK s.N source sink s.rule →
      Pending s.N source sink s.rule s.excess s.height none → X s →
      PRInv t source sink ∧ t.N = s.N ∧ t.cut = s.cut
      ∧ (∀ v, deg t.G v = deg s.G v)
      ∧ (∀ v j, (getE t.G v j).cap = (getE s.G v j).cap
          ∧ (getE t.G v j).to_ = (getE s.G v j).to_)
      ∧ t.rule.impl = []
      ∧ Pending s.N source sink t.rule t.excess t.height none
      ∧ X t := by
  induction fuel with
  | zero =>
    intro s t h
    exact absurd h (by simp [dischargeLoop])
  | succ fuel ih =>
    intro s t h hinv hF hP hX
    rw [dischargeLoop_succ] at h
    by_cases he : fifoRule.empty s.rule = true
    · rw [if_pos he] at h
      injection h with h
      subst h
      have : s.rule.impl = [] := by
        have he2 : s.rule.impl.isEmpty = true := he
        exact List.isEmpty_iff.mp he2
      exact ⟨hinv, rfl, rfl, fun _ => rfl, fun _ _ => ⟨rfl, rfl⟩, this, hP, hX⟩
    · rw [if_neg he] at h
      obtain ⟨hu, hus, hut, hinv1, hinv2, hN2, g1, g2⟩ :=
        dischargeLoop_step source sink s he hinv hF hP
      have hX2 := hXd ({ s with rule := (fifoRule.next s.rule).2 } : FlowGraph (List Nat))
        (fifoRule.next s.rule).1 hu hus hut hinv1 (hXr s (fifoRule.next s.rule).2 hX)
      obtain ⟨d1, d2⟩ := discharge_shape fifoRule
        ({ s with rule := (fifoRule.next s.rule).2 } : FlowGraph (List Nat))
        (fifoRule.next s.rule).1
      obtain ⟨r1, r2, r3, r4, r5, r6, r7, r8⟩ := ih _ t h hinv2 (by rw [hN2]; exact g1)
        (by rw [hN2]; exact g2) hX2
      refine ⟨r1, by rw [r2, hN2], by rw [r3, discharge_cut], ?_, ?_, r6, ?_, r8⟩
      · intro v
        rw [r4, d1]
      · intro v j
        exact ⟨(r5 v j).1.trans (d2 v j).1, (r5 v j).2.trans (d2 v j).2⟩
      · rw [hN2] at r7
        exact r7

theorem forLoop_sum (f : Nat → Int) (n : Nat) :
    forLoop (fun i c => c + f i) n 0 = ∑ i ∈ Finset.range n, f i := by
  induction n with
  | zero => rfl
  | succ n ih =>
    simp only [forLoop]
    rw [ih, Finset.sum_range_succ]

theorem outFlow_eq_outSum {σ : Type} (s : FlowGraph σ) (v : Nat) : s.outFlow v = outSum s.G v :=
  forLoop_sum (fun i => (getE s.G v i).flow) (deg s.G v)

theorem inFlow_eq_outSum {σ : Type} (s : FlowGraph σ) (v : Nat) : s.inFlow v = outSum s.G v :=
  forLoop_sum (fun i => (getE s.G v i).flow) (deg s.G v)

/-- Every residual capacity from height `N` to a height below `N` is used up. -/
theorem saturated_of_PRInv {σ : Type} (t : FlowGraph σ) (source sink : Nat)
    (hinv : PRInv t source sink) (v i : Nat) (hi : i < deg t.G v)
    (hv : t.N ≤ t.height.getD v 0) (hw : t.height.getD (getE t.G v i).to_ 0 < t.N) :
    (getE t.G v i).flow = (getE t.G v i).cap := by
  have hcap := hinv.capacity v i hi
  by_contra hne
  have hres : (getE t.G v i).flow < (getE t.G v i).cap := by omega
  have hl := hinv.labels v i hi hres
  have hto : (getE t.G v i).to_ < t.N := by
    rw [← hinv.graph.len]
    exact (hinv.graph.pairing v (lt_length_of_lt_deg hi) i hi).1
  have := height_lt_pred t.N source sink t.height t.count hinv.heights hinv.src_lt _ hto hw
  omega

/-- The excess of the sink in a state of the run in which no vertex below height
`N` other than the sink holds excess: it is the capacity of the entries that
lead from height `N` to a height below `N`. -/
theorem excess_sink_eq_cut {σ : Type} (t : FlowGraph σ) (source sink : Nat)
    (hinv : PRInv t source sink)
    (hq : ∀ v, v < t.N → v ≠ source → v ≠ sink → t.height.getD v 0 < t.N →
      t.excess.getD v 0 ≤ 0) :
    t.excess.getD sink 0
      = ∑ v ∈ Finset.range t.G.length, ∑ i ∈ Finset.range (deg t.G v),
          if t.N ≤ t.height.getD v 0 ∧ t.height.getD (getE t.G v i).to_ 0 < t.N then
            (getE t.G v i).cap
          else 0 := by
  have hH := hinv.heights
  have hlen := hinv.graph.len
  -- paired entries cancel
  have h1 := sum_entries_antisym t.G hinv.graph.pairing hinv.antisym
    (fun a b => if t.height.getD a 0 < t.N ∨ t.height.getD b 0 < t.N then 1 else 0)
    (fun a b => by simp only [or_comm])
  -- the entries of the vertices below `N`
  have h2 : (∑ v ∈ Finset.range t.G.length, ∑ i ∈ Finset.range (deg t.G v),
      if t.height.getD v 0 < t.N then (getE t.G v i).flow else 0)
        = - t.excess.getD sink 0 := by
    have : ∀ v ∈ Finset.range t.G.length, (∑ i ∈ Finset.range (deg t.G v),
        if t.height.getD v 0 < t.N then (getE t.G v i).flow else 0)
          = if v = sink then - t.excess.getD sink 0 else 0 := by
      intro v hv
      rw [Finset.mem_range] at hv
      by_cases c : t.height.getD v 0 < t.N
      · simp only [c, if_true]
        have hvs : v ≠ source := by
          rintro rfl
          have := hH.src
          omega
        have hcons := hinv.conserved v hv hvs
        unfold outSum at hcons
        by_cases c2 : v = sink
        · rw [if_pos c2]
          rw [c2] at hcons ⊢
          omega
        · rw [if_neg c2]
          have h0 := hq v (by rw [← hlen]; exact hv) hvs c2 c
          have h3 := hinv.nonneg v
          omega
      · simp only [c, if_false, Finset.sum_const_zero]
        have : v ≠ sink := by
          rintro rfl
          have := hH.snk
          have := hinv.snk_lt
          omega
        rw [if_neg this]
    rw [Finset.sum_congr rfl this,
      Finset.sum_ite_eq' (Finset.range t.G.length) sink (fun _ => - t.excess.getD sink 0)]
    simp [hlen, hinv.snk_lt]
  -- split the cancelling sum
  have h3 : (∑ v ∈ Finset.range t.G.length, ∑ i ∈ Finset.range (deg t.G v),
      (if t.height.getD v 0 < t.N ∨ t.height.getD (getE t.G v i).to_ 0 < t.N then (1 : Int)
        else 0) * (getE t.G v i).flow)
      = (∑ v ∈ Finset.range t.G.length, ∑ i ∈ Finset.range (deg t.G v),
          if t.height.getD v 0 < t.N then (getE t.G v i).flow else 0)
        + ∑ v ∈ Finset.range t.G.length, ∑ i ∈ Finset.range (deg t.G v),
          if t.N ≤ t.height.getD v 0 ∧ t.height.getD (getE t.G v i).to_ 0 < t.N then
            (getE t.G v i).cap
          else 0 := by
    rw [← Finset.sum_add_distrib]
    apply Finset.sum_congr rfl
    intro v _
    rw [← Finset.sum_add_distrib]
    apply Finset.sum_congr rfl
    intro i hi
    rw [Finset.mem_range] at hi
    by_cases c : t.height.getD v 0 < t.N
    · have c2 : ¬ (t.N ≤ t.height.getD v 0 ∧ t.height.getD (getE t.G v i).to_ 0 < t.N) :=
        fun h => by omega
      rw [if_pos (Or.inl c), if_pos c, if_neg c2]
      ring
    · by_cases c3 : t.height.getD (getE t.G v i).to_ 0 < t.N
      · have hsat := saturated_of_PRInv t source sink hinv v i hi (by omega) c3
        have c4 : t.N ≤ t.height.getD v 0 := by omega
        rw [if_pos (Or.inr c3), if_neg c, if_pos ⟨c4, c3⟩, hsat]
        ring
      · rw [if_neg (not_or.mpr ⟨c, c3⟩), if_neg c, if_neg (fun h => c3 h.2)]
        ring
  rw [h3, h2] at h1
  omega

/-- The value `outFlow(source)` is the excess of all other vertices. -/
theorem outFlow_source_eq {σ : Type} (t : FlowGraph σ) (source sink : Nat)
    (hinv : PRInv t source sink) :
    t.outFlow source = t.excess.getD sink 0 + t.strandedExcess source sink := by
  have h := sum_outSum_eq_zero t.G hinv.graph.pairing hinv.antisym
  have hlen := hinv.graph.len
  rw [outFlow_eq_outSum]
  unfold FlowGraph.strandedExcess
  have hsrc : source ∈ Finset.range t.G.length := by
    rw [Finset.mem_range, hlen]; exact hinv.src_lt
  have hsnk : sink ∈ (Finset.range t.G.length).erase source := by
    rw [Finset.mem_erase, Finset.mem_range, hlen]
    exact ⟨fun e => hinv.ne e.symm, hinv.snk_lt⟩
  rw [← Finset.add_sum_erase _ _ hsrc] at h ⊢
  rw [← Finset.add_sum_erase _ _ hsnk]
  simp only [true_or, or_true, if_true, zero_add]
  have h2 : (∑ v ∈ (Finset.range t.G.length).erase source, outSum t.G v)
      = - ∑ v ∈ (Finset.range t.G.length).erase source, t.excess.getD v 0 := by
    rw [← Finset.sum_neg_distrib]
    apply Finset.sum_congr rfl
    intro v hv
    rw [Finset.mem_erase, Finset.mem_range] at hv
    have := hinv.conserved v hv.2 hv.1
    omega
  rw [h2, ← Finset.add_sum_erase _ _ hsnk] at h
  have h3 : (∑ x ∈ ((Finset.range t.G.length).erase source).erase sink,
      if x = source ∨ x = sink then 0 else t.excess.getD x 0)
      = ∑ x ∈ ((Finset.range t.G.length).erase source).erase sink, t.excess.getD x 0 := by
    apply Finset.sum_congr rfl
    intro v hv
    simp only [Finset.mem_erase] at hv
    rw [if_neg (fun h => h.elim (fun e => hv.2.1 e) (fun e => hv.1 e))]
  rw [h3]
  omega

/-- The cut written by the last loop of `minCutPushRelabel`. -/
theorem cutFromHeights_getD {σ : Type} (t : FlowGraph σ) (v : Nat) (hv : v < t.cut.length) :
    t.cutFromHeights.cut.getD v false = decide (t.N ≤ t.height.getD v 0) := by
  have h : ∀ k, k ≤ t.cut.length →
      (forLoop (fun i c => c.set i (decide (t.N ≤ t.height.getD i 0))) k t.cut).length
        = t.cut.length
      ∧ ∀ w, (forLoop (fun i c => c.set i (decide (t.N ≤ t.height.getD i 0))) k t.cut).getD
          w false
        = if w < k then decide (t.N ≤ t.height.getD w 0) else t.cut.getD w false := by
    intro k
    induction k with
    | zero =>
      intro _
      exact ⟨rfl, fun w => by simp [forLoop]⟩
    | succ k ih =>
      intro hk
      obtain ⟨h1, h2⟩ := ih (by omega)
      simp only [forLoop]
      refine ⟨by rw [List.length_set, h1], fun w => ?_⟩
      rw [getD_set_eq_ite, h1, h2]
      by_cases c : k = w
      · subst c
        simp [Nat.lt_of_succ_le hk]
      · have : w < k + 1 ↔ w < k := by omega
        simp only [c, false_and, if_false, this]
  have := (h t.cut.length (le_refl _)).2 v
  rw [if_pos hv] at this
  exact this

theorem deg_replicate_nil (n u : Nat) : deg (List.replicate n ([] : List Edge)) u = 0 := by
  unfold deg
  rw [List.getD_eq_getElem?_getD]
  by_cases h : u < n
  · rw [List.getElem?_eq_getElem (by simpa using h)]
    simp
  · rw [List.getElem?_eq_none (by simpa using h)]
    rfl

/-- A fresh graph object is in the state required before a solve. -/
theorem freshState_new (n source sink : Nat) : FreshState (FlowGraph.new n source sink) := by
  have hd : ∀ u, deg (FlowGraph.new n source sink).G u = 0 := fun u => deg_replicate_nil n u
  have hget : ∀ u i, getE (FlowGraph.new n source sink).G u i = default := fun u i =>
    getE_eq_default _ u i (by rw [hd]; exact Nat.zero_le _)
  refine ⟨⟨?_, ?_, ?_⟩, ?_, ?_, rfl, rfl, rfl, rfl, rfl⟩
  · show (List.replicate n ([] : List Edge)).length = n
    simp
  · intro u _ i hi
    rw [hd] at hi
    exact absurd hi (Nat.not_lt_zero i)
  · intro u i hi
    rw [hd] at hi
    exact absurd hi (Nat.not_lt_zero i)
  · intro u i
    rw [hget]
    rfl
  · intro u i
    rw [hget]
    exact le_refl _

/-- A position of the adjacency lists after `addEdge` that is not one of the
two new entries is a position of the lists before. -/
theorem addEdge_old_index {σ : Type} (s : FlowGraph σ) (from_ to_ : Nat) (u i : Nat)
    (hi : i < deg s.G u + (if u = from_ then 1 else 0) + (if u = to_ then 1 else 0))
    (c1 : ¬ (u = from_ ∧ i = deg s.G from_))
    (c2 : ¬ (u = to_ ∧ i = deg s.G to_ + (if from_ = to_ then 1 else 0))) :
    i < deg s.G u := by
  by_cases hft : from_ = to_
  · subst hft
    by_cases ha : u = from_
    · subst ha
      simp only [true_and, if_true] at hi c1 c2
      omega
    · simp only [ha, if_false] at hi
      omega
  · by_cases ha : u = from_
    · subst ha
      simp only [true_and, if_true, hft, if_false] at hi c1 c2
      omega
    · by_cases hb : u = to_
      · subst hb
        simp only [true_and, if_true, ha, hft, if_false] at hi c1 c2
        omega
      · simp only [ha, hb, if_false] at hi
        omega

/-- `addEdge` with a non-negative capacity keeps a graph object in the state
required before a solve. -/
theorem freshState_addEdge (s : FlowGraph (List Nat)) (from_ to_ : Nat) (cap : Int)
    (hF : FreshState s) (hf : from_ < s.N) (ht : to_ < s.N) (hc : 0 ≤ cap) :
    FreshState (s.addEdge from_ to_ cap) := by
  have hfl : from_ < s.G.length := by rw [hF.graph.len]; exact hf
  have htl : to_ < s.G.length := by rw [hF.graph.len]; exact ht
  have hget := getE_addEdge s from_ to_ cap hfl htl
  refine ⟨⟨?_, ?_, ?_⟩, ?_, ?_, hF.excess0, hF.height0, hF.count0, hF.ruleA, hF.ruleQ⟩
  · show (s.addEdge from_ to_ cap).G.length = s.N
    rw [length_addEdge]
    exact hF.graph.len
  · exact addEdge_pairing_core s from_ to_ cap hfl htl hF.graph.pairing
  · intro u i hi
    rw [deg_addEdge s from_ to_ cap hfl htl] at hi
    rw [hget]
    by_cases c1 : u = from_ ∧ i = deg s.G from_
    · rw [if_pos c1]
      exact c1.1.symm
    · rw [if_neg c1]
      by_cases c2 : u = to_ ∧ i = deg s.G to_ + (if from_ = to_ then 1 else 0)
      · rw [if_pos c2]
        exact c2.1.symm
      · rw [if_neg c2]
        exact hF.graph.from_ok u i (addEdge_old_index s from_ to_ u i hi c1 c2)
  · intro u i
    rw [hget]
    by_cases c1 : u = from_ ∧ i = deg s.G from_
    · rw [if_pos c1]
    · rw [if_neg c1]
      by_cases c2 : u = to_ ∧ i = deg s.G to_ + (if from_ = to_ then 1 else 0)
      · rw [if_pos c2]
      · rw [if_neg c2]
        exact hF.flow0 u i
  · intro u i
    rw [hget]
    by_cases c1 : u = from_ ∧ i = deg s.G from_
    · rw [if_pos c1]
      exact hc
    · rw [if_neg c1]
      by_cases c2 : u = to_ ∧ i = deg s.G to_ + (if from_ = to_ then 1 else 0)
      · rw [if_pos c2]
      · rw [if_neg c2]
        exact hF.cap0 u i

theorem buildGraph_append (n source sink : Nat) (edges : List (Nat × Nat × Int))
    (e : Nat × Nat × Int) :
    buildGraph n source sink (edges ++ [e])
      = (buildGraph n source sink edges).addEdge e.1 e.2.1 e.2.2 := by
  unfold buildGraph
  rw [List.foldl_append]
  rfl

theorem buildGraph_N (n source sink : Nat) (edges : List (Nat × Nat × Int)) :
    (buildGraph n source sink edges).N = n
    ∧ (buildGraph n source sink edges).cut.length = n := by
  induction edges using List.reverseRecOn with
  | nil => exact ⟨rfl, by simp [buildGraph, FlowGraph.new]⟩
  | append_singleton edges e ih =>
    rw [buildGraph_append]
    exact ih

/-- A graph built by `addEdge` calls with vertices in range and non-negative
capacities is in the state required before a solve. -/
theorem freshState_buildGraph (n source sink : Nat) (edges : List (Nat × Nat × Int))
    (hedges : ∀ e ∈ edges, e.1 < n ∧ e.2.1 < n ∧ 0 ≤ e.2.2) :
    FreshState (buildGraph n source sink edges) := by
  induction edges using List.reverseRecOn with
  | nil => exact freshState_new n source sink
  | append_singleton edges e ih =>
    rw [buildGraph_append]
    have he := hedges e (by simp)
    have hN := (buildGraph_N n source sink edges).1
    exact freshState_addEdge _ _ _ _ (ih (fun x hx => hedges x (by simp [hx])))
      (by rw [hN]; exact he.1) (by rw [hN]; exact he.2.1) he.2.2

/-- A sum over all adjacency entries after `addEdge`: the two new entries add
their terms. -/
theorem entrySum_addEdge {σ : Type} (s : FlowGraph σ) (from_ to_ : Nat) (cap : Int)
    (hf : from_ < s.G.length) (ht : to_ < s.G.length) (w : Nat → Nat → Int → Int) :
    (∑ v ∈ Finset.range (s.addEdge from_ to_ cap).G.length,
        ∑ i ∈ Finset.range (deg (s.addEdge from_ to_ cap).G v),
          w v (getE (s.addEdge from_ to_ cap).G v i).to_
            (getE (s.addEdge from_ to_ cap).G v i).cap)
      = (∑ v ∈ Finset.range s.G.length, ∑ i ∈ Finset.range (deg s.G v),
          w v (getE s.G v i).to_ (getE s.G v i).cap)
        + w from_ to_ cap + w to_ from_ 0 := by
  have hget := getE_addEdge s from_ to_ cap hf ht
  have hdeg := deg_addEdge s from_ to_ cap hf ht
  rw [length_addEdge]
  have hrow : ∀ v, (∑ i ∈ Finset.range (deg (s.addEdge from_ to_ cap).G v),
      w v (getE (s.addEdge from_ to_ cap).G v i).to_ (getE (s.addEdge from_ to_ cap).G v i).cap)
      = (∑ i ∈ Finset.range (deg s.G v), w v (getE s.G v i).to_ (getE s.G v i).cap)
        + (if v = from_ then w from_ to_ cap else 0) + (if v = to_ then w to_ from_ 0 else 0) := by
    intro v
    have hold : ∀ i ∈ Finset.range (deg s.G v),
        w v (getE (s.addEdge from_ to_ cap).G v i).to_
            (getE (s.addEdge from_ to_ cap).G v i).cap
          = w v (getE s.G v i).to_ (getE s.G v i).cap := by
      intro i hi
      rw [Finset.mem_range] at hi
      rw [hget]
      have n1 : ¬ (v = from_ ∧ i = deg s.G from_) := by
        rintro ⟨rfl, e⟩
        omega
      have n2 : ¬ (v = to_ ∧ i = deg s.G to_ + (if from_ = to_ then 1 else 0)) := by
        rintro ⟨rfl, e⟩
        omega
      rw [if_neg n1, if_neg n2]
    rw [hdeg]
    by_cases a3 : from_ = to_
    · subst a3
      by_cases a1 : v = from_
      · subst a1
        simp only [if_true]
        rw [Finset.sum_range_succ, Finset.sum_range_succ, Finset.sum_congr rfl hold, hget, hget]
        simp
      · simp only [a1, if_false, add_zero]
        exact Finset.sum_congr rfl hold
    · have a3b : ¬ to_ = from_ := fun e => a3 e.symm
      by_cases a1 : v = from_
      · subst a1
        simp only [if_true, a3, if_false, add_zero]
        rw [Finset.sum_range_succ, Finset.sum_congr rfl hold, hget]
        simp
      · by_cases a2 : v = to_
        · subst a2
          simp only [a1, if_true, if_false, add_zero, zero_add]
          rw [Finset.sum_range_succ, Finset.sum_congr rfl hold, hget]
          simp [a3, a1]
        · simp only [a1, a2, if_false, add_zero]
          exact Finset.sum_congr rfl hold
  simp only [hrow]
  rw [Finset.sum_add_distrib, Finset.sum_add_distrib,
    Finset.sum_ite_eq' (Finset.range s.G.length) from_ (fun _ => w from_ to_ cap),
    Finset.sum_ite_eq' (Finset.range s.G.length) to_ (fun _ => w to_ from_ 0)]
  simp [hf, ht]

/-- A sum over all adjacency entries of a graph built by `addEdge` calls is a
sum over the edges when reverse entries, of capacity zero, add nothing. -/
theorem entrySum_buildGraph (n source sink : Nat) (edges : List (Nat × Nat × Int))
    (hedges : ∀ e ∈ edges, e.1 < n ∧ e.2.1 < n ∧ 0 ≤ e.2.2)
    (w : Nat → Nat → Int → Int) (hw : ∀ a b, w a b 0 = 0) :
    (∑ v ∈ Finset.range (buildGraph n source sink edges).G.length,
        ∑ i ∈ Finset.range (deg (buildGraph n source sink edges).G v),
          w v (getE (buildGraph n source sink edges).G v i).to_
            (getE (buildGraph n source sink edges).G v i).cap)
      = (edges.map (fun e => w e.1 e.2.1 e.2.2)).sum := by
  induction edges using List.reverseRecOn with
  | nil =>
    have hd : ∀ u, deg (buildGraph n source sink []).G u = 0 := fun u => deg_replicate_nil n u
    simp [hd]
  | append_singleton edges e ih =>
    have he := hedges e (by simp)
    have hF := freshState_buildGraph n source sink edges (fun x hx => hedges x (by simp [hx]))
    have hN := (buildGraph_N n source sink edges).1
    rw [buildGraph_append, entrySum_addEdge _ _ _ _ (by rw [hF.graph.len, hN]; exact he.1)
      (by rw [hF.graph.len, hN]; exact he.2.1), ih (fun x hx => hedges x (by simp [hx])), hw]
    simp

/-- The capacity of the entries from height `N` to below `N` in the final
state is the capacity of the edges crossing the cut. -/
theorem cutEntries_eq_crossing (n source sink : Nat) (edges : List (Nat × Nat × Int))
    (hedges : ∀ e ∈ edges, e.1 < n ∧ e.2.1 < n ∧ 0 ≤ e.2.2)
    (t0 : FlowGraph (List Nat)) (hcl : t0.cut.length = n)
    (hlen : t0.G.length = n)
    (hdeg : ∀ v, deg t0.G v = deg (buildGraph n source sink edges).G v)
    (hshape : ∀ v j, (getE t0.G v j).cap = (getE (buildGraph n source sink edges).G v j).cap
      ∧ (getE t0.G v j).to_ = (getE (buildGraph n source sink edges).G v j).to_) :
    (∑ v ∈ Finset.range t0.G.length, ∑ i ∈ Finset.range (deg t0.G v),
        if t0.N ≤ t0.height.getD v 0 ∧ t0.height.getD (getE t0.G v i).to_ 0 < t0.N then
          (getE t0.G v i).cap
        else 0)
      = crossingCapacity edges t0.cutFromHeights.cut := by
  have hF := freshState_buildGraph n source sink edges hedges
  have hN0 := (buildGraph_N n source sink edges).1
  have h := entrySum_buildGraph n source sink edges hedges
    (fun a b c => if t0.N ≤ t0.height.getD a 0 ∧ t0.height.getD b 0 < t0.N then c else 0)
    (fun a b => by simp)
  have hl : (buildGraph n source sink edges).G.length = t0.G.length := by
    rw [hF.graph.len, hN0, hlen]
  rw [hl] at h
  simp only [← hdeg, ← (hshape _ _).1, ← (hshape _ _).2] at h
  rw [h]
  unfold crossingCapacity
  congr 1
  apply List.map_congr_left
  intro e he
  have hb := hedges e he
  rw [cutFromHeights_getD t0 e.1 (by rw [hcl]; exact hb.1),
    cutFromHeights_getD t0 e.2.1 (by rw [hcl]; exact hb.2.1)]
  simp only [decide_eq_true_eq, decide_eq_false_iff_not, not_le]

theorem strandedExcess_nonneg {σ : Type} (s : FlowGraph σ) (source sink : Nat)
    (h : ExcessNonneg s.excess) : 0 ≤ s.strandedExcess source sink := by
  unfold FlowGraph.strandedExcess
  apply Finset.sum_nonneg
  intro v _
  split_ifs
  · exact le_refl _
  · exact h v

/-- A push along an entry that descends by one lowers the potential by the
amount pushed. -/
theorem push_potential {σ : Type} (ops : RuleOps σ) (s : FlowGraph σ) (u i source sink : Nat)
    (hi : i < deg s.G u) (hinv : PRInv s source sink)
    (hh : s.height.getD u 0 = s.height.getD (getE s.G u i).to_ 0 + 1) :
    (s.push ops u i).potential
      = s.potential - min ((getE s.G u i).cap - (getE s.G u i).flow) (s.excess.getD u 0) := by
  have hfrom := hinv.graph.from_ok u i hi
  have hul : u < s.G.length := lt_length_of_lt_deg hi
  have hu : u < s.N := by rw [← hinv.graph.len]; exact hul
  have hw : (getE s.G u i).to_ < s.N := by
    rw [← hinv.graph.len]
    exact (hinv.graph.pairing u hul i hi).1
  have hex : ∀ v, (s.push ops u i).excess.getD v 0
      = s.excess.getD v 0
        - (if v = u then min ((getE s.G u i).cap - (getE s.G u i).flow) (s.excess.getD u 0)
            else 0)
        + (if v = (getE s.G u i).to_ then
            min ((getE s.G u i).cap - (getE s.G u i).flow) (s.excess.getD u 0) else 0) := by
    intro v
    have := getD_push_excess ops s u i (by rw [hfrom, hinv.lenE]; exact hu)
      (by rw [hinv.lenE]; exact hw) v
    rw [hfrom] at this
    exact this
  show (∑ v ∈ Finset.range s.N, (s.push ops u i).excess.getD v 0 * (s.height.getD v 0 : Int)) = _
  simp only [hex, add_mul, sub_mul, Finset.sum_add_distrib, Finset.sum_sub_distrib, ite_mul,
    zero_mul]
  rw [Finset.sum_ite_eq' (Finset.range s.N) u, Finset.sum_ite_eq' (Finset.range s.N)
    (getE s.G u i).to_]
  simp only [Finset.mem_range, hu, hw, if_true]
  rw [hh]
  unfold FlowGraph.potential
  push_cast
  ring

/-- The potential is not negative. -/
theorem potential_nonneg {σ : Type} (s : FlowGraph σ) (hn : ExcessNonneg s.excess) :
    0 ≤ s.potential := by
  apply Finset.sum_nonneg
  intro v _
  exact mul_nonneg (hn v) (Int.natCast_nonneg _)

/-- The heights sum to at most `N * N`. -/
theorem heightTotal_le {σ : Type} (s : FlowGraph σ) (hle : ∀ v, s.height.getD v 0 ≤ s.N) :
    s.heightTotal ≤ s.N * s.N := by
  unfold FlowGraph.heightTotal
  calc (∑ v ∈ Finset.range s.N, s.height.getD v 0)
      ≤ ∑ _v ∈ Finset.range s.N, s.N := Finset.sum_le_sum (fun v _ => hle v)
    _ = s.N * s.N := by simp

/-- The loop of `discharge(u)` either lowers the potential or leaves the state
as it was. -/
theorem dischargeLoop_potential {σ : Type} (ops : RuleOps σ) (s : FlowGraph σ)
    (u source sink : Nat) (hinv : PRInv s source sink) (k : Nat) (hk : k ≤ deg s.G u) :
    (forLoop (dischargeStep ops u) k s).potential < s.potential
    ∨ forLoop (dischargeStep ops u) k s = s := by
  induction k with
  | zero => exact Or.inr rfl
  | succ k ih =>
    obtain ⟨p1, p2, p3, p4, p5, p6⟩ :=
      dischargeLoop_spec ops s u source sink hinv k (Nat.le_of_succ_le hk)
    have ih := ih (Nat.le_of_succ_le hk)
    simp only [forLoop]
    rw [dischargeStep_def]
    by_cases hx : 0 < (forLoop (dischargeStep ops u) k s).excess.getD u 0
    · rw [if_pos hx]
      by_cases hc : (getE (forLoop (dischargeStep ops u) k s).G u k).cap
            > (getE (forLoop (dischargeStep ops u) k s).G u k).flow
          ∧ (forLoop (dischargeStep ops u) k s).height.getD u 0
            = (forLoop (dischargeStep ops u) k s).height.getD
                (getE (forLoop (dischargeStep ops u) k s).G u k).to_ 0 + 1
      · rw [if_pos hc]
        left
        have hkd : k < deg (forLoop (dischargeStep ops u) k s).G u := by
          rw [p5]
          exact hk
        rw [push_potential ops _ u k source sink hkd p1 hc.2]
        have : (forLoop (dischargeStep ops u) k s).potential ≤ s.potential := by
          rcases ih with ih | ih
          · exact le_of_lt ih
          · rw [ih]
        have hpos : 0 < min ((getE (forLoop (dischargeStep ops u) k s).G u k).cap
            - (getE (forLoop (dischargeStep ops u) k s).G u k).flow)
            ((forLoop (dischargeStep ops u) k s).excess.getD u 0) :=
          lt_min (by have := hc.1; omega) hx
        omega
      · rw [if_neg hc]
        exact ih
    · rw [if_neg hx]
      exact ih

/-- What `relabel(u)` does to the termination measure, when no residual entry
of `u` descends by one: no height falls, the height of `u` rises if it was
below `N`, and at height `N` nothing but the histogram changes. -/
theorem relabel_measure {σ : Type} (ops : RuleOps σ) (s : FlowGraph σ) (u source sink : Nat)
    (hu : u < s.N) (hinv : PRInv s source sink)
    (hpost : ∀ i, i < deg s.G u →
      ¬ ((getE s.G u i).flow < (getE s.G u i).cap
        ∧ s.height.getD u 0 = s.height.getD (getE s.G u i).to_ 0 + 1)) :
    (∀ v, s.height.getD v 0 ≤ (s.relabel ops u).height.getD v 0)
    ∧ (s.height.getD u 0 < s.N → s.height.getD u 0 < (s.relabel ops u).height.getD u 0)
    ∧ (s.height.getD u 0 = s.N →
        (∀ v, (s.relabel ops u).height.getD v 0 = s.height.getD v 0)
        ∧ (s.relabel ops u).rule = s.rule) := by
  have hH := hinv.heights
  have hul : u < s.height.length := by rw [hH.lenH]; exact hu
  obtain ⟨m, hh, hmN, hm1, h2, h3, hcnt, hrule⟩ := relabel_spec ops s u hul (by omega)
  have hle := hH.le_N u
  have hge : s.height.getD u 0 ≤ m ∧ (s.height.getD u 0 < s.N → s.height.getD u 0 < m) := by
    rcases h3 with h3 | ⟨hlt, i, hi, r, t, e⟩
    · rw [h3]
      exact ⟨hle, fun h => h⟩
    · have h4 := hinv.labels u i hi r
      have h5 := hpost i hi
      have : s.height.getD u 0 ≠ s.height.getD (getE s.G u i).to_ 0 + 1 := fun e2 => h5 ⟨r, e2⟩
      constructor
      · omega
      · intro _
        omega
  have hget : ∀ v, (s.relabel ops u).height.getD v 0
      = if u = v then m else s.height.getD v 0 := by
    intro v
    rw [hh, getD_set_eq_ite]
    by_cases c : u = v
    · rw [if_pos ⟨c, hul⟩, if_pos c]
    · rw [if_neg (fun h => c h.1), if_neg c]
  refine ⟨?_, ?_, ?_⟩
  · intro v
    rw [hget]
    by_cases c : u = v
    · rw [if_pos c, ← c]
      exact hge.1
    · rw [if_neg c]
  · intro hlt
    rw [hget, if_pos rfl]
    exact hge.2 hlt
  · intro heq
    have hm : m = s.N := by
      have := hge.1
      omega
    constructor
    · intro v
      rw [hget]
      by_cases c : u = v
      · rw [if_pos c, ← c, hm, heq]
      · rw [if_neg c]
    · rw [hrule, if_neg (by omega)]

/-- What `gap(height[u])` does to the termination measure, when `u` is alone
at its height: no height falls, the height of `u` rises if it was below `N`,
and at height `N` neither heights nor queue change. -/
theorem gap_measure (s : FlowGraph (List Nat)) (u source sink : Nat)
    (hinv : PRInv s source sink)
    (hc1 : s.count.getD (s.height.getD u 0) 0 = 1) :
    (∀ v, s.height.getD v 0 ≤ (s.gap fifoRule (s.height.getD u 0)).height.getD v 0)
    ∧ (s.height.getD u 0 < s.N →
        s.height.getD u 0 < (s.gap fifoRule (s.height.getD u 0)).height.getD u 0)
    ∧ (s.height.getD u 0 = s.N →
        (∀ v, (s.gap fifoRule (s.height.getD u 0)).height.getD v 0 = s.height.getD v 0))
    ∧ (s.gap fifoRule (s.height.getD u 0)).rule.impl = s.rule.impl := by
  have hH := hinv.heights
  have h1 : 1 ≤ s.height.getD u 0 := by
    by_contra hc
    have h0 : s.height.getD u 0 = 0 := by omega
    rw [h0] at hc1
    have := hH.cnt0
    omega
  have hgh := gap_height fifoRule s (s.height.getD u 0) source sink h1 hinv.graph.len hH
  obtain ⟨_, _, _, _, _, _, _, _, e9⟩ :=
    gapLoop_spec s (s.height.getD u 0) h1 hH.lenC hH.cnt hH.cnt0 s.G.length
      (by rw [hinv.graph.len, hH.lenH])
  refine ⟨?_, ?_, ?_, ?_⟩
  · intro v
    rw [hgh]
    split_ifs with c
    · exact le_of_lt c.2
    · exact le_refl _
  · intro hlt
    rw [hgh, if_pos ⟨le_refl _, hlt⟩]
    exact hlt
  · intro heq v
    rw [hgh, if_neg (fun c => by omega)]
  · rw [gap_rule]
    exact e9.1

/-- Each `discharge(u)` raises the sum of the heights, or keeps that sum and
lowers the potential, or keeps both and leaves the queue as it was. -/
theorem discharge_measure (s : FlowGraph (List Nat)) (u source sink : Nat)
    (hu : u < s.N) (hinv : PRInv s source sink) :
    s.heightTotal < (s.discharge fifoRule u).heightTotal
    ∨ ((s.discharge fifoRule u).heightTotal = s.heightTotal
      ∧ ((s.discharge fifoRule u).potential < s.potential
        ∨ ((s.discharge fifoRule u).potential = s.potential
          ∧ (s.discharge fifoRule u).rule.impl = s.rule.impl))) := by
  obtain ⟨p1, p2, p3, p4, p5, p6⟩ :=
    dischargeLoop_spec fifoRule s u source sink hinv (deg s.G u) (le_refl _)
  have hpot := dischargeLoop_potential fifoRule s u source sink hinv (deg s.G u) (le_refl _)
  have hN := discharge_N fifoRule s u source sink hinv
  have hht1 : (forLoop (dischargeStep fifoRule u) (deg s.G u) s).heightTotal = s.heightTotal := by
    unfold FlowGraph.heightTotal
    rw [p2, p4]
  -- the measure of a state with the heights, excess and queue of the state
  -- after the loop
  have hsame : ∀ t : FlowGraph (List Nat), t.N = s.N →
      (∀ v, t.height.getD v 0
        = (forLoop (dischargeStep fifoRule u) (deg s.G u) s).height.getD v 0) →
      t.excess = (forLoop (dischargeStep fifoRule u) (deg s.G u) s).excess →
      t.rule.impl = (forLoop (dischargeStep fifoRule u) (deg s.G u) s).rule.impl →
      s.heightTotal < t.heightTotal
      ∨ (t.heightTotal = s.heightTotal
        ∧ (t.potential < s.potential ∨ (t.potential = s.potential ∧ t.rule.impl = s.rule.impl))) := by
    intro t hN1 hh hx hr
    right
    have e1 : t.heightTotal = s.heightTotal := by
      rw [← hht1]
      unfold FlowGraph.heightTotal
      rw [hN1, p4]
      exact Finset.sum_congr rfl (fun v _ => hh v)
    have e2 : t.potential = (forLoop (dischargeStep fifoRule u) (deg s.G u) s).potential := by
      unfold FlowGraph.potential
      rw [hN1, p4, hx]
      exact Finset.sum_congr rfl (fun v _ => by rw [hh v])
    refine ⟨e1, ?_⟩
    rcases hpot with hpot | hpot
    · left
      rw [e2]
      exact hpot
    · right
      rw [e2, hr, hpot]
      exact ⟨rfl, rfl⟩
  -- the measure of a state whose heights are those after the loop, except that
  -- some have risen
  have hrise : ∀ t : FlowGraph (List Nat), t.N = s.N →
      (∀ v, (forLoop (dischargeStep fifoRule u) (deg s.G u) s).height.getD v 0
        ≤ t.height.getD v 0) →
      (forLoop (dischargeStep fifoRule u) (deg s.G u) s).height.getD u 0 < t.height.getD u 0 →
      s.heightTotal < t.heightTotal := by
    intro t hN1 hle hlt
    rw [← hht1]
    unfold FlowGraph.heightTotal
    rw [hN1, p4]
    exact Finset.sum_lt_sum (fun v _ => hle v) ⟨u, Finset.mem_range.mpr hu, hlt⟩
  have hu1 : u < (forLoop (dischargeStep fifoRule u) (deg s.G u) s).N := by rw [p4]; exact hu
  rw [discharge_def]
  by_cases hx : 0 < (forLoop (dischargeStep fifoRule u) (deg s.G u) s).excess.getD u 0
  · rw [if_pos hx]
    have hpost : ∀ i, i < deg (forLoop (dischargeStep fifoRule u) (deg s.G u) s).G u →
        ¬ ((getE (forLoop (dischargeStep fifoRule u) (deg s.G u) s).G u i).flow
              < (getE (forLoop (dischargeStep fifoRule u) (deg s.G u) s).G u i).cap
            ∧ (forLoop (dischargeStep fifoRule u) (deg s.G u) s).height.getD u 0
              = (forLoop (dischargeStep fifoRule u) (deg s.G u) s).height.getD
                  (getE (forLoop (dischargeStep fifoRule u) (deg s.G u) s).G u i).to_ 0 + 1) := by
      intro i hi
      rw [p5] at hi
      rw [p2]
      exact p6 hx i hi
    have hcase : (forLoop (dischargeStep fifoRule u) (deg s.G u) s).height.getD u 0
          < (forLoop (dischargeStep fifoRule u) (deg s.G u) s).N
        ∨ (forLoop (dischargeStep fifoRule u) (deg s.G u) s).height.getD u 0
          = (forLoop (dischargeStep fifoRule u) (deg s.G u) s).N := by
      have := p1.heights.le_N u
      omega
    by_cases hc : (forLoop (dischargeStep fifoRule u) (deg s.G u) s).count.getD
        ((forLoop (dischargeStep fifoRule u) (deg s.G u) s).height.getD u 0) 0 = 1
    · rw [if_pos hc]
      obtain ⟨g1, g2, g3, g4⟩ := gap_measure _ u source sink p1 hc
      rcases hcase with hlt | heq
      · left
        exact hrise _ (by rw [gap_N, p4]) g1 (g2 hlt)
      · exact hsame _ (by rw [gap_N, p4]) (g3 heq) (gap_excess _ _ _) g4
    · rw [if_neg hc]
      obtain ⟨g1, g2, g3⟩ := relabel_measure fifoRule _ u source sink hu1 p1 hpost
      rcases hcase with hlt | heq
      · left
        exact hrise _ (by rw [relabel_N, p4]) g1 (g2 hlt)
      · exact hsame _ (by rw [relabel_N, p4]) (g3 heq).1 (relabel_excess _ _ _)
          (by rw [(g3 heq).2])
  · rw [if_neg hx]
    exact hsame _ p4 (fun _ => rfl) rfl rfl

/-- The loop of `minCutPushRelabel` ends: with the first-in-first-out rule some
amount of fuel lets it run until the queue is empty. -/
theorem dischargeLoop_terminates (source sink : Nat) :
    ∀ (a b c : Nat) (s : FlowGraph (List Nat)),
      s.N * s.N - s.heightTotal = a → s.potential.toNat = b → s.rule.impl.length = c →
      PRInv s source sink → FifoOK s.N source sink s.rule →
      Pending s.N source sink s.rule s.excess s.height none →
      ∃ fuel t, dischargeLoop fifoRule fuel s = some t := by
  intro a
  induction a using Nat.strong_induction_on with
  | _ a iha =>
  intro b
  induction b using Nat.strong_induction_on with
  | _ b ihb =>
  intro c
  induction c using Nat.strong_induction_on with
  | _ c ihc =>
  intro s ha hb hc hinv hF hP
  by_cases he : fifoRule.empty s.rule = true
  · refine ⟨1, s, ?_⟩
    rw [dischargeLoop_succ, if_pos he]
  · obtain ⟨hu, hus, hut, hinv1, hinv2, hN2, g1, g2⟩ :=
      dischargeLoop_step source sink s he hinv hF hP
    have hm := discharge_measure
      ({ s with rule := (fifoRule.next s.rule).2 } : FlowGraph (List Nat))
      (fifoRule.next s.rule).1 source sink hu hinv1
    have hlen : (fifoRule.next s.rule).2.impl.length < s.rule.impl.length := by
      show s.rule.impl.tail.length < s.rule.impl.length
      cases hq : s.rule.impl with
      | nil =>
        exfalso
        apply he
        show s.rule.impl.isEmpty = true
        rw [hq]
        rfl
      | cons x rest => simp
    have hle2 := heightTotal_le _ hinv2.heights.le_N
    rw [hN2] at hle2
    have hnn2 := potential_nonneg _ hinv2.nonneg
    have hnn := potential_nonneg _ hinv.nonneg
    have hrec : ∃ fuel t, dischargeLoop fifoRule fuel
        (FlowGraph.discharge fifoRule { s with rule := (fifoRule.next s.rule).2 }
          (fifoRule.next s.rule).1) = some t := by
      rcases hm with hm | ⟨hm1, hm | ⟨hm2, hm3⟩⟩
      · have hm : s.heightTotal < (FlowGraph.discharge fifoRule
            { s with rule := (fifoRule.next s.rule).2 } (fifoRule.next s.rule).1).heightTotal := hm
        refine iha _ ?_ _ _ _ rfl rfl rfl hinv2 (by rw [hN2]; exact g1) (by rw [hN2]; exact g2)
        rw [hN2, ← ha]
        omega
      · have hm1 : (FlowGraph.discharge fifoRule
            { s with rule := (fifoRule.next s.rule).2 } (fifoRule.next s.rule).1).heightTotal
              = s.heightTotal := hm1
        have hm : (FlowGraph.discharge fifoRule
            { s with rule := (fifoRule.next s.rule).2 } (fifoRule.next s.rule).1).potential
              < s.potential := hm
        refine ihb _ ?_ _ _ ?_ rfl rfl hinv2 (by rw [hN2]; exact g1) (by rw [hN2]; exact g2)
        · rw [← hb]
          omega
        · rw [hN2, hm1, ha]
      · have hm1 : (FlowGraph.discharge fifoRule
            { s with rule := (fifoRule.next s.rule).2 } (fifoRule.next s.rule).1).heightTotal
              = s.heightTotal := hm1
        have hm2 : (FlowGraph.discharge fifoRule
            { s with rule := (fifoRule.next s.rule).2 } (fifoRule.next s.rule).1).potential
              = s.potential := hm2
        have hm3 : (FlowGraph.discharge fifoRule
            { s with rule := (fifoRule.next s.rule).2 } (fifoRule.next s.rule).1).rule.impl
              = (fifoRule.next s.rule).2.impl := hm3
        refine ihc _ ?_ _ ?_ ?_ rfl hinv2 (by rw [hN2]; exact g1) (by rw [hN2]; exact g2)
        · rw [hm3, ← hc]
          exact hlen
        · rw [hN2, hm1, ha]
        · rw [hm2, hb]
    obtain ⟨fuel, t, hrun⟩ := hrec
    refine ⟨fuel + 1, t, ?_⟩
    rw [dischargeLoop_succ, if_neg he]
    exact hrun

/-- On a graph built by `addEdge` calls with non-negative capacities and
`source != sink`, solved from the fresh state with the first-in-first-out
rule, `minCutPushRelabel` returns. -/
theorem minCutPushRelabel_returns (n source sink : Nat) (edges : List (Nat × Nat × Int))
    (hedges : ∀ e ∈ edges, e.1 < n ∧ e.2.1 < n ∧ 0 ≤ e.2.2)
    (hs : source < n) (ht : sink < n) (hne : source ≠ sink) :
    ∃ fuel t, (buildGraph n source sink edges).minCutPushRelabel fifoRule fuel source sink
      = Except.ok t := by
  have hF := freshState_buildGraph n source sink edges hedges
  have hN := (buildGraph_N n source sink edges).1
  obtain ⟨i1, i2, -, -⟩ := init_PRInv fifoRule (buildGraph n source sink edges) source sink
    hF.graph hF.flow0 hF.cap0 hF.excess0 hF.height0 hF.count0 (by rw [hN]; exact hs)
    (by rw [hN]; exact ht) hne
  obtain ⟨f1, f2⟩ := init_fifo (buildGraph n source sink edges) source sink hF
    (by rw [hN]; exact hs) (by rw [hN]; exact ht)
  obtain ⟨fuel, t0, hrun⟩ := dischargeLoop_terminates source sink _ _ _ _ rfl rfl rfl i1
    (by rw [i2]; exact f1) (by rw [i2]; exact f2)
  refine ⟨fuel, t0.cutFromHeights, ?_⟩
  unfold FlowGraph.minCutPushRelabel
  rw [hrun]

/-- The adjacency entries of positive capacity of a graph built by `addEdge`
calls are the edges of positive capacity given to those calls. -/
theorem posStep_buildGraph (n source sink : Nat) (edges : List (Nat × Nat × Int))
    (hedges : ∀ e ∈ edges, e.1 < n ∧ e.2.1 < n ∧ 0 ≤ e.2.2) (u w : Nat) :
    PosStep (buildGraph n source sink edges).G u w ↔ EdgeStep edges u w := by
  induction edges using List.reverseRecOn with
  | nil =>
    constructor
    · rintro ⟨i, hi, -, -⟩
      exfalso
      have : deg (buildGraph n source sink []).G u = 0 := by
        show deg (List.replicate n []) u = 0
        exact deg_replicate_nil n u
      omega
    · rintro ⟨e, he, -⟩
      simp at he
  | append_singleton edges e ih =>
    have hedges1 : ∀ e ∈ edges, e.1 < n ∧ e.2.1 < n ∧ 0 ≤ e.2.2 :=
      fun x hx => hedges x (List.mem_append_left _ hx)
    have ih := ih hedges1
    have hF := freshState_buildGraph n source sink edges hedges1
    have hN := (buildGraph_N n source sink edges).1
    have hlen : (buildGraph n source sink edges).G.length = n := by rw [hF.graph.len, hN]
    obtain ⟨he1, he2, -⟩ := hedges e (by simp)
    have hf : e.1 < (buildGraph n source sink edges).G.length := by rw [hlen]; exact he1
    have ht : e.2.1 < (buildGraph n source sink edges).G.length := by rw [hlen]; exact he2
    rw [buildGraph_append]
    constructor
    · rintro ⟨i, hi, hto, hcap⟩
      rw [getE_addEdge _ _ _ _ hf ht] at hto hcap
      by_cases c1 : u = e.1 ∧ i = deg (buildGraph n source sink edges).G e.1
      · rw [if_pos c1] at hto hcap
        exact ⟨e, by simp, c1.1.symm, hto, hcap⟩
      · rw [if_neg c1] at hto hcap
        by_cases c2 : u = e.2.1 ∧ i = deg (buildGraph n source sink edges).G e.2.1
            + (if e.1 = e.2.1 then 1 else 0)
        · rw [if_pos c2] at hcap
          exact absurd hcap (lt_irrefl _)
        · rw [if_neg c2] at hto hcap
          have hi0 : i < deg (buildGraph n source sink edges).G u := by
            by_contra hc
            rw [getE_eq_default _ _ _ (by omega)] at hcap
            exact absurd hcap (by decide)
          obtain ⟨x, hx, h1, h2, h3⟩ := ih.mp ⟨i, hi0, hto, hcap⟩
          exact ⟨x, List.mem_append_left _ hx, h1, h2, h3⟩
    · rintro ⟨x, hx, h1, h2, h3⟩
      rw [List.mem_append, List.mem_singleton] at hx
      rcases hx with hx | hx
      · obtain ⟨i, hi, hto, hcap⟩ := ih.mpr ⟨x, hx, h1, h2, h3⟩
        refine ⟨i, ?_, ?_, ?_⟩
        · rw [deg_addEdge _ _ _ _ hf ht]
          omega
        · rw [getE_addEdge _ _ _ _ hf ht, if_neg (fun c => by rw [c.1] at hi; omega),
            if_neg (fun c => by rw [c.1] at hi; omega)]
          exact hto
        · rw [getE_addEdge _ _ _ _ hf ht, if_neg (fun c => by rw [c.1] at hi; omega),
            if_neg (fun c => by rw [c.1] at hi; omega)]
          exact hcap
      · subst hx
        refine ⟨deg (buildGraph n source sink edges).G u, ?_, ?_, ?_⟩
        · rw [deg_addEdge _ _ _ _ hf ht, if_pos h1.symm]
          omega
        · rw [getE_addEdge _ _ _ _ hf ht, if_pos ⟨h1.symm, by rw [h1]⟩]
          exact h2
        · rw [getE_addEdge _ _ _ _ hf ht, if_pos ⟨h1.symm, by rw [h1]⟩]
          exact h3

/-- Reachability in a graph built by `addEdge` calls is reachability along the
edges of positive capacity given to those calls. -/
theorem posReach_buildGraph (n source sink : Nat) (edges : List (Nat × Nat × Int))
    (hedges : ∀ e ∈ edges, e.1 < n ∧ e.2.1 < n ∧ 0 ≤ e.2.2) (u w : Nat) :
    PosReach (buildGraph n source sink edges).G u w ↔ EdgeReach edges u w := by
  constructor
  · intro h
    exact Relation.ReflTransGen.mono
      (fun a b hab => (posStep_buildGraph n source sink edges hedges a b).mp hab) h
  · intro h
    exact Relation.ReflTransGen.mono
      (fun a b hab => (posStep_buildGraph n source sink edges hedges a b).mpr hab) h

/-- Reachability only reads the sizes, heads and capacities of the adjacency
lists. -/
theorem posReach_of_shape (G0 G : List (List Edge)) (hdeg : ∀ v, deg G v = deg G0 v)
    (hshape : ∀ v j, (getE G v j).cap = (getE G0 v j).cap
      ∧ (getE G v j).to_ = (getE G0 v j).to_) (u w : Nat) :
    PosReach G u w ↔ PosReach G0 u w := by
  have hstep : ∀ a b, PosStep G a b ↔ PosStep G0 a b := by
    intro a b
    unfold PosStep
    simp only [hdeg, (hshape _ _).1, (hshape _ _).2]
  constructor
  · exact fun h => Relation.ReflTransGen.mono (fun a b hab => (hstep a b).mp hab) h
  · exact fun h => Relation.ReflTransGen.mono (fun a b hab => (hstep a b).mpr hab) h

/-- In a state of the push-relabel run a vertex that the source cannot reach
along entries of positive capacity holds no excess. -/
theorem excess_zero_of_unreachable {σ : Type} (t : FlowGraph σ) (source sink : Nat)
    (hinv : PRInv t source sink) (v : Nat) (hv : v < t.N)
    (hnr : ¬ PosReach t.G source v) : t.excess.getD v 0 = 0 := by
  classical
  have hlen := hinv.graph.len
  -- paired entries cancel
  have h1 := sum_entries_antisym t.G hinv.graph.pairing hinv.antisym
    (fun a b => if ¬ PosReach t.G source a ∨ ¬ PosReach t.G source b then 1 else 0)
    (fun a b => by simp only [or_comm])
  -- the entries of the vertices out of reach
  have h2 : (∑ x ∈ Finset.range t.G.length, ∑ i ∈ Finset.range (deg t.G x),
      if ¬ PosReach t.G source x then (getE t.G x i).flow else 0)
        = - ∑ x ∈ Finset.range t.G.length,
            if ¬ PosReach t.G source x then t.excess.getD x 0 else 0 := by
    rw [← Finset.sum_neg_distrib]
    apply Finset.sum_congr rfl
    intro x hx
    rw [Finset.mem_range] at hx
    by_cases c : PosReach t.G source x
    · simp [c]
    · simp only [c, not_false_eq_true, if_true]
      have hxs : x ≠ source := by
        rintro rfl
        exact c Relation.ReflTransGen.refl
      have hcons := hinv.conserved x hx hxs
      unfold outSum at hcons
      omega
  -- the entries that leave the reach of the source carry no flow forward
  have h4 : (∑ x ∈ Finset.range t.G.length, ∑ i ∈ Finset.range (deg t.G x),
      if PosReach t.G source x ∧ ¬ PosReach t.G source (getE t.G x i).to_ then
        (getE t.G x i).flow else 0) ≤ 0 := by
    apply Finset.sum_nonpos
    intro x _
    apply Finset.sum_nonpos
    intro i hi
    rw [Finset.mem_range] at hi
    split_ifs with c
    · have hcap := hinv.capacity x i hi
      have : ¬ 0 < (getE t.G x i).cap := by
        intro hpos
        exact c.2 (Relation.ReflTransGen.tail c.1 ⟨i, hi, rfl, hpos⟩)
      omega
    · exact le_refl _
  have h3 : (∑ x ∈ Finset.range t.G.length, ∑ i ∈ Finset.range (deg t.G x),
      (if ¬ PosReach t.G source x ∨ ¬ PosReach t.G source (getE t.G x i).to_ then (1 : Int)
        else 0) * (getE t.G x i).flow)
      = (∑ x ∈ Finset.range t.G.length, ∑ i ∈ Finset.range (deg t.G x),
          if ¬ PosReach t.G source x then (getE t.G x i).flow else 0)
        + ∑ x ∈ Finset.range t.G.length, ∑ i ∈ Finset.range (deg t.G x),
          if PosReach t.G source x ∧ ¬ PosReach t.G source (getE t.G x i).to_ then
            (getE t.G x i).flow else 0 := by
    rw [← Finset.sum_add_distrib]
    apply Finset.sum_congr rfl
    intro x _
    rw [← Finset.sum_add_distrib]
    apply Finset.sum_congr rfl
    intro i _
    by_cases c : PosReach t.G source x <;>
      by_cases c2 : PosReach t.G source (getE t.G x i).to_ <;> simp [c, c2]
  rw [h3, h2] at h1
  have hsum : (∑ x ∈ Finset.range t.G.length,
      if ¬ PosReach t.G source x then t.excess.getD x 0 else 0) ≤ 0 := by omega
  have hmem : v ∈ Finset.range t.G.length := Finset.mem_range.mpr (by rw [hlen]; exact hv)
  have hterm := Finset.single_le_sum
    (f := fun x => if ¬ PosReach t.G source x then t.excess.getD x 0 else 0)
    (fun x _ => by
      show 0 ≤ if ¬ PosReach t.G source x then t.excess.getD x 0 else 0
      by_cases c : PosReach t.G source x
      · rw [if_neg (not_not.mpr c)]
      · rw [if_pos c]
        exact hinv.nonneg x)
    hmem
  simp only [hnr, not_false_eq_true, if_true] at hterm
  have := hinv.nonneg v
  omega

/-- The heights after the first part of `minCutPushRelabel`: only the source
has been lifted. -/
theorem initPushRelabel_height {σ : Type} (ops : RuleOps σ) (s : FlowGraph σ)
    (source sink : Nat) (hg : GraphOK s.N s.G)
    (hflow0 : ∀ u i, (getE s.G u i).flow = 0) (hcap0 : ∀ u i, 0 ≤ (getE s.G u i).cap)
    (hex : s.excess = List.replicate s.N 0) (hsrc : source < s.N) :
    (s.initPushRelabel ops source sink).height = s.height.set source s.N := by
  rw [initPushRelabel_def]
  have hlenE : s.excess.length = s.N := by rw [hex]; simp
  obtain ⟨-, e2, -⟩ :=
    initLoop_spec ops
      ({ s with
          height := s.height.set source s.N,
          rule := (s.rule.activate source).activate sink } : FlowGraph σ) source hg hsrc
      hflow0 hcap0 hlenE (by intro v; show s.excess.getD v 0 = 0; rw [hex]
                             exact getD_replicate_zero _ _)
      (deg s.G source) (le_refl _)
  exact e2

/-- A `discharge(u)` lifts only vertices that the source can reach along
entries of positive capacity. -/
theorem discharge_height_reach {σ : Type} (ops : RuleOps σ) (s : FlowGraph σ)
    (u source sink : Nat) (hu : u < s.N) (hinv : PRInv s source sink)
    (hX : ∀ v, 0 < s.height.getD v 0 → PosReach s.G source v) :
    ∀ v, 0 < (s.discharge ops u).height.getD v 0 → PosReach (s.discharge ops u).G source v := by
  obtain ⟨d1, d2⟩ := discharge_shape ops s u
  have hsh := fun a b => posReach_of_shape s.G (s.discharge ops u).G d1 d2 a b
  obtain ⟨p1, p2, p3, p4, p5, p6⟩ :=
    dischargeLoop_spec ops s u source sink hinv (deg s.G u) (le_refl _)
  intro v hv
  rw [hsh]
  rw [discharge_def] at hv hsh
  by_cases hx : 0 < (forLoop (dischargeStep ops u) (deg s.G u) s).excess.getD u 0
  · rw [if_pos hx] at hv hsh
    by_cases hc : (forLoop (dischargeStep ops u) (deg s.G u) s).count.getD
        ((forLoop (dischargeStep ops u) (deg s.G u) s).height.getD u 0) 0 = 1
    · rw [if_pos hc] at hv
      have hH := p1.heights
      have h1 : 1 ≤ (forLoop (dischargeStep ops u) (deg s.G u) s).height.getD u 0 := by
        by_contra hcon
        have h0 : (forLoop (dischargeStep ops u) (deg s.G u) s).height.getD u 0 = 0 := by omega
        rw [h0] at hc
        have := hH.cnt0
        omega
      rw [gap_height ops _ _ source sink h1 p1.graph.len hH, p2] at hv
      rw [p2] at h1
      apply hX
      split_ifs at hv with c
      · omega
      · exact hv
    · rw [if_neg hc] at hv hsh
      obtain ⟨m, hh, -⟩ := relabel_spec ops (forLoop (dischargeStep ops u) (deg s.G u) s) u
        (by rw [p1.heights.lenH, p4]; exact hu) (by rw [p4]; omega)
      rw [hh, getD_set_eq_ite, p2] at hv
      by_cases c : u = v
      · subst c
        rw [← hsh, relabel_G]
        by_contra hnr
        have := excess_zero_of_unreachable _ source sink p1 u (by rw [p4]; exact hu) hnr
        omega
      · rw [if_neg (fun h => c h.1)] at hv
        exact hX v hv
  · rw [if_neg hx, p2] at hv
    exact hX v hv

/-- The state in which the loop of `minCutPushRelabel` ends on a graph built by
`addEdge` calls: the invariant holds, no vertex below height `N` other than the
sink holds excess, the adjacency lists have kept their shape, and only
vertices that the source reaches along edges of positive capacity have left
height zero. -/
theorem minCutPushRelabel_final (n source sink : Nat) (edges : List (Nat × Nat × Int))
    (hedges : ∀ e ∈ edges, e.1 < n ∧ e.2.1 < n ∧ 0 ≤ e.2.2)
    (hs : source < n) (ht : sink < n) (hne : source ≠ sink) (fuel : Nat)
    (t : FlowGraph (List Nat))
    (hrun : (buildGraph n source sink edges).minCutPushRelabel fifoRule fuel source sink
      = Except.ok t) :
    ∃ t0 : FlowGraph (List Nat), t = t0.cutFromHeights ∧ PRInv t0 source sink ∧ t0.N = n
      ∧ t0.cut.length = n
      ∧ (∀ v, v < n → v ≠ source → v ≠ sink → t0.height.getD v 0 < n →
          t0.excess.getD v 0 = 0)
      ∧ (∀ v, deg t0.G v = deg (buildGraph n source sink edges).G v)
      ∧ (∀ v j, (getE t0.G v j).cap = (getE (buildGraph n source sink edges).G v j).cap
          ∧ (getE t0.G v j).to_ = (getE (buildGraph n source sink edges).G v j).to_)
      ∧ (∀ v, 0 < t0.height.getD v 0 → EdgeReach edges source v)
      ∧ (∀ v, v < n → ¬ EdgeReach edges source v → t0.excess.getD v 0 = 0) := by
  have hF := freshState_buildGraph n source sink edges hedges
  have hreach := posReach_buildGraph n source sink edges hedges
  obtain ⟨hN, hcut⟩ := buildGraph_N n source sink edges
  generalize buildGraph n source sink edges = s at *
  unfold FlowGraph.minCutPushRelabel at hrun
  cases hloop : dischargeLoop fifoRule fuel (s.initPushRelabel fifoRule source sink) with
  | none =>
    rw [hloop] at hrun
    exact absurd hrun (by simp)
  | some t0 =>
    rw [hloop] at hrun
    injection hrun with hrun
    obtain ⟨i1, i2, i3, i4⟩ := init_PRInv fifoRule s source sink hF.graph hF.flow0 hF.cap0
      hF.excess0 hF.height0 hF.count0 (by rw [hN]; exact hs) (by rw [hN]; exact ht) hne
    obtain ⟨f1, f2⟩ := init_fifo s source sink hF (by rw [hN]; exact hs) (by rw [hN]; exact ht)
    have i5 := initPushRelabel_height fifoRule s source sink hF.graph hF.flow0 hF.cap0
      hF.excess0 (by rw [hN]; exact hs)
    have hX0 : ∀ v, 0 < (s.initPushRelabel fifoRule source sink).height.getD v 0 →
        PosReach (s.initPushRelabel fifoRule source sink).G source v := by
      intro v hv
      rw [i5, getD_set_eq_ite, hF.height0] at hv
      by_cases c : source = v
      · rw [← c]
        exact Relation.ReflTransGen.refl
      · rw [if_neg (fun h => c h.1), getD_replicate_zero_nat] at hv
        exact absurd hv (lt_irrefl _)
    obtain ⟨r1, r2, r3, r4, r5, r6, r7, r8⟩ := dischargeLoop_fifo_inv source sink
      (fun x => ∀ v, 0 < x.height.getD v 0 → PosReach x.G source v)
      (fun _ _ h => h)
      (fun x u hu _ _ hinv h => discharge_height_reach fifoRule x u source sink hu hinv h)
      fuel _ t0 hloop i1 (by rw [i2]; exact f1) (by rw [i2]; exact f2) hX0
    rw [i2, hN] at r2
    rw [i2, hN] at r7
    have hdeg : ∀ v, deg t0.G v = deg s.G v := fun v => by rw [r4, i3]
    have hshape : ∀ v j, (getE t0.G v j).cap = (getE s.G v j).cap
        ∧ (getE t0.G v j).to_ = (getE s.G v j).to_ :=
      fun v j => ⟨(r5 v j).1.trans (i4 v j).1, (r5 v j).2.trans (i4 v j).2⟩
    have hpr : ∀ a b, PosReach t0.G a b ↔ EdgeReach edges a b := fun a b =>
      (posReach_of_shape s.G t0.G hdeg hshape a b).trans (hreach a b)
    refine ⟨t0, hrun.symm, r1, r2, by rw [r3, initPushRelabel_cut]; exact hcut, ?_, hdeg,
      hshape, ?_, ?_⟩
    · intro v hv hvs hvt hlt
      have hnn := r1.nonneg v
      by_contra hc
      have hpos : 0 < t0.excess.getD v 0 := by omega
      have := r7 v hv hvs hvt (by simp) hpos hlt
      rw [r6] at this
      simp at this
    · intro v hv
      exact (hpr source v).mp (r8 v hv)
    · intro v hv hnr
      exact excess_zero_of_unreachable t0 source sink r1 v (by rw [r2]; exact hv)
        (fun h => hnr ((hpr source v).mp h))

theorem growScan_succ {σ : Type} (fuel p k i : Nat) (s : FlowGraph σ) :
    growScan fuel p (k + 1) i s
      = if 0 < s.treeCap p i (s.color.getD p 0) then
          if s.color.getD (getE s.G p i).to_ 0 = 0 then
            growScan fuel p k (i + 1)
              { s with
                color := s.color.set (getE s.G p i).to_ (s.color.getD p 0),
                active := s.active.set (getE s.G p i).to_ true,
                bkq := s.bkq ++ [(getE s.G p i).to_] }
          else if s.color.getD (getE s.G p i).to_ 0 ≠ s.color.getD p 0 then
            match collisionPath fuel s p i with
            | Except.error f => Except.error f
            | Except.ok path => Except.ok (s, path)
          else growScan fuel p k (i + 1) s
        else growScan fuel p k (i + 1) s := rfl

/-- Before any augmentation a tree grows along an entry only where the graph
has an edge of positive capacity: out of a vertex of the source tree, into a
vertex of the sink tree. -/
theorem treeCap_step {σ : Type} (s : FlowGraph σ) (source sink p i : Nat)
    (hinv : BKInv s.N s.G s.color source sink) (hi : i < deg s.G p)
    (hpos : 0 < s.treeCap p i (s.color.getD p 0)) :
    (s.color.getD p 0 = 1 ∧ PosReach s.G source (getE s.G p i).to_)
    ∨ (s.color.getD p 0 = 2 ∧ PosReach s.G (getE s.G p i).to_ sink) := by
  obtain ⟨-, p2, p3, -⟩ := hinv.graph.pairing p (lt_length_of_lt_deg hi) i hi
  unfold FlowGraph.treeCap at hpos
  by_cases c1 : s.color.getD p 0 = 1
  · rw [if_pos c1, hinv.flow0] at hpos
    left
    exact ⟨c1, Relation.ReflTransGen.tail (hinv.col1 p c1) ⟨i, hi, rfl, by omega⟩⟩
  · rw [if_neg c1] at hpos
    by_cases c2 : s.color.getD p 0 = 2
    · rw [if_pos c2, hinv.flow0] at hpos
      right
      exact ⟨c2, Relation.ReflTransGen.head ⟨(getE s.G p i).index, p2, p3, by omega⟩
        (hinv.col2 p c2)⟩
    · rw [if_neg c2] at hpos
      exact absurd hpos (lt_irrefl _)

/-- The scan of `grow` over the entries of `p`, before any augmentation and on
a graph in which the source does not reach the sink: it runs to its end
without meeting the other tree, and every vertex it colors joins the queue. -/
theorem growScan_noPath {σ : Type} (n p source sink : Nat) :
    ∀ (k i : Nat) (s : FlowGraph σ), BKInv s.N s.G s.color source sink →
      ¬ PosReach s.G source sink → i + k ≤ deg s.G p →
      ∃ t, growScan n p k i s = Except.ok (t, [])
        ∧ BKInv t.N t.G t.color source sink ∧ t.G = s.G ∧ t.N = s.N ∧ t.cut = s.cut
        ∧ 2 * t.color.count 0 + t.bkq.length ≤ 2 * s.color.count 0 + s.bkq.length
        ∧ s.bkq.length ≤ t.bkq.length := by
  intro k
  induction k with
  | zero =>
    intro i s hinv _ _
    exact ⟨s, rfl, hinv, rfl, rfl, rfl, le_refl _, le_refl _⟩
  | succ k ih =>
    intro i s hinv hno hik
    have hi : i < deg s.G p := by omega
    rw [growScan_succ]
    by_cases hpos : 0 < s.treeCap p i (s.color.getD p 0)
    · rw [if_pos hpos]
      have hstep := treeCap_step s source sink p i hinv hi hpos
      have hq : (getE s.G p i).to_ < s.color.length := by
        rw [hinv.lenC, ← hinv.graph.len]
        exact (hinv.graph.pairing p (lt_length_of_lt_deg hi) i hi).1
      by_cases c0 : s.color.getD (getE s.G p i).to_ 0 = 0
      · rw [if_pos c0]
        have hc12 : s.color.getD p 0 = 1 ∨ s.color.getD p 0 = 2 := by
          rcases hstep with h | h
          · exact Or.inl h.1
          · exact Or.inr h.1
        have hget : ∀ v, (s.color.set (getE s.G p i).to_ (s.color.getD p 0)).getD v 0
            = if (getE s.G p i).to_ = v then s.color.getD p 0 else s.color.getD v 0 := by
          intro v
          rw [getD_set_eq_ite]
          by_cases c : (getE s.G p i).to_ = v
          · rw [if_pos ⟨c, hq⟩, if_pos c]
          · rw [if_neg (fun h => c h.1), if_neg c]
        have hinv2 : BKInv s.N s.G (s.color.set (getE s.G p i).to_ (s.color.getD p 0))
            source sink := by
          refine ⟨hinv.graph, hinv.flow0, ?_, ?_, ?_, ?_, ?_, ?_⟩
          · rw [List.length_set]
            exact hinv.lenC
          · intro v
            rw [hget]
            split_ifs
            · exact hinv.col_le p
            · exact hinv.col_le v
          · intro v hv
            rw [hget] at hv
            by_cases c : (getE s.G p i).to_ = v
            · rw [if_pos c] at hv
              rcases hstep with h | h
              · rw [← c]
                exact h.2
              · omega
            · rw [if_neg c] at hv
              exact hinv.col1 v hv
          · intro v hv
            rw [hget] at hv
            by_cases c : (getE s.G p i).to_ = v
            · rw [if_pos c] at hv
              rcases hstep with h | h
              · omega
              · rw [← c]
                exact h.2
            · rw [if_neg c] at hv
              exact hinv.col2 v hv
          · rw [hget, if_neg]
            · exact hinv.src
            · intro c
              rw [c, hinv.src] at c0
              exact absurd c0 (by decide)
          · rw [hget, if_neg]
            · exact hinv.snk
            · intro c
              rw [c, hinv.snk] at c0
              exact absurd c0 (by decide)
        obtain ⟨t, h1, h2, h3, h4, h5, h6, h7⟩ := ih (i + 1)
          ({ s with
              color := s.color.set (getE s.G p i).to_ (s.color.getD p 0),
              active := s.active.set (getE s.G p i).to_ true,
              bkq := s.bkq ++ [(getE s.G p i).to_] } : FlowGraph σ) hinv2 hno (by
            show i + 1 + k ≤ deg s.G p
            omega)
        refine ⟨t, h1, h2, h3, h4, h5, ?_, ?_⟩
        · have hcnt := count_set_getD s.color (getE s.G p i).to_ (s.color.getD p 0) 0 hq
          rw [if_pos c0, if_neg (by omega)] at hcnt
          have h6 : 2 * t.color.count 0 + t.bkq.length
              ≤ 2 * (s.color.set (getE s.G p i).to_ (s.color.getD p 0)).count 0
                + (s.bkq ++ [(getE s.G p i).to_]).length := h6
          rw [List.length_append, List.length_singleton] at h6
          omega
        · have h7 : (s.bkq ++ [(getE s.G p i).to_]).length ≤ t.bkq.length := h7
          rw [List.length_append, List.length_singleton] at h7
          omega
      · rw [if_neg c0]
        by_cases cne : s.color.getD (getE s.G p i).to_ 0 ≠ s.color.getD p 0
        · exfalso
          have hle := hinv.col_le (getE s.G p i).to_
          rcases hstep with h | h
          · have : s.color.getD (getE s.G p i).to_ 0 = 2 := by omega
            exact hno (h.2.trans (hinv.col2 _ this))
          · have : s.color.getD (getE s.G p i).to_ 0 = 1 := by omega
            exact hno ((hinv.col1 _ this).trans h.2)
        · rw [if_neg cne]
          exact ih (i + 1) s hinv hno (by omega)
    · rw [if_neg hpos]
      exact ih (i + 1) s hinv hno (by omega)

/-- The loop of `grow` before any augmentation, on a graph in which the source
does not reach the sink: given fuel beyond twice the number of free vertices
plus the length of the queue, it ends with an empty path. -/
theorem growLoop_noPath {σ : Type} (n source sink : Nat) :
    ∀ (fuel : Nat) (s : FlowGraph σ), BKInv s.N s.G s.color source sink →
      ¬ PosReach s.G source sink → 2 * s.color.count 0 + s.bkq.length < fuel →
      ∃ t, growLoop n fuel s = Except.ok (t, [])
        ∧ BKInv t.N t.G t.color source sink ∧ t.G = s.G ∧ t.N = s.N ∧ t.cut = s.cut := by
  intro fuel
  induction fuel with
  | zero =>
    intro s _ _ h
    exact absurd h (Nat.not_lt_zero _)
  | succ fuel ih =>
    intro s hinv hno hm
    cases hq : s.bkq with
    | nil =>
      refine ⟨s, ?_, hinv, rfl, rfl, rfl⟩
      simp only [growLoop, hq]
    | cons p rest =>
      rw [hq, List.length_cons] at hm
      by_cases ha : s.active.getD p false = false
      · obtain ⟨t, h1, h2, h3, h4, h5⟩ := ih ({ s with bkq := rest } : FlowGraph σ) hinv hno
          (by show 2 * s.color.count 0 + rest.length < fuel; omega)
        refine ⟨t, ?_, h2, h3, h4, h5⟩
        simp only [growLoop, hq, ha, if_true]
        exact h1
      · obtain ⟨t, g1, g2, g3, g4, g5, g6, g7⟩ :=
          growScan_noPath n p source sink (deg s.G p) 0 s hinv hno (by omega)
        rw [hq, List.length_cons] at g6 g7
        obtain ⟨t2, h1, h2, h3, h4, h5⟩ := ih
          ({ t with bkq := t.bkq.tail, active := t.active.set p false } : FlowGraph σ) g2
          (by show ¬ PosReach t.G source sink; rw [g3]; exact hno)
          (by
            show 2 * t.color.count 0 + t.bkq.tail.length < fuel
            rw [List.length_tail]
            omega)
        refine ⟨t2, ?_, h2, h3.trans g3, h4.trans g4, h5.trans g5⟩
        simp only [growLoop, hq, ha, if_false, g1]
        exact h1

/-- The colors after `initBK` on a fresh graph object. -/
theorem initBK_inv {σ : Type} (s : FlowGraph σ) (source sink : Nat)
    (hg : GraphOK s.N s.G) (hflow0 : ∀ u i, (getE s.G u i).flow = 0)
    (hcol : s.color = List.replicate s.N 0)
    (hs : source < s.N) (ht : sink < s.N) (hne : source ≠ sink) :
    BKInv (s.initBK source sink).N (s.initBK source sink).G (s.initBK source sink).color
      source sink := by
  have hget : ∀ v, (s.initBK source sink).color.getD v 0
      = if v = sink then 2 else if v = source then 1 else 0 := by
    intro v
    show ((s.color.set source 1).set sink 2).getD v 0 = _
    rw [getD_set_eq_ite, getD_set_eq_ite, hcol, getD_replicate_zero_nat]
    simp only [List.length_set, List.length_replicate]
    by_cases c1 : v = sink
    · subst c1
      rw [if_pos ⟨rfl, ht⟩, if_pos rfl]
    · rw [if_neg (fun h => c1 h.1.symm), if_neg c1]
      by_cases c2 : v = source
      · subst c2
        rw [if_pos ⟨rfl, hs⟩, if_pos rfl]
      · rw [if_neg (fun h => c2 h.1.symm), if_neg c2]
  refine ⟨hg, hflow0, ?_, ?_, ?_, ?_, ?_, ?_⟩
  · show ((s.color.set source 1).set sink 2).length = s.N
    rw [List.length_set, List.length_set, hcol, List.length_replicate]
  · intro v
    rw [hget]
    split_ifs <;> omega
  · intro v hv
    rw [hget] at hv
    by_cases c1 : v = sink
    · rw [if_pos c1] at hv
      exact absurd hv (by decide)
    · rw [if_neg c1] at hv
      by_cases c2 : v = source
      · rw [c2]
        exact Relation.ReflTransGen.refl
      · rw [if_neg c2] at hv
        exact absurd hv (by decide)
  · intro v hv
    rw [hget] at hv
    by_cases c1 : v = sink
    · rw [c1]
      exact Relation.ReflTransGen.refl
    · rw [if_neg c1] at hv
      by_cases c2 : v = source
      · rw [if_pos c2] at hv
        exact absurd hv (by decide)
      · rw [if_neg c2] at hv
        exact absurd hv (by decide)
  · rw [hget, if_neg hne, if_pos rfl]
  · rw [hget, if_pos rfl]

/-- The cut written by the last loop of `minCutBK`. -/
theorem cutFromColors_getD {σ : Type} (t : FlowGraph σ) (v : Nat) (hv : v < t.cut.length) :
    t.cutFromColors.cut.getD v false = decide (t.color.getD v 0 = 1) := by
  have h : ∀ k, k ≤ t.cut.length →
      (forLoop (fun i c => c.set i (decide (t.color.getD i 0 = 1))) k t.cut).length
        = t.cut.length
      ∧ ∀ w, (forLoop (fun i c => c.set i (decide (t.color.getD i 0 = 1))) k t.cut).getD
          w false
        = if w < k then decide (t.color.getD w 0 = 1) else t.cut.getD w false := by
    intro k
    induction k with
    | zero =>
      intro _
      exact ⟨rfl, fun w => by simp [forLoop]⟩
    | succ k ih =>
      intro hk
      obtain ⟨h1, h2⟩ := ih (by omega)
      simp only [forLoop]
      refine ⟨by rw [List.length_set, h1], fun w => ?_⟩
      rw [getD_set_eq_ite, h1, h2]
      by_cases c : k = w
      · subst c
        simp [Nat.lt_of_succ_le hk]
      · have : w < k + 1 ↔ w < k := by omega
        simp only [c, false_and, if_false, this]
  have := (h t.cut.length (le_refl _)).2 v
  rw [if_pos hv] at this
  exact this

/-- The fields of the search-tree solver in a graph built by `addEdge` calls:
every vertex is free and the queue is empty. -/
theorem buildGraph_bk (n source sink : Nat) (edges : List (Nat × Nat × Int)) :
    (buildGraph n source sink edges).color = List.replicate n 0
    ∧ (buildGraph n source sink edges).bkq = [] := by
  induction edges using List.reverseRecOn with
  | nil => exact ⟨rfl, rfl⟩
  | append_singleton edges e ih =>
    rw [buildGraph_append]
    exact ih

/-- A set of vertices that no edge of positive capacity leaves contains every
vertex reached from one of its members. -/
theorem edgeReach_closed (edges : List (Nat × Nat × Int)) (P : Nat → Prop)
    (hcl : ∀ e ∈ edges, 0 < e.2.2 → P e.1 → P e.2.1) (u w : Nat) (hu : P u)
    (h : EdgeReach edges u w) : P w := by
  induction h with
  | refl => exact hu
  | tail _ hstep ih =>
    obtain ⟨e, he, h1, h2, h3⟩ := hstep
    rw [← h2]
    exact hcl e he h3 (by rw [h1]; exact ih)

/-- C2: the search-tree solver does not complete on the spec's scenario. The
first `grow` meets the sink tree along the entry `G[0][1]` (the edge 0->2 of
capacity 2); `augment` computes its bottleneck with `max` from 1000000000 and
pushes that amount along the edge of capacity 2; the second `grow` meets the
source tree at vertex 1, whose `parent` was never set, and dereferences the
null `parent[1]`. So `minCutBK(0, 2)` yields no cut for any amount of fuel. -/
theorem minCutBK_spec_graph_null_deref :
    ((specGraph.initBK 0 2).grow 100).map (fun r => r.2) = Except.ok [some (0, 1)]
    ∧ (((specGraph.initBK 0 2).grow 100).bind (fun r => augmentBottleneck r.1 r.2))
        = Except.ok 1000000000
    ∧ ((((specGraph.initBK 0 2).grow 100).bind (fun r => r.1.augment r.2)).map
        (fun s => ((getE s.G 0 1).cap, (getE s.G 0 1).flow))) = Except.ok (2, 1000000000)
    ∧ ((((specGraph.initBK 0 2).grow 100).bind (fun r => r.1.augment r.2)).bind
        (fun s => (s.adopt 100).bind (fun s2 => (s2.grow 100).map (fun r => r.2))))
        = Except.error Fault.nullDeref
    ∧ (∀ m, specGraph.minCutBK (m + 2) 0 2 = Except.error Fault.nullDeref)
    ∧ specGraph.minCutBK 0 0 2 = Except.error Fault.outOfFuel
    ∧ specGraph.minCutBK 1 0 2 = Except.error Fault.outOfFuel
    ∧ specGraph.minCutPushRelabel fifoRule 10 0 2
        = Except.ok specSolved
    ∧ crossingCapacity [(0, 1, 5), (1, 2, 3), (0, 2, 2)] specSolved.cut = 5 :=
  ⟨rfl, rfl, rfl, rfl, fun _ => rfl, rfl, rfl, rfl, by decide⟩

/-- The inner loop of `checkCount` counts the vertices at height `i`. -/
theorem forLoop_count (height : List Nat) (i : Nat) :
    forLoop (fun j c => if height.getD j 0 = i then c + 1 else c) height.length 0
      = height.count i := by
  have h : ∀ k, k ≤ height.length →
      forLoop (fun j c => if height.getD j 0 = i then c + 1 else c) k 0
        = (height.take k).count i := by
    intro k
    induction k with
    | zero => intro _; simp [forLoop]
    | succ k ih =>
      intro hk
      have hk2 : k < height.length := by omega
      simp only [forLoop]
      rw [ih (by omega), List.take_succ, List.count_append,
        getD_eq_getElem_of_lt height k 0 hk2, List.getElem?_eq_getElem hk2]
      by_cases c : height[k] = i
      · simp [c]
      · simp [c, List.count_singleton]
  rw [h height.length (le_refl _), List.take_length]

/-- The diagnostic `checkCount()` holds exactly when every histogram entry is
the number of vertices at that height. -/
theorem checkCount_iff {σ : Type} (s : FlowGraph σ) :
    s.checkCount = true
      ↔ ∀ h, h < s.count.length → s.count.getD h 0 = (s.height.count h : Int) := by
  unfold FlowGraph.checkCount
  simp only [List.all_eq_true, List.mem_range, decide_eq_true_eq, forLoop_count]
  constructor
  · intro h l hl
    exact (h l hl).symm
  · intro h l hl
    exact (h l hl).symm

/-- The value read back after a write into a vector, for a position in
range. -/
theorem getD_set_of_lt {α : Type} (l : List α) (i j : Nat) (x d : α) (hi : i < l.length) :
    (l.set i x).getD j d = if i = j then x else l.getD j d := by
  rw [getD_set_eq_ite]
  by_cases c : i = j
  · rw [if_pos ⟨c, hi⟩, if_pos c]
  · rw [if_neg (fun h => c h.1), if_neg c]

/-- The heights during the loop of `gap(h)`: after `k` vertices, those among
them with `h <= height[v] < N` are at height `N` and nothing else has moved. -/
theorem gapLoop_heights {σ : Type} (s : FlowGraph σ) (h : Nat) (k : Nat)
    (hk : k ≤ s.height.length) :
    (forLoop (gapStep h) k s).N = s.N
    ∧ (forLoop (gapStep h) k s).height.length = s.height.length
    ∧ (forLoop (gapStep h) k s).count.length = s.count.length
    ∧ (∀ v, (forLoop (gapStep h) k s).height.getD v 0
        = if v < k ∧ h ≤ s.height.getD v 0 ∧ s.height.getD v 0 < s.N then s.N
          else s.height.getD v 0) := by
  induction k with
  | zero =>
    refine ⟨rfl, rfl, rfl, fun v => ?_⟩
    rw [if_neg (fun hc => absurd hc.1 (Nat.not_lt_zero v))]
    rfl
  | succ k ih =>
    obtain ⟨e1, e4, e5, e6⟩ := ih (by omega)
    simp only [forLoop]
    have hkk : (forLoop (gapStep h) k s).height.getD k 0 = s.height.getD k 0 := by
      rw [e6, if_neg (fun hc => absurd hc.1 (lt_irrefl _))]
    rw [gapStep_def, hkk, e1]
    by_cases c1 : s.height.getD k 0 < h
    · rw [if_pos c1]
      refine ⟨e1, e4, e5, fun v => ?_⟩
      rw [e6]
      by_cases cv : v = k
      · subst cv
        have : ¬ h ≤ s.height.getD v 0 := by omega
        rw [if_neg (fun hc => absurd hc.1 (lt_irrefl _)), if_neg (fun hc => this hc.2.1)]
      · have : v < k + 1 ↔ v < k := by omega
        simp only [this]
    · rw [if_neg c1]
      by_cases c2 : s.N ≤ s.height.getD k 0
      · rw [if_pos c2]
        refine ⟨e1, e4, e5, fun v => ?_⟩
        rw [e6]
        by_cases cv : v = k
        · subst cv
          have : ¬ s.height.getD v 0 < s.N := by omega
          rw [if_neg (fun hc => absurd hc.1 (lt_irrefl _)), if_neg (fun hc => this hc.2.2)]
        · have : v < k + 1 ↔ v < k := by omega
          simp only [this]
      · rw [if_neg c2]
        have hklen : k < (forLoop (gapStep h) k s).height.length := by rw [e4]; omega
        refine ⟨rfl, by simp only [List.length_set]; exact e4,
          by simp only [List.length_set]; exact e5, fun v => ?_⟩
        show ((forLoop (gapStep h) k s).height.set k s.N).getD v 0 = _
        rw [getD_set_of_lt _ _ _ _ _ hklen]
        by_cases cv : k = v
        · subst cv
          rw [if_pos rfl, if_pos ⟨Nat.lt_succ_self k, by omega, by omega⟩]
        · rw [if_neg cv, e6]
          have : v < k + 1 ↔ v < k := by omega
          simp only [this]

/-- The histogram during the loop of `gap(h)`: if it counts the vertices at
every height below `N`, it still does after `k` vertices, and `count[N]` is
left as it was. -/
theorem gapLoop_exact {σ : Type} (s : FlowGraph σ) (h : Nat)
    (hlenC : s.N < s.count.length)
    (hcnt : ∀ l, l < s.N → s.count.getD l 0 = (s.height.count l : Int))
    (k : Nat) (hk : k ≤ s.height.length) :
    (∀ l, l < s.N →
        (forLoop (gapStep h) k s).count.getD l 0
          = ((forLoop (gapStep h) k s).height.count l : Int))
    ∧ (forLoop (gapStep h) k s).count.getD s.N 0 = s.count.getD s.N 0 := by
  induction k with
  | zero => exact ⟨hcnt, rfl⟩
  | succ k ih =>
    obtain ⟨e7, e8⟩ := ih (by omega)
    obtain ⟨e1, e4, e5, e6⟩ := gapLoop_heights s h k (by omega)
    simp only [forLoop]
    have hkk : (forLoop (gapStep h) k s).height.getD k 0 = s.height.getD k 0 := by
      rw [e6, if_neg (fun hc => absurd hc.1 (lt_irrefl _))]
    rw [gapStep_def, hkk, e1]
    by_cases c1 : s.height.getD k 0 < h
    · rw [if_pos c1]
      exact ⟨e7, e8⟩
    · rw [if_neg c1]
      by_cases c2 : s.N ≤ s.height.getD k 0
      · rw [if_pos c2]
        exact ⟨e7, e8⟩
      · rw [if_neg c2]
        have hklen : k < (forLoop (gapStep h) k s).height.length := by rw [e4]; omega
        have hclen : s.height.getD k 0 < (forLoop (gapStep h) k s).count.length := by
          rw [e5]; omega
        refine ⟨fun l hl => ?_, ?_⟩
        · show ((forLoop (gapStep h) k s).count.set (s.height.getD k 0)
              ((forLoop (gapStep h) k s).count.getD (s.height.getD k 0) 0 - 1)).getD l 0
            = (((forLoop (gapStep h) k s).height.set k s.N).count l : Int)
          rw [count_set_getD _ k s.N l hklen, hkk, ← e7 l hl,
            getD_set_of_lt _ _ _ _ _ hclen, if_neg (show ¬ s.N = l by omega)]
          by_cases cl : s.height.getD k 0 = l
          · rw [if_pos cl, if_pos cl, cl]
            ring
          · rw [if_neg cl, if_neg cl]
            ring
        · show ((forLoop (gapStep h) k s).count.set (s.height.getD k 0)
              ((forLoop (gapStep h) k s).count.getD (s.height.getD k 0) 0 - 1)).getD s.N 0 = _
          rw [getD_set_of_lt _ _ _ _ _ hclen, if_neg (show ¬ s.height.getD k 0 = s.N by omega)]
          exact e8

/-- The histogram after `relabel(u)`: if it counted the vertices at every
height below `N`, it still does; `count[N]` loses one when `u` was at height
`N` and never gains. -/
theorem relabel_exact {σ : Type} (ops : RuleOps σ) (s : FlowGraph σ) (u : Nat)
    (hu : u < s.height.length) (hN : 1 ≤ s.N) (hlenC : s.N < s.count.length)
    (hle : s.height.getD u 0 ≤ s.N)
    (hcnt : ∀ l, l < s.N → s.count.getD l 0 = (s.height.count l : Int)) :
    (∀ l, l < s.N →
        (s.relabel ops u).count.getD l 0 = ((s.relabel ops u).height.count l : Int))
    ∧ (s.relabel ops u).count.getD s.N 0
        = s.count.getD s.N 0 - (if s.height.getD u 0 = s.N then 1 else 0) := by
  obtain ⟨m, hh, hmN, hm1, -, -, hc, -⟩ := relabel_spec ops s u hu hN
  have h0len : s.height.getD u 0 < s.count.length := by omega
  rw [hh, hc]
  by_cases cm : m < s.N
  · rw [if_pos cm]
    have hmlen : m < (s.count.set (s.height.getD u 0)
        (s.count.getD (s.height.getD u 0) 0 - 1)).length := by
      rw [List.length_set]; omega
    refine ⟨fun l hl => ?_, ?_⟩
    · rw [count_set_getD _ u m l hu, getD_set_of_lt _ _ _ _ _ hmlen,
        getD_set_of_lt _ _ _ _ _ h0len, getD_set_of_lt _ _ _ _ _ h0len, ← hcnt l hl]
      by_cases c1 : m = l
      · subst c1
        rw [if_pos rfl, if_pos rfl]
        by_cases c2 : s.height.getD u 0 = m
        · rw [if_pos c2, if_pos c2, c2]
        · rw [if_neg c2, if_neg c2]
          ring
      · rw [if_neg c1, if_neg c1]
        by_cases c2 : s.height.getD u 0 = l
        · rw [if_pos c2, if_pos c2, c2]
          ring
        · rw [if_neg c2, if_neg c2]
          ring
    · rw [getD_set_of_lt _ _ _ _ _ hmlen, if_neg (show ¬ m = s.N by omega),
        getD_set_of_lt _ _ _ _ _ h0len]
      by_cases c2 : s.height.getD u 0 = s.N
      · rw [if_pos c2, if_pos c2, c2]
      · rw [if_neg c2, if_neg c2]
        ring
  · rw [if_neg cm]
    refine ⟨fun l hl => ?_, ?_⟩
    · rw [count_set_getD _ u m l hu, getD_set_of_lt _ _ _ _ _ h0len, ← hcnt l hl,
        if_neg (show ¬ m = l by omega)]
      by_cases c2 : s.height.getD u 0 = l
      · rw [if_pos c2, if_pos c2, c2]
        ring
      · rw [if_neg c2, if_neg c2]
        ring
    · rw [getD_set_of_lt _ _ _ _ _ h0len]
      by_cases c2 : s.height.getD u 0 = s.N
      · rw [if_pos c2, if_pos c2, c2]
      · rw [if_neg c2, if_neg c2]
        ring

/-- The histogram below the top label is kept by `relabel` and `gap`. In a
state whose vectors have their sizes, with all heights at
most `N` and `checkCount()` true, after `relabel(u)` for any vertex `u` and
after `gap(h0)` for any `h0`, `count[h]` is the number of vertices at height
`h` for every `h < N`. The entry `count[N]` is never raised: `relabel(u)`
lowers it by one when `u` was at height `N` and `gap` leaves it alone, while
the vertices they lift arrive at height `N`. -/
theorem relabel_gap_keep_count {σ : Type} (ops : RuleOps σ) (s : FlowGraph σ)
    (hG : s.G.length = s.N) (hH : s.height.length = s.N) (hC : s.count.length = s.N + 1)
    (hle : ∀ v, s.height.getD v 0 ≤ s.N) (hcheck : s.checkCount = true) :
    (∀ u, u < s.N →
      (∀ h, h < s.N →
        (s.relabel ops u).count.getD h 0 = ((s.relabel ops u).height.count h : Int))
      ∧ (s.relabel ops u).count.getD s.N 0
          = s.count.getD s.N 0 - (if s.height.getD u 0 = s.N then 1 else 0))
    ∧ (∀ h0,
      (∀ h, h < s.N →
        (s.gap ops h0).count.getD h 0 = ((s.gap ops h0).height.count h : Int))
      ∧ (s.gap ops h0).count.getD s.N 0 = s.count.getD s.N 0) := by
  have hcnt : ∀ l, l < s.N → s.count.getD l 0 = (s.height.count l : Int) :=
    fun l hl => (checkCount_iff s).mp hcheck l (by omega)
  refine ⟨fun u hu => ?_, fun h0 => ?_⟩
  · exact relabel_exact ops s u (by omega) (by omega) (by omega) (hle u) hcnt
  · exact gapLoop_exact s h0 (by omega) hcnt s.G.length (by omega)

/-- The value `inFlow(v)` returns is the negated total flow entering `v`, when
edge pairing and flow antisymmetry hold. -/
theorem inFlow_eq_neg_flowInto {σ : Type} (s : FlowGraph σ) (hp : Pairing s.G)
    (ha : FlowAntisym s.G) (v : Nat) (hv : v < s.G.length) :
    s.inFlow v = - s.flowInto v := by
  rw [inFlow_eq_outSum, flowInto_eq_neg_outSum s hp ha v hv, neg_neg]

/-- The first loop of `augment` never returns less than 1000000000. -/
theorem augmentBottleneck_ge {σ : Type} (s : FlowGraph σ) (path : List (Option (Nat × Nat)))
    (k : Nat) :
    match forLoopM
        (fun i m =>
          match path.getD i none with
          | none => Except.error Fault.nullDeref
          | some (v, j) => Except.ok (max m ((getE s.G v j).cap - (getE s.G v j).flow)))
        k (1000000000 : Int) with
    | Except.ok m => 1000000000 ≤ m
    | Except.error _ => True := by
  induction k with
  | zero => exact le_refl _
  | succ k ih =>
    simp only [forLoopM]
    split at ih
    · rename_i m hm
      rw [hm]
      simp only
      cases hp : path.getD k none with
      | none => trivial
      | some e =>
        obtain ⟨v, j⟩ := e
        exact le_trans ih (le_max_left _ _)
    · rename_i f hf
      rw [hf]
      trivial

/-- C15: `inFlow(sink)` does not return the total flow entering the sink but
its negation. In the spec's scenario, after `minCutPushRelabel(0, 2)`, edge
pairing and flow antisymmetry hold, the forward edges 1->2 and 0->2 into the
sink carry flow 3 and 2, no forward edge leaves the sink, so the total flow
entering the sink is 5; `inFlow(2)` returns -5, and `outFlow(0)` returns 7. -/
theorem inFlow_returns_negated_inflow :
    specGraph.minCutPushRelabel fifoRule 10 0 2 = Except.ok specSolved
    ∧ Pairing specSolved.G ∧ FlowAntisym specSolved.G
    ∧ ((getE specSolved.G 1 1).to_ = 2 ∧ (getE specSolved.G 1 1).cap = 3
        ∧ (getE specSolved.G 1 1).flow = 3)
    ∧ ((getE specSolved.G 0 1).to_ = 2 ∧ (getE specSolved.G 0 1).cap = 2
        ∧ (getE specSolved.G 0 1).flow = 2)
    ∧ (∀ i, i < deg specSolved.G 2 → (getE specSolved.G 2 i).cap = 0)
    ∧ specSolved.flowInto 2 = 5
    ∧ specSolved.inFlow 2 = -5
    ∧ specSolved.outFlow 0 = 7
    ∧ specSolved.inFlow 2 ≠ specSolved.outFlow 0
    ∧ specSolved.inFlow 2 < 0 :=
  ⟨rfl, by decide, by decide, by decide, by decide, by decide, by decide, by decide,
    by decide, by decide, by decide⟩

/-- C17: `augment` does not push the bottleneck. On the graph with the single
edge 0->1 of capacity 2 and no flow, the path made of that edge has residual
capacity 2, so its bottleneck is 2; `augment` computes 1000000000 (it starts
from that value and takes `max`), raises the flow of the edge to 1000000000,
above its capacity 2, and lowers the flow of the reverse entry to
-1000000000. -/
theorem augment_pushes_beyond_capacity :
    (getE singleEdgeGraph.G 0 0).cap - (getE singleEdgeGraph.G 0 0).flow = 2
    ∧ augmentBottleneck singleEdgeGraph [some (0, 0)] = Except.ok 1000000000
    ∧ (singleEdgeGraph.augment [some (0, 0)]).map
        (fun t => ((getE t.G 0 0).cap, (getE t.G 0 0).flow, (getE t.G 1 0).flow))
        = Except.ok (2, 1000000000, -1000000000)
    ∧ (singleEdgeGraph.augment [some (0, 0)]).map
        (fun t => decide ((getE t.G 0 0).flow ≤ (getE t.G 0 0).cap)) = Except.ok false :=
  ⟨by decide, rfl, rfl, rfl⟩

/-- C18: `grow` follows a null parent link. On the chain 0->1->2 with both
capacities 1, source 0 and sink 2, the claim expects the path
`[0->1, 1->2]`. Started from the state set up by `initBK`, `grow` colors
vertex 1 from the source without setting `parent[1]`, then meets vertex 1 from
the sink and walks back from it: `parent[1]` is null and is dereferenced. No
path is returned, whatever the fuel. -/
theorem grow_dereferences_null_parent :
    (chainGraph.initBK 0 2).parent = [none, none, none]
    ∧ ((getE chainGraph.G 0 0).from_ = 0 ∧ (getE chainGraph.G 0 0).to_ = 1
        ∧ (getE chainGraph.G 0 0).cap = 1)
    ∧ ((getE chainGraph.G 1 1).from_ = 1 ∧ (getE chainGraph.G 1 1).to_ = 2
        ∧ (getE chainGraph.G 1 1).cap = 1)
    ∧ (∀ m, (chainGraph.initBK 0 2).grow (m + 2) = Except.error Fault.nullDeref)
    ∧ (chainGraph.initBK 0 2).grow 0 = Except.error Fault.outOfFuel
    ∧ (chainGraph.initBK 0 2).grow 1 = Except.error Fault.outOfFuel
    ∧ (∀ m, chainGraph.minCutBK (m + 2) 0 2 = Except.error Fault.nullDeref) :=
  ⟨rfl, by decide, by decide, fun _ => rfl, rfl, rfl, fun _ => rfl⟩

theorem halfOK_of_graphOK (N : Nat) (G : List (List Edge)) (hg : GraphOK N G) : HalfOK N G :=
  ⟨hg.len, fun u hu i hi => ⟨(hg.pairing u hu i hi).1, (hg.pairing u hu i hi).2.1,
    (hg.pairing u hu i hi).2.2.1⟩, hg.from_ok⟩

/-- A push of any amount along an entry changes no `from`, `to`, `index` or
`cap` field. -/
theorem pushAmount_fields {σ : Type} (s : FlowGraph σ) (u i : Nat) (a : Int)
    (hi : i < deg s.G u) (hr : (getE s.G u i).index < deg s.G (getE s.G u i).to_) (v j : Nat) :
    (getE (s.pushAmount u i a).G v j).from_ = (getE s.G v j).from_
    ∧ (getE (s.pushAmount u i a).G v j).to_ = (getE s.G v j).to_
    ∧ (getE (s.pushAmount u i a).G v j).index = (getE s.G v j).index
    ∧ (getE (s.pushAmount u i a).G v j).cap = (getE s.G v j).cap := by
  rw [getE_pushAmount s u i a hi hr]
  exact ⟨rfl, rfl, rfl, rfl⟩

theorem pushAmount_halfOK {σ : Type} (s : FlowGraph σ) (u i : Nat) (a : Int) (N : Nat)
    (hi : i < deg s.G u) (hg : HalfOK N s.G) : HalfOK N (s.pushAmount u i a).G := by
  have hr := (hg.half u (lt_length_of_lt_deg hi) i hi).2.1
  have hf := pushAmount_fields s u i a hi hr
  refine ⟨by rw [length_pushAmount]; exact hg.len, ?_, ?_⟩
  · intro v hv j hj
    rw [length_pushAmount] at hv ⊢
    rw [deg_pushAmount] at hj
    rw [(hf v j).2.1, (hf v j).2.2.1, deg_pushAmount, (hf _ _).2.1]
    exact hg.half v hv j hj
  · intro v j hj
    rw [deg_pushAmount] at hj
    rw [(hf v j).1]
    exact hg.from_ok v j hj

theorem pushAmount_capacity_half {σ : Type} (s : FlowGraph σ) (u i : Nat) (a : Int) (N : Nat)
    (hi : i < deg s.G u) (hg : HalfOK N s.G) (hc : CapacityOK s.G)
    (h0 : 0 ≤ a) (h1 : a ≤ (getE s.G u i).cap - (getE s.G u i).flow) :
    CapacityOK (s.pushAmount u i a).G := by
  have hr := (hg.half u (lt_length_of_lt_deg hi) i hi).2.1
  intro v j hj
  rw [deg_pushAmount] at hj
  rw [getE_pushAmount s u i a hi hr]
  have := hc v j hj
  simp only
  by_cases c1 : v = u ∧ j = i
  · obtain ⟨rfl, rfl⟩ := c1
    simp only [and_self, if_true]
    split_ifs <;> omega
  · rw [if_neg c1]
    split_ifs <;> omega

theorem pushAmount_labels_half {σ : Type} (s : FlowGraph σ) (u i : Nat) (a : Int) (N : Nat)
    (hi : i < deg s.G u) (hg : HalfOK N s.G) (hl : LabelsValid s.G s.height)
    (h0 : 0 ≤ a)
    (hh : s.height.getD (getE s.G u i).to_ 0 ≤ s.height.getD u 0 + 1) :
    LabelsValid (s.pushAmount u i a).G s.height := by
  have hpu := hg.half u (lt_length_of_lt_deg hi) i hi
  have hr := hpu.2.1
  intro v j hj
  rw [deg_pushAmount] at hj
  rw [getE_pushAmount s u i a hi hr]
  simp only
  intro hres
  by_cases c2 : v = (getE s.G u i).to_ ∧ j = (getE s.G u i).index
  · obtain ⟨rfl, rfl⟩ := c2
    rw [hpu.2.2]
    exact hh
  · rw [if_neg c2] at hres
    apply hl v j hj
    split_ifs at hres <;> omega

/-- The excess after a push along an entry of `u` in well-formed adjacency
lists. -/
theorem getD_push_excess_half {σ : Type} (ops : RuleOps σ) (s : FlowGraph σ) (u i : Nat)
    (hi : i < deg s.G u) (hg : HalfOK s.N s.G) (hE : s.excess.length = s.N) (v : Nat) :
    (s.push ops u i).excess.getD v 0
      = s.excess.getD v 0
        - (if v = u then
            min ((getE s.G u i).cap - (getE s.G u i).flow) (s.excess.getD u 0) else 0)
        + (if v = (getE s.G u i).to_ then
            min ((getE s.G u i).cap - (getE s.G u i).flow) (s.excess.getD u 0) else 0) := by
  have hpu := hg.half u (lt_length_of_lt_deg hi) i hi
  have hfrom := hg.from_ok u i hi
  have hul : u < s.excess.length := by
    rw [hE, ← hg.len]
    exact lt_length_of_lt_deg hi
  have hwl : (getE s.G u i).to_ < s.excess.length := by
    rw [hE, ← hg.len]
    exact hpu.1
  have := getD_push_excess ops s u i (by rw [hfrom]; exact hul) hwl v
  rw [hfrom] at this
  exact this

theorem push_nonneg_half {σ : Type} (ops : RuleOps σ) (s : FlowGraph σ) (u i : Nat)
    (hi : i < deg s.G u) (hg : HalfOK s.N s.G) (hE : s.excess.length = s.N)
    (hn : ExcessNonneg s.excess)
    (h0 : 0 ≤ min ((getE s.G u i).cap - (getE s.G u i).flow) (s.excess.getD u 0)) :
    ExcessNonneg (s.push ops u i).excess := by
  intro v
  rw [getD_push_excess_half ops s u i hi hg hE]
  have h1 := hn v
  have h4 : min ((getE s.G u i).cap - (getE s.G u i).flow) (s.excess.getD u 0)
      ≤ s.excess.getD u 0 := min_le_right _ _
  by_cases c1 : v = u
  · subst c1
    split_ifs <;> omega
  · rw [if_neg c1]
    split_ifs <;> omega

/-- The graph after `push(G[u][i])` is the graph after a push of the amount
`min(cap - flow, excess[u])`, when the entry has `from == u`. -/
theorem push_G_half {σ : Type} (ops : RuleOps σ) (s : FlowGraph σ) (u i : Nat)
    (hfrom : (getE s.G u i).from_ = u) :
    (s.push ops u i).G
      = (s.pushAmount u i
          (min ((getE s.G u i).cap - (getE s.G u i).flow) (s.excess.getD u 0))).G := by
  rw [push_G, hfrom]

/-- The state after `k` rounds of the loop of `discharge(u)`, in well-formed
adjacency lists: sizes, heights and histogram are untouched, the capacity
bound, non-negative excess and label validity are kept, and if `u` still has
excess then none of its first `k` entries is residual and descends by one. -/
theorem dischargeLoop_light {σ : Type} (ops : RuleOps σ) (s : FlowGraph σ) (u : Nat)
    (hg : HalfOK s.N s.G) (hE : s.excess.length = s.N) (k : Nat) (hk : k ≤ deg s.G u) :
    ∃ t, forLoop (dischargeStep ops u) k s = t
      ∧ t.N = s.N ∧ t.height = s.height ∧ t.count = s.count ∧ t.cut = s.cut
      ∧ HalfOK s.N t.G ∧ t.excess.length = s.N
      ∧ (∀ v, deg t.G v = deg s.G v)
      ∧ (∀ v j, (getE t.G v j).cap = (getE s.G v j).cap
          ∧ (getE t.G v j).to_ = (getE s.G v j).to_)
      ∧ (CapacityOK s.G → CapacityOK t.G)
      ∧ (ExcessNonneg s.excess → ExcessNonneg t.excess)
      ∧ (LabelsValid s.G s.height → LabelsValid t.G s.height)
      ∧ (0 < t.excess.getD u 0 → ∀ i, i < k →
          ¬ ((getE t.G u i).flow < (getE t.G u i).cap
            ∧ s.height.getD u 0 = s.height.getD (getE t.G u i).to_ 0 + 1)) := by
  induction k with
  | zero =>
    exact ⟨s, rfl, rfl, rfl, rfl, rfl, hg, hE, fun _ => rfl, fun _ _ => ⟨rfl, rfl⟩,
      fun h => h, fun h => h, fun h => h, fun _ i hi => absurd hi (Nat.not_lt_zero i)⟩
  | succ k ih =>
    obtain ⟨t, ht, p1, p2, p3, p4, p5, p6, p7, p8, p9, p10, p11, p12⟩ := ih (by omega)
    simp only [forLoop]
    rw [ht, dischargeStep_def]
    by_cases hx : 0 < t.excess.getD u 0
    · rw [if_pos hx]
      by_cases hadm : (getE t.G u k).cap > (getE t.G u k).flow
          ∧ t.height.getD u 0 = t.height.getD (getE t.G u k).to_ 0 + 1
      · rw [if_pos hadm]
        have hkd : k < deg t.G u := by rw [p7]; omega
        have hto : (getE t.G u k).to_ ≠ u := by
          intro e
          have := hadm.2
          rw [e] at this
          omega
        have hfrom := p5.from_ok u k hkd
        have hgt : HalfOK t.N t.G := by rw [p1]; exact p5
        have hEt : t.excess.length = t.N := by rw [p1]; exact p6
        have hr := (p5.half u (lt_length_of_lt_deg hkd) k hkd).2.1
        have hf0 : 0 < min ((getE t.G u k).cap - (getE t.G u k).flow) (t.excess.getD u 0) :=
          lt_min (by have := hadm.1; omega) hx
        have hG := push_G_half ops t u k hfrom
        refine ⟨t.push ops u k, rfl, p1, p2, p3, p4, ?_, ?_, ?_, ?_, ?_, ?_, ?_, ?_⟩
        · rw [hG]
          exact pushAmount_halfOK t u k _ s.N hkd p5
        · rw [length_push_excess]
          exact p6
        · intro v
          rw [hG, deg_pushAmount, p7]
        · intro v j
          rw [hG]
          have := pushAmount_fields t u k
            (min ((getE t.G u k).cap - (getE t.G u k).flow) (t.excess.getD u 0)) hkd hr v j
          exact ⟨this.2.2.2.trans (p8 v j).1, this.2.1.trans (p8 v j).2⟩
        · intro hc
          rw [hG]
          exact pushAmount_capacity_half t u k _ s.N hkd p5 (p9 hc) (le_of_lt hf0)
            (min_le_left _ _)
        · intro hn
          exact push_nonneg_half ops t u k hkd hgt hEt (p10 hn) (le_of_lt hf0)
        · intro hl
          rw [hG]
          have := pushAmount_labels_half t u k
            (min ((getE t.G u k).cap - (getE t.G u k).flow) (t.excess.getD u 0)) s.N hkd p5
            (by rw [p2]; exact p11 hl) (le_of_lt hf0) (by have := hadm.2; omega)
          rw [p2] at this
          exact this
        · intro hx2 i hi
          rw [hG, getE_pushAmount t u k _ hkd hr]
          simp only
          have c : ¬ (u = (getE t.G u k).to_ ∧ i = (getE t.G u k).index) :=
            fun h => hto h.1.symm
          rw [if_neg c]
          rcases Nat.lt_succ_iff_lt_or_eq.mp hi with hlt | heq
          · have c2 : ¬ (True ∧ i = k) := fun h => by omega
            rw [if_neg c2, add_zero, sub_zero]
            exact p12 hx i hlt
          · subst heq
            rw [if_pos ⟨trivial, rfl⟩, sub_zero]
            -- the push was saturating, since excess is left
            have hexc := getD_push_excess_half ops t u i hkd hgt hEt u
            rw [if_pos rfl, if_neg (fun e => hto e.symm)] at hexc
            rw [hexc] at hx2
            intro hc
            have := hc.1
            rcases min_cases ((getE t.G u i).cap - (getE t.G u i).flow)
              (t.excess.getD u 0) with ⟨e, _⟩ | ⟨e, _⟩
            · rw [e] at this
              omega
            · rw [e] at hx2
              omega
      · rw [if_neg hadm]
        refine ⟨t, rfl, p1, p2, p3, p4, p5, p6, p7, p8, p9, p10, p11, ?_⟩
        intro _ i hi
        rcases Nat.lt_succ_iff_lt_or_eq.mp hi with hlt | heq
        · exact p12 hx i hlt
        · subst heq
          rw [p2] at hadm
          exact fun hc => hadm ⟨hc.1, hc.2⟩
    · rw [if_neg hx]
      exact ⟨t, rfl, p1, p2, p3, p4, p5, p6, p7, p8, p9, p10, p11, fun h => absurd h hx⟩

theorem halfOK_of_pairing (N : Nat) (G : List (List Edge)) (hlen : G.length = N)
    (hp : Pairing G) (hf : FromOK G) : HalfOK N G := by
  refine ⟨hlen, fun u hu i hi => ⟨(hp u hu i hi).1, (hp u hu i hi).2.1,
    (hp u hu i hi).2.2.1⟩, fun u i hi => hf u (lt_length_of_lt_deg hi) i hi⟩

/-- The diagnostic `checkCapacity()` holds exactly when `flow <= cap` on every
adjacency entry. -/
theorem checkCapacity_iff {σ : Type} (s : FlowGraph σ) :
    s.checkCapacity = true ↔ CapacityOK s.G := by
  unfold FlowGraph.checkCapacity CapacityOK
  simp only [List.all_eq_true, List.mem_range, decide_eq_true_eq]
  constructor
  · intro h u i hi
    exact h u (lt_length_of_lt_deg hi) i hi
  · intro h u _ i hi
    exact h u i hi

/-- The diagnostic `checkExcess()` holds exactly when no vertex has negative
excess. -/
theorem checkExcess_iff_nonneg {σ : Type} (s : FlowGraph σ) :
    s.checkExcess = true ↔ ExcessNonneg s.excess := by
  rw [checkExcess_iff]
  constructor
  · intro h v
    by_cases c : v < s.excess.length
    · exact h v c
    · rw [List.getD_eq_getElem?_getD, List.getElem?_eq_none (not_lt.mp c)]
      exact le_refl _
  · intro h v _
    exact h v

/-- Neither `gap` nor `relabel` at the end of `discharge(u)` touches the graph
or the excess: they are those left by the loop. -/
theorem discharge_G_excess {σ : Type} (ops : RuleOps σ) (s : FlowGraph σ) (u : Nat) :
    (s.discharge ops u).G = (forLoop (dischargeStep ops u) (deg s.G u) s).G
    ∧ (s.discharge ops u).excess = (forLoop (dischargeStep ops u) (deg s.G u) s).excess := by
  rw [discharge_def]
  split_ifs
  · exact ⟨gap_G _ _ _, gap_excess _ _ _⟩
  · exact ⟨relabel_G _ _ _, relabel_excess _ _ _⟩
  · exact ⟨rfl, rfl⟩

/-- The diagnostic `checkLabels()` holds exactly when every residual entry
descends by at most one. -/
theorem checkLabels_iff {σ : Type} (s : FlowGraph σ) :
    s.checkLabels = true ↔ LabelsValid s.G s.height := by
  unfold FlowGraph.checkLabels LabelsValid
  simp only [List.all_eq_true, List.mem_range]
  constructor
  · intro h u i hi hres
    have := h u (lt_length_of_lt_deg hi) i hi
    rw [if_pos hres] at this
    exact of_decide_eq_true this
  · intro h u _ i hi
    by_cases hres : (getE s.G u i).flow < (getE s.G u i).cap
    · rw [if_pos hres]
      exact decide_eq_true (h u i hi hres)
    · rw [if_neg hres]

/-- The heights after `gap(h)`, for any `h`: the vertices with
`h <= height[v] < N` are at height `N` and no other has moved. -/
theorem gap_height_any {σ : Type} (ops : RuleOps σ) (s : FlowGraph σ) (h : Nat)
    (hlen : s.G.length = s.N) (hH : s.height.length = s.N) (v : Nat) (hv : v < s.N) :
    (s.gap ops h).height.getD v 0
      = if h ≤ s.height.getD v 0 ∧ s.height.getD v 0 < s.N then s.N else s.height.getD v 0 := by
  obtain ⟨-, -, -, e6⟩ := gapLoop_heights s h s.G.length (by rw [hlen, hH])
  show (forLoop (gapStep h) s.G.length s).height.getD v 0 = _
  rw [e6]
  have : v < s.G.length := by rw [hlen]; exact hv
  simp only [this, true_and]

/-- `gap(h)` keeps label validity, for any `h`, when no residual entry leads
from a vertex that is lifted to one that stays below `h`. -/
theorem gap_labels_any {σ : Type} (ops : RuleOps σ) (s : FlowGraph σ) (h : Nat)
    (hg : HalfOK s.N s.G) (hH : s.height.length = s.N)
    (hle : ∀ v, s.height.getD v 0 ≤ s.N)
    (hl : LabelsValid s.G s.height)
    (hno : ∀ v i, i < deg s.G v → (getE s.G v i).flow < (getE s.G v i).cap →
      h ≤ s.height.getD v 0 → s.height.getD v 0 < s.N →
      h ≤ s.height.getD (getE s.G v i).to_ 0) :
    LabelsValid (s.gap ops h).G (s.gap ops h).height := by
  rw [gap_G]
  intro v i hi hres
  have hvl : v < s.N := by rw [← hg.len]; exact lt_length_of_lt_deg hi
  have hwl : (getE s.G v i).to_ < s.N := by
    rw [← hg.len]
    exact (hg.half v (lt_length_of_lt_deg hi) i hi).1
  rw [gap_height_any ops s h hg.len hH v hvl, gap_height_any ops s h hg.len hH _ hwl]
  have hv := hl v i hi hres
  have hle2 := hle (getE s.G v i).to_
  by_cases c : h ≤ s.height.getD v 0 ∧ s.height.getD v 0 < s.N
  · have := hno v i hi hres c.1 c.2
    rw [if_pos c]
    by_cases c2 : h ≤ s.height.getD (getE s.G v i).to_ 0
        ∧ s.height.getD (getE s.G v i).to_ 0 < s.N
    · rw [if_pos c2]
      omega
    · rw [if_neg c2]
      have : s.N ≤ s.height.getD (getE s.G v i).to_ 0 := by
        by_contra hc
        exact c2 ⟨this, by omega⟩
      omega
  · rw [if_neg c]
    split_ifs <;> omega

/-- C14: `discharge` keeps label validity. In a state with well-formed
adjacency lists (edge pairing holds, every entry of `G[u]` has `from == u`, the
vectors have their sizes) where all heights are at most `N`, `count[h]` is the
number of vertices at height `h` for every `h < N`, and `checkLabels()` is
true, `checkLabels()` is true again after `discharge(u)` for any `u`, whether
it only pushes, calls `gap` or calls `relabel`. -/
theorem discharge_keeps_labels {σ : Type} (ops : RuleOps σ) (s : FlowGraph σ) (u : Nat)
    (hlen : s.G.length = s.N) (hE : s.excess.length = s.N) (hH : s.height.length = s.N)
    (hp : Pairing s.G) (hf : FromOK s.G)
    (hle : ∀ v, v < s.N → s.height.getD v 0 ≤ s.N)
    (hcnt : ∀ h, h < s.N → s.count.getD h 0 = (s.height.count h : Int))
    (hl : s.checkLabels = true) :
    (s.discharge ops u).checkLabels = true := by
  have hg := halfOK_of_pairing s.N s.G hlen hp hf
  have hle2 : ∀ v, s.height.getD v 0 ≤ s.N := by
    intro v
    by_cases c : v < s.N
    · exact hle v c
    · rw [List.getD_eq_getElem?_getD, List.getElem?_eq_none (by rw [hH]; omega)]
      exact Nat.zero_le _
  obtain ⟨t, ht, p1, p2, p3, p4, p5, p6, p7, p8, p9, p10, p11, p12⟩ :=
    dischargeLoop_light ops s u hg hE (deg s.G u) (le_refl _)
  have hlt := p11 ((checkLabels_iff s).mp hl)
  rw [checkLabels_iff, discharge_def, ht]
  have hgt : HalfOK t.N t.G := by rw [p1]; exact p5
  by_cases hx : 0 < t.excess.getD u 0
  · rw [if_pos hx]
    have hu : u < s.N := by
      by_contra hc
      rw [List.getD_eq_getElem?_getD, List.getElem?_eq_none (by rw [p6]; omega)] at hx
      exact absurd hx (lt_irrefl _)
    by_cases hc : t.count.getD (t.height.getD u 0) 0 = 1
    · rw [if_pos hc]
      apply gap_labels_any ops t _ hgt (by rw [p2, p1]; exact hH)
        (by rw [p2, p1]; exact hle2) (by rw [p2]; exact hlt)
      intro v i hi hres hge hlt2
      rw [p2] at hge hlt2 hc ⊢
      rw [p1] at hlt2
      rw [p3] at hc
      by_contra hcon
      have hval := hlt v i hi hres
      have hvh : s.height.getD v 0 = s.height.getD u 0 := by omega
      have hcount : s.height.count (s.height.getD u 0) = 1 := by
        have := hcnt (s.height.getD u 0) (by omega)
        rw [hc] at this
        exact_mod_cast this.symm
      have hvl : v < s.height.length := by
        rw [hH, ← p5.len]
        exact lt_length_of_lt_deg hi
      have hvu : v = u :=
        eq_of_count_eq_one s.height _ v u hcount hvl (by rw [hH]; exact hu) hvh rfl
      subst hvu
      rw [p7] at hi
      exact p12 hx i hi ⟨hres, by omega⟩
    · rw [if_neg hc]
      exact relabel_labels ops t u (by rw [p2, hH]; exact hu) (by rw [p1]; omega)
        (by rw [p2, p1]; exact hle2 u) (by rw [p2]; exact hlt)
  · rw [if_neg hx]
    have := hlt
    rw [← p2] at this
    exact this

/-- Witness for C14: the spec's scenario during the solve, with the histogram
made exact, at a `discharge(1)` that pushes 3 units to the sink and then,
being alone at its height, lifts vertex 1 to `N` through `gap`. -/
theorem discharge_keeps_labels_witness :
    ({ dischargeExample with count := [1, 1, 0, 1] } : FlowGraph (List Nat)).checkLabels = true
    ∧ (FlowGraph.discharge fifoRule
        ({ dischargeExample with count := [1, 1, 0, 1] } : FlowGraph (List Nat)) 1).checkLabels
        = true :=
  ⟨by decide,
    discharge_keeps_labels fifoRule
      ({ dischargeExample with count := [1, 1, 0, 1] } : FlowGraph (List Nat)) 1
      (by decide) (by decide) (by decide) (by decide) (by decide) (by decide) (by decide)
      (by decide)⟩

/-- The value of `relabelTarget`: at most `N`, at most one more than the
height of every residual neighbour other than `u`, and equal to one of these
bounds. -/
theorem relabelTarget_spec (N : Nat) (G : List (List Edge)) (height : List Nat) (u k : Nat) :
    forLoop
        (fun i acc =>
          if (getE G u i).flow < (getE G u i).cap ∧ (getE G u i).to_ ≠ u then
            min acc (height.getD (getE G u i).to_ 0 + 1)
          else acc) k N ≤ N
    ∧ (∀ i, i < k → (getE G u i).flow < (getE G u i).cap → (getE G u i).to_ ≠ u →
        forLoop
          (fun i acc =>
            if (getE G u i).flow < (getE G u i).cap ∧ (getE G u i).to_ ≠ u then
              min acc (height.getD (getE G u i).to_ 0 + 1)
            else acc) k N ≤ height.getD (getE G u i).to_ 0 + 1)
    ∧ (forLoop
          (fun i acc =>
            if (getE G u i).flow < (getE G u i).cap ∧ (getE G u i).to_ ≠ u then
              min acc (height.getD (getE G u i).to_ 0 + 1)
            else acc) k N = N
        ∨ ∃ i, i < k ∧ (getE G u i).flow < (getE G u i).cap ∧ (getE G u i).to_ ≠ u
          ∧ forLoop
              (fun i acc =>
                if (getE G u i).flow < (getE G u i).cap ∧ (getE G u i).to_ ≠ u then
                  min acc (height.getD (getE G u i).to_ 0 + 1)
                else acc) k N = height.getD (getE G u i).to_ 0 + 1) := by
  induction k with
  | zero => exact ⟨le_refl _, fun i hi => absurd hi (Nat.not_lt_zero i), Or.inl rfl⟩
  | succ k ih =>
    obtain ⟨h1, h2, h3⟩ := ih
    simp only [forLoop]
    by_cases c : (getE G u k).flow < (getE G u k).cap ∧ (getE G u k).to_ ≠ u
    · rw [if_pos c]
      refine ⟨le_trans (min_le_left _ _) h1, ?_, ?_⟩
      · intro i hi r t
        rcases Nat.lt_succ_iff_lt_or_eq.mp hi with hlt | heq
        · exact le_trans (min_le_left _ _) (h2 i hlt r t)
        · subst heq
          exact min_le_right _ _
      · rcases Nat.le_total
            (forLoop
              (fun i acc =>
                if (getE G u i).flow < (getE G u i).cap ∧ (getE G u i).to_ ≠ u then
                  min acc (height.getD (getE G u i).to_ 0 + 1)
                else acc) k N)
            (height.getD (getE G u k).to_ 0 + 1) with hle | hle
        · rw [min_eq_left hle]
          rcases h3 with h3 | ⟨i, hi, r, t, e⟩
          · exact Or.inl h3
          · exact Or.inr ⟨i, Nat.lt_succ_of_lt hi, r, t, e⟩
        · rw [min_eq_right hle]
          exact Or.inr ⟨k, Nat.lt_succ_self k, c.1, c.2, rfl⟩
    · rw [if_neg c]
      refine ⟨h1, ?_, ?_⟩
      · intro i hi r t
        rcases Nat.lt_succ_iff_lt_or_eq.mp hi with hlt | heq
        · exact h2 i hlt r t
        · subst heq
          exact absurd ⟨r, t⟩ c
      · rcases h3 with h3 | ⟨i, hi, r, t, e⟩
        · exact Or.inl h3
        · exact Or.inr ⟨i, Nat.lt_succ_of_lt hi, r, t, e⟩

/-- The height of `u` after `relabel(u)` is `relabelTarget`. -/
theorem relabel_height_eq {σ : Type} (ops : RuleOps σ) (s : FlowGraph σ) (u : Nat)
    (hu : u < s.height.length) (hN : 1 ≤ s.N) :
    (s.relabel ops u).height = s.height.set u (relabelTarget s.N s.G s.height u) := by
  obtain ⟨m, hh, hmN, hm1, h2, h3, -, -⟩ := relabel_spec ops s u hu hN
  obtain ⟨r1, r2, r3⟩ := relabelTarget_spec s.N s.G s.height u (deg s.G u)
  rw [hh]
  congr 1
  unfold relabelTarget
  apply le_antisymm
  · rcases r3 with r3 | ⟨i, hi, r, t, e⟩
    · rw [r3]
      exact hmN
    · rw [e]
      exact h2 i hi r t
  · rcases h3 with h3 | ⟨_, i, hi, r, t, e⟩
    · rw [h3]
      exact r1
    · rw [e]
      exact r2 i hi r t

/-- C16 (as amended): heights never fall and stay bounded under `discharge`.
In a state with well-formed adjacency lists (edge pairing holds, every entry
of `G[u]` has `from == u`, the vectors have their sizes) where all heights are
at most `N` and `checkLabels()` is true, after `discharge(u)` every vertex `v`
has a height at least its height before and at most `N`. When the `relabel`
branch is taken (after the pushes `u` still has excess and `count[height[u]]`
is not 1), the new height of `u` is `min(N, 1 + min{height[w]})` over the heads
`w != u` of the entries of `u` that are residual after the pushes (`N` when
there is none), and it is above the old height unless that was `N`. -/
theorem discharge_heights_monotone {σ : Type} (ops : RuleOps σ) (s : FlowGraph σ) (u : Nat)
    (hlen : s.G.length = s.N) (hE : s.excess.length = s.N) (hH : s.height.length = s.N)
    (hp : Pairing s.G) (hf : FromOK s.G)
    (hle : ∀ v, v < s.N → s.height.getD v 0 ≤ s.N)
    (hl : s.checkLabels = true) :
    (∀ v, v < s.N →
      s.height.getD v 0 ≤ (s.discharge ops u).height.getD v 0
      ∧ (s.discharge ops u).height.getD v 0 ≤ s.N)
    ∧ (0 < (forLoop (dischargeStep ops u) (deg s.G u) s).excess.getD u 0 →
        (forLoop (dischargeStep ops u) (deg s.G u) s).count.getD (s.height.getD u 0) 0 ≠ 1 →
        (s.discharge ops u).height.getD u 0
            = relabelTarget s.N (forLoop (dischargeStep ops u) (deg s.G u) s).G s.height u
          ∧ (s.height.getD u 0 < s.N →
              s.height.getD u 0 < (s.discharge ops u).height.getD u 0)
          ∧ (s.height.getD u 0 = s.N → (s.discharge ops u).height.getD u 0 = s.N)) := by
  have hg := halfOK_of_pairing s.N s.G hlen hp hf
  have hle2 : ∀ v, s.height.getD v 0 ≤ s.N := by
    intro v
    by_cases c : v < s.N
    · exact hle v c
    · rw [List.getD_eq_getElem?_getD, List.getElem?_eq_none (by rw [hH]; omega)]
      exact Nat.zero_le _
  obtain ⟨t, ht, p1, p2, p3, p4, p5, p6, p7, p8, p9, p10, p11, p12⟩ :=
    dischargeLoop_light ops s u hg hE (deg s.G u) (le_refl _)
  have hlt := p11 ((checkLabels_iff s).mp hl)
  rw [discharge_def, ht]
  -- what `relabel(u)` does to the height of `u`
  have hrel : 0 < t.excess.getD u 0 →
      u < s.N ∧ (t.relabel ops u).height = s.height.set u (relabelTarget s.N t.G s.height u)
      ∧ s.height.getD u 0 ≤ relabelTarget s.N t.G s.height u
      ∧ (s.height.getD u 0 < s.N → s.height.getD u 0 < relabelTarget s.N t.G s.height u)
      ∧ relabelTarget s.N t.G s.height u ≤ s.N := by
    intro hx
    have hu : u < s.N := by
      by_contra hc
      rw [List.getD_eq_getElem?_getD, List.getElem?_eq_none (by rw [p6]; omega)] at hx
      exact absurd hx (lt_irrefl _)
    have hre := relabel_height_eq ops t u (by rw [p2, hH]; exact hu) (by rw [p1]; omega)
    rw [p1, p2] at hre
    obtain ⟨r1, r2, r3⟩ := relabelTarget_spec s.N t.G s.height u (deg t.G u)
    have hge : s.height.getD u 0 ≤ relabelTarget s.N t.G s.height u
        ∧ (s.height.getD u 0 < s.N → s.height.getD u 0 < relabelTarget s.N t.G s.height u) := by
      unfold relabelTarget
      rcases r3 with r3 | ⟨i, hi, r, tt, e⟩
      · rw [r3]
        exact ⟨hle2 u, fun h => h⟩
      · rw [e]
        have h4 := hlt u i hi r
        have h5 := p12 hx i (by rw [← p7]; exact hi)
        have : s.height.getD u 0 ≠ s.height.getD (getE t.G u i).to_ 0 + 1 :=
          fun e2 => h5 ⟨r, e2⟩
        constructor
        · omega
        · intro _
          omega
    exact ⟨hu, hre, hge.1, hge.2, r1⟩
  constructor
  · intro v hv
    by_cases hx : 0 < t.excess.getD u 0
    · rw [if_pos hx]
      by_cases hc : t.count.getD (t.height.getD u 0) 0 = 1
      · rw [if_pos hc, gap_height_any ops t _ (by rw [p1]; exact p5.len)
          (by rw [p2, p1]; exact hH) v (by rw [p1]; exact hv), p2, p1]
        have := hle2 v
        split_ifs <;> omega
      · rw [if_neg hc]
        obtain ⟨hu, hre, h1, -, h3⟩ := hrel hx
        rw [hre, getD_set_of_lt _ _ _ _ _ (by rw [hH]; exact hu)]
        by_cases c : u = v
        · rw [if_pos c, ← c]
          exact ⟨h1, h3⟩
        · rw [if_neg c]
          exact ⟨le_refl _, hle2 v⟩
    · rw [if_neg hx, p2]
      exact ⟨le_refl _, hle2 v⟩
  · intro hx hc
    rw [if_pos hx, if_neg (by rw [p2]; exact hc)]
    obtain ⟨hu, hre, h1, h2, h3⟩ := hrel hx
    rw [hre, getD_set_of_lt _ _ _ _ _ (by rw [hH]; exact hu), if_pos rfl]
    exact ⟨rfl, h2, fun e => by omega⟩

/-- Witness for C16: the state `selfLoopState`, where `discharge(1)` takes the
`relabel` branch and lifts vertex 1 from height 0 to height 3. -/
theorem discharge_heights_monotone_witness :
    selfLoopState.height = [3, 0, 0]
    ∧ (selfLoopState.discharge fifoRule 1).height = [3, 3, 0]
    ∧ (∀ v, v < 3 →
      selfLoopState.height.getD v 0 ≤ (selfLoopState.discharge fifoRule 1).height.getD v 0
      ∧ (selfLoopState.discharge fifoRule 1).height.getD v 0 ≤ 3) :=
  ⟨by decide, by decide,
    (discharge_heights_monotone fifoRule selfLoopState 1 (by decide) (by decide) (by decide)
      (by decide) (by decide) (by decide) (by decide)).1⟩

/-- Counterexample for C16: in the state `selfLoopState` edge pairing holds,
the heights `[3, 0, 0]` are at most `N == 3` and `checkLabels()` is true.
Vertex 1 has residual entries to vertex 0 (height 3) and to itself (height 0),
so the height the claim gives for `relabel(1)` is `min(3, 1 + min(3, 0)) == 1`.
`discharge(1)` takes the `relabel` branch and leaves vertex 1 at height 3: the
entry from vertex 1 to itself is read while `height[1]` holds `2 * N` and does
not lower the result. -/
theorem relabel_ignores_self_loop :
    Pairing selfLoopState.G ∧ FromOK selfLoopState.G
    ∧ selfLoopState.height = [3, 0, 0]
    ∧ selfLoopState.checkLabels = true
    ∧ ((getE selfLoopState.G 1 0).to_ = 0
        ∧ (getE selfLoopState.G 1 0).flow < (getE selfLoopState.G 1 0).cap)
    ∧ ((getE selfLoopState.G 1 1).to_ = 1
        ∧ (getE selfLoopState.G 1 1).flow < (getE selfLoopState.G 1 1).cap)
    ∧ 0 < (forLoop (dischargeStep fifoRule 1) (deg selfLoopState.G 1) selfLoopState).excess.getD
        1 0
    ∧ (forLoop (dischargeStep fifoRule 1) (deg selfLoopState.G 1) selfLoopState).count.getD
        (selfLoopState.height.getD 1 0) 0 ≠ 1
    ∧ selfLoopState.discharge fifoRule 1
        = (forLoop (dischargeStep fifoRule 1) (deg selfLoopState.G 1) selfLoopState).relabel
            fifoRule 1
    ∧ claimedRelabelTarget 3
        (forLoop (dischargeStep fifoRule 1) (deg selfLoopState.G 1) selfLoopState).G
        selfLoopState.height 1 = 1
    ∧ (selfLoopState.discharge fifoRule 1).height.getD 1 0 = 3
    ∧ (selfLoopState.discharge fifoRule 1).height.getD 1 0
        ≠ claimedRelabelTarget 3
            (forLoop (dischargeStep fifoRule 1) (deg selfLoopState.G 1) selfLoopState).G
            selfLoopState.height 1 :=
  ⟨by decide, by decide, by decide, by decide, by decide, by decide, by decide, by decide,
    rfl, by decide, by decide, by decide⟩

theorem excess_two_sets_add (excess : List Int) (u w : Nat) (a : Int)
    (hu : u < excess.length) (hw : w < excess.length) (v : Nat) :
    ((excess.set u (excess.getD u 0 + a)).set w
        ((excess.set u (excess.getD u 0 + a)).getD w 0 - a)).getD v 0
      = excess.getD v 0 + (if v = u then a else 0) - (if v = w then a else 0) := by
  have h := excess_two_sets excess u w (-a) hu hw v
  simp only [sub_neg_eq_add] at h
  have e : ∀ x : Int, x + -a = x - a := fun x => by ring
  rw [e] at h
  rw [h]
  split_ifs <;> ring

/-- A push leaves `excess[v] + (sum of the flow of the entries of G[v])` as it
was, at every vertex. -/
theorem push_balance {σ : Type} (ops : RuleOps σ) (s : FlowGraph σ) (u i : Nat)
    (hi : i < deg s.G u) (hg : HalfOK s.N s.G) (hE : s.excess.length = s.N) (v : Nat) :
    (s.push ops u i).excess.getD v 0 + outSum (s.push ops u i).G v
      = s.excess.getD v 0 + outSum s.G v := by
  have hr := (hg.half u (lt_length_of_lt_deg hi) i hi).2.1
  rw [getD_push_excess_half ops s u i hi hg hE, push_G_half ops s u i (hg.from_ok u i hi),
    outSum_pushAmount s u i _ hi hr]
  ring

/-- The sum of the flow of the entries of `G[v]` after `changeCapacity` has
lowered the capacity of an entry below its flow. -/
theorem outSum_changeCapacityAt_gt {σ : Type} (ops : RuleOps σ) (s : FlowGraph σ)
    (from_ to_ : Nat) (cap : Int) (idx : Nat) (hi : idx < deg s.G from_)
    (hr : (getE s.G from_ idx).index < deg s.G to_)
    (hne : ¬ (to_ = from_ ∧ (getE s.G from_ idx).index = idx))
    (hgt : cap < (getE s.G from_ idx).flow) (v : Nat) :
    outSum (s.changeCapacityAt ops from_ to_ cap idx).G v
      = outSum s.G v + (if v = from_ then cap - (getE s.G from_ idx).flow else 0)
        + (if v = to_ then -cap - (getE s.G to_ (getE s.G from_ idx).index).flow else 0) := by
  unfold outSum
  rw [deg_changeCapacityAt]
  simp only [flow_changeCapacityAt_gt ops s from_ to_ cap idx hi hr hne hgt]
  have hpt : ∀ j, (if v = from_ ∧ j = idx then cap
        else if v = to_ ∧ j = (getE s.G from_ idx).index then -cap
        else (getE s.G v j).flow)
      = (getE s.G v j).flow
        + (if v = from_ ∧ j = idx then cap - (getE s.G from_ idx).flow else 0)
        + (if v = to_ ∧ j = (getE s.G from_ idx).index then
            -cap - (getE s.G to_ (getE s.G from_ idx).index).flow else 0) := by
    intro j
    by_cases c1 : v = from_ ∧ j = idx
    · obtain ⟨rfl, rfl⟩ := c1
      have c2 : ¬ (v = to_ ∧ j = (getE s.G v j).index) := fun h => hne ⟨h.1.symm, h.2.symm⟩
      rw [if_pos ⟨rfl, rfl⟩, if_pos ⟨rfl, rfl⟩, if_neg c2]
      ring
    · rw [if_neg c1, if_neg c1]
      by_cases c2 : v = to_ ∧ j = (getE s.G from_ idx).index
      · obtain ⟨rfl, rfl⟩ := c2
        rw [if_pos ⟨rfl, rfl⟩, if_pos ⟨rfl, rfl⟩]
        ring
      · rw [if_neg c2, if_neg c2]
        ring
  simp only [hpt]
  rw [Finset.sum_add_distrib, Finset.sum_add_distrib]
  congr 1
  · congr 1
    by_cases c : v = from_
    · subst c
      rw [sum_ite_and_eq (deg s.G v) idx hi (v = v), if_pos rfl]
    · simp [c]
  · by_cases c : v = to_
    · subst c
      rw [sum_ite_and_eq (deg s.G v) _ hr (v = v), if_pos rfl]
    · simp [c]

/-- The call `changeCapacity` on a recorded entry leaves
`excess[v] + (sum of the flow of the entries of G[v])` as it was at every
vertex, when the paired entry carries the negated flow. -/
theorem changeCapacityAt_balance {σ : Type} (ops : RuleOps σ) (s : FlowGraph σ)
    (from_ to_ : Nat) (cap : Int) (idx : Nat) (hi : idx < deg s.G from_)
    (hto : (getE s.G from_ idx).to_ = to_) (hc : 0 ≤ cap)
    (hg : HalfOK s.N s.G) (hE : s.excess.length = s.N)
    (hpair : (getE s.G to_ (getE s.G from_ idx).index).flow = -(getE s.G from_ idx).flow)
    (v : Nat) :
    (s.changeCapacityAt ops from_ to_ cap idx).excess.getD v 0
        + outSum (s.changeCapacityAt ops from_ to_ cap idx).G v
      = s.excess.getD v 0 + outSum s.G v := by
  have hfl := lt_length_of_lt_deg hi
  have hpu := hg.half from_ hfl idx hi
  rw [hto] at hpu
  by_cases hgt : cap < (getE s.G from_ idx).flow
  · have hne : ¬ (to_ = from_ ∧ (getE s.G from_ idx).index = idx) := by
      rintro ⟨e1, e2⟩
      rw [e1, e2] at hpair
      omega
    rw [outSum_changeCapacityAt_gt ops s from_ to_ cap idx hi hpu.2.1 hne hgt,
      excess_changeCapacityAt, if_pos (by omega),
      excess_two_sets_add s.excess from_ to_ _ (by rw [hE, ← hg.len]; exact hfl)
        (by rw [hE, ← hg.len]; exact hpu.1), hpair]
    split_ifs <;> ring
  · have hle : (getE s.G from_ idx).flow ≤ cap := not_lt.mp hgt
    rw [excess_changeCapacityAt, if_neg (by omega)]
    congr 1
    unfold outSum
    rw [deg_changeCapacityAt]
    simp only [flow_changeCapacityAt_le ops s from_ to_ cap idx hi hle]

theorem N_changeCapacityAt {σ : Type} (ops : RuleOps σ) (s : FlowGraph σ)
    (from_ to_ : Nat) (cap : Int) (idx : Nat) :
    (s.changeCapacityAt ops from_ to_ cap idx).N = s.N
    ∧ (s.changeCapacityAt ops from_ to_ cap idx).source = s.source
    ∧ (s.changeCapacityAt ops from_ to_ cap idx).sink = s.sink
    ∧ (s.changeCapacityAt ops from_ to_ cap idx).s_index = s.s_index
    ∧ (s.changeCapacityAt ops from_ to_ cap idx).t_index = s.t_index
    ∧ (s.changeCapacityAt ops from_ to_ cap idx).excess.length = s.excess.length := by
  unfold FlowGraph.changeCapacityAt
  dsimp only
  split_ifs
  · refine ⟨rfl, rfl, rfl, rfl, rfl, ?_⟩
    simp only [List.length_set]
  · exact ⟨rfl, rfl, rfl, rfl, rfl, rfl⟩

/-- Whether an operation names an existing entry only depends on the lookup
tables and on the sizes and heads of the adjacency lists. -/
theorem valid_of_same {σ : Type} (s t : FlowGraph σ) (hsrc : t.source = s.source)
    (hsi : t.s_index = s.s_index) (hti : t.t_index = s.t_index)
    (hdeg : ∀ v, deg t.G v = deg s.G v)
    (hto : ∀ v j, (getE t.G v j).to_ = (getE s.G v j).to_) (op : FlowOp)
    (h : op.valid s) : op.valid t := by
  cases op with
  | push u i =>
    show i < deg t.G u
    rw [hdeg]
    exact h
  | changeCapacity from_ to_ cap =>
    have e : t.tableIndex from_ to_ = s.tableIndex from_ to_ := by
      unfold FlowGraph.tableIndex
      rw [hsrc, hsi, hti]
    show t.tableIndex from_ to_ < deg t.G from_
      ∧ (getE t.G from_ (t.tableIndex from_ to_)).to_ = to_ ∧ 0 ≤ cap
    rw [e, hdeg, hto]
    exact h

/-- Any sequence of `push` and `changeCapacity` operations on existing entries
keeps edge pairing and flow antisymmetry and leaves
`excess[v] + (sum of the flow of the entries of G[v])` as it was at every
vertex. -/
theorem applyOps_balance {σ : Type} (ops : RuleOps σ) :
    ∀ (l : List FlowOp) (s t : FlowGraph σ),
      s.G.length = s.N → s.excess.length = s.N → Pairing s.G → FromOK s.G → FlowAntisym s.G →
      (∀ op ∈ l, op.valid s) → s.applyOps ops l = Except.ok t →
      t.G.length = t.N ∧ t.excess.length = t.N ∧ Pairing t.G ∧ FromOK t.G ∧ FlowAntisym t.G
      ∧ t.N = s.N
      ∧ ∀ v, t.excess.getD v 0 + outSum t.G v = s.excess.getD v 0 + outSum s.G v := by
  intro l
  induction l with
  | nil =>
    intro s t hlen hE hp hf ha _ hrun
    injection hrun with hrun
    subst hrun
    exact ⟨hlen, hE, hp, hf, ha, rfl, fun _ => rfl⟩
  | cons op rest ih =>
    intro s t hlen hE hp hf ha hv hrun
    have hg := halfOK_of_pairing s.N s.G hlen hp hf
    have hvop := hv op (List.mem_cons_self _ _)
    have hvrest : ∀ o ∈ rest, o.valid s := fun o ho => hv o (List.mem_cons_of_mem _ ho)
    cases op with
    | push u i =>
      have hi : i < deg s.G u := hvop
      have hr := (hg.half u (lt_length_of_lt_deg hi) i hi).2.1
      have hrun2 : (s.push ops u i).applyOps ops rest = Except.ok t := hrun
      have hfl := pushAmount_fields s u i
        (min ((getE s.G u i).cap - (getE s.G u i).flow) (s.excess.getD u 0)) hi hr
      have hG := push_G_half ops s u i (hg.from_ok u i hi)
      have hdeg : ∀ v, deg (s.push ops u i).G v = deg s.G v := by
        intro v
        rw [hG, deg_pushAmount]
      obtain ⟨r1, r2, r3, r4, r5, r6, r7⟩ := ih (s.push ops u i) t
        (by rw [hG, length_pushAmount]; exact hlen)
        (by rw [length_push_excess]; exact hE)
        (push_pairing ops s u i hi hp)
        (by
          intro v hv2 j hj
          rw [hdeg] at hj
          rw [hG, (hfl v j).1]
          exact hg.from_ok v j hj)
        (push_antisym ops s u i hi hp ha)
        (fun o ho => valid_of_same s (s.push ops u i) rfl rfl rfl hdeg
          (fun v j => by rw [hG]; exact (hfl v j).2.1) o (hvrest o ho))
        hrun2
      refine ⟨r1, r2, r3, r4, r5, r6, fun v => ?_⟩
      rw [r7 v]
      exact push_balance ops s u i hi hg hE v
    | changeCapacity from_ to_ cap =>
      obtain ⟨hi, hto, hc⟩ : s.tableIndex from_ to_ < deg s.G from_
        ∧ (getE s.G from_ (s.tableIndex from_ to_)).to_ = to_ ∧ 0 ≤ cap := hvop
      have hrun2 : (match s.changeCapacity ops from_ to_ cap with
          | Except.error f => Except.error f
          | Except.ok t1 => FlowGraph.applyOps ops rest t1) = Except.ok t := hrun
      have hadj : from_ = s.source ∨ to_ = s.sink := by
        by_contra hcon
        push_neg at hcon
        unfold FlowGraph.changeCapacity at hrun2
        simp [hcon.1, hcon.2] at hrun2
      rw [changeCapacity_eq_ok ops s from_ to_ cap hadj] at hrun2
      obtain ⟨n1, n2, n3, n4, n5, n6⟩ :=
        N_changeCapacityAt ops s from_ to_ cap (s.tableIndex from_ to_)
      have hpair := ha from_ (lt_length_of_lt_deg hi) _ hi
      rw [hto] at hpair
      obtain ⟨r1, r2, r3, r4, r5, r6, r7⟩ := ih
        (s.changeCapacityAt ops from_ to_ cap (s.tableIndex from_ to_)) t
        (by rw [length_changeCapacityAt, n1]; exact hlen)
        (by rw [n6, n1]; exact hE)
        (changeCapacityAt_pairing ops s from_ to_ cap _ hp)
        (by
          intro v hv2 j hj
          rw [deg_changeCapacityAt] at hj
          rw [changeCapacityAt_from]
          exact hg.from_ok v j hj)
        (changeCapacityAt_antisym ops s from_ to_ cap _ hi hto (Or.inl hc) hp ha)
        (fun o ho => valid_of_same s _ n2 n4 n5 (deg_changeCapacityAt ops s from_ to_ cap _)
          (changeCapacityAt_to ops s from_ to_ cap _) o (hvrest o ho))
        hrun2
      refine ⟨r1, r2, r3, r4, r5, by rw [r6, n1], fun v => ?_⟩
      rw [r7 v]
      exact changeCapacityAt_balance ops s from_ to_ cap _ hi hto hc hg hE hpair v

theorem length_addDoubleEdge {σ : Type} (s : FlowGraph σ) (from_ to_ : Nat) (cap : Int) :
    (s.addDoubleEdge from_ to_ cap).G.length = s.G.length := by
  unfold FlowGraph.addDoubleEdge
  simp [length_pushE]

theorem deg_addDoubleEdge {σ : Type} (s : FlowGraph σ) (from_ to_ : Nat) (cap : Int)
    (hf : from_ < s.G.length) (ht : to_ < s.G.length) (v : Nat) :
    deg (s.addDoubleEdge from_ to_ cap).G v
      = deg s.G v + (if v = from_ then 1 else 0) + (if v = to_ then 1 else 0) := by
  unfold FlowGraph.addDoubleEdge
  simp only [deg_pushE, length_pushE, hf, ht, and_true]
  by_cases h : from_ = to_
  · subst h
    by_cases hv : v = from_ <;> simp [hv]
  · have h2 : ¬ to_ = from_ := fun e => h e.symm
    by_cases hv : v = from_ <;> by_cases hv2 : v = to_ <;> simp [hv, hv2, h, h2]

theorem getE_addDoubleEdge {σ : Type} (s : FlowGraph σ) (from_ to_ : Nat) (cap : Int)
    (hf : from_ < s.G.length) (ht : to_ < s.G.length) (v j : Nat) :
    getE (s.addDoubleEdge from_ to_ cap).G v j
      = if v = from_ ∧ j = deg s.G from_ then ⟨from_, to_, cap, 0, deg s.G to_⟩
        else if v = to_ ∧ j = deg s.G to_ + (if from_ = to_ then 1 else 0) then
          ⟨to_, from_, cap, 0, deg s.G from_⟩
        else getE s.G v j := by
  unfold FlowGraph.addDoubleEdge
  simp only [getE_pushE, deg_pushE, length_pushE, hf, ht, and_true, true_and]
  by_cases h : from_ = to_
  · subst h
    simp only [if_true, Nat.add_sub_cancel]
    by_cases hv : v = from_
    · subst hv
      by_cases hj : j = deg s.G v
      · subst hj
        simp
      · by_cases hj2 : j = deg s.G v + 1
        · subst hj2
          simp
        · simp [hj, hj2]
    · simp [hv]
  · have h2 : ¬ to_ = from_ := fun e => h e.symm
    simp only [if_neg h, if_neg h2, if_true, Nat.add_sub_cancel, Nat.add_zero]
    by_cases hv : v = from_
    · subst hv
      by_cases hj : j = deg s.G v
      · subst hj
        simp [h]
      · simp [hj, h]
    · by_cases hv2 : v = to_
      · subst hv2
        by_cases hj : j = deg s.G v
        · subst hj
          simp [h2]
        · simp [hj, h2]
      · simp [hv, hv2]

/-- Well-formed adjacency lists stay well-formed when two entries are appended
as `addEdge` and `addDoubleEdge` do: one to `G[from]` leading to `to`, one to
`G[to]` leading to `from`, each naming a position that holds an entry leading
back. -/
theorem halfOK_add_two {σ : Type} (s : FlowGraph σ) (G2 : List (List Edge)) (N from_ to_ : Nat)
    (e1 e2 : Edge) (hg : HalfOK N s.G) (hf : from_ < N) (ht : to_ < N)
    (hlen : G2.length = s.G.length)
    (hdeg : ∀ v, deg G2 v
      = deg s.G v + (if v = from_ then 1 else 0) + (if v = to_ then 1 else 0))
    (hget : ∀ v j, getE G2 v j
      = if v = from_ ∧ j = deg s.G from_ then e1
        else if v = to_ ∧ j = deg s.G to_ + (if from_ = to_ then 1 else 0) then e2
        else getE s.G v j)
    (h1 : e1.from_ = from_ ∧ e1.to_ = to_
      ∧ (e1.index = deg s.G to_ ∨ e1.index = deg s.G to_ + (if from_ = to_ then 1 else 0)))
    (h2 : e2.from_ = to_ ∧ e2.to_ = from_ ∧ e2.index = deg s.G from_) :
    HalfOK N G2 := by
  have hE1 : getE G2 from_ (deg s.G from_) = e1 := by
    rw [hget, if_pos ⟨rfl, rfl⟩]
  have hE2 : getE G2 to_ (deg s.G to_ + (if from_ = to_ then 1 else 0)) = e2 := by
    rw [hget]
    by_cases c : from_ = to_
    · rw [if_neg (by rw [if_pos c, c]; omega), if_pos ⟨rfl, rfl⟩]
    · rw [if_neg (fun h => c h.1.symm), if_pos ⟨rfl, rfl⟩]
  have hold : ∀ u i, i < deg s.G u → getE G2 u i = getE s.G u i := by
    intro u i hi
    rw [hget, if_neg (fun h => by rw [h.1] at hi; omega),
      if_neg (fun h => by rw [h.1] at hi; omega)]
  refine ⟨by rw [hlen]; exact hg.len, ?_, ?_⟩
  · intro u hu i hi
    rw [hlen]
    rw [hdeg] at hi
    by_cases c1 : u = from_ ∧ i = deg s.G from_
    · obtain ⟨rfl, rfl⟩ := c1
      rw [hE1, h1.2.1]
      refine ⟨by rw [hg.len]; exact ht, ?_, ?_⟩
      · rw [hdeg, if_pos rfl]
        rcases h1.2.2 with e | e
        · rw [e]
          omega
        · rw [e]
          by_cases c : u = to_
          · rw [if_pos c, if_pos c.symm]
            omega
          · rw [if_neg c, if_neg (fun h => c h.symm)]
            omega
      · rcases h1.2.2 with e | e
        · rw [e]
          by_cases c : u = to_
          · rw [← c, hE1]
            rw [c]
            exact h1.2.1
          · have := hE2
            rw [if_neg c, Nat.add_zero] at this
            rw [this]
            exact h2.2.1
        · rw [e, hE2]
          exact h2.2.1
    · by_cases c2 : u = to_ ∧ i = deg s.G to_ + (if from_ = to_ then 1 else 0)
      · obtain ⟨rfl, rfl⟩ := c2
        rw [hE2, h2.2.1, h2.2.2, hE1]
        refine ⟨by rw [hg.len]; exact hf, ?_, h1.2.1⟩
        rw [hdeg, if_pos rfl]
        omega
      · have hi0 := addEdge_old_index s from_ to_ u i hi c1 c2
        rw [hold u i hi0]
        rw [hlen] at hu
        obtain ⟨p1, p2, p3⟩ := hg.half u hu i hi0
        refine ⟨p1, ?_, ?_⟩
        · rw [hdeg]
          omega
        · rw [hold _ _ p2]
          exact p3
  · intro u i hi
    rw [hdeg] at hi
    by_cases c1 : u = from_ ∧ i = deg s.G from_
    · obtain ⟨rfl, rfl⟩ := c1
      rw [hE1]
      exact h1.1
    · by_cases c2 : u = to_ ∧ i = deg s.G to_ + (if from_ = to_ then 1 else 0)
      · obtain ⟨rfl, rfl⟩ := c2
        rw [hE2]
        exact h2.1
      · have hi0 := addEdge_old_index s from_ to_ u i hi c1 c2
        rw [hold u i hi0]
        exact hg.from_ok u i hi0

/-- An added call with vertices in range and a non-negative capacity keeps a
graph object in the state required before a solve. -/
theorem freshLight_apply {σ : Type} (s : FlowGraph σ) (op : BuildOp) (hF : FreshLight s)
    (hf : op.tail < s.N) (ht : op.head < s.N) (hc : 0 ≤ op.capacity) :
    FreshLight (op.apply s) := by
  cases op with
  | edge from_ to_ cap =>
    have hf : from_ < s.N := hf
    have ht : to_ < s.N := ht
    have hc : 0 ≤ cap := hc
    have hfl : from_ < s.G.length := by rw [hF.graph.len]; exact hf
    have htl : to_ < s.G.length := by rw [hF.graph.len]; exact ht
    have hget := getE_addEdge s from_ to_ cap hfl htl
    show FreshLight (s.addEdge from_ to_ cap)
    refine ⟨?_, ?_, ?_, hF.excess0, hF.height0, hF.count0, hF.cutlen⟩
    · exact halfOK_add_two s _ s.N from_ to_ _ _ hF.graph hf ht (length_addEdge s from_ to_ cap)
        (deg_addEdge s from_ to_ cap hfl htl) hget ⟨rfl, rfl, Or.inr rfl⟩ ⟨rfl, rfl, rfl⟩
    · intro u i
      rw [hget]
      by_cases c1 : u = from_ ∧ i = deg s.G from_
      · rw [if_pos c1]
      · rw [if_neg c1]
        by_cases c2 : u = to_ ∧ i = deg s.G to_ + (if from_ = to_ then 1 else 0)
        · rw [if_pos c2]
        · rw [if_neg c2]
          exact hF.flow0 u i
    · intro u i
      rw [hget]
      by_cases c1 : u = from_ ∧ i = deg s.G from_
      · rw [if_pos c1]
        exact hc
      · rw [if_neg c1]
        by_cases c2 : u = to_ ∧ i = deg s.G to_ + (if from_ = to_ then 1 else 0)
        · rw [if_pos c2]
        · rw [if_neg c2]
          exact hF.cap0 u i
  | doubleEdge from_ to_ cap =>
    have hf : from_ < s.N := hf
    have ht : to_ < s.N := ht
    have hc : 0 ≤ cap := hc
    have hfl : from_ < s.G.length := by rw [hF.graph.len]; exact hf
    have htl : to_ < s.G.length := by rw [hF.graph.len]; exact ht
    have hget := getE_addDoubleEdge s from_ to_ cap hfl htl
    show FreshLight (s.addDoubleEdge from_ to_ cap)
    refine ⟨?_, ?_, ?_, hF.excess0, hF.height0, hF.count0, hF.cutlen⟩
    · exact halfOK_add_two s _ s.N from_ to_ _ _ hF.graph hf ht
        (length_addDoubleEdge s from_ to_ cap)
        (deg_addDoubleEdge s from_ to_ cap hfl htl) hget ⟨rfl, rfl, Or.inl rfl⟩ ⟨rfl, rfl, rfl⟩
    · intro u i
      rw [hget]
      by_cases c1 : u = from_ ∧ i = deg s.G from_
      · rw [if_pos c1]
      · rw [if_neg c1]
        by_cases c2 : u = to_ ∧ i = deg s.G to_ + (if from_ = to_ then 1 else 0)
        · rw [if_pos c2]
        · rw [if_neg c2]
          exact hF.flow0 u i
    · intro u i
      rw [hget]
      by_cases c1 : u = from_ ∧ i = deg s.G from_
      · rw [if_pos c1]
        exact hc
      · rw [if_neg c1]
        by_cases c2 : u = to_ ∧ i = deg s.G to_ + (if from_ = to_ then 1 else 0)
        · rw [if_pos c2]
          exact hc
        · rw [if_neg c2]
          exact hF.cap0 u i

/-- The calls of `l` applied to a state, the last call apart. -/
theorem buildGraphOps_append {σ : Type} (n source sink : Nat) (r : SelectionRule σ)
    (l : List BuildOp) (op : BuildOp) :
    buildGraphOps n source sink r (l ++ [op]) = op.apply (buildGraphOps n source sink r l) := by
  unfold buildGraphOps
  rw [List.foldl_append]
  rfl

theorem apply_N {σ : Type} (s : FlowGraph σ) (op : BuildOp) :
    (op.apply s).N = s.N ∧ (op.apply s).cut = s.cut := by
  cases op <;> exact ⟨rfl, rfl⟩

/-- A graph built by `addEdge` and `addDoubleEdge` calls with vertices in range
and non-negative capacities is in the state required before a solve. -/
theorem freshLight_build {σ : Type} (n source sink : Nat) (r : SelectionRule σ)
    (l : List BuildOp)
    (hl : ∀ op ∈ l, op.tail < n ∧ op.head < n ∧ 0 ≤ op.capacity) :
    FreshLight (buildGraphOps n source sink r l) ∧ (buildGraphOps n source sink r l).N = n := by
  induction l using List.reverseRecOn with
  | nil =>
    have hd : ∀ u, deg (FlowGraph.newWith n source sink r).G u = 0 :=
      fun u => deg_replicate_nil n u
    have hget : ∀ u i, getE (FlowGraph.newWith n source sink r).G u i = default := fun u i =>
      getE_eq_default _ u i (by rw [hd]; exact Nat.zero_le _)
    refine ⟨⟨⟨?_, ?_, ?_⟩, ?_, ?_, rfl, rfl, rfl, ?_⟩, rfl⟩
    · show (List.replicate n ([] : List Edge)).length = n
      simp
    · intro u _ i hi
      have hi0 : i < deg (FlowGraph.newWith n source sink r).G u := hi
      rw [hd] at hi0
      exact absurd hi0 (Nat.not_lt_zero i)
    · intro u i hi
      have hi0 : i < deg (FlowGraph.newWith n source sink r).G u := hi
      rw [hd] at hi0
      exact absurd hi0 (Nat.not_lt_zero i)
    · intro u i
      show (getE (FlowGraph.newWith n source sink r).G u i).flow = 0
      rw [hget]
      rfl
    · intro u i
      show 0 ≤ (getE (FlowGraph.newWith n source sink r).G u i).cap
      rw [hget]
      exact le_refl _
    · show (List.replicate n false).length = n
      simp
  | append_singleton l op ih =>
    obtain ⟨ih1, ih2⟩ := ih (fun x hx => hl x (List.mem_append_left _ hx))
    obtain ⟨h1, h2, h3⟩ := hl op (by simp)
    rw [buildGraphOps_append]
    refine ⟨freshLight_apply _ op ih1 (by rw [ih2]; exact h1) (by rw [ih2]; exact h2) h3, ?_⟩
    rw [(apply_N _ op).1]
    exact ih2

/-- The saturating loop of `minCutPushRelabel` after `k` entries of the source,
in well-formed adjacency lists: the capacity bound holds, and the entries of
the source that lead elsewhere are saturated up to `k` and untouched from
`k` on. -/
theorem initLoop_light {σ : Type} (ops : RuleOps σ) (s : FlowGraph σ) (source : Nat)
    (hg : HalfOK s.N s.G) (hsrc : source < s.N)
    (hflow0 : ∀ u i, (getE s.G u i).flow = 0) (hcap0 : ∀ u i, 0 ≤ (getE s.G u i).cap)
    (hE : s.excess.length = s.N) (k : Nat) (hk : k ≤ deg s.G source) :
    ∃ t, forLoop (initStep ops source) k s = t
      ∧ t.N = s.N ∧ t.height = s.height ∧ t.count = s.count ∧ t.cut = s.cut
      ∧ HalfOK s.N t.G
      ∧ (∀ v, deg t.G v = deg s.G v)
      ∧ (∀ v j, (getE t.G v j).cap = (getE s.G v j).cap
          ∧ (getE t.G v j).to_ = (getE s.G v j).to_)
      ∧ CapacityOK t.G
      ∧ t.excess.length = s.N
      ∧ (∀ i, i < deg s.G source → (getE s.G source i).to_ ≠ source →
          (getE t.G source i).flow = if i < k then (getE s.G source i).cap else 0) := by
  induction k with
  | zero =>
    refine ⟨s, rfl, rfl, rfl, rfl, rfl, hg, fun _ => rfl, fun _ _ => ⟨rfl, rfl⟩, ?_, hE, ?_⟩
    · intro u i _
      rw [hflow0]
      exact hcap0 u i
    · intro i _ _
      rw [hflow0, if_neg (Nat.not_lt_zero i)]
  | succ k ih =>
    obtain ⟨t, ht, e1, e2, e3, e3b, e4, e5, e6, e8, e9, e12⟩ := ih (by omega)
    simp only [forLoop]
    rw [ht]
    obtain ⟨t0, hG0, hN0, hh0, hc0, hcut0, hE0, hstep⟩ : ∃ t0 : FlowGraph σ, t0.G = t.G
        ∧ t0.N = t.N ∧ t0.height = t.height ∧ t0.count = t.count ∧ t0.cut = t.cut
        ∧ t0.excess = t.excess.set source (getE t.G source k).cap
        ∧ initStep ops source k t = t0.push ops source k :=
      ⟨{ t with excess := t.excess.set source (getE t.G source k).cap },
        rfl, rfl, rfl, rfl, rfl, rfl, rfl⟩
    rw [hstep]
    rw [← hG0] at e4 e5 e6 e8 e12
    have hkd : k < deg t0.G source := by rw [e5]; omega
    have hsl : source < t.excess.length := by rw [e9]; exact hsrc
    have hpk := e4.half source (lt_length_of_lt_deg hkd) k hkd
    have hfrom : (getE t0.G source k).from_ = source := e4.from_ok source k hkd
    have hcapk : 0 ≤ (getE t0.G source k).cap := by rw [(e6 source k).1]; exact hcap0 _ _
    have hck := e8 source k hkd
    have hE0len : t0.excess.length = s.N := by
      rw [hE0, List.length_set]
      exact e9
    have hx0 : t0.excess.getD source 0 = (getE t0.G source k).cap := by
      rw [hE0, getD_set_of_lt _ _ _ _ _ hsl, if_pos rfl, hG0]
    have ha0 : 0 ≤ min ((getE t0.G source k).cap - (getE t0.G source k).flow)
        (t0.excess.getD source 0) := by
      rw [hx0]
      exact le_min (by omega) hcapk
    have hG := push_G_half ops t0 source k hfrom
    refine ⟨t0.push ops source k, rfl, by rw [← e1, ← hN0]; rfl, by rw [← e2, ← hh0]; rfl,
      by rw [← e3, ← hc0]; rfl, by rw [← e3b, ← hcut0]; rfl, ?_, ?_, ?_, ?_, ?_, ?_⟩
    · rw [hG]
      exact pushAmount_halfOK _ source k _ s.N hkd e4
    · intro v
      rw [hG, deg_pushAmount]
      exact e5 v
    · intro v j
      rw [hG, getE_pushAmount _ source k _ hkd hpk.2.1]
      exact e6 v j
    · rw [hG]
      exact pushAmount_capacity_half _ source k _ s.N hkd e4 e8 ha0 (min_le_left _ _)
    · rw [length_push_excess]
      exact hE0len
    · intro i hi hto
      have hto2 : (getE t0.G source i).to_ ≠ source := by rw [(e6 source i).2]; exact hto
      rw [hG, getE_pushAmount _ source k _ hkd hpk.2.1]
      simp only
      have c : ¬ (source = (getE t0.G source k).to_ ∧ i = (getE t0.G source k).index) := by
        rintro ⟨c1, c2⟩
        apply hto2
        have := hpk.2.2
        rw [← c1, ← c2] at this
        exact this
      rw [if_neg c, sub_zero, e12 i hi hto]
      by_cases cik : i = k
      · subst cik
        rw [if_neg (lt_irrefl i), if_pos (⟨trivial, rfl⟩ : True ∧ i = i),
          if_pos (Nat.lt_succ_self i), zero_add, hx0]
        have hz := e12 i hi hto
        rw [if_neg (lt_irrefl i)] at hz
        rw [hz, sub_zero, min_self]
        exact (e6 source i).1
      · have cik2 : ¬ (True ∧ i = k) := fun h => cik h.2
        have : i < k + 1 ↔ i < k := by omega
        simp only [this, if_neg cik2, add_zero]

/-- The first part of `minCutPushRelabel` establishes the invariant of the run
on a graph built by `addEdge` and `addDoubleEdge` calls. -/
theorem init_light {σ : Type} (ops : RuleOps σ) (s : FlowGraph σ) (source sink : Nat)
    (hF : FreshLight s) (hsrc : source < s.N) (hsnk : sink < s.N) (hne : source ≠ sink) :
    PRLight (s.initPushRelabel ops source sink) source sink
    ∧ (s.initPushRelabel ops source sink).N = s.N
    ∧ (s.initPushRelabel ops source sink).cut = s.cut := by
  rw [initPushRelabel_def]
  have hlenE : s.excess.length = s.N := by rw [hF.excess0]; simp
  obtain ⟨t, ht, e1, e2, e3, e3b, e4, e5, e6, e8, e9, e12⟩ :=
    initLoop_light ops
      ({ s with
          height := s.height.set source s.N,
          rule := (s.rule.activate source).activate sink } : FlowGraph σ) source hF.graph hsrc
      hF.flow0 hF.cap0 hlenE (deg s.G source) (le_refl _)
  rw [ht]
  have e2 : t.height = s.height.set source s.N := e2
  have e3 : t.count = s.count := e3
  have e1 : t.N = s.N := e1
  have e3b : t.cut = s.cut := e3b
  have e4 : HalfOK s.N t.G := e4
  have e5 : ∀ v, deg t.G v = deg s.G v := e5
  have e6 : ∀ v j, (getE t.G v j).cap = (getE s.G v j).cap
      ∧ (getE t.G v j).to_ = (getE s.G v j).to_ := e6
  have e9 : t.excess.length = s.N := e9
  have e12 : ∀ i, i < deg s.G source → (getE s.G source i).to_ ≠ source →
      (getE t.G source i).flow = if i < deg s.G source then (getE s.G source i).cap else 0 := e12
  have hhv : ∀ v, t.height.getD v 0 = if v = source then s.N else 0 := by
    intro v
    rw [e2, hF.height0, getD_set_eq_ite, getD_replicate_zero_nat]
    by_cases c : source = v
    · subst c
      simp [hsrc]
    · rw [if_neg (fun h => c h.1), if_neg (fun h => c h.symm)]
  refine ⟨⟨?_, ?_, ?_, ?_, hne, e8, ?_, ?_⟩, e1, e3b⟩
  · show HalfOK t.N t.G
    rw [e1]; exact e4
  · show (t.excess.set source 0).length = t.N
    rw [List.length_set, e9, e1]
  · show source < t.N
    rw [e1]; exact hsrc
  · show sink < t.N
    rw [e1]; exact hsnk
  · intro v i hi0 hres0
    have hi : i < deg t.G v := hi0
    have hres : (getE t.G v i).flow < (getE t.G v i).cap := hres0
    clear hi0 hres0
    show t.height.getD v 0 ≤ t.height.getD (getE t.G v i).to_ 0 + 1
    rw [hhv, hhv]
    by_cases c : v = source
    · subst c
      rw [if_pos rfl]
      by_cases c2 : (getE t.G v i).to_ = v
      · rw [if_pos c2]
        omega
      · exfalso
        have hto : (getE s.G v i).to_ ≠ v := by rw [← (e6 v i).2]; exact c2
        have := e12 i (by rw [← e5]; exact hi) hto
        rw [if_pos (by rw [← e5]; exact hi), ← (e6 v i).1] at this
        omega
    · rw [if_neg c]
      omega
  · show HeightsOK t.N source sink t.height t.count
    rw [e1]
    have hlenH : t.height.length = s.N := by rw [e2, hF.height0]; simp
    refine ⟨hlenH, by rw [e3, hF.count0]; simp, ?_, ?_, ?_, ?_, ?_, ?_⟩
    · intro v
      rw [hhv]
      split_ifs <;> omega
    · rw [hhv, if_pos rfl]
    · rw [hhv, if_neg (fun h => hne h.symm)]
    · intro l l1 l2
      rw [e3, hF.count0, getD_replicate_zero, e2, hF.height0,
        count_set_getD _ source s.N l (by simp; exact hsrc), getD_replicate_zero_nat,
        List.count_replicate]
      have a1 : ¬ (0 = l) := by omega
      have a2 : ¬ (s.N = l) := by omega
      simp [a1, a2]
    · rw [e3, hF.count0, getD_replicate_zero]
    · intro v _ hvlt j hj
      rw [hhv] at hvlt hj
      split_ifs at hvlt hj <;> omega

/-- `discharge(u)` keeps the invariant of the push-relabel run for every vertex
`u` other than source and sink, in well-formed adjacency lists. -/
theorem discharge_light {σ : Type} (ops : RuleOps σ) (s : FlowGraph σ) (u source sink : Nat)
    (hu : u < s.N) (hus : u ≠ source) (hut : u ≠ sink) (hinv : PRLight s source sink) :
    PRLight (s.discharge ops u) source sink ∧ (s.discharge ops u).N = s.N := by
  obtain ⟨t, ht, p1, p2, p3, p4, p5, p6, p7, p8, p9, p10, p11, p12⟩ :=
    dischargeLoop_light ops s u hinv.graph hinv.lenE (deg s.G u) (le_refl _)
  have hgt : HalfOK t.N t.G := by rw [p1]; exact p5
  have hlt : LabelsValid t.G t.height := by rw [p2]; exact p11 hinv.labels
  have hHt : HeightsOK t.N source sink t.height t.count := by
    rw [p1, p2, p3]; exact hinv.heights
  have hinvt : PRLight t source sink :=
    ⟨hgt, by rw [p1]; exact p6, by rw [p1]; exact hinv.src_lt, by rw [p1]; exact hinv.snk_lt,
      hinv.ne, p9 hinv.capacity, hlt, hHt⟩
  rw [discharge_def, ht]
  by_cases hx : 0 < t.excess.getD u 0
  · rw [if_pos hx]
    have hpost : ∀ i, i < deg t.G u →
        ¬ ((getE t.G u i).flow < (getE t.G u i).cap
          ∧ t.height.getD u 0 = t.height.getD (getE t.G u i).to_ 0 + 1) := by
      intro i hi
      rw [p7] at hi
      rw [p2]
      exact p12 hx i hi
    have hut2 : u < t.N := by rw [p1]; exact hu
    have hul : u < t.height.length := by rw [hHt.lenH]; exact hut2
    by_cases hc : t.count.getD (t.height.getD u 0) 0 = 1
    · rw [if_pos hc]
      have h1 : 1 ≤ t.height.getD u 0 := by
        by_contra hcon
        have hz : t.height.getD u 0 = 0 := by omega
        rw [hz] at hc
        have := hHt.cnt0
        omega
      refine ⟨⟨?_, ?_, ?_, ?_, hinv.ne, ?_, ?_, ?_⟩, by rw [gap_N, p1]⟩
      · rw [gap_N, gap_G]; exact hgt
      · rw [gap_N, gap_excess]; exact hinvt.lenE
      · rw [gap_N]; exact hinvt.src_lt
      · rw [gap_N]; exact hinvt.snk_lt
      · rw [gap_G]; exact hinvt.capacity
      · apply gap_labels ops t _ source sink h1 hgt.len hHt hlt
        intro v i hi hres hge hlt2
        by_contra hcon
        have hval := hlt v i hi hres
        have hvh : t.height.getD v 0 = t.height.getD u 0 := by omega
        have hcount : t.height.count (t.height.getD u 0) = 1 := by
          have := hHt.cnt (t.height.getD u 0) h1 (by omega)
          rw [hc] at this
          exact_mod_cast this.symm
        have hvl : v < t.height.length := by
          rw [hHt.lenH, ← hgt.len]
          exact lt_length_of_lt_deg hi
        have hvu : v = u := eq_of_count_eq_one t.height _ v u hcount hvl hul hvh rfl
        subst hvu
        exact hpost i hi ⟨hres, by omega⟩
      · exact gap_heights ops t _ source sink h1 hgt.len hHt
    · rw [if_neg hc]
      refine ⟨⟨?_, ?_, ?_, ?_, hinv.ne, ?_, ?_, ?_⟩, by rw [relabel_N, p1]⟩
      · rw [relabel_N, relabel_G]; exact hgt
      · rw [relabel_N, relabel_excess]; exact hinvt.lenE
      · rw [relabel_N]; exact hinvt.src_lt
      · rw [relabel_N]; exact hinvt.snk_lt
      · rw [relabel_G]; exact hinvt.capacity
      · exact relabel_labels ops t u hul (by omega) (hHt.le_N u) hlt
      · exact relabel_heights_core ops t u source sink
          (fun v i hi => by
            have := (hgt.half v (lt_length_of_lt_deg hi) i hi).1
            rwa [hgt.len] at this)
          hut2 hus hut hinvt.snk_lt hHt hc
  · rw [if_neg hx]
    exact ⟨hinvt, p1⟩

theorem dispatchOK_succ {σ : Type} (ops : RuleOps σ) (source sink fuel : Nat)
    (s : FlowGraph σ) :
    dispatchOK ops source sink (fuel + 1) s
      = if ops.empty s.rule then true
        else
          decide ((ops.next s.rule).1 < s.N) && decide ((ops.next s.rule).1 ≠ source)
            && decide ((ops.next s.rule).1 ≠ sink)
            && dispatchOK ops source sink fuel
                (FlowGraph.discharge ops { s with rule := (ops.next s.rule).2 }
                  (ops.next s.rule).1) := rfl

theorem dischargeStates_succ {σ : Type} (ops : RuleOps σ) (fuel : Nat) (s : FlowGraph σ) :
    dischargeStates ops (fuel + 1) s
      = if ops.empty s.rule then [s]
        else
          s :: dischargeStates ops fuel
            (FlowGraph.discharge ops { s with rule := (ops.next s.rule).2 }
              (ops.next s.rule).1) := rfl

/-- The invariant of the run holds in every state in which the loop of
`minCutPushRelabel` tests its condition, and in the state it ends with, as long
as the rule hands out only vertices other than source and sink. -/
theorem dischargeLoop_light_inv {σ : Type} (ops : RuleOps σ) (source sink : Nat) (fuel : Nat) :
    ∀ s : FlowGraph σ, PRLight s source sink → dispatchOK ops source sink fuel s = true →
      (∀ x ∈ dischargeStates ops fuel s, PRLight x source sink ∧ x.N = s.N)
      ∧ ∀ t, dischargeLoop ops fuel s = some t →
          PRLight t source sink ∧ t.N = s.N ∧ t.cut = s.cut := by
  induction fuel with
  | zero =>
    intro s hinv _
    refine ⟨?_, fun t h => absurd h (by simp [dischargeLoop])⟩
    intro x hx
    have : x = s := by simpa [dischargeStates] using hx
    rw [this]
    exact ⟨hinv, rfl⟩
  | succ fuel ih =>
    intro s hinv hd
    rw [dispatchOK_succ] at hd
    rw [dischargeStates_succ]
    by_cases he : ops.empty s.rule = true
    · rw [if_pos he]
      refine ⟨?_, ?_⟩
      · intro x hx
        rw [List.mem_singleton.mp hx]
        exact ⟨hinv, rfl⟩
      · intro t h
        rw [dischargeLoop_succ, if_pos he] at h
        injection h with h
        subst h
        exact ⟨hinv, rfl, rfl⟩
    · rw [if_neg he] at hd ⊢
      simp only [Bool.and_eq_true, decide_eq_true_eq] at hd
      obtain ⟨⟨⟨hu, hus⟩, hut⟩, hd2⟩ := hd
      have hinv1 : PRLight ({ s with rule := (ops.next s.rule).2 } : FlowGraph σ) source sink :=
        ⟨hinv.graph, hinv.lenE, hinv.src_lt, hinv.snk_lt, hinv.ne, hinv.capacity, hinv.labels,
          hinv.heights⟩
      obtain ⟨hinv2, hN2⟩ := discharge_light ops
        ({ s with rule := (ops.next s.rule).2 } : FlowGraph σ) (ops.next s.rule).1 source sink
        hu hus hut hinv1
      have hN2 : (FlowGraph.discharge ops { s with rule := (ops.next s.rule).2 }
          (ops.next s.rule).1).N = s.N := hN2
      obtain ⟨r1, r2⟩ := ih _ hinv2 hd2
      refine ⟨?_, ?_⟩
      · intro x hx
        rcases List.mem_cons.mp hx with hx | hx
        · rw [hx]
          exact ⟨hinv, rfl⟩
        · obtain ⟨a, b⟩ := r1 x hx
          exact ⟨a, b.trans hN2⟩
      · intro t h
        rw [dischargeLoop_succ, if_neg he] at h
        obtain ⟨a, b, c⟩ := r2 t h
        refine ⟨a, b.trans hN2, ?_⟩
        rw [c, discharge_cut]

/-- In a state of the run every vertex below height `N` is below `N - 1`, and
every residual capacity from height `N` to a height below `N` is used up. -/
theorem saturated_of_PRLight {σ : Type} (t : FlowGraph σ) (source sink : Nat)
    (hinv : PRLight t source sink) :
    (∀ v, v < t.N → t.height.getD v 0 + 1 ≠ t.N)
    ∧ ∀ v i, i < deg t.G v → t.N ≤ t.height.getD v 0 →
        t.height.getD (getE t.G v i).to_ 0 < t.N → (getE t.G v i).flow = (getE t.G v i).cap := by
  constructor
  · intro v hv e
    have := height_lt_pred t.N source sink t.height t.count hinv.heights hinv.src_lt v hv
      (by omega)
    omega
  · intro v i hi hv hw
    have hcap := hinv.capacity v i hi
    by_contra hne
    have hres : (getE t.G v i).flow < (getE t.G v i).cap := by omega
    have hl := hinv.labels v i hi hres
    have hto : (getE t.G v i).to_ < t.N := by
      rw [← hinv.graph.len]
      exact (hinv.graph.half v (lt_length_of_lt_deg hi) i hi).1
    have := height_lt_pred t.N source sink t.height t.count hinv.heights hinv.src_lt _ hto hw
    omega

/-- C20: the push-relabel cut is saturated. On every graph built by `addEdge`
and `addDoubleEdge` calls with vertices in range, non-negative capacities and
`source != sink`, started with all flow, excess, height and count entries
zero, under any selection rule: if `minCutPushRelabel(source, sink)` returns
and the rule has handed out only vertices other than source and sink, then
`cut[source]` is true, `cut[sink]` is false, and every adjacency entry
`G[u][i]` with `cut[u]` true and `cut[G[u][i].to]` false has `flow == cap`.
During the run, in every state in which the loop tests its condition, no
vertex has height `N - 1`, and every entry from a vertex at height `N` to a
vertex below `N` has `flow == cap`. -/
theorem pushRelabel_cut_saturated {σ : Type} (ops : RuleOps σ) (r : SelectionRule σ)
    (n source sink : Nat) (l : List BuildOp)
    (hl : ∀ op ∈ l, op.tail < n ∧ op.head < n ∧ 0 ≤ op.capacity)
    (hs : source < n) (ht : sink < n) (hne : source ≠ sink) (fuel : Nat) (t : FlowGraph σ)
    (hrun : (buildGraphOps n source sink r l).minCutPushRelabel ops fuel source sink
      = Except.ok t)
    (hdisp : dispatchOK ops source sink fuel
      ((buildGraphOps n source sink r l).initPushRelabel ops source sink) = true) :
    t.cut.getD source false = true
    ∧ t.cut.getD sink false = false
    ∧ (∀ u i, i < deg t.G u → t.cut.getD u false = true →
        t.cut.getD (getE t.G u i).to_ false = false →
        (getE t.G u i).flow = (getE t.G u i).cap)
    ∧ (∀ x ∈ dischargeStates ops fuel
          ((buildGraphOps n source sink r l).initPushRelabel ops source sink),
        (∀ v, v < n → x.height.getD v 0 + 1 ≠ n)
        ∧ ∀ v i, i < deg x.G v → n ≤ x.height.getD v 0 →
            x.height.getD (getE x.G v i).to_ 0 < n →
            (getE x.G v i).flow = (getE x.G v i).cap) := by
  obtain ⟨hF, hN⟩ := freshLight_build n source sink r l hl
  generalize buildGraphOps n source sink r l = s at *
  obtain ⟨i1, i2, i3⟩ := init_light ops s source sink hF (by rw [hN]; exact hs)
    (by rw [hN]; exact ht) hne
  obtain ⟨r1, r2⟩ := dischargeLoop_light_inv ops source sink fuel _ i1 hdisp
  unfold FlowGraph.minCutPushRelabel at hrun
  cases hloop : dischargeLoop ops fuel (s.initPushRelabel ops source sink) with
  | none =>
    rw [hloop] at hrun
    exact absurd hrun (by simp)
  | some t0 =>
    rw [hloop] at hrun
    injection hrun with hrun
    subst hrun
    obtain ⟨hinv, hN0, hcut0⟩ := r2 t0 hloop
    rw [i2, hN] at hN0
    have hcl : t0.cut.length = n := by rw [hcut0, i3, hF.cutlen, hN]
    obtain ⟨q1, q2⟩ := saturated_of_PRLight t0 source sink hinv
    refine ⟨?_, ?_, ?_, ?_⟩
    · rw [cutFromHeights_getD t0 source (by rw [hcl]; exact hs), hinv.heights.src]
      simp
    · rw [cutFromHeights_getD t0 sink (by rw [hcl]; exact ht), hinv.heights.snk]
      have : ¬ t0.N ≤ 0 := by omega
      simp [this]
    · intro u i hi hcu hcw
      have hi : i < deg t0.G u := hi
      have hul : u < n := by
        rw [← hN0, ← hinv.graph.len]
        exact lt_length_of_lt_deg hi
      have hwl : (getE t0.G u i).to_ < n := by
        rw [← hN0, ← hinv.graph.len]
        exact (hinv.graph.half u (lt_length_of_lt_deg hi) i hi).1
      have hcu2 : t0.cutFromHeights.cut.getD u false = true := hcu
      have hcw2 : t0.cutFromHeights.cut.getD (getE t0.G u i).to_ false = false := hcw
      rw [cutFromHeights_getD t0 u (by rw [hcl]; exact hul)] at hcu2
      rw [cutFromHeights_getD t0 _ (by rw [hcl]; exact hwl)] at hcw2
      exact q2 u i hi (by simpa using hcu2) (by simpa using hcw2)
    · intro x hx
      obtain ⟨hix, hNx⟩ := r1 x hx
      rw [i2, hN] at hNx
      obtain ⟨a, b⟩ := saturated_of_PRLight x source sink hix
      rw [hNx] at a b
      exact ⟨a, b⟩

/-- Witness for C20: a graph with double edges, two of them from a vertex to
itself, solved with the first-in-first-out rule. -/
theorem pushRelabel_cut_saturated_witness :
    doubleEdgeGraph.minCutPushRelabel fifoRule 10 0 3 = Except.ok doubleEdgeSolved
    ∧ ¬ Pairing doubleEdgeGraph.G
    ∧ doubleEdgeSolved.cut = [true, true, true, false]
    ∧ (doubleEdgeSolved.cut.getD 0 false = true
      ∧ doubleEdgeSolved.cut.getD 3 false = false
      ∧ (∀ u i, i < deg doubleEdgeSolved.G u → doubleEdgeSolved.cut.getD u false = true →
          doubleEdgeSolved.cut.getD (getE doubleEdgeSolved.G u i).to_ false = false →
          (getE doubleEdgeSolved.G u i).flow = (getE doubleEdgeSolved.G u i).cap)
      ∧ (∀ x ∈ dischargeStates fifoRule 10 (doubleEdgeGraph.initPushRelabel fifoRule 0 3),
          (∀ v, v < 4 → x.height.getD v 0 + 1 ≠ 4)
          ∧ ∀ v i, i < deg x.G v → 4 ≤ x.height.getD v 0 →
              x.height.getD (getE x.G v i).to_ 0 < 4 →
              (getE x.G v i).flow = (getE x.G v i).cap)) :=
  ⟨rfl, by decide, by decide,
    pushRelabel_cut_saturated fifoRule ⟨4, List.replicate 4 false, []⟩ 4 0 3
      [BuildOp.edge 0 1 5, BuildOp.doubleEdge 1 2 3, BuildOp.doubleEdge 1 1 4,
        BuildOp.doubleEdge 0 0 2, BuildOp.edge 2 3 2, BuildOp.edge 1 3 1]
      (by decide) (by decide) (by decide) (by decide) 10 doubleEdgeSolved rfl rfl⟩

/-- C5 (as amended): `changeCapacity(from, to, cap)` fails exactly when
`from != source` and `to != sink`, and it then ends the process with
`exit(1)` before it reads any vector; no error is handed back to the caller.
In every other case, called with indices inside the vectors (`from` and `to`
are vertices and the lookup table holds the position of an entry of
`G[from]`), it returns normally. -/
theorem changeCapacity_fails_iff {σ : Type} (ops : RuleOps σ) (s : FlowGraph σ)
    (from_ to_ : Nat) (cap : Int)
    (hb : from_ = s.source ∨ to_ = s.sink → s.changeCapacityInBounds from_ to_) :
    ((∃ f, s.changeCapacity ops from_ to_ cap = Except.error f)
        ↔ (from_ ≠ s.source ∧ to_ ≠ s.sink))
    ∧ (s.changeCapacity ops from_ to_ cap = Except.error (Fault.exit 1)
        ↔ (from_ ≠ s.source ∧ to_ ≠ s.sink))
    ∧ ((s.changeCapacityInBounds from_ to_
          ∧ ∃ t, s.changeCapacity ops from_ to_ cap = Except.ok t)
        ↔ (from_ = s.source ∨ to_ = s.sink)) := by
  unfold FlowGraph.changeCapacity
  by_cases h1 : from_ = s.source
  · have hin := hb (Or.inl h1)
    rw [if_pos h1]
    simp only [exists_eq', and_true, iff_true_intro hin]
    simp [h1]
  · by_cases h2 : to_ = s.sink
    · have hin := hb (Or.inr h2)
      rw [if_neg h1, if_pos h2]
      simp only [exists_eq', and_true, iff_true_intro hin]
      simp [h1, h2]
    · simp [h1, h2]

/-- Witness for C5: on the spec's graph `changeCapacity(0, 2, 1)` names the
recorded edge 0->2 and returns. -/
theorem changeCapacity_fails_iff_witness :
    specGraph.changeCapacityInBounds 0 2
    ∧ ∃ t, specGraph.changeCapacity fifoRule 0 2 1 = Except.ok t :=
  (changeCapacity_fails_iff fifoRule specGraph 0 2 1 (fun _ => by decide)).2.2.mpr
    (Or.inl rfl)

/-- C6: the effect of `changeCapacity(from, to, c)` on the entry `e` that the
lookup table records for a source- or sink-adjacent edge `from -> to`, an
entry distinct from its pair as `addEdge` creates them, carrying flow `f`,
when every index the call uses is in range and every value it computes fits
`int`. The call returns, and `cap(e) = c`. If `c < f`, then `flow(e) = c`, the
paired entry has flow `-c`, `excess[from]` has grown by `f - c` and
`excess[to]` has shrunk by `f - c` (the two cancel when `from == to`), and
both new excess values fit `int`. If `c >= f`, no flow and no excess changes.
In both cases the sizes, the fields `from`, `to`, `index` of every entry, the
capacity of every entry but `e`, the flow of every entry but `e` and its pair,
the excess of every other vertex and all heights are unchanged. -/
theorem changeCapacity_effect {σ : Type} (ops : RuleOps σ) (s : FlowGraph σ)
    (from_ to_ : Nat) (c : Int)
    (hadj : from_ = s.source ∨ to_ = s.sink)
    (hp : Pairing s.G)
    (hb : s.changeCapacityInBounds from_ to_)
    (hto : (getE s.G from_ (s.tableIndex from_ to_)).to_ = to_)
    (hne : ¬ (to_ = from_
      ∧ (getE s.G from_ (s.tableIndex from_ to_)).index = s.tableIndex from_ to_))
    (hfit : s.changeCapacityFits from_ to_ c) :
    ∃ t, s.changeCapacity ops from_ to_ c = Except.ok t
      ∧ (getE t.G from_ (s.tableIndex from_ to_)).cap = c
      ∧ (c < (getE s.G from_ (s.tableIndex from_ to_)).flow →
          (getE t.G from_ (s.tableIndex from_ to_)).flow = c
          ∧ (getE t.G to_ (getE s.G from_ (s.tableIndex from_ to_)).index).flow = -c
          ∧ (from_ ≠ to_ →
              t.excess.getD from_ 0
                = s.excess.getD from_ 0 + ((getE s.G from_ (s.tableIndex from_ to_)).flow - c)
              ∧ t.excess.getD to_ 0
                = s.excess.getD to_ 0 - ((getE s.G from_ (s.tableIndex from_ to_)).flow - c))
          ∧ (from_ = to_ → t.excess.getD from_ 0 = s.excess.getD from_ 0))
      ∧ ((getE s.G from_ (s.tableIndex from_ to_)).flow ≤ c →
          (∀ v j, (getE t.G v j).flow = (getE s.G v j).flow) ∧ t.excess = s.excess)
      ∧ t.G.length = s.G.length
      ∧ (∀ v, deg t.G v = deg s.G v)
      ∧ (∀ v j, (getE t.G v j).from_ = (getE s.G v j).from_
          ∧ (getE t.G v j).to_ = (getE s.G v j).to_
          ∧ (getE t.G v j).index = (getE s.G v j).index)
      ∧ (∀ v j, ¬ (v = from_ ∧ j = s.tableIndex from_ to_) →
          (getE t.G v j).cap = (getE s.G v j).cap)
      ∧ (∀ v j, ¬ (v = from_ ∧ j = s.tableIndex from_ to_) →
          ¬ (v = to_ ∧ j = (getE s.G from_ (s.tableIndex from_ to_)).index) →
          (getE t.G v j).flow = (getE s.G v j).flow)
      ∧ (∀ v, v ≠ from_ → v ≠ to_ → t.excess.getD v 0 = s.excess.getD v 0)
      ∧ t.height = s.height
      ∧ (c < (getE s.G from_ (s.tableIndex from_ to_)).flow →
          fitsInt (t.excess.getD from_ 0) ∧ fitsInt (t.excess.getD to_ 0)) := by
  obtain ⟨-, -, -, -, hi, -, hfl, htl, -⟩ := hb
  have hr : (getE s.G from_ (s.tableIndex from_ to_)).index < deg s.G to_ := by
    have := (hp from_ (lt_length_of_lt_deg hi) _ hi).2.1
    rwa [hto] at this
  refine ⟨_, changeCapacity_eq_ok ops s from_ to_ c hadj, ?_, ?_, ?_,
    length_changeCapacityAt ops s from_ to_ c _, deg_changeCapacityAt ops s from_ to_ c _,
    fun v j => ⟨changeCapacityAt_from ops s from_ to_ c _ v j,
      changeCapacityAt_to ops s from_ to_ c _ v j, changeCapacityAt_index ops s from_ to_ c _ v j⟩,
    ?_, ?_, ?_, height_changeCapacityAt ops s from_ to_ c _, ?_⟩
  · rw [cap_changeCapacityAt ops s from_ to_ c _ hi]
    simp
  · intro hgt
    have hd : 0 < (getE s.G from_ (s.tableIndex from_ to_)).flow - c := by omega
    refine ⟨?_, ?_, ?_, ?_⟩
    · rw [flow_changeCapacityAt_gt ops s from_ to_ c _ hi hr hne hgt]
      simp
    · rw [flow_changeCapacityAt_gt ops s from_ to_ c _ hi hr hne hgt]
      simp [hne]
    · intro hft
      have hft2 : ¬ to_ = from_ := fun e => hft e.symm
      rw [excess_changeCapacityAt, if_pos hd]
      simp only [getD_set_eq_ite, List.length_set, hfl, htl, and_true, hft, hft2, if_false,
        if_true]
    · intro hft
      subst hft
      rw [excess_changeCapacityAt, if_pos hd]
      simp only [getD_set_eq_ite, List.length_set, hfl, and_true, if_true]
      ring
  · intro hle
    have hd : ¬ 0 < (getE s.G from_ (s.tableIndex from_ to_)).flow - c := by omega
    refine ⟨fun v j => flow_changeCapacityAt_le ops s from_ to_ c _ hi hle v j, ?_⟩
    rw [excess_changeCapacityAt, if_neg hd]
  · intro v j hv
    rw [cap_changeCapacityAt ops s from_ to_ c _ hi, if_neg hv]
  · intro v j h1 h2
    by_cases hle : (getE s.G from_ (s.tableIndex from_ to_)).flow ≤ c
    · exact flow_changeCapacityAt_le ops s from_ to_ c _ hi hle v j
    · rw [flow_changeCapacityAt_gt ops s from_ to_ c _ hi hr hne (not_le.mp hle), if_neg h1,
        if_neg h2]
  · intro v h1 h2
    rw [excess_changeCapacityAt]
    by_cases hd : 0 < (getE s.G from_ (s.tableIndex from_ to_)).flow - c
    · have h3 : ¬ from_ = v := fun e => h1 e.symm
      have h4 : ¬ to_ = v := fun e => h2 e.symm
      rw [if_pos hd]
      simp only [getD_set_eq_ite, h3, h4, false_and, if_false]
    · rw [if_neg hd]
  · intro hgt
    have hd : 0 < (getE s.G from_ (s.tableIndex from_ to_)).flow - c := by omega
    obtain ⟨f1, f2, f3⟩ := hfit.2.2 hd
    rw [excess_changeCapacityAt, if_pos hd]
    by_cases hft : from_ = to_
    · subst hft
      simp only [getD_set_eq_ite, List.length_set, hfl, and_true, if_true] at f2 ⊢
      exact ⟨f2, f2⟩
    · have hft2 : ¬ to_ = from_ := fun e => hft e.symm
      simp only [getD_set_eq_ite, List.length_set, hfl, htl, and_true, hft, hft2, if_false,
        if_true] at f2 ⊢
      exact ⟨f1, f2⟩

/-- Witness for C6: on the solved graph of the spec's scenario the capacity of
the edge 0 -> 2, which carries flow 2, is lowered to 0. -/
theorem changeCapacity_effect_witness :
    specSolved.changeCapacityInBounds 0 2 ∧ specSolved.changeCapacityFits 0 2 0
    ∧ ∃ t, specSolved.changeCapacity fifoRule 0 2 0 = Except.ok t
      ∧ (getE t.G 0 (specSolved.tableIndex 0 2)).cap = 0
      ∧ t.excess = [2, 2, 3] := by
  obtain ⟨t, h1, h2, -⟩ := changeCapacity_effect fifoRule specSolved 0 2 0 (by decide)
    (by decide) (by decide) (by decide) (by decide) (by decide)
  refine ⟨by decide, by decide, t, h1, h2, ?_⟩
  have h3 : specSolved.changeCapacity fifoRule 0 2 0
      = Except.ok (specSolved.changeCapacityAt fifoRule 0 2 0 (specSolved.tableIndex 0 2)) :=
    changeCapacity_eq_ok fifoRule specSolved 0 2 0 (by decide)
  rw [h3] at h1
  injection h1 with h4
  rw [← h4]
  decide

/-- C7 (as amended): lowering the capacity of a source- or sink-adjacent edge
`from -> to` below the flow `f` it carries keeps `checkExcess()` true exactly
when the edge leads from a vertex to itself or its head holds enough excess:
in a state where `checkExcess()` is true, with every index in range and every
computed value fitting `int`, after `changeCapacity(from, to, c)` with `c < f`,
`checkExcess()` is true if and only if `from == to` or `f - c <= excess[to]`
held before; the two excess values it writes fit `int`. -/
theorem changeCapacity_checkExcess_iff {σ : Type} (ops : RuleOps σ) (s t : FlowGraph σ)
    (from_ to_ : Nat) (c : Int)
    (hb : s.changeCapacityInBounds from_ to_)
    (hfit : s.changeCapacityFits from_ to_ c)
    (hex : s.checkExcess = true)
    (hgt : c < (getE s.G from_ (s.tableIndex from_ to_)).flow)
    (hok : s.changeCapacity ops from_ to_ c = Except.ok t) :
    (t.checkExcess = true
      ↔ (from_ = to_
          ∨ (getE s.G from_ (s.tableIndex from_ to_)).flow - c ≤ s.excess.getD to_ 0))
    ∧ fitsInt (t.excess.getD from_ 0) ∧ fitsInt (t.excess.getD to_ 0) := by
  obtain ⟨-, -, -, -, -, -, hfl, htl, -⟩ := hb
  have hadj : from_ = s.source ∨ to_ = s.sink := by
    by_contra hcon
    push_neg at hcon
    unfold FlowGraph.changeCapacity at hok
    simp [hcon.1, hcon.2] at hok
  rw [changeCapacity_eq_ok ops s from_ to_ c hadj] at hok
  have ht : t = s.changeCapacityAt ops from_ to_ c (s.tableIndex from_ to_) := by
    injection hok with h
    exact h.symm
  subst ht
  have hd : 0 < (getE s.G from_ (s.tableIndex from_ to_)).flow - c := by omega
  obtain ⟨f1, f2, -⟩ := hfit.2.2 hd
  rw [checkExcess_iff] at hex ⊢
  rw [excess_changeCapacityAt, if_pos hd]
  simp only [List.length_set]
  have hget : ∀ i, ((s.excess.set from_
        (s.excess.getD from_ 0 + ((getE s.G from_ (s.tableIndex from_ to_)).flow - c))).set to_
        ((s.excess.set from_
            (s.excess.getD from_ 0
              + ((getE s.G from_ (s.tableIndex from_ to_)).flow - c))).getD to_ 0
          - ((getE s.G from_ (s.tableIndex from_ to_)).flow - c))).getD i 0
      = if to_ = i then
          (if from_ = to_ then s.excess.getD to_ 0
            else s.excess.getD to_ 0 - ((getE s.G from_ (s.tableIndex from_ to_)).flow - c))
        else if from_ = i then
          s.excess.getD from_ 0 + ((getE s.G from_ (s.tableIndex from_ to_)).flow - c)
        else s.excess.getD i 0 := by
    intro i
    rw [getD_set_eq_ite, getD_set_eq_ite, getD_set_eq_ite, List.length_set]
    by_cases c1 : to_ = i
    · rw [if_pos ⟨c1, htl⟩, if_pos c1]
      by_cases c2 : from_ = to_
      · rw [if_pos ⟨c2, hfl⟩, if_pos c2, c2]
        ring
      · rw [if_neg (fun h => c2 h.1), if_neg c2]
    · rw [if_neg (fun h => c1 h.1), if_neg c1]
      by_cases c2 : from_ = i
      · rw [if_pos ⟨c2, hfl⟩, if_pos c2]
      · rw [if_neg (fun h => c2 h.1), if_neg c2]
  have g1 := hget from_
  have g2 := hget to_
  rw [if_pos rfl] at g2
  rw [g1, g2]
  by_cases hne : from_ = to_
  · have f2b : fitsInt (s.excess.getD to_ 0) := by
      have h0 : (s.excess.set from_ (s.excess.getD from_ 0
            + ((getE s.G from_ (s.tableIndex from_ to_)).flow - c))).getD to_ 0
          = s.excess.getD to_ 0 + ((getE s.G from_ (s.tableIndex from_ to_)).flow - c) := by
        rw [getD_set_eq_ite, if_pos ⟨hne, hfl⟩, hne]
      rw [h0] at f2
      unfold fitsInt at f2 ⊢
      omega
    refine ⟨⟨fun _ => Or.inl hne, fun _ i hi => ?_⟩, ?_, ?_⟩
    · rw [hget]
      by_cases c1 : to_ = i
      · rw [if_pos c1, if_pos hne]
        exact hex to_ htl
      · rw [if_neg c1, if_neg (fun h => c1 (hne ▸ h))]
        exact hex i hi
    · rw [if_pos hne.symm, if_pos hne]
      exact f2b
    · rw [if_pos hne]
      exact f2b
  · have hne2 : ¬ to_ = from_ := fun e => hne e.symm
    have f2b : fitsInt (s.excess.getD to_ 0
        - ((getE s.G from_ (s.tableIndex from_ to_)).flow - c)) := by
      have h0 : (s.excess.set from_ (s.excess.getD from_ 0
            + ((getE s.G from_ (s.tableIndex from_ to_)).flow - c))).getD to_ 0
          = s.excess.getD to_ 0 := by
        rw [getD_set_eq_ite, if_neg (fun h => hne h.1)]
      rw [h0] at f2
      exact f2
    refine ⟨⟨fun h => Or.inr ?_, fun h i hi => ?_⟩, ?_, ?_⟩
    · have := h to_ htl
      rw [hget, if_pos rfl, if_neg hne] at this
      omega
    · rw [hget]
      rcases h with h | h
      · exact absurd h hne
      · by_cases c1 : to_ = i
        · rw [if_pos c1, if_neg hne]
          omega
        · rw [if_neg c1]
          by_cases c2 : from_ = i
          · rw [if_pos c2]
            have := hex from_ hfl
            omega
          · rw [if_neg c2]
            exact hex i hi
    · rw [if_neg hne2, if_pos rfl]
      exact f1
    · rw [if_neg hne]
      exact f2b

/-- Witness for C7, the spec's scenario: after the solve the edge 0 -> 2 carries
flow 2 and the sink holds excess 5; lowering its capacity to 0 leaves
`checkExcess()` true. -/
theorem changeCapacity_checkExcess_iff_witness :
    specSolved.changeCapacityInBounds 0 2 ∧ specSolved.changeCapacityFits 0 2 0
    ∧ specSolved.checkExcess = true
    ∧ (specSolved.changeCapacityAt fifoRule 0 2 0 (specSolved.tableIndex 0 2)).checkExcess
        = true :=
  ⟨by decide, by decide, by decide,
    (changeCapacity_checkExcess_iff fifoRule specSolved _ 0 2 0 (by decide) (by decide)
      (by decide) (by decide)
      (changeCapacity_eq_ok fifoRule specSolved 0 2 0 (by decide))).1.mpr
      (Or.inr (by decide))⟩

/-- Counterexample for C7: after the solve of the spec's scenario the edge
0 -> 1 carries flow 5 and `checkExcess()` is true; lowering its capacity to 0
returns with `excess = [5, -3, 5]`, so `checkExcess()` is false. And after the
solve of `wideGraph`, where every stored value fits `int`, the edge 2 -> 3
carries flow 1500000000 and vertex 2 holds excess 1500000000: lowering the
capacity of the edge to 0 asks for `excess[2] = 3000000000`, which does not
fit `int`. -/
theorem changeCapacity_negative_excess :
    specSolved.checkExcess = true
    ∧ (getE specSolved.G 0 (specSolved.tableIndex 0 1)).flow = 5
    ∧ specSolved.changeCapacity fifoRule 0 1 0
        = Except.ok (specSolved.changeCapacityAt fifoRule 0 1 0 (specSolved.tableIndex 0 1))
    ∧ (specSolved.changeCapacityAt fifoRule 0 1 0 (specSolved.tableIndex 0 1)).excess = [5, -3, 5]
    ∧ (specSolved.changeCapacityAt fifoRule 0 1 0 (specSolved.tableIndex 0 1)).checkExcess
        = false
    ∧ wideGraph.minCutPushRelabel fifoRule 10 0 3 = Except.ok wideSolved
    ∧ wideSolved.excess = [0, 0, 1500000000, 1500000000]
    ∧ (getE wideSolved.G 2 (wideSolved.tableIndex 2 3)).to_ = 3
    ∧ (getE wideSolved.G 2 (wideSolved.tableIndex 2 3)).flow = 1500000000
    ∧ wideSolved.excess.getD 2 0
        + ((getE wideSolved.G 2 (wideSolved.tableIndex 2 3)).flow - 0) = 3000000000
    ∧ ¬ fitsInt (wideSolved.excess.getD 2 0
        + ((getE wideSolved.G 2 (wideSolved.tableIndex 2 3)).flow - 0))
    ∧ ¬ wideSolved.changeCapacityFits 2 3 0 :=
  ⟨by decide, by decide, changeCapacity_eq_ok fifoRule specSolved 0 1 0 (by decide), by decide,
    by decide, rfl, by decide, by decide, by decide, by decide, by decide, by decide⟩

/-- C13: `relabel` and `gap` do not keep the histogram that `checkCount()`
tests. In the two-vertex state with both vertices at height 0 and
`count == [2, 0, 0]`, `checkCount()` is true. `relabel(0)` lifts vertex 0 to
height `N == 2` and lowers `count[0]`, but `count[2]` stays 0; `gap(0)` lifts
both vertices to height 2 and `count[2]` stays 0: after either call
`count[N]` is not the number of vertices at height `N` and `checkCount()` is
false. Nor does the solver set the histogram up: in the spec's scenario the
first part of `minCutPushRelabel(0, 2)` leaves the heights `[3, 0, 0]` with
`count == [0, 0, 0, 0]`, the first `discharge(1)` relabels vertex 1 and leaves
`count == [-1, 1, 0, 0]`, and the solve ends with heights `[3, 3, 0]` and
`count == [-1, 0, 0, 0]`; `checkCount()` is false in each of these states. -/
theorem relabel_gap_break_checkCount :
    countedState.checkCount = true
    ∧ (countedState.relabel fifoRule 0).height = [2, 0]
    ∧ (countedState.relabel fifoRule 0).count = [1, 0, 0]
    ∧ (countedState.relabel fifoRule 0).count.getD 2 0
        ≠ (((countedState.relabel fifoRule 0).height.count 2 : Nat) : Int)
    ∧ (countedState.relabel fifoRule 0).checkCount = false
    ∧ (countedState.gap fifoRule 0).height = [2, 2]
    ∧ (countedState.gap fifoRule 0).count = [0, 0, 0]
    ∧ (countedState.gap fifoRule 0).count.getD 2 0
        ≠ (((countedState.gap fifoRule 0).height.count 2 : Nat) : Int)
    ∧ (countedState.gap fifoRule 0).checkCount = false
    ∧ (specGraph.initPushRelabel fifoRule 0 2).height = [3, 0, 0]
    ∧ (specGraph.initPushRelabel fifoRule 0 2).count = [0, 0, 0, 0]
    ∧ (specGraph.initPushRelabel fifoRule 0 2).checkCount = false
    ∧ (specGraph.initPushRelabel fifoRule 0 2).discharge fifoRule 1
        = (specGraph.initPushRelabel fifoRule 0 2).relabel fifoRule 1
    ∧ ((specGraph.initPushRelabel fifoRule 0 2).relabel fifoRule 1).height = [3, 1, 0]
    ∧ ((specGraph.initPushRelabel fifoRule 0 2).relabel fifoRule 1).count = [-1, 1, 0, 0]
    ∧ ((specGraph.initPushRelabel fifoRule 0 2).relabel fifoRule 1).checkCount = false
    ∧ specGraph.minCutPushRelabel fifoRule 10 0 2 = Except.ok specSolved
    ∧ specSolved.height = [3, 3, 0]
    ∧ specSolved.count = [-1, 0, 0, 0]
    ∧ specSolved.checkCount = false := by
  refine ⟨by decide, by decide, by decide, by decide, by decide, by decide, by decide,
    by decide, by decide, by decide, by decide, by decide, rfl, by decide, by decide,
    by decide, rfl, by decide, by decide, by decide⟩

/-- An excess value is at most the sum of all of them when none is negative. -/
theorem excess_le_total (excess : List Int) (N : Nat) (hx : ExcessNonneg excess) (v : Nat)
    (hv : v < N) : excess.getD v 0 ≤ ∑ w ∈ Finset.range N, excess.getD w 0 :=
  Finset.single_le_sum (f := fun w => excess.getD w 0) (fun w _ => hx w)
    (Finset.mem_range.mpr hv)

/-- Two excess values at distinct vertices are together at most the sum of all
of them when none is negative. -/
theorem excess_pair_le_total (excess : List Int) (N : Nat) (hx : ExcessNonneg excess)
    (v w : Nat) (hv : v < N) (hw : w < N) (hne : v ≠ w) :
    excess.getD v 0 + excess.getD w 0 ≤ ∑ x ∈ Finset.range N, excess.getD x 0 := by
  rw [← Finset.add_sum_erase _ _ (Finset.mem_range.mpr hv)]
  have : excess.getD w 0 ≤ ∑ x ∈ (Finset.range N).erase v, excess.getD x 0 :=
    Finset.single_le_sum (f := fun x => excess.getD x 0) (fun x _ => hx x)
      (Finset.mem_erase.mpr ⟨fun e => hne e.symm, Finset.mem_range.mpr hw⟩)
  omega

/-- A push leaves the sum of all excess values as it was. -/
theorem push_excess_total {σ : Type} (ops : RuleOps σ) (s : FlowGraph σ) (u i : Nat)
    (hi : i < deg s.G u) (hg : HalfOK s.N s.G) (hE : s.excess.length = s.N) :
    ∑ v ∈ Finset.range s.N, (s.push ops u i).excess.getD v 0
      = ∑ v ∈ Finset.range s.N, s.excess.getD v 0 := by
  have hul : u < s.N := by
    rw [← hg.len]
    exact lt_length_of_lt_deg hi
  have hwl : (getE s.G u i).to_ < s.N := by
    rw [← hg.len]
    exact (hg.half u (lt_length_of_lt_deg hi) i hi).1
  simp only [getD_push_excess_half ops s u i hi hg hE]
  rw [Finset.sum_add_distrib, Finset.sum_sub_distrib, Finset.sum_ite_eq', Finset.sum_ite_eq',
    if_pos (Finset.mem_range.mpr hul), if_pos (Finset.mem_range.mpr hwl)]
  ring

/-- The rounds of the loop of `discharge(u)` keep edge pairing, leave alone the
flow of the entries of `u` not yet visited and of their paired entries, and
leave the sum of all excess values as it was. -/
theorem dischargeRounds_frame {σ : Type} (ops : RuleOps σ) (s : FlowGraph σ) (u : Nat)
    (hlen : s.G.length = s.N) (hE : s.excess.length = s.N)
    (hp : Pairing s.G) (hf : FromOK s.G) (k : Nat) (hk : k ≤ deg s.G u) :
    Pairing (forLoop (dischargeStep ops u) k s).G
    ∧ (∀ j, k ≤ j → j < deg s.G u →
        (getE (forLoop (dischargeStep ops u) k s).G u j).flow = (getE s.G u j).flow
        ∧ (getE (forLoop (dischargeStep ops u) k s).G (getE s.G u j).to_
            (getE s.G u j).index).flow
          = (getE s.G (getE s.G u j).to_ (getE s.G u j).index).flow)
    ∧ ∑ v ∈ Finset.range s.N, (forLoop (dischargeStep ops u) k s).excess.getD v 0
        = ∑ v ∈ Finset.range s.N, s.excess.getD v 0
    ∧ ∀ v j, (getE (forLoop (dischargeStep ops u) k s).G v j).index = (getE s.G v j).index := by
  have hg := halfOK_of_pairing s.N s.G hlen hp hf
  induction k with
  | zero => exact ⟨hp, fun _ _ _ => ⟨rfl, rfl⟩, rfl, fun _ _ => rfl⟩
  | succ k ih =>
    obtain ⟨q1, q2, q3, q4⟩ := ih (by omega)
    obtain ⟨t, ht, p1, p2, p3, p4, p5, p6, p7, p8, -⟩ :=
      dischargeLoop_light ops s u hg hE k (by omega)
    simp only [forLoop]
    rw [ht] at q1 q2 q3 q4 ⊢
    rw [dischargeStep_def]
    have hkd : k < deg t.G u := by rw [p7]; omega
    have hks : k < deg s.G u := by omega
    by_cases hx : 0 < t.excess.getD u 0
    · rw [if_pos hx]
      by_cases hadm : (getE t.G u k).cap > (getE t.G u k).flow
          ∧ t.height.getD u 0 = t.height.getD (getE t.G u k).to_ 0 + 1
      · rw [if_pos hadm]
        have hto : (getE t.G u k).to_ ≠ u := by
          intro e
          have := hadm.2
          rw [e] at this
          omega
        have hfrom := p5.from_ok u k hkd
        have hgt : HalfOK t.N t.G := by rw [p1]; exact p5
        have hEt : t.excess.length = t.N := by rw [p1]; exact p6
        have hr := (p5.half u (lt_length_of_lt_deg hkd) k hkd).2.1
        refine ⟨push_pairing ops t u k hkd q1, ?_, ?_, ?_⟩
        · intro j hj hjd
          obtain ⟨a1, a2⟩ := q2 j (by omega) hjd
          have hjt : j < deg t.G u := by rw [p7]; exact hjd
          have hpj := q1 u (lt_length_of_lt_deg hjt) j hjt
          have hpk := q1 u (lt_length_of_lt_deg hkd) k hkd
          have tj := (p8 u j).2
          have tk := (p8 u k).2
          rw [← tj, ← q4 u j]
          rw [push_G_half ops t u k hfrom, getE_pushAmount t u k _ hkd hr,
            getE_pushAmount t u k _ hkd hr]
          simp only
          constructor
          · rw [if_neg (fun h => by omega), if_neg (fun h => hto h.1.symm), add_zero, sub_zero]
            exact a1
          · have c1 : ¬ ((getE t.G u j).to_ = u ∧ (getE t.G u j).index = k) := by
              rintro ⟨e1, e2⟩
              have := hpj.2.2.1
              rw [e1, e2] at this
              exact hto this
            have c2 : ¬ ((getE t.G u j).to_ = (getE t.G u k).to_
                ∧ (getE t.G u j).index = (getE t.G u k).index) := by
              rintro ⟨e1, e2⟩
              have h1 := hpj.2.2.2
              have h2 := hpk.2.2.2
              rw [e1, e2, h2] at h1
              omega
            rw [if_neg c1, if_neg c2, add_zero, sub_zero]
            rw [tj, q4 u j]
            exact a2
        · rw [← p1, push_excess_total ops t u k hkd hgt hEt, p1]
          exact q3
        · intro v j
          rw [push_G_half ops t u k hfrom, (pushAmount_fields t u k _ hkd hr v j).2.2.1]
          exact q4 v j
      · rw [if_neg hadm]
        exact ⟨q1, fun j hj hjd => q2 j (by omega) hjd, q3, q4⟩
    · rw [if_neg hx]
      exact ⟨q1, fun j hj hjd => q2 j (by omega) hjd, q3, q4⟩

/-- C12: excess is the net inflow. In a state with well-formed adjacency lists
(edge pairing holds, every entry of `G[u]` has `from == u`, the vectors have
their sizes), `excess[v] + (sum over i of G[v][i].flow)` is left unchanged at
every vertex `v` by `push(e)` for every entry `e`; with flow antisymmetry,
which every state of the graph object has, it is left unchanged by
`changeCapacity` on a recorded source- or sink-adjacent edge and by every
sequence of these operations, each staying inside the vectors and inside
`int`; hence a vertex whose excess is its net inflow (flow in minus flow out)
before the sequence has its net inflow as excess after it, and when the
sequence starts with all flow and excess zero, afterwards `excess[v]` is the
net inflow of every vertex `v`. -/
theorem excess_is_net_inflow {σ : Type} (ops : RuleOps σ) (s : FlowGraph σ)
    (hlen : s.G.length = s.N) (hE : s.excess.length = s.N)
    (hp : Pairing s.G) (hf : FromOK s.G) :
    (∀ u i, i < deg s.G u → s.pushFits u i → ∀ v,
      (s.push ops u i).excess.getD v 0 + outSum (s.push ops u i).G v
        = s.excess.getD v 0 + outSum s.G v)
    ∧ (FlowAntisym s.G → ∀ from_ to_ cap t,
        (FlowOp.changeCapacity from_ to_ cap).valid s →
        (FlowOp.changeCapacity from_ to_ cap).fits s →
        s.changeCapacity ops from_ to_ cap = Except.ok t →
        ∀ v, t.excess.getD v 0 + outSum t.G v = s.excess.getD v 0 + outSum s.G v)
    ∧ (FlowAntisym s.G → ∀ l t, (∀ op ∈ l, op.valid s) → s.opsFit ops l →
        s.applyOps ops l = Except.ok t →
        ∀ v, t.excess.getD v 0 + outSum t.G v = s.excess.getD v 0 + outSum s.G v)
    ∧ (FlowAntisym s.G → ∀ l t, (∀ op ∈ l, op.valid s) → s.opsFit ops l →
        s.applyOps ops l = Except.ok t →
        ∀ v, v < s.N → s.excess.getD v 0 = s.flowInto v → t.excess.getD v 0 = t.flowInto v)
    ∧ ((∀ u i, (getE s.G u i).flow = 0) → (∀ v, s.excess.getD v 0 = 0) →
        ∀ l t, (∀ op ∈ l, op.valid s) → s.opsFit ops l → s.applyOps ops l = Except.ok t →
        ∀ v, v < s.N → t.excess.getD v 0 = t.flowInto v) := by
  have hg := halfOK_of_pairing s.N s.G hlen hp hf
  have key : FlowAntisym s.G → ∀ l t, (∀ op ∈ l, op.valid s) →
      s.applyOps ops l = Except.ok t →
      ∀ v, v < s.N → s.excess.getD v 0 = s.flowInto v → t.excess.getD v 0 = t.flowInto v := by
    intro ha l t hv hrun v hv2 hbal
    obtain ⟨r1, r2, r3, r4, r5, r6, r7⟩ := applyOps_balance ops l s t hlen hE hp hf ha hv hrun
    have h1 := flowInto_eq_neg_outSum t r3 r5 v (by rw [r1, r6]; exact hv2)
    have h0 := flowInto_eq_neg_outSum s hp ha v (by rw [hlen]; exact hv2)
    have h2 := r7 v
    omega
  refine ⟨fun u i hi _ v => push_balance ops s u i hi hg hE v, ?_, ?_, ?_, ?_⟩
  · intro ha from_ to_ cap t hv _ hrun
    have h1 : s.applyOps ops [FlowOp.changeCapacity from_ to_ cap] = Except.ok t := by
      show (match s.changeCapacity ops from_ to_ cap with
          | Except.error f => Except.error f
          | Except.ok t1 => FlowGraph.applyOps ops [] t1) = Except.ok t
      rw [hrun]
      rfl
    exact (applyOps_balance ops _ s t hlen hE hp hf ha
      (fun o ho => by rw [List.mem_singleton.mp ho]; exact hv) h1).2.2.2.2.2.2
  · intro ha l t hv _ hrun
    exact (applyOps_balance ops l s t hlen hE hp hf ha hv hrun).2.2.2.2.2.2
  · intro ha l t hv _ hrun
    exact key ha l t hv hrun
  · intro hflow hex l t hv _ hrun v hv2
    have ha : FlowAntisym s.G := by
      intro u _ i _
      rw [hflow, hflow]
      rfl
    refine key ha l t hv hrun v hv2 ?_
    rw [hex]
    unfold FlowGraph.flowInto
    simp only [hflow, ite_self, Finset.sum_const_zero]

/-- Witness for C12: the spec's scenario during the solve, followed by a push
and a capacity change that both move flow. -/
theorem excess_is_net_inflow_witness :
    FlowAntisym dischargeExample.G
    ∧ dischargeExample.opsFit fifoRule [FlowOp.push 1 1, FlowOp.changeCapacity 0 2 0]
    ∧ dischargeExample.applyOps fifoRule [FlowOp.push 1 1, FlowOp.changeCapacity 0 2 0]
      = Except.ok opsExample
    ∧ dischargeExample.excess = [0, 5, 2]
    ∧ opsExample.excess = [2, 2, 3]
    ∧ ∀ v, opsExample.excess.getD v 0 + outSum opsExample.G v
        = dischargeExample.excess.getD v 0 + outSum dischargeExample.G v :=
  have hfit : dischargeExample.opsFit fifoRule [FlowOp.push 1 1, FlowOp.changeCapacity 0 2 0] := by
    refine ⟨?_, ⟨?_, ?_⟩, trivial⟩
    · show dischargeExample.pushFits 1 1
      decide
    · show (dischargeExample.push fifoRule 1 1).changeCapacityInBounds 0 2
      decide
    · show (dischargeExample.push fifoRule 1 1).changeCapacityFits 0 2 0
      decide
  ⟨by decide, hfit, rfl, by decide, by decide,
    (excess_is_net_inflow fifoRule dischargeExample (by decide) (by decide) (by decide)
      (by decide)).2.2.1 (by decide) [FlowOp.push 1 1, FlowOp.changeCapacity 0 2 0] opsExample
      (by
        intro op hop
        simp only [List.mem_cons, List.mem_singleton, List.not_mem_nil, or_false] at hop
        rcases hop with rfl | rfl
        · show 1 < deg dischargeExample.G 1
          decide
        · show dischargeExample.tableIndex 0 2 < deg dischargeExample.G 0
            ∧ (getE dischargeExample.G 0 (dischargeExample.tableIndex 0 2)).to_ = 2
            ∧ (0 : Int) ≤ 0
          decide)
      hfit rfl⟩

/-- The sum over all adjacency entries as a sum over the positions
(vertex, index). -/
theorem entryCapTotal_sigma (G : List (List Edge)) :
    entryCapTotal G
      = ∑ x ∈ (Finset.range G.length).sigma (fun u => Finset.range (deg G u)),
          (getE G x.1 x.2).cap := by
  unfold entryCapTotal
  rw [Finset.sum_sigma]

/-- The capacities at a set of positions of adjacency entries add up to at most
the sum of all capacities, none being negative. -/
theorem capSum_subset_le (G : List (List Edge)) (hcap0 : ∀ u i, 0 ≤ (getE G u i).cap)
    (S : Finset (Σ _ : Nat, Nat))
    (hS : ∀ x ∈ S, x.1 < G.length ∧ x.2 < deg G x.1) :
    ∑ x ∈ S, (getE G x.1 x.2).cap ≤ entryCapTotal G := by
  rw [entryCapTotal_sigma]
  apply Finset.sum_le_sum_of_subset_of_nonneg
  · intro x hx
    rw [Finset.mem_sigma, Finset.mem_range, Finset.mem_range]
    exact hS x hx
  · intro x _ _
    exact hcap0 x.1 x.2

/-- One capacity is at most the sum of all. -/
theorem cap_le_total (G : List (List Edge)) (hcap0 : ∀ u i, 0 ≤ (getE G u i).cap)
    (u i : Nat) (hi : i < deg G u) : (getE G u i).cap ≤ entryCapTotal G := by
  have := capSum_subset_le G hcap0 {⟨u, i⟩} (by
    intro x hx
    rw [Finset.mem_singleton] at hx
    subst hx
    exact ⟨lt_length_of_lt_deg hi, hi⟩)
  rwa [Finset.sum_singleton] at this

/-- Two capacities at distinct positions are together at most the sum of
all. -/
theorem cap_pair_le_total (G : List (List Edge)) (hcap0 : ∀ u i, 0 ≤ (getE G u i).cap)
    (u i v j : Nat) (hi : i < deg G u) (hj : j < deg G v) (hne : ¬ (u = v ∧ i = j)) :
    (getE G u i).cap + (getE G v j).cap ≤ entryCapTotal G := by
  have hne2 : (⟨u, i⟩ : Σ _ : Nat, Nat) ≠ ⟨v, j⟩ := by
    intro e
    exact hne ⟨congrArg Sigma.fst e, congrArg Sigma.snd e⟩
  have := capSum_subset_le G hcap0 {⟨u, i⟩, ⟨v, j⟩} (by
    intro x hx
    rw [Finset.mem_insert, Finset.mem_singleton] at hx
    rcases hx with rfl | rfl
    · exact ⟨lt_length_of_lt_deg hi, hi⟩
    · exact ⟨lt_length_of_lt_deg hj, hj⟩)
  rwa [Finset.sum_pair hne2] at this

/-- The capacities of the first `k` entries of `v` add up to at most the sum of
all capacities. -/
theorem cap_row_le_total (G : List (List Edge)) (hcap0 : ∀ u i, 0 ≤ (getE G u i).cap)
    (v k : Nat) (hk : k ≤ deg G v) :
    ∑ i ∈ Finset.range k, (getE G v i).cap ≤ entryCapTotal G := by
  by_cases hk0 : k = 0
  · subst hk0
    rw [Finset.range_zero, Finset.sum_empty]
    unfold entryCapTotal
    exact Finset.sum_nonneg (fun u _ => Finset.sum_nonneg (fun i _ => hcap0 u i))
  · have hv : v < G.length := lt_length_of_lt_deg (show 0 < deg G v by omega)
    have h := capSum_subset_le G hcap0
      ((Finset.range k).image (fun i => (⟨v, i⟩ : Σ _ : Nat, Nat))) (by
        intro x hx
        rw [Finset.mem_image] at hx
        obtain ⟨i, hi, rfl⟩ := hx
        rw [Finset.mem_range] at hi
        exact ⟨hv, show i < deg G v by omega⟩)
    rwa [Finset.sum_image (by
      intro a _ b _ e
      exact congrArg Sigma.snd e)] at h

/-- The capacities of the entries paired with the first `k` entries of `v` add
up to at most the sum of all capacities. -/
theorem cap_paired_le_total (G : List (List Edge)) (hp : Pairing G)
    (hcap0 : ∀ u i, 0 ≤ (getE G u i).cap) (v k : Nat) (hk : k ≤ deg G v) :
    ∑ i ∈ Finset.range k, (getE G (getE G v i).to_ (getE G v i).index).cap
      ≤ entryCapTotal G := by
  by_cases hk0 : k = 0
  · subst hk0
    rw [Finset.range_zero, Finset.sum_empty]
    unfold entryCapTotal
    exact Finset.sum_nonneg (fun u _ => Finset.sum_nonneg (fun i _ => hcap0 u i))
  · have hv : v < G.length := lt_length_of_lt_deg (show 0 < deg G v by omega)
    have h := capSum_subset_le G hcap0
      ((Finset.range k).image
        (fun i => (⟨(getE G v i).to_, (getE G v i).index⟩ : Σ _ : Nat, Nat))) (by
        intro x hx
        rw [Finset.mem_image] at hx
        obtain ⟨i, hi, rfl⟩ := hx
        rw [Finset.mem_range] at hi
        have := hp v hv i (by omega)
        exact ⟨this.1, this.2.1⟩)
    rwa [Finset.sum_image (by
      intro a ha b hb e
      rw [Finset.mem_range] at ha hb
      have e1 : (getE G v a).to_ = (getE G v b).to_ := congrArg Sigma.fst e
      have e2 : (getE G v a).index = (getE G v b).index := congrArg Sigma.snd e
      have h1 := (hp v hv a (by omega)).2.2.2
      have h2 := (hp v hv b (by omega)).2.2.2
      rw [e1, e2, h2] at h1
      exact h1.symm)] at h

/-- In a state of the push-relabel run every value fits `int` when the
capacities, none negative, add up to a value that fits: edge pairing, flow
antisymmetry and the capacity bound confine every flow, every residual
capacity and every partial sum of flows between minus that sum and that sum,
and conservation confines the excess. -/
theorem valuesFit_of_inv (G : List (List Edge)) (excess : List Int) (N source : Nat)
    (hg : GraphOK N G) (ha : FlowAntisym G) (hc : CapacityOK G)
    (hcap0 : ∀ u i, 0 ≤ (getE G u i).cap)
    (hsum : entryCapTotal G ≤ 2147483647)
    (hcons : Conserved G source excess)
    (hnn : ∀ v, v ≠ source → 0 ≤ excess.getD v 0)
    (hsrc : fitsInt (excess.getD source 0))
    (hlenE : excess.length = N) :
    ValuesFit G excess := by
  have hp := hg.pairing
  have hflow : ∀ u i, i < deg G u →
      -entryCapTotal G ≤ (getE G u i).flow ∧ (getE G u i).flow ≤ entryCapTotal G := by
    intro u i hi
    have hu := lt_length_of_lt_deg hi
    obtain ⟨p1, p2, -, -⟩ := hp u hu i hi
    have h1 := ha u hu i hi
    have h2 := hc _ _ p2
    have h3 := cap_le_total G hcap0 _ _ p2
    have h4 := cap_le_total G hcap0 u i hi
    have h5 := hc u i hi
    constructor <;> omega
  have hsums : ∀ v k, k ≤ deg G v →
      -entryCapTotal G ≤ ∑ i ∈ Finset.range k, (getE G v i).flow
      ∧ ∑ i ∈ Finset.range k, (getE G v i).flow ≤ entryCapTotal G := by
    intro v k hk
    constructor
    · have h1 := cap_paired_le_total G hp hcap0 v k hk
      have h2 : ∑ i ∈ Finset.range k, -(getE G (getE G v i).to_ (getE G v i).index).cap
          ≤ ∑ i ∈ Finset.range k, (getE G v i).flow := by
        apply Finset.sum_le_sum
        intro i hi
        rw [Finset.mem_range] at hi
        have hi2 : i < deg G v := by omega
        have hv := lt_length_of_lt_deg hi2
        obtain ⟨p1, p2, -, -⟩ := hp v hv i hi2
        have h1 := ha v hv i hi2
        have h2 := hc _ _ p2
        omega
      rw [Finset.sum_neg_distrib] at h2
      omega
    · have h1 := cap_row_le_total G hcap0 v k hk
      have h2 : ∑ i ∈ Finset.range k, (getE G v i).flow
          ≤ ∑ i ∈ Finset.range k, (getE G v i).cap := by
        apply Finset.sum_le_sum
        intro i hi
        rw [Finset.mem_range] at hi
        exact hc v i (by omega)
      omega
  refine ⟨?_, ?_, ?_, ?_, ?_⟩
  · intro u i hi
    have := cap_le_total G hcap0 u i hi
    have := hcap0 u i
    unfold fitsInt
    constructor <;> omega
  · intro u i hi
    obtain ⟨h1, h2⟩ := hflow u i hi
    unfold fitsInt
    constructor <;> omega
  · intro u i hi
    have hu := lt_length_of_lt_deg hi
    obtain ⟨p1, p2, p3, p4⟩ := hp u hu i hi
    have h1 := ha u hu i hi
    have h2 := hc _ _ p2
    have h5 := hc u i hi
    by_cases hself : u = (getE G u i).to_ ∧ i = (getE G u i).index
    · obtain ⟨e1, e2⟩ := hself
      rw [← e1, ← e2] at h1
      have h4 := cap_le_total G hcap0 u i hi
      unfold fitsInt
      constructor <;> omega
    · have h4 := cap_pair_le_total G hcap0 u i _ _ hi p2 hself
      unfold fitsInt
      constructor <;> omega
  · intro v
    by_cases hv : v < G.length
    · by_cases hvs : v = source
      · rw [hvs]
        exact hsrc
      · have h1 := hcons v hv hvs
        have h2 := hnn v hvs
        obtain ⟨h3, h4⟩ := hsums v (deg G v) (le_refl _)
        unfold outSum at h1
        unfold fitsInt
        constructor <;> omega
    · rw [List.getD_eq_getElem?_getD, List.getElem?_eq_none (by rw [hlenE, ← hg.len]; omega)]
      decide
  · intro v k hk
    rw [forLoop_sum (fun i => (getE G v i).flow) k]
    obtain ⟨h3, h4⟩ := hsums v k hk
    unfold fitsInt
    constructor <;> omega

/-- The rounds of the loop of `discharge(u)`, for `u` other than the source,
leave the excess of the source alone: a push descends by one, and no vertex is
above the source. -/
theorem dischargeRounds_excess_source {σ : Type} (ops : RuleOps σ) (s : FlowGraph σ)
    (u source sink : Nat) (hinv : PRInv s source sink) (hu : u ≠ source) (k : Nat)
    (hk : k ≤ deg s.G u) :
    (forLoop (dischargeStep ops u) k s).excess.getD source 0 = s.excess.getD source 0 := by
  induction k with
  | zero => rfl
  | succ k ih =>
    have ih := ih (by omega)
    obtain ⟨p1, p2, -, -, p5, -⟩ := dischargeLoop_spec ops s u source sink hinv k (by omega)
    simp only [forLoop]
    rw [dischargeStep_def]
    by_cases hx : 0 < (forLoop (dischargeStep ops u) k s).excess.getD u 0
    · rw [if_pos hx]
      by_cases hadm : (getE (forLoop (dischargeStep ops u) k s).G u k).cap
            > (getE (forLoop (dischargeStep ops u) k s).G u k).flow
          ∧ (forLoop (dischargeStep ops u) k s).height.getD u 0
            = (forLoop (dischargeStep ops u) k s).height.getD
                (getE (forLoop (dischargeStep ops u) k s).G u k).to_ 0 + 1
      · rw [if_pos hadm]
        have hkd : k < deg (forLoop (dischargeStep ops u) k s).G u := by rw [p5]; omega
        have hg := halfOK_of_graphOK _ _ p1.graph
        have hus : source ≠ u := fun e => hu e.symm
        have hts : source ≠ (getE (forLoop (dischargeStep ops u) k s).G u k).to_ := by
          intro e
          have h1 := hadm.2
          have h3 := p1.heights.src
          rw [← e, h3] at h1
          have h2 := p1.heights.le_N u
          omega
        rw [getD_push_excess_half ops _ u k hkd hg p1.lenE, if_neg hus, if_neg hts, sub_zero,
          add_zero]
        exact ih
      · rw [if_neg hadm]
        exact ih
    · rw [if_neg hx]
      exact ih

/-- A `discharge(u)` for `u` other than the source leaves the excess of the
source alone. -/
theorem discharge_excess_source {σ : Type} (ops : RuleOps σ) (s : FlowGraph σ)
    (u source sink : Nat) (hinv : PRInv s source sink) (hu : u ≠ source) :
    (s.discharge ops u).excess.getD source 0 = s.excess.getD source 0 := by
  rw [(discharge_G_excess ops s u).2]
  exact dischargeRounds_excess_source ops s u source sink hinv hu (deg s.G u) (le_refl _)

/-- The state the loop of `minCutPushRelabel` ends with is one of the states in
which it tests its condition. -/
theorem dischargeLoop_mem_states {σ : Type} (ops : RuleOps σ) (fuel : Nat) :
    ∀ s t : FlowGraph σ, dischargeLoop ops fuel s = some t → t ∈ dischargeStates ops fuel s := by
  induction fuel with
  | zero =>
    intro s t h
    exact absurd h (by simp [dischargeLoop])
  | succ fuel ih =>
    intro s t h
    rw [dischargeLoop_succ] at h
    rw [dischargeStates_succ]
    by_cases he : ops.empty s.rule = true
    · rw [if_pos he] at h ⊢
      injection h with h
      rw [h]
      exact List.mem_singleton.mpr rfl
    · rw [if_neg he] at h ⊢
      exact List.mem_cons_of_mem _ (ih _ t h)

/-- In every state in which the loop of `minCutPushRelabel` with the
first-in-first-out rule tests its condition, the invariant of the run holds,
the adjacency lists have the shape they started with, and the vertex the rule
hands out next, if any, is in range and is neither source nor sink; a property
`X` of the state that every discharge keeps and that does not read the rule
holds as well. -/
theorem dischargeStates_fifo_inv (source sink : Nat) (X : FlowGraph (List Nat) → Prop)
    (hXr : ∀ (s : FlowGraph (List Nat)) (r : SelectionRule (List Nat)),
      X s → X { s with rule := r })
    (hXd : ∀ (s : FlowGraph (List Nat)) (u : Nat), u < s.N → u ≠ source → u ≠ sink →
      PRInv s source sink → X s → X (s.discharge fifoRule u))
    (fuel : Nat) :
    ∀ s : FlowGraph (List Nat), PRInv s source sink → FifoOK s.N source sink s.rule →
      Pending s.N source sink s.rule s.excess s.height none → X s →
      ∀ x ∈ dischargeStates fifoRule fuel s,
        PRInv x source sink ∧ X x ∧ x.N = s.N
        ∧ (∀ v, deg x.G v = deg s.G v)
        ∧ (∀ v j, (getE x.G v j).cap = (getE s.G v j).cap
            ∧ (getE x.G v j).to_ = (getE s.G v j).to_)
        ∧ (¬ fifoRule.empty x.rule = true →
            (fifoRule.next x.rule).1 < x.N ∧ (fifoRule.next x.rule).1 ≠ source
            ∧ (fifoRule.next x.rule).1 ≠ sink) := by
  have hhead : ∀ s : FlowGraph (List Nat), PRInv s source sink →
      FifoOK s.N source sink s.rule →
      Pending s.N source sink s.rule s.excess s.height none → X s →
      PRInv s source sink ∧ X s ∧ s.N = s.N
        ∧ (∀ v, deg s.G v = deg s.G v)
        ∧ (∀ v j, (getE s.G v j).cap = (getE s.G v j).cap
            ∧ (getE s.G v j).to_ = (getE s.G v j).to_)
        ∧ (¬ fifoRule.empty s.rule = true →
            (fifoRule.next s.rule).1 < s.N ∧ (fifoRule.next s.rule).1 ≠ source
            ∧ (fifoRule.next s.rule).1 ≠ sink) := by
    intro s hinv hF hP hX
    refine ⟨hinv, hX, rfl, fun _ => rfl, fun _ _ => ⟨rfl, rfl⟩, fun he => ?_⟩
    obtain ⟨hu, hus, hut, -⟩ := dischargeLoop_step source sink s he hinv hF hP
    exact ⟨hu, hus, hut⟩
  induction fuel with
  | zero =>
    intro s hinv hF hP hX x hx
    have : x = s := List.mem_singleton.mp hx
    subst this
    exact hhead x hinv hF hP hX
  | succ fuel ih =>
    intro s hinv hF hP hX x hx
    rw [dischargeStates_succ] at hx
    by_cases he : fifoRule.empty s.rule = true
    · rw [if_pos he] at hx
      have : x = s := List.mem_singleton.mp hx
      subst this
      exact hhead x hinv hF hP hX
    · rw [if_neg he] at hx
      rcases List.mem_cons.mp hx with rfl | hx
      · exact hhead x hinv hF hP hX
      · obtain ⟨hu, hus, hut, hinv1, hinv2, hN2, g1, g2⟩ :=
          dischargeLoop_step source sink s he hinv hF hP
        have hX2 := hXd ({ s with rule := (fifoRule.next s.rule).2 } : FlowGraph (List Nat))
          (fifoRule.next s.rule).1 hu hus hut hinv1 (hXr s (fifoRule.next s.rule).2 hX)
        obtain ⟨d1, d2⟩ := discharge_shape fifoRule
          ({ s with rule := (fifoRule.next s.rule).2 } : FlowGraph (List Nat))
          (fifoRule.next s.rule).1
        obtain ⟨r1, r2, r3, r4, r5, r6⟩ := ih _ hinv2 (by rw [hN2]; exact g1)
          (by rw [hN2]; exact g2) hX2 x hx
        refine ⟨r1, r2, by rw [r3, hN2], ?_, ?_, r6⟩
        · intro v
          rw [r4, d1]
        · intro v j
          exact ⟨(r5 v j).1.trans (d2 v j).1, (r5 v j).2.trans (d2 v j).2⟩

/-- Adjacency lists of the same shape have the same sum of capacities. -/
theorem entryCapTotal_congr (G H : List (List Edge)) (hlen : G.length = H.length)
    (hdeg : ∀ v, deg G v = deg H v) (hcap : ∀ v j, (getE G v j).cap = (getE H v j).cap) :
    entryCapTotal G = entryCapTotal H := by
  unfold entryCapTotal
  rw [hlen]
  apply Finset.sum_congr rfl
  intro u _
  rw [hdeg]
  apply Finset.sum_congr rfl
  intro i _
  exact hcap u i

/-- The sum of the capacities of the adjacency entries of a graph built by
`addEdge` calls is the sum of the capacities of its edges. -/
theorem entryCapTotal_buildGraph (n source sink : Nat) (edges : List (Nat × Nat × Int))
    (hedges : ∀ e ∈ edges, e.1 < n ∧ e.2.1 < n ∧ 0 ≤ e.2.2) :
    entryCapTotal (buildGraph n source sink edges).G = capacityTotal edges :=
  entrySum_buildGraph n source sink edges hedges (fun _ _ c => c) (fun _ _ => rfl)

/-- The excess of the source during the first loop of `minCutPushRelabel`: it
is set to the capacity of the entry about to be saturated and the push takes at
most that much from it. -/
theorem initRounds_excess_source {σ : Type} (ops : RuleOps σ) (s : FlowGraph σ) (source : Nat)
    (hg : GraphOK s.N s.G) (hsrc : source < s.N)
    (hflow0 : ∀ u i, (getE s.G u i).flow = 0) (hcap0 : ∀ u i, 0 ≤ (getE s.G u i).cap)
    (hE : s.excess.length = s.N) (hex0 : ∀ v, s.excess.getD v 0 = 0)
    (k : Nat) (hk : k ≤ deg s.G source) :
    0 ≤ (forLoop (initStep ops source) k s).excess.getD source 0
    ∧ (forLoop (initStep ops source) k s).excess.getD source 0 ≤ entryCapTotal s.G := by
  have htot : 0 ≤ entryCapTotal s.G := by
    unfold entryCapTotal
    exact Finset.sum_nonneg (fun u _ => Finset.sum_nonneg (fun i _ => hcap0 u i))
  cases k with
  | zero =>
    show 0 ≤ s.excess.getD source 0 ∧ s.excess.getD source 0 ≤ entryCapTotal s.G
    rw [hex0]
    exact ⟨le_refl _, htot⟩
  | succ k =>
    obtain ⟨p1, -, -, p4, p5, p6, -, p8, p9, -⟩ :=
      initLoop_spec ops s source hg hsrc hflow0 hcap0 hE hex0 k (by omega)
    simp only [forLoop]
    generalize forLoop (initStep ops source) k s = t at *
    have hkd : k < deg t.G source := by rw [p5]; omega
    have hgt : HalfOK t.N t.G := by
      rw [p1]
      exact halfOK_of_graphOK _ _ p4
    have hcapk : (getE t.G source k).cap ≤ entryCapTotal s.G := by
      rw [(p6 source k).1]
      exact cap_le_total s.G hcap0 source k (by omega)
    have hcapk0 : 0 ≤ (getE t.G source k).cap := by
      rw [(p6 source k).1]
      exact hcap0 source k
    have hres := p8 source k hkd
    have hsl : source < t.excess.length := by rw [p9]; exact hsrc
    have hget : (t.excess.set source (getE t.G source k).cap).getD source 0
        = (getE t.G source k).cap := by
      rw [getD_set_eq_ite, if_pos ⟨rfl, hsl⟩]
    have h := getD_push_excess_half ops
      ({ t with excess := t.excess.set source (getE t.G source k).cap } : FlowGraph σ) source k
      hkd hgt (by
        show (t.excess.set source (getE t.G source k).cap).length = t.N
        rw [List.length_set, p9, p1]) source
    have hstep : initStep ops source k t
        = FlowGraph.push ops
            ({ t with excess := t.excess.set source (getE t.G source k).cap } : FlowGraph σ)
            source k := rfl
    rw [hstep, h, if_pos rfl]
    have hget2 : ({ t with excess := t.excess.set source (getE t.G source k).cap } :
        FlowGraph σ).excess.getD source 0 = (getE t.G source k).cap := hget
    rw [hget2]
    have hG2 : ({ t with excess := t.excess.set source (getE t.G source k).cap } :
        FlowGraph σ).G = t.G := rfl
    rw [hG2]
    have hm1 := min_le_right ((getE t.G source k).cap - (getE t.G source k).flow)
      (getE t.G source k).cap
    have hm0 : 0 ≤ min ((getE t.G source k).cap - (getE t.G source k).flow)
        (getE t.G source k).cap := le_min (by omega) hcapk0
    by_cases c : source = (getE t.G source k).to_
    · rw [if_pos c]
      constructor <;> omega
    · rw [if_neg c]
      constructor <;> omega

/-- A state of the push-relabel run on a graph built by `addEdge` calls whose
capacities add up to a value that fits `int` holds only values that fit, given
the invariant of the run, the shape of the adjacency lists and an excess of
the source that fits. -/
theorem valuesFit_of_PRInv (n source sink : Nat) (edges : List (Nat × Nat × Int))
    (hedges : ∀ e ∈ edges, e.1 < n ∧ e.2.1 < n ∧ 0 ≤ e.2.2)
    (hsum : capacityTotal edges ≤ 2147483647)
    {σ : Type} (x : FlowGraph σ) (hinv : PRInv x source sink) (hN : x.N = n)
    (hdeg : ∀ v, deg x.G v = deg (buildGraph n source sink edges).G v)
    (hshape : ∀ v j, (getE x.G v j).cap = (getE (buildGraph n source sink edges).G v j).cap)
    (hsrc : fitsInt (x.excess.getD source 0)) :
    ValuesFit x.G x.excess := by
  have hF := freshState_buildGraph n source sink edges hedges
  have hN0 := (buildGraph_N n source sink edges).1
  have hcap0 : ∀ u i, 0 ≤ (getE x.G u i).cap := by
    intro u i
    rw [hshape]
    exact hF.cap0 u i
  have htot : entryCapTotal x.G ≤ 2147483647 := by
    rw [entryCapTotal_congr x.G (buildGraph n source sink edges).G
      (by rw [hinv.graph.len, hF.graph.len, hN, hN0]) hdeg hshape,
      entryCapTotal_buildGraph n source sink edges hedges]
    exact hsum
  exact valuesFit_of_inv x.G x.excess x.N source hinv.graph hinv.antisym hinv.capacity hcap0
    htot hinv.conserved (fun v _ => hinv.nonneg v) hsrc hinv.lenE

/-- On a graph built by `addEdge` calls whose capacities, none negative, add up
to at most 2147483647, every state of the push-relabel run with the
first-in-first-out rule holds only values that fit `int`. -/
theorem buildGraph_runValuesFit (n source sink : Nat) (edges : List (Nat × Nat × Int))
    (hedges : ∀ e ∈ edges, e.1 < n ∧ e.2.1 < n ∧ 0 ≤ e.2.2)
    (hs : source < n) (ht : sink < n) (hne : source ≠ sink)
    (hsum : capacityTotal edges ≤ 2147483647) (fuel : Nat) :
    (buildGraph n source sink edges).runValuesFit source sink fuel := by
  have hF := freshState_buildGraph n source sink edges hedges
  have hN := (buildGraph_N n source sink edges).1
  have hT := entryCapTotal_buildGraph n source sink edges hedges
  have hfit := fun {σ : Type} (x : FlowGraph σ) => valuesFit_of_PRInv n source sink edges hedges
    hsum x
  generalize buildGraph n source sink edges = s at *
  have hex0 : ∀ v, s.excess.getD v 0 = 0 := by
    intro v
    rw [hF.excess0]
    exact getD_replicate_zero s.N v
  have hE : s.excess.length = s.N := by
    rw [hF.excess0, List.length_replicate]
  constructor
  · intro k hk
    obtain ⟨p1, -, -, p4, p5, p6, p7, p8, p9, p10, p11, -⟩ :=
      initLoop_spec fifoRule
        ({ s with
          height := s.height.set source s.N,
          rule := (s.rule.activate source).activate sink } : FlowGraph (List Nat))
        source hF.graph (by rw [hN]; exact hs) hF.flow0 hF.cap0 hE hex0 k hk
    obtain ⟨q1, q2⟩ := initRounds_excess_source fifoRule
        ({ s with
          height := s.height.set source s.N,
          rule := (s.rule.activate source).activate sink } : FlowGraph (List Nat))
        source hF.graph (by rw [hN]; exact hs) hF.flow0 hF.cap0 hE hex0 k hk
    refine valuesFit_of_inv _ _ s.N source p4 p7 p8 ?_ ?_ p10 p11 ?_ p9
    · intro u i
      rw [(p6 u i).1]
      exact hF.cap0 u i
    · rw [entryCapTotal_congr _ s.G (by rw [p4.len, hF.graph.len]) p5 (fun v j => (p6 v j).1),
        hT]
      exact hsum
    · have q2 : _ ≤ entryCapTotal s.G := q2
      rw [hT] at q2
      unfold fitsInt
      constructor <;> omega
  · intro x hx
    obtain ⟨i1, i2, i3, i4⟩ := init_PRInv fifoRule s source sink hF.graph hF.flow0 hF.cap0
      hF.excess0 hF.height0 hF.count0 (by rw [hN]; exact hs) (by rw [hN]; exact ht) hne
    obtain ⟨f1, f2⟩ := init_fifo s source sink hF (by rw [hN]; exact hs) (by rw [hN]; exact ht)
    have hX0 : (s.initPushRelabel fifoRule source sink).excess.getD source 0 = 0 := by
      obtain ⟨-, -, -, -, -, -, -, -, p9, -⟩ :=
        initLoop_spec fifoRule
          ({ s with
            height := s.height.set source s.N,
            rule := (s.rule.activate source).activate sink } : FlowGraph (List Nat))
          source hF.graph (by rw [hN]; exact hs) hF.flow0 hF.cap0 hE hex0 (deg s.G source)
          (le_refl _)
      rw [initPushRelabel_def]
      show ((forLoop (initStep fifoRule source) (deg s.G source)
          ({ s with
            height := s.height.set source s.N,
            rule := (s.rule.activate source).activate sink } :
            FlowGraph (List Nat))).excess.set source 0).getD source 0 = 0
      rw [getD_set_eq_ite, if_pos]
      refine ⟨rfl, ?_⟩
      rw [p9]
      show source < s.N
      rw [hN]
      exact hs
    obtain ⟨r1, r2, r3, r4, r5, r6⟩ := dischargeStates_fifo_inv source sink
      (fun y => y.excess.getD source 0 = 0) (fun _ _ h => h)
      (fun y u _ hus _ hinv hy => by
        show (y.discharge fifoRule u).excess.getD source 0 = 0
        rw [discharge_excess_source fifoRule y u source sink hinv hus]
        exact hy)
      fuel _ i1 (by rw [i2]; exact f1) (by rw [i2]; exact f2) hX0 x hx
    have r2 : x.excess.getD source 0 = 0 := r2
    have hxN : x.N = n := by rw [r3, i2, hN]
    have hxdeg : ∀ v, deg x.G v = deg s.G v := fun v => (r4 v).trans (i3 v)
    have hxcap : ∀ v j, (getE x.G v j).cap = (getE s.G v j).cap :=
      fun v j => (r5 v j).1.trans (i4 v j).1
    refine ⟨hfit x r1 hxN hxdeg hxcap (by rw [r2]; decide), ?_⟩
    intro he k hk
    obtain ⟨hu, hus, hut⟩ := r6 he
    have hinv1 : PRInv ({ x with rule := (fifoRule.next x.rule).2 } : FlowGraph (List Nat))
        source sink := PRInv_congr x _ source sink rfl rfl rfl rfl rfl r1
    obtain ⟨p1, -, -, p4, p5, -⟩ := dischargeLoop_spec fifoRule _ (fifoRule.next x.rule).1
      source sink hinv1 k hk
    obtain ⟨t, ht2, -, -, -, -, -, -, -, l8, -⟩ := dischargeLoop_light fifoRule
      ({ x with rule := (fifoRule.next x.rule).2 } : FlowGraph (List Nat))
      (fifoRule.next x.rule).1 (halfOK_of_graphOK _ _ hinv1.graph) hinv1.lenE k hk
    have hsrc0 := dischargeRounds_excess_source fifoRule _ (fifoRule.next x.rule).1 source sink
      hinv1 hus k hk
    refine hfit _ p1 (by rw [p4]; exact hxN) (fun v => (p5 v).trans (hxdeg v)) ?_ ?_
    · intro v j
      rw [ht2]
      exact (l8 v j).1.trans (hxcap v j)
    · rw [hsrc0]
      show fitsInt (x.excess.getD source 0)
      rw [r2]
      decide

/-- When `minCutPushRelabel` returns, its loop has ended in a state of which the
result differs in the cut only. -/
theorem minCutPushRelabel_ok {σ : Type} (ops : RuleOps σ) (fuel : Nat) (s t : FlowGraph σ)
    (source sink : Nat) (h : s.minCutPushRelabel ops fuel source sink = Except.ok t) :
    ∃ t0, dischargeLoop ops fuel (s.initPushRelabel ops source sink) = some t0
      ∧ t = t0.cutFromHeights := by
  unfold FlowGraph.minCutPushRelabel at h
  cases hloop : dischargeLoop ops fuel (s.initPushRelabel ops source sink) with
  | none =>
    rw [hloop] at h
    exact absurd h (by simp)
  | some t0 =>
    rw [hloop] at h
    injection h with h
    exact ⟨t0, rfl, h.symm⟩

/-- The state `minCutPushRelabel` returns on a graph built by `addEdge` calls
whose capacities add up to at most 2147483647 holds only values that fit
`int`. -/
theorem minCutPushRelabel_result_fits (n source sink : Nat) (edges : List (Nat × Nat × Int))
    (hedges : ∀ e ∈ edges, e.1 < n ∧ e.2.1 < n ∧ 0 ≤ e.2.2)
    (hs : source < n) (ht : sink < n) (hne : source ≠ sink)
    (hsum : capacityTotal edges ≤ 2147483647) (fuel : Nat) (t : FlowGraph (List Nat))
    (hrun : (buildGraph n source sink edges).minCutPushRelabel fifoRule fuel source sink
      = Except.ok t) :
    ValuesFit t.G t.excess := by
  obtain ⟨t0, hloop, rfl⟩ := minCutPushRelabel_ok fifoRule fuel _ t source sink hrun
  exact ((buildGraph_runValuesFit n source sink edges hedges hs ht hne hsum fuel).2 t0
    (dischargeLoop_mem_states fifoRule fuel _ t0 hloop)).1

/-- C1 (as amended): on every graph built by `addEdge` calls with non-negative
capacities that add up to at most 2147483647 and `source != sink`, solved from
the fresh state with the first-in-first-out rule, `minCutPushRelabel(source,
sink)` returns; every state of the run and the state it returns hold only
values that fit `int`, the partial sums of `outFlow` and `inFlow` included;
and when it returns the total flow entering the sink equals the sum of the
capacities of the forward edges that go from a vertex with `cut[v] = true` to
one with `cut[v] = false`; `cut[source]` is true and `cut[sink]` is false; and
`outFlow(source)` is that value plus the excess left on the vertices other
than source and sink, hence at least that value. -/
theorem minCutPushRelabel_flow_eq_cut (n source sink : Nat) (edges : List (Nat × Nat × Int))
    (hedges : ∀ e ∈ edges, e.1 < n ∧ e.2.1 < n ∧ 0 ≤ e.2.2)
    (hs : source < n) (ht : sink < n) (hne : source ≠ sink)
    (hsum : capacityTotal edges ≤ 2147483647) :
    (∃ fuel t, (buildGraph n source sink edges).minCutPushRelabel fifoRule fuel source sink
      = Except.ok t)
    ∧ (∀ fuel, (buildGraph n source sink edges).runValuesFit source sink fuel)
    ∧ ∀ fuel t, (buildGraph n source sink edges).minCutPushRelabel fifoRule fuel source sink
        = Except.ok t →
      ValuesFit t.G t.excess
      ∧ t.flowInto sink = crossingCapacity edges t.cut
      ∧ t.cut.getD source false = true
      ∧ t.cut.getD sink false = false
      ∧ t.outFlow source = t.flowInto sink + t.strandedExcess source sink
      ∧ 0 ≤ t.strandedExcess source sink := by
  refine ⟨minCutPushRelabel_returns n source sink edges hedges hs ht hne,
    buildGraph_runValuesFit n source sink edges hedges hs ht hne hsum, ?_⟩
  intro fuel t hrun
  have hfits := minCutPushRelabel_result_fits n source sink edges hedges hs ht hne hsum fuel t
    hrun
  obtain ⟨t0, rfl, hinv, hN, hcl, hq, hdeg, hshape, -, -⟩ :=
    minCutPushRelabel_final n source sink edges hedges hs ht hne fuel t hrun
  have hlen : t0.G.length = n := by rw [hinv.graph.len, hN]
  have hfi : t0.cutFromHeights.flowInto sink = t0.excess.getD sink 0 := by
    have h1 := flowInto_eq_neg_outSum t0 hinv.graph.pairing hinv.antisym sink
      (by rw [hlen]; exact ht)
    have h2 := hinv.conserved sink (by rw [hlen]; exact ht) (fun e => hne e.symm)
    show t0.flowInto sink = _
    omega
  refine ⟨hfits, ?_, ?_, ?_, ?_, strandedExcess_nonneg _ _ _ hinv.nonneg⟩
  · rw [hfi, excess_sink_eq_cut t0 source sink hinv
      (fun v hv hvs hvt hlt => le_of_eq (hq v (by rw [← hN]; exact hv) hvs hvt
        (by rw [← hN]; exact hlt)))]
    exact cutEntries_eq_crossing n source sink edges hedges t0 hcl hlen hdeg hshape
  · rw [cutFromHeights_getD t0 source (by rw [hcl]; exact hs), hinv.heights.src]
    simp
  · rw [cutFromHeights_getD t0 sink (by rw [hcl]; exact ht), hinv.heights.snk]
    have : ¬ t0.N ≤ 0 := by omega
    simp [this]
  · rw [hfi]
    exact outFlow_source_eq t0 source sink hinv

/-- Witness for C1: the spec's scenario. -/
theorem minCutPushRelabel_flow_eq_cut_witness :
    capacityTotal [(0, 1, 5), (1, 2, 3), (0, 2, 2)] ≤ 2147483647
    ∧ specGraph.minCutPushRelabel fifoRule 10 0 2 = Except.ok specSolved
    ∧ ValuesFit specSolved.G specSolved.excess
    ∧ specSolved.flowInto 2 = crossingCapacity [(0, 1, 5), (1, 2, 3), (0, 2, 2)] specSolved.cut
    ∧ specSolved.cut.getD 0 false = true
    ∧ specSolved.cut.getD 2 false = false
    ∧ specSolved.outFlow 0 = specSolved.flowInto 2 + specSolved.strandedExcess 0 2
    ∧ 0 ≤ specSolved.strandedExcess 0 2 :=
  ⟨by decide, rfl,
    (minCutPushRelabel_flow_eq_cut 3 0 2 [(0, 1, 5), (1, 2, 3), (0, 2, 2)] (by decide)
      (by decide) (by decide) (by decide) (by decide)).2.2 10 specSolved rfl⟩

/-- Counterexample for C1: in the spec's scenario `minCutPushRelabel(0, 2)`
returns with total flow 5 entering the sink, crossing capacity 5 and cut true
exactly on vertices 0 and 1, but `outFlow(0)` is 7: the excess 2 left on vertex
1 is never returned to the source. And on the graph with the edges 0->1 and
0->2 of capacity 2147483647 each, where every stored value fits `int`, the
flow leaving the source is 4294967294, which the `int` that `outFlow` sums in
cannot hold. -/
theorem minCutPushRelabel_outFlow_exceeds :
    specGraph.minCutPushRelabel fifoRule 10 0 2 = Except.ok specSolved
    ∧ specSolved.flowInto 2 = 5
    ∧ crossingCapacity [(0, 1, 5), (1, 2, 3), (0, 2, 2)] specSolved.cut = 5
    ∧ specSolved.cut = [true, true, false]
    ∧ specSolved.outFlow 0 = 7
    ∧ specSolved.outFlow 0 ≠ specSolved.flowInto 2
    ∧ wideSourceGraph.minCutPushRelabel fifoRule 10 0 2 = Except.ok wideSourceSolved
    ∧ (∀ i, i < 2 → (getE wideSourceSolved.G 0 i).flow = 2147483647)
    ∧ wideSourceSolved.excess = [0, 2147483647, 2147483647]
    ∧ wideSourceSolved.outFlow 0 = 4294967294
    ∧ ¬ fitsInt (wideSourceSolved.outFlow 0) :=
  ⟨rfl, by decide, by decide, by decide, by decide, by decide, rfl, by decide, by decide,
    by decide, by decide⟩

/-- C3 (as amended): on every graph built by `addEdge` calls with non-negative
capacities that add up to at most 2147483647 and `source != sink`, solved from
the fresh state with the first-in-first-out rule, `minCutPushRelabel(source,
sink)` returns; every state of the run and the state it returns hold only
values that fit `int`; and when it returns every vertex `v` other than source
and sink with `cut[v] = false` has `excess[v] == 0`, that is, the flow into
`v` equals the flow out of `v`; no vertex has negative excess, and the excess
of every vertex other than the source is its net inflow. -/
theorem minCutPushRelabel_excess (n source sink : Nat) (edges : List (Nat × Nat × Int))
    (hedges : ∀ e ∈ edges, e.1 < n ∧ e.2.1 < n ∧ 0 ≤ e.2.2)
    (hs : source < n) (ht : sink < n) (hne : source ≠ sink)
    (hsum : capacityTotal edges ≤ 2147483647) :
    (∃ fuel t, (buildGraph n source sink edges).minCutPushRelabel fifoRule fuel source sink
      = Except.ok t)
    ∧ (∀ fuel, (buildGraph n source sink edges).runValuesFit source sink fuel)
    ∧ ∀ fuel t, (buildGraph n source sink edges).minCutPushRelabel fifoRule fuel source sink
        = Except.ok t →
      ValuesFit t.G t.excess
      ∧ (∀ v, v < n → v ≠ source → v ≠ sink → t.cut.getD v false = false →
          t.excess.getD v 0 = 0 ∧ t.flowInto v = 0)
      ∧ (∀ v, 0 ≤ t.excess.getD v 0)
      ∧ (∀ v, v < n → v ≠ source → t.flowInto v = t.excess.getD v 0) := by
  refine ⟨minCutPushRelabel_returns n source sink edges hedges hs ht hne,
    buildGraph_runValuesFit n source sink edges hedges hs ht hne hsum, ?_⟩
  intro fuel t hrun
  have hfits := minCutPushRelabel_result_fits n source sink edges hedges hs ht hne hsum fuel t
    hrun
  obtain ⟨t0, rfl, hinv, hN, hcl, hq, hdeg, hshape, -, -⟩ :=
    minCutPushRelabel_final n source sink edges hedges hs ht hne fuel t hrun
  have hlen : t0.G.length = n := by rw [hinv.graph.len, hN]
  have hfi : ∀ v, v < n → v ≠ source → t0.cutFromHeights.flowInto v = t0.excess.getD v 0 := by
    intro v hv hvs
    have h1 := flowInto_eq_neg_outSum t0 hinv.graph.pairing hinv.antisym v
      (by rw [hlen]; exact hv)
    have h2 := hinv.conserved v (by rw [hlen]; exact hv) hvs
    show t0.flowInto v = _
    omega
  refine ⟨hfits, ?_, hinv.nonneg, hfi⟩
  intro v hv hvs hvt hcut
  rw [cutFromHeights_getD t0 v (by rw [hcl]; exact hv)] at hcut
  have hlt : t0.height.getD v 0 < n := by
    rw [← hN]
    simpa using hcut
  have h0 : t0.cutFromHeights.excess.getD v 0 = 0 := hq v hv hvs hvt hlt
  exact ⟨h0, by rw [hfi v hv hvs]; exact h0⟩

/-- Witness for C3: the spec's scenario. -/
theorem minCutPushRelabel_excess_witness :
    capacityTotal [(0, 1, 5), (1, 2, 3), (0, 2, 2)] ≤ 2147483647
    ∧ specGraph.minCutPushRelabel fifoRule 10 0 2 = Except.ok specSolved
    ∧ ValuesFit specSolved.G specSolved.excess
    ∧ (∀ v, v < 3 → v ≠ 0 → v ≠ 2 → specSolved.cut.getD v false = false →
        specSolved.excess.getD v 0 = 0 ∧ specSolved.flowInto v = 0)
    ∧ (∀ v, 0 ≤ specSolved.excess.getD v 0)
    ∧ (∀ v, v < 3 → v ≠ 0 → specSolved.flowInto v = specSolved.excess.getD v 0) :=
  ⟨by decide, rfl,
    (minCutPushRelabel_excess 3 0 2 [(0, 1, 5), (1, 2, 3), (0, 2, 2)] (by decide) (by decide)
      (by decide) (by decide) (by decide)).2.2 10 specSolved rfl⟩

/-- Counterexample for C3: in the spec's scenario `minCutPushRelabel(0, 2)`
returns with `excess[1] == 2` on vertex 1, which is neither source nor sink:
flow 5 enters vertex 1 and flow 3 leaves it. And on the graph with two edges
0->1 of capacity 2147483647 each, the first loop of the solver already asks
for `excess[1] = 4294967294`, which does not fit `int`. -/
theorem minCutPushRelabel_leaves_excess :
    specGraph.minCutPushRelabel fifoRule 10 0 2 = Except.ok specSolved
    ∧ specSolved.excess = [0, 2, 5]
    ∧ specSolved.excess.getD 1 0 ≠ 0
    ∧ specSolved.flowInto 1 = 2
    ∧ specSolved.cut.getD 1 false = true
    ∧ (wideInflowGraph.initPushRelabel fifoRule 0 2).excess = [0, 4294967294, 0]
    ∧ ¬ fitsInt ((wideInflowGraph.initPushRelabel fifoRule 0 2).excess.getD 1 0)
    ∧ wideInflowGraph.minCutPushRelabel fifoRule 10 0 2 = Except.ok wideInflowSolved
    ∧ wideInflowSolved.excess = [0, 4294967294, 0] :=
  ⟨rfl, by decide, by decide, by decide, by decide, by decide, by decide, rfl, by decide⟩

/-- A list of non-negative integers that add up to zero holds only zeros. -/
theorem list_sum_eq_zero (l : List Int) (h : ∀ x ∈ l, 0 ≤ x) (hs : l.sum = 0) :
    ∀ x ∈ l, x = 0 := by
  induction l with
  | nil =>
    intro x hx
    exact absurd hx (List.not_mem_nil x)
  | cons a l ih =>
    have ha := h a (List.mem_cons_self a l)
    have hl : 0 ≤ l.sum := List.sum_nonneg (fun x hx => h x (List.mem_cons_of_mem a hx))
    rw [List.sum_cons] at hs
    intro x hx
    rcases List.mem_cons.mp hx with rfl | hx
    · omega
    · exact ih (fun y hy => h y (List.mem_cons_of_mem a hy)) (by omega) x hx

/-- On a graph built by `addEdge` calls in which no path of edges of positive
capacity leads from the source to the sink, the cut that `minCutPushRelabel`
returns holds exactly the vertices that the source reaches along edges of
positive capacity. -/
theorem minCutPushRelabel_noPath_cut (n source sink : Nat) (edges : List (Nat × Nat × Int))
    (hedges : ∀ e ∈ edges, e.1 < n ∧ e.2.1 < n ∧ 0 ≤ e.2.2)
    (hs : source < n) (ht : sink < n) (hne : source ≠ sink)
    (hno : ¬ EdgeReach edges source sink) (fuel : Nat) (t : FlowGraph (List Nat))
    (hrun : (buildGraph n source sink edges).minCutPushRelabel fifoRule fuel source sink
      = Except.ok t) :
    ∀ v, v < n → (t.cut.getD v false = true ↔ EdgeReach edges source v) := by
  obtain ⟨t0, rfl, hinv, hN, hcl, hq, hdeg, hshape, hreach, hunr⟩ :=
    minCutPushRelabel_final n source sink edges hedges hs ht hne fuel t hrun
  have hlen : t0.G.length = n := by rw [hinv.graph.len, hN]
  have hcut : ∀ v, v < n →
      (t0.cutFromHeights.cut.getD v false = true ↔ t0.N ≤ t0.height.getD v 0) := by
    intro v hv
    rw [cutFromHeights_getD t0 v (by rw [hcl]; exact hv)]
    simp
  have hx : t0.excess.getD sink 0 = 0 := hunr sink ht hno
  have hcross : crossingCapacity edges t0.cutFromHeights.cut = 0 := by
    rw [← cutEntries_eq_crossing n source sink edges hedges t0 hcl hlen hdeg hshape,
      ← excess_sink_eq_cut t0 source sink hinv
        (fun v hv hvs hvt hlt => le_of_eq (hq v (by rw [← hN]; exact hv) hvs hvt
          (by rw [← hN]; exact hlt)))]
    exact hx
  have hzero := list_sum_eq_zero _ (by
    intro x hx
    rw [List.mem_map] at hx
    obtain ⟨e, he, rfl⟩ := hx
    have := (hedges e he).2.2
    split_ifs
    · exact this
    · exact le_refl _) hcross
  have hclosed : ∀ e ∈ edges, 0 < e.2.2 → t0.N ≤ t0.height.getD e.1 0 →
      t0.N ≤ t0.height.getD e.2.1 0 := by
    intro e he hpos h1
    by_contra h2
    have hz := hzero _ (List.mem_map.mpr ⟨e, he, rfl⟩)
    have c1 : t0.cutFromHeights.cut.getD e.1 false = true := (hcut e.1 (hedges e he).1).mpr h1
    have c2 : t0.cutFromHeights.cut.getD e.2.1 false = false := by
      cases hc : t0.cutFromHeights.cut.getD e.2.1 false with
      | false => rfl
      | true => exact absurd ((hcut e.2.1 (hedges e he).2.1).mp hc) h2
    simp only at hz
    rw [if_pos ⟨c1, c2⟩] at hz
    omega
  intro v hv
  rw [hcut v hv]
  constructor
  · intro h
    exact hreach v (by omega)
  · intro h
    exact edgeReach_closed edges (fun w => t0.N ≤ t0.height.getD w 0) hclosed source v
      (le_of_eq hinv.heights.src.symm) h

/-- The scan of `grow` over the entries of `p`, on a graph in which the source
does not reach the sink: the vertices it colors join the queue as active
vertices, the vertices dealt with stay so, and every entry of `p` it has
passed leads, if the tree of `p` can grow along it, to a vertex in a tree. -/
theorem growScan_pending {σ : Type} (n p source sink : Nat) :
    ∀ (k i : Nat) (s t : FlowGraph σ), BKInv s.N s.G s.color source sink →
      ¬ PosReach s.G source sink → i + k ≤ deg s.G p →
      s.active.length = s.N → BKPending s →
      (∀ j, j < i → 0 < s.treeCap p j (s.color.getD p 0) →
        s.color.getD (getE s.G p j).to_ 0 ≠ 0) →
      growScan n p k i s = Except.ok (t, []) →
      t.active.length = t.N ∧ BKPending t
      ∧ (∀ j, j < i + k → 0 < t.treeCap p j (t.color.getD p 0) →
          t.color.getD (getE t.G p j).to_ 0 ≠ 0)
      ∧ (∃ l, t.bkq = s.bkq ++ l) := by
  intro k
  induction k with
  | zero =>
    intro i s t _ _ _ hA hP hb h
    have : t = s := by
      have h2 : (Except.ok (s, []) : Except Fault (FlowGraph σ × List (Option (Nat × Nat))))
          = Except.ok (t, []) := h
      injection h2 with h2
      injection h2 with h2
      exact h2.symm
    subst this
    exact ⟨hA, hP, hb, [], (List.append_nil _).symm⟩
  | succ k ih =>
    intro i s t hinv hno hik hA hP hb h
    have hi : i < deg s.G p := by omega
    obtain ⟨t1, g1, g2, g3, g4, -⟩ := growScan_noPath n p source sink 1 i s hinv hno (by omega)
    rw [growScan_succ] at h g1
    by_cases hpos : 0 < s.treeCap p i (s.color.getD p 0)
    · rw [if_pos hpos] at h g1
      have hstep := treeCap_step s source sink p i hinv hi hpos
      have hq : (getE s.G p i).to_ < s.color.length := by
        rw [hinv.lenC, ← hinv.graph.len]
        exact (hinv.graph.pairing p (lt_length_of_lt_deg hi) i hi).1
      have hqa : (getE s.G p i).to_ < s.active.length := by
        rw [hA, ← hinv.lenC]
        exact hq
      have hc12 : s.color.getD p 0 ≠ 0 := by
        rcases hstep with h | h
        · rw [h.1]; decide
        · rw [h.1]; decide
      by_cases c0 : s.color.getD (getE s.G p i).to_ 0 = 0
      · rw [if_pos c0] at h g1
        have ht1 : t1 = ({ s with
              color := s.color.set (getE s.G p i).to_ (s.color.getD p 0),
              active := s.active.set (getE s.G p i).to_ true,
              bkq := s.bkq ++ [(getE s.G p i).to_] } : FlowGraph σ) := by
          have h2 : (Except.ok (({ s with
              color := s.color.set (getE s.G p i).to_ (s.color.getD p 0),
              active := s.active.set (getE s.G p i).to_ true,
              bkq := s.bkq ++ [(getE s.G p i).to_] } : FlowGraph σ), []) :
              Except Fault (FlowGraph σ × List (Option (Nat × Nat)))) = Except.ok (t1, []) := g1
          injection h2 with h2
          injection h2 with h2
          exact h2.symm
        rw [ht1] at g2
        have hcol : ∀ v, (s.color.set (getE s.G p i).to_ (s.color.getD p 0)).getD v 0
            = if (getE s.G p i).to_ = v then s.color.getD p 0 else s.color.getD v 0 := by
          intro v
          rw [getD_set_eq_ite]
          by_cases c : (getE s.G p i).to_ = v
          · rw [if_pos ⟨c, hq⟩, if_pos c]
          · rw [if_neg (fun h => c h.1), if_neg c]
        have hkeep : ∀ v, s.color.getD v 0 ≠ 0 →
            (s.color.set (getE s.G p i).to_ (s.color.getD p 0)).getD v 0 = s.color.getD v 0 := by
          intro v hv
          rw [hcol, if_neg]
          intro c
          rw [c] at c0
          exact hv c0
        have hnz : ∀ v, s.color.getD v 0 ≠ 0 →
            (s.color.set (getE s.G p i).to_ (s.color.getD p 0)).getD v 0 ≠ 0 := by
          intro v hv
          rw [hkeep v hv]
          exact hv
        have hact : ∀ v, s.active.getD v false = true →
            (s.active.set (getE s.G p i).to_ true).getD v false = true := by
          intro v hv
          rw [getD_set_eq_ite]
          split_ifs
          · rfl
          · exact hv
        obtain ⟨r1, r2, r3, l, r4⟩ := ih (i + 1)
          ({ s with
              color := s.color.set (getE s.G p i).to_ (s.color.getD p 0),
              active := s.active.set (getE s.G p i).to_ true,
              bkq := s.bkq ++ [(getE s.G p i).to_] } : FlowGraph σ) t g2 hno
          (by show i + 1 + k ≤ deg s.G p; omega)
          (by
            show (s.active.set (getE s.G p i).to_ true).length = s.N
            rw [List.length_set]
            exact hA)
          (by
            intro v hv
            have hv : (s.color.set (getE s.G p i).to_ (s.color.getD p 0)).getD v 0 ≠ 0 := hv
            by_cases c : (getE s.G p i).to_ = v
            · left
              constructor
              · show (s.active.set (getE s.G p i).to_ true).getD v false = true
                rw [getD_set_eq_ite, if_pos ⟨c, hqa⟩]
              · show v ∈ s.bkq ++ [(getE s.G p i).to_]
                rw [c]
                exact List.mem_append_right _ (List.mem_singleton.mpr rfl)
            · rw [hcol, if_neg c] at hv
              rcases hP v hv with h | h
              · left
                exact ⟨hact v h.1, List.mem_append_left _ h.2⟩
              · right
                intro j hj hcap
                have hcap : 0 < s.treeCap v j
                    ((s.color.set (getE s.G p i).to_ (s.color.getD p 0)).getD v 0) := hcap
                rw [hkeep v hv] at hcap
                exact hnz _ (h j hj hcap))
          (by
            intro j hj hcap
            have hcap : 0 < s.treeCap p j
                ((s.color.set (getE s.G p i).to_ (s.color.getD p 0)).getD p 0) := hcap
            rw [hkeep p hc12] at hcap
            show (s.color.set (getE s.G p i).to_ (s.color.getD p 0)).getD
              (getE s.G p j).to_ 0 ≠ 0
            by_cases c : j = i
            · rw [c, hcol, if_pos rfl]
              exact hc12
            · exact hnz _ (hb j (by omega) hcap))
          h
        refine ⟨r1, r2, ?_, [(getE s.G p i).to_] ++ l, ?_⟩
        · intro j hj
          exact r3 j (by omega)
        · rw [r4]
          show (s.bkq ++ [(getE s.G p i).to_]) ++ l = s.bkq ++ ([(getE s.G p i).to_] ++ l)
          rw [List.append_assoc]
      · rw [if_neg c0] at h g1
        by_cases cne : s.color.getD (getE s.G p i).to_ 0 ≠ s.color.getD p 0
        · exfalso
          have hle := hinv.col_le (getE s.G p i).to_
          rcases hstep with h | h
          · have : s.color.getD (getE s.G p i).to_ 0 = 2 := by omega
            exact hno (h.2.trans (hinv.col2 _ this))
          · have : s.color.getD (getE s.G p i).to_ 0 = 1 := by omega
            exact hno ((hinv.col1 _ this).trans h.2)
        · rw [if_neg cne] at h
          obtain ⟨r1, r2, r3, r4⟩ := ih (i + 1) s t hinv hno (by omega) hA hP (by
            intro j hj hcap
            by_cases c : j = i
            · rw [c]
              exact c0
            · exact hb j (by omega) hcap) h
          exact ⟨r1, r2, fun j hj => r3 j (by omega), r4⟩
    · rw [if_neg hpos] at h
      obtain ⟨r1, r2, r3, r4⟩ := ih (i + 1) s t hinv hno (by omega) hA hP (by
        intro j hj hcap
        by_cases c : j = i
        · rw [c] at hcap
          exact absurd hcap hpos
        · exact hb j (by omega) hcap) h
      exact ⟨r1, r2, fun j hj => r3 j (by omega), r4⟩

/-- The loop of `grow` before any augmentation, on a graph in which the source
does not reach the sink: when it ends with an empty path the queue is empty
and every vertex in a tree has been dealt with. -/
theorem growLoop_pending {σ : Type} (n source sink : Nat) :
    ∀ (fuel : Nat) (s t : FlowGraph σ), BKInv s.N s.G s.color source sink →
      ¬ PosReach s.G source sink → s.active.length = s.N → BKPending s →
      growLoop n fuel s = Except.ok (t, []) →
      BKPending t ∧ t.bkq = [] := by
  intro fuel
  induction fuel with
  | zero =>
    intro s t _ _ _ _ h
    exact absurd h (by simp [growLoop])
  | succ fuel ih =>
    intro s t hinv hno hA hP h
    cases hq : s.bkq with
    | nil =>
      simp only [growLoop, hq] at h
      have : t = s := by
        injection h with h
        injection h with h
        exact h.symm
      subst this
      exact ⟨hP, hq⟩
    | cons p rest =>
      by_cases ha : s.active.getD p false = false
      · simp only [growLoop, hq, ha, if_true] at h
        refine ih ({ s with bkq := rest } : FlowGraph σ) t hinv hno hA ?_ h
        intro v hv
        rcases hP v hv with h1 | h1
        · left
          refine ⟨h1.1, ?_⟩
          have h2 := h1.2
          rw [hq] at h2
          rcases List.mem_cons.mp h2 with rfl | h2
          · rw [ha] at h1
            exact absurd h1.1 (by decide)
          · exact h2
        · right
          exact h1
      · obtain ⟨t1, g1, g2, g3, g4, -⟩ :=
          growScan_noPath n p source sink (deg s.G p) 0 s hinv hno (by omega)
        obtain ⟨r1, r2, r3, l, r4⟩ := growScan_pending n p source sink (deg s.G p) 0 s t1 hinv
          hno (by omega) hA hP (fun j hj => absurd hj (Nat.not_lt_zero j)) g1
        simp only [growLoop, hq, ha, if_false, g1] at h
        refine ih ({ t1 with bkq := t1.bkq.tail, active := t1.active.set p false } : FlowGraph σ)
          t g2 (by show ¬ PosReach t1.G source sink; rw [g3]; exact hno)
          (by
            show (t1.active.set p false).length = t1.N
            rw [List.length_set]
            exact r1) ?_ h
        intro v hv
        have hv : t1.color.getD v 0 ≠ 0 := hv
        by_cases c : v = p
        · right
          rw [c]
          intro j hj hcap
          have hj : j < deg t1.G p := hj
          rw [g3] at hj
          exact r3 j (by omega) hcap
        · rcases r2 v hv with h1 | h1
          · left
            constructor
            · show (t1.active.set p false).getD v false = true
              rw [getD_set_eq_ite, if_neg (fun h => c h.1.symm)]
              exact h1.1
            · show v ∈ t1.bkq.tail
              have h2 := h1.2
              rw [r4, hq] at h2 ⊢
              rcases List.mem_cons.mp h2 with h3 | h3
              · exact absurd h3 c
              · exact h3
          · right
            exact h1

/-- The flags of the search-tree solver in a graph built by `addEdge` calls: no
vertex is active. -/
theorem buildGraph_active (n source sink : Nat) (edges : List (Nat × Nat × Int)) :
    (buildGraph n source sink edges).active = List.replicate n false := by
  induction edges using List.reverseRecOn with
  | nil => rfl
  | append_singleton edges e ih =>
    rw [buildGraph_append]
    exact ih

/-- On a graph built by `addEdge` calls in which no path of edges of positive
capacity leads from the source to the sink, `minCutBK` started from the fresh
state returns once the fuel exceeds `2 * n + 2`; it has pushed no flow, and
the colors it ends with put the source in the source tree, the sink in the
sink tree, and in the source tree exactly the vertices that the source
reaches. -/
theorem minCutBK_noPath_cut (n source sink : Nat) (edges : List (Nat × Nat × Int))
    (hedges : ∀ e ∈ edges, e.1 < n ∧ e.2.1 < n ∧ 0 ≤ e.2.2)
    (hs : source < n) (ht : sink < n) (hne : source ≠ sink)
    (hno : ¬ EdgeReach edges source sink) (fuel : Nat) (hfuel : 2 * n + 2 < fuel) :
    ∃ t0 : FlowGraph (List Nat),
      (buildGraph n source sink edges).minCutBK fuel source sink = Except.ok t0.cutFromColors
      ∧ t0.G = (buildGraph n source sink edges).G
      ∧ t0.cut.length = n
      ∧ t0.color.getD source 0 = 1
      ∧ t0.color.getD sink 0 = 2
      ∧ (∀ v, t0.color.getD v 0 = 1 ↔ EdgeReach edges source v) := by
  have hF := freshState_buildGraph n source sink edges hedges
  have hreach := posReach_buildGraph n source sink edges hedges
  obtain ⟨hN, hcut⟩ := buildGraph_N n source sink edges
  obtain ⟨hcol, hbkq⟩ := buildGraph_bk n source sink edges
  have hactive := buildGraph_active n source sink edges
  have hinv0 := initBK_inv (buildGraph n source sink edges) source sink hF.graph hF.flow0
    (by rw [hcol, hN]) (by rw [hN]; exact hs) (by rw [hN]; exact ht) hne
  have hno0 : ¬ PosReach ((buildGraph n source sink edges).initBK source sink).G source sink :=
    fun h => hno ((hreach source sink).mp h)
  have hcnt : ((buildGraph n source sink edges).initBK source sink).color.count 0 ≤ n := by
    have h1 := List.count_le_length 0
      ((buildGraph n source sink edges).initBK source sink).color
    rw [hinv0.lenC] at h1
    exact h1.trans (le_of_eq hN)
  have hq : ((buildGraph n source sink edges).initBK source sink).bkq = [source, sink] := by
    show ((buildGraph n source sink edges).bkq ++ [source]) ++ [sink] = _
    rw [hbkq]
    rfl
  have hA0 : ((buildGraph n source sink edges).initBK source sink).active.length
      = ((buildGraph n source sink edges).initBK source sink).N := by
    show (((buildGraph n source sink edges).active.set source true).set sink true).length
      = (buildGraph n source sink edges).N
    rw [List.length_set, List.length_set, hactive, List.length_replicate, hN]
  have hP0 : BKPending ((buildGraph n source sink edges).initBK source sink) := by
    intro v hv
    left
    have hget : ((buildGraph n source sink edges).initBK source sink).color.getD v 0
        = if v = sink then 2 else if v = source then 1 else 0 := by
      show (((buildGraph n source sink edges).color.set source 1).set sink 2).getD v 0 = _
      rw [getD_set_eq_ite, getD_set_eq_ite, hcol, getD_replicate_zero_nat]
      simp only [List.length_set, List.length_replicate]
      by_cases c1 : v = sink
      · subst c1
        rw [if_pos ⟨rfl, ht⟩, if_pos rfl]
      · rw [if_neg (fun h => c1 h.1.symm), if_neg c1]
        by_cases c2 : v = source
        · subst c2
          rw [if_pos ⟨rfl, hs⟩, if_pos rfl]
        · rw [if_neg (fun h => c2 h.1.symm), if_neg c2]
    rw [hget] at hv
    have hv2 : v = sink ∨ v = source := by
      by_cases c1 : v = sink
      · exact Or.inl c1
      · rw [if_neg c1] at hv
        by_cases c2 : v = source
        · exact Or.inr c2
        · rw [if_neg c2] at hv
          exact absurd rfl hv
    constructor
    · show (((buildGraph n source sink edges).active.set source true).set sink true).getD v
        false = true
      rw [getD_set_eq_ite, getD_set_eq_ite, hactive]
      simp only [List.length_set, List.length_replicate]
      rcases hv2 with rfl | rfl
      · rw [if_pos ⟨rfl, ht⟩]
      · by_cases c : sink = v
        · rw [if_pos ⟨c, ht⟩]
        · rw [if_neg (fun h => c h.1), if_pos ⟨rfl, hs⟩]
    · rw [hq]
      rcases hv2 with rfl | rfl
      · exact List.mem_cons_of_mem _ (List.mem_singleton.mpr rfl)
      · exact List.mem_cons_self _ _
  obtain ⟨t, h1, h2, h3, h4, h5⟩ := growLoop_noPath fuel source sink fuel _ hinv0 hno0 (by
    rw [hq]
    simp only [List.length_cons, List.length_nil]
    omega)
  obtain ⟨k1, k2⟩ := growLoop_pending fuel source sink fuel _ t hinv0 hno0 hA0 hP0 h1
  have hnoT : ¬ PosReach t.G source sink := by
    rw [h3]
    exact hno0
  have hclosed : ∀ u w, PosStep t.G u w → t.color.getD u 0 = 1 → t.color.getD w 0 = 1 := by
    rintro u w ⟨i, hi, hw, hpos⟩ hu
    have hdone : BKDone t u := by
      rcases k1 u (by rw [hu]; decide) with h | h
      · rw [k2] at h
        exact absurd h.2 (List.not_mem_nil u)
      · exact h
    have hc := hdone i hi (by
      rw [hu]
      unfold FlowGraph.treeCap
      rw [if_pos rfl, h2.flow0]
      omega)
    rw [hw] at hc
    have hle := h2.col_le w
    by_contra hne1
    have h2w : t.color.getD w 0 = 2 := by omega
    exact hnoT (((h2.col1 u hu).tail ⟨i, hi, hw, hpos⟩).trans (h2.col2 w h2w))
  have hall : ∀ v, PosReach t.G source v → t.color.getD v 0 = 1 := by
    intro v hv
    induction hv with
    | refl => exact h2.src
    | tail _ hstep ih => exact hclosed _ _ hstep ih
  refine ⟨t, ?_, h3, by rw [h5]; exact hcut, h2.src, h2.snk, ?_⟩
  · obtain ⟨f, rfl⟩ : ∃ f, fuel = f + 1 := ⟨fuel - 1, by omega⟩
    have hg : ((buildGraph n source sink edges).initBK source sink).grow (f + 1)
        = Except.ok (t, []) := h1
    simp only [FlowGraph.minCutBK, bkLoop, hg]
  · intro v
    constructor
    · intro hv
      have := h2.col1 v hv
      rw [h3] at this
      exact (hreach source v).mp this
    · intro hv
      apply hall v
      rw [h3]
      exact (hreach source v).mpr hv

/-- C4 (as amended): on every graph built by `addEdge` calls with non-negative
capacities that add up to at most 2147483647 and `source != sink`, in which no
directed path of edges of positive capacity leads from the source to the sink,
solved from the fresh state: `minCutPushRelabel(source, sink)`
(first-in-first-out rule) returns, every state of its run and the state it
returns hold only values that fit `int`, and whenever it returns `cut[source]`
is true, `cut[sink]` is false, `cut[v]` is true exactly for the vertices `v`
that the source reaches along edges of positive capacity, no flow enters the
sink, and `outFlow(source)` is the excess left on the vertices other than
source and sink; `minCutBK(source, sink)` returns (once the fuel exceeds
`2 * n + 2`) without having pushed any flow, with `cut[source]` true,
`cut[sink]` false, `cut[v]` true exactly for the vertices that the source
reaches, no flow entering the sink and `outFlow(source) == 0`. -/
theorem minCut_noPath (n source sink : Nat) (edges : List (Nat × Nat × Int))
    (hedges : ∀ e ∈ edges, e.1 < n ∧ e.2.1 < n ∧ 0 ≤ e.2.2)
    (hs : source < n) (ht : sink < n) (hne : source ≠ sink)
    (hsum : capacityTotal edges ≤ 2147483647)
    (hno : ¬ EdgeReach edges source sink) :
    ((∃ fuel t, (buildGraph n source sink edges).minCutPushRelabel fifoRule fuel source sink
        = Except.ok t)
      ∧ (∀ fuel, (buildGraph n source sink edges).runValuesFit source sink fuel)
      ∧ ∀ fuel t, (buildGraph n source sink edges).minCutPushRelabel fifoRule fuel source sink
          = Except.ok t →
        ValuesFit t.G t.excess
        ∧ t.cut.getD source false = true
        ∧ t.cut.getD sink false = false
        ∧ (∀ v, v < n → (t.cut.getD v false = true ↔ EdgeReach edges source v))
        ∧ t.flowInto sink = 0
        ∧ t.outFlow source = t.strandedExcess source sink)
    ∧ ∀ fuel, 2 * n + 2 < fuel →
        ∃ t, (buildGraph n source sink edges).minCutBK fuel source sink = Except.ok t
          ∧ t.G = (buildGraph n source sink edges).G
          ∧ (∀ u i, i < deg t.G u → fitsInt (getE t.G u i).cap ∧ (getE t.G u i).flow = 0)
          ∧ t.cut.getD source false = true
          ∧ t.cut.getD sink false = false
          ∧ (∀ v, v < n → (t.cut.getD v false = true ↔ EdgeReach edges source v))
          ∧ t.flowInto sink = 0
          ∧ t.outFlow source = 0 := by
  refine ⟨⟨minCutPushRelabel_returns n source sink edges hedges hs ht hne,
    buildGraph_runValuesFit n source sink edges hedges hs ht hne hsum, ?_⟩, ?_⟩
  · intro fuel t hrun
    have hfits := minCutPushRelabel_result_fits n source sink edges hedges hs ht hne hsum fuel t
      hrun
    have hcutiff := minCutPushRelabel_noPath_cut n source sink edges hedges hs ht hne hno fuel t
      hrun
    obtain ⟨t0, rfl, hinv, hN, hcl, hq, hdeg, hshape, hreach, hunr⟩ :=
      minCutPushRelabel_final n source sink edges hedges hs ht hne fuel t hrun
    have hlen : t0.G.length = n := by rw [hinv.graph.len, hN]
    have hfi : t0.cutFromHeights.flowInto sink = t0.excess.getD sink 0 := by
      have h1 := flowInto_eq_neg_outSum t0 hinv.graph.pairing hinv.antisym sink
        (by rw [hlen]; exact ht)
      have h2 := hinv.conserved sink (by rw [hlen]; exact ht) (fun e => hne e.symm)
      show t0.flowInto sink = _
      omega
    have hx : t0.excess.getD sink 0 = 0 := hunr sink ht hno
    refine ⟨hfits, ?_, ?_, hcutiff, ?_, ?_⟩
    · rw [cutFromHeights_getD t0 source (by rw [hcl]; exact hs), hinv.heights.src]
      simp
    · rw [cutFromHeights_getD t0 sink (by rw [hcl]; exact ht), hinv.heights.snk]
      have : ¬ t0.N ≤ 0 := by omega
      simp [this]
    · rw [hfi, hx]
    · have := outFlow_source_eq t0 source sink hinv
      rw [hx, zero_add] at this
      exact this
  · intro fuel hfuel
    obtain ⟨t0, hrun, hG, hcl, hsrc, hsnk, hcol⟩ :=
      minCutBK_noPath_cut n source sink edges hedges hs ht hne hno fuel hfuel
    have hF := freshState_buildGraph n source sink edges hedges
    have hflow : ∀ u i, (getE t0.G u i).flow = 0 := by
      rw [hG]
      exact hF.flow0
    refine ⟨t0.cutFromColors, hrun, hG, ?_, ?_, ?_, ?_, ?_, ?_⟩
    · intro u i hi
      refine ⟨?_, hflow u i⟩
      have hi : i < deg t0.G u := hi
      show fitsInt (getE t0.G u i).cap
      rw [hG] at hi ⊢
      have h1 := cap_le_total _ hF.cap0 u i hi
      rw [entryCapTotal_buildGraph n source sink edges hedges] at h1
      have h0 := hF.cap0 u i
      unfold fitsInt
      constructor <;> omega
    · rw [cutFromColors_getD t0 source (by rw [hcl]; exact hs), hsrc]
      rfl
    · rw [cutFromColors_getD t0 sink (by rw [hcl]; exact ht), hsnk]
      rfl
    · intro v hv
      rw [cutFromColors_getD t0 v (by rw [hcl]; exact hv), ← hcol v]
      simp
    · show t0.flowInto sink = 0
      unfold FlowGraph.flowInto
      simp only [hflow, ite_self, Finset.sum_const_zero]
    · rw [outFlow_eq_outSum]
      show outSum t0.G source = 0
      unfold outSum
      simp only [hflow, Finset.sum_const_zero]

/-- Witness for C4: the graph with the single edge 0->1 of capacity 1, source 0
and sink 3. -/
theorem minCut_noPath_witness :
    ¬ EdgeReach [(0, 1, 1)] 0 3
    ∧ capacityTotal [(0, 1, 1)] ≤ 2147483647
    ∧ strandedGraph.minCutPushRelabel fifoRule 10 0 3 = Except.ok strandedPushRelabel
    ∧ strandedPushRelabel.cut = [true, true, false, false]
    ∧ strandedGraph.minCutBK 20 0 3 = Except.ok strandedBK
    ∧ strandedBK.cut = [true, true, false, false]
    ∧ ((∃ fuel t, strandedGraph.minCutPushRelabel fifoRule fuel 0 3 = Except.ok t)
      ∧ (∀ fuel, strandedGraph.runValuesFit 0 3 fuel)
      ∧ ∀ fuel t, strandedGraph.minCutPushRelabel fifoRule fuel 0 3 = Except.ok t →
        ValuesFit t.G t.excess
        ∧ t.cut.getD 0 false = true
        ∧ t.cut.getD 3 false = false
        ∧ (∀ v, v < 4 → (t.cut.getD v false = true ↔ EdgeReach [(0, 1, 1)] 0 v))
        ∧ t.flowInto 3 = 0
        ∧ t.outFlow 0 = t.strandedExcess 0 3)
    ∧ ∀ fuel, 2 * 4 + 2 < fuel →
        ∃ t, strandedGraph.minCutBK fuel 0 3 = Except.ok t
          ∧ t.G = strandedGraph.G
          ∧ (∀ u i, i < deg t.G u → fitsInt (getE t.G u i).cap ∧ (getE t.G u i).flow = 0)
          ∧ t.cut.getD 0 false = true
          ∧ t.cut.getD 3 false = false
          ∧ (∀ v, v < 4 → (t.cut.getD v false = true ↔ EdgeReach [(0, 1, 1)] 0 v))
          ∧ t.flowInto 3 = 0
          ∧ t.outFlow 0 = 0 :=
  have hno : ¬ EdgeReach [(0, 1, 1)] 0 3 := fun h =>
    absurd (edgeReach_closed [(0, 1, 1)] (fun v => v ≤ 1) (by decide) 0 3 (by decide) h)
      (by decide)
  ⟨hno, by decide, rfl, by decide, rfl, by decide,
    minCut_noPath 4 0 3 [(0, 1, 1)] (by decide) (by decide) (by decide) (by decide)
      (by decide) hno⟩

/-- Counterexample for C4: in the graph with the single edge 0->1 of capacity
1, the source 0 does not reach the sink 3. Both solvers return with `cut`
true on vertices 0 and 1 only, so `cut[2]` is false for vertex 2, which is not
the sink; and `minCutPushRelabel(0, 3)` leaves `outFlow(0) == 1`, the unit of
flow stranded on vertex 1. And in the graph with the edges 0->1 and 0->2 of
capacity 2147483647 each, in which the source does not reach the sink 3
either, the flow leaving the source after `minCutPushRelabel(0, 3)` is
4294967294, which the `int` that `outFlow` sums in cannot hold. -/
theorem minCut_noPath_leaves_vertex_and_flow :
    ¬ EdgeReach [(0, 1, 1)] 0 3
    ∧ strandedGraph.minCutPushRelabel fifoRule 10 0 3 = Except.ok strandedPushRelabel
    ∧ strandedPushRelabel.cut = [true, true, false, false]
    ∧ strandedPushRelabel.cut.getD 2 false = false
    ∧ strandedPushRelabel.outFlow 0 = 1
    ∧ strandedGraph.minCutBK 20 0 3 = Except.ok strandedBK
    ∧ strandedBK.cut = [true, true, false, false]
    ∧ strandedBK.cut.getD 2 false = false
    ∧ strandedBK.outFlow 0 = 0
    ∧ ¬ EdgeReach [(0, 1, 2147483647), (0, 2, 2147483647)] 0 3
    ∧ wideStrandedGraph.minCutPushRelabel fifoRule 10 0 3 = Except.ok wideStrandedSolved
    ∧ wideStrandedSolved.excess = [0, 2147483647, 2147483647, 0]
    ∧ wideStrandedSolved.outFlow 0 = 4294967294
    ∧ ¬ fitsInt (wideStrandedSolved.outFlow 0) :=
  ⟨fun h =>
      absurd (edgeReach_closed [(0, 1, 1)] (fun v => v ≤ 1) (by decide) 0 3 (by decide) h)
        (by decide),
    rfl, by decide, by decide, by decide, rfl, by decide, by decide, by decide,
    fun h =>
      absurd (edgeReach_closed [(0, 1, 2147483647), (0, 2, 2147483647)] (fun v => v ≤ 2)
        (by decide) 0 3 (by decide) h) (by decide),
    rfl, by decide, by decide, by decide⟩
